import Mathlib

/-!
# NJson::TJsonNode — a shallow embedding of `src/common/json.{h,cpp}` and `json_impl.h`

Conventions of the embedding.

* `std::string` is a list of characters (`string`); a character stands for one byte, its
  code being the byte value.  A `const char*` argument is the list of characters in front
  of the terminating NUL; reading at the end of the list yields NUL (`peek`).
* `double` is `Double`: a finite value (a rational number), an infinity or a NaN.  The sign
  of zero is not represented.
* `std::unordered_map<std::string, TJsonNode>` is an association list with distinct keys;
  the order of the list is the iteration order, which C++ leaves unspecified.  New entries
  are appended.
* A member function that may throw returns `Except TException _`; a non-const member
  function additionally returns the state of `*this` after the call.
* Platform: x86-64 System V with glibc (plain `char` is signed, an out-of-range
  `double -> long long` conversion yields `LLONG_MIN`, `printf`/`strtod` round correctly).
* `ToStringImpl` / `ToString` take the arithmetic on the indentation depth as that of the
  integers.  `ToStringImpl_checked` / `ToString_checked` are the same functions with the
  arithmetic of `int` (32 bits): an operation that overflows (undefined behaviour) yields
  no result.  The two agree wherever no `int` operation overflows
  (`ToString_checked_eq_ToString`).
* Memory is unbounded: `std::bad_alloc` is outside the embedding.
* A `TJsonNode` reference parameter of `push_back` / `emplace_back` is a `TArgument`: the
  value of another object, or the node the function is called on.
* Move construction and move assignment act on a `Memory`: the top-level objects of a
  program state, the nodes inside them being objects at places of their own (`TPlace`).
-/

namespace NJson

/-- Models `std::string`. -/
abbrev string := List Char

/-- The exceptions the code raises, one constructor per `THROW` message of `json.cpp` /
`json_impl.h`, plus the standard-library exceptions that can escape and the fuel marker of
the embedding. -/
inductive TException where
  /-- Message "TJsonNode is not a container (Array or Object)" -/
  | notContainer
  /-- Message "TJsonNode is not an object" -/
  | notObject
  /-- Message "Key not found in object: {}" -/
  | keyNotFound (key : string)
  /-- Message "TJsonNode is not an array" -/
  | notArray
  /-- Message "Array index out of bounds: {} >= {}" -/
  | indexOutOfBounds (idx size : Nat)
  /-- Message "TJsonNode is not a boolean" -/
  | notBoolean
  /-- Message "TJsonNode is not a number" -/
  | notNumber
  /-- Message "TJsonNode is not a string" -/
  | notString
  /-- Message "Empty JSON string" -/
  | emptyJson
  /-- Message "Unexpected characters after JSON value" -/
  | trailingCharacters
  /-- Message "Unexpected character in JSON: '{}'" -/
  | unexpectedCharacter (c : Char)
  /-- Message "Expected '{}' in JSON" -/
  | expectedLiteral (literal : string)
  /-- Message "Expected '\"' at start of string" -/
  | expectedStringStart
  /-- Message "Invalid unicode escape sequence" -/
  | invalidUnicodeEscape
  /-- Message "Invalid escape sequence: \\{}" -/
  | invalidEscape (c : Char)
  /-- Message "Unterminated string" -/
  | unterminatedString
  /-- Message "Invalid number format" -/
  | invalidNumberFormat
  /-- Message "Expected digit after decimal point" -/
  | expectedDigitAfterPoint
  /-- Message "Expected digit in exponent" -/
  | expectedDigitInExponent
  /-- Message "Expected '[' at start of array" -/
  | expectedArrayStart
  /-- Message "Expected ',' or ']' in array" -/
  | expectedCommaOrBracket
  /-- Message "Expected '{' at start of object" -/
  | expectedObjectStart
  /-- Message "Expected '\"' for object key" -/
  | expectedKeyQuote
  /-- Message "Expected ':' after object key" -/
  | expectedColon
  /-- Message "Expected ',' or '}' in object" -/
  | expectedCommaOrBrace
  /-- Models `std::out_of_range`, thrown by `std::stod` -/
  | stdOutOfRange
  /-- Models `std::invalid_argument`, thrown by `std::stod` -/
  | stdInvalidArgument
  /-- Models `std::length_error`, thrown by `std::string(count, ch)` for a negative count -/
  | stdLengthError
  /-- Not a C++ exception: the recursion budget of the embedding ran out. -/
  | outOfFuel
  deriving DecidableEq, Repr

/-- The error kinds of the specification (section 7). -/
inductive EErrorKind where
  | WrongKind
  | KeyNotFound
  | IndexOutOfRange
  | ParseError
  deriving DecidableEq, Repr

/-- Modelled from the spec: `common/exception.h` (the `THROW` macro and its exception
type) is not among the sources, so the kind of each `THROW` site is taken from section 7:
WrongKind for the "is not a ..." messages, KeyNotFound, IndexOutOfRange, and ParseError for
every message raised while parsing.  Standard-library exceptions and the fuel marker have
no kind. -/
def TException.kind : TException → Option EErrorKind
  | .notContainer => some .WrongKind
  | .notObject => some .WrongKind
  | .notArray => some .WrongKind
  | .notBoolean => some .WrongKind
  | .notNumber => some .WrongKind
  | .notString => some .WrongKind
  | .keyNotFound _ => some .KeyNotFound
  | .indexOutOfBounds _ _ => some .IndexOutOfRange
  | .emptyJson => some .ParseError
  | .trailingCharacters => some .ParseError
  | .unexpectedCharacter _ => some .ParseError
  | .expectedLiteral _ => some .ParseError
  | .expectedStringStart => some .ParseError
  | .invalidUnicodeEscape => some .ParseError
  | .invalidEscape _ => some .ParseError
  | .unterminatedString => some .ParseError
  | .invalidNumberFormat => some .ParseError
  | .expectedDigitAfterPoint => some .ParseError
  | .expectedDigitInExponent => some .ParseError
  | .expectedArrayStart => some .ParseError
  | .expectedCommaOrBracket => some .ParseError
  | .expectedObjectStart => some .ParseError
  | .expectedKeyQuote => some .ParseError
  | .expectedColon => some .ParseError
  | .expectedCommaOrBrace => some .ParseError
  | .stdOutOfRange => none
  | .stdInvalidArgument => none
  | .stdLengthError => none
  | .outOfFuel => none

/-- Models `double`: finite values are rationals (a well-formed one satisfies `IsDouble`). -/
inductive Double where
  | finite (q : ℚ)
  | inf (negative : Bool)
  | nan (negative : Bool)
  deriving DecidableEq

instance {ε α : Type} [DecidableEq ε] [DecidableEq α] : DecidableEq (Except ε α)
  | .ok a, .ok b =>
    if h : a = b then isTrue (by rw [h]) else isFalse (by intro e; cases e; exact h rfl)
  | .error a, .error b =>
    if h : a = b then isTrue (by rw [h]) else isFalse (by intro e; cases e; exact h rfl)
  | .ok _, .error _ => isFalse (by intro e; cases e)
  | .error _, .ok _ => isFalse (by intro e; cases e)

/-- Models `enum EType`. -/
inductive EType where
  | Null
  | Boolean
  | Number
  | String
  | Array
  | Object
  deriving DecidableEq, Repr

/-- Models `class TJsonNode`: the tag `Type_` together with the active member of `Value_`. -/
inductive TJsonNode where
  | Null
  | Boolean (value : Bool)
  | Number (value : Double)
  | String (value : string)
  | Array (value : List TJsonNode)
  | Object (value : List (string × TJsonNode))

/-- Models `TJsonNode::TArray`. -/
abbrev TArray := List TJsonNode

/-- Models `TJsonNode::TObject`. -/
abbrev TObject := List (string × TJsonNode)

mutual
/-- Decidable equality of nodes (structural). -/
def TJsonNode.decEq : (a b : TJsonNode) → Decidable (a = b)
  | .Null, .Null => isTrue rfl
  | .Boolean x, .Boolean y =>
    if h : x = y then isTrue (by rw [h]) else isFalse (by intro e; cases e; exact h rfl)
  | .Number x, .Number y =>
    if h : x = y then isTrue (by rw [h]) else isFalse (by intro e; cases e; exact h rfl)
  | .String x, .String y =>
    if h : x = y then isTrue (by rw [h]) else isFalse (by intro e; cases e; exact h rfl)
  | .Array x, .Array y =>
    match TJsonNode.decEqArray x y with
    | isTrue h => isTrue (by rw [h])
    | isFalse h => isFalse (by intro e; cases e; exact h rfl)
  | .Object x, .Object y =>
    match TJsonNode.decEqObject x y with
    | isTrue h => isTrue (by rw [h])
    | isFalse h => isFalse (by intro e; cases e; exact h rfl)
  | .Null, .Boolean _ | .Null, .Number _ | .Null, .String _ | .Null, .Array _
  | .Null, .Object _ => isFalse (by intro e; cases e)
  | .Boolean _, .Null | .Boolean _, .Number _ | .Boolean _, .String _ | .Boolean _, .Array _
  | .Boolean _, .Object _ => isFalse (by intro e; cases e)
  | .Number _, .Null | .Number _, .Boolean _ | .Number _, .String _ | .Number _, .Array _
  | .Number _, .Object _ => isFalse (by intro e; cases e)
  | .String _, .Null | .String _, .Boolean _ | .String _, .Number _ | .String _, .Array _
  | .String _, .Object _ => isFalse (by intro e; cases e)
  | .Array _, .Null | .Array _, .Boolean _ | .Array _, .Number _ | .Array _, .String _
  | .Array _, .Object _ => isFalse (by intro e; cases e)
  | .Object _, .Null | .Object _, .Boolean _ | .Object _, .Number _ | .Object _, .String _
  | .Object _, .Array _ => isFalse (by intro e; cases e)
/-- Decidable equality of element lists. -/
def TJsonNode.decEqArray : (a b : List TJsonNode) → Decidable (a = b)
  | [], [] => isTrue rfl
  | [], _ :: _ => isFalse (by intro e; cases e)
  | _ :: _, [] => isFalse (by intro e; cases e)
  | x :: xs, y :: ys =>
    match TJsonNode.decEq x y, TJsonNode.decEqArray xs ys with
    | isTrue h1, isTrue h2 => isTrue (by rw [h1, h2])
    | isFalse h, _ => isFalse (by intro e; cases e; exact h rfl)
    | _, isFalse h => isFalse (by intro e; cases e; exact h rfl)
/-- Decidable equality of member lists. -/
def TJsonNode.decEqObject : (a b : List (string × TJsonNode)) → Decidable (a = b)
  | [], [] => isTrue rfl
  | [], _ :: _ => isFalse (by intro e; cases e)
  | _ :: _, [] => isFalse (by intro e; cases e)
  | (k, x) :: xs, (l, y) :: ys =>
    if hk : k = l then
      match TJsonNode.decEq x y, TJsonNode.decEqObject xs ys with
      | isTrue h1, isTrue h2 => isTrue (by rw [hk, h1, h2])
      | isFalse h, _ => isFalse (by intro e; cases e; exact h rfl)
      | _, isFalse h => isFalse (by intro e; cases e; exact h rfl)
    else isFalse (by intro e; cases e; exact hk rfl)
end

instance : DecidableEq TJsonNode := TJsonNode.decEq

instance : Inhabited TJsonNode := ⟨TJsonNode.Null⟩

/-! ## `std::unordered_map<std::string, TJsonNode>` -/

/-- Models `std::unordered_map::find`: the value stored under `key`, if any. -/
def umap_find {V : Type} : List (string × V) → string → Option V
  | [], _ => none
  | (k, v) :: rest, key => if k = key then some v else umap_find rest key

/-- Models `std::unordered_map::emplace` / `insert`: add `(key, value)` unless the key is already
present; the flag tells whether the insertion took place. -/
def umap_emplace {V : Type} (m : List (string × V)) (key : string) (value : V) :
    List (string × V) × Bool :=
  match umap_find m key with
  | some _ => (m, false)
  | none => (m ++ [(key, value)], true)

/-- Models `std::unordered_map::erase(key)`: remove the entry, return the number removed. -/
def umap_erase {V : Type} (m : List (string × V)) (key : string) : List (string × V) × Nat :=
  match umap_find m key with
  | some _ => (m.filter (fun kv => decide (kv.1 ≠ key)), 1)
  | none => (m, 0)

/-- Assignment through a reference to the slot of `key` (`it->second = value`). -/
def umap_store {V : Type} : List (string × V) → string → V → List (string × V)
  | [], _, _ => []
  | (k, v) :: rest, key, value =>
    if k = key then (k, value) :: rest else (k, v) :: umap_store rest key value

namespace TJsonNode

/-! ## Type queries -/

/-- Models `TJsonNode::GetType`. -/
def GetType : TJsonNode → EType
  | Null => EType.Null
  | Boolean _ => EType.Boolean
  | Number _ => EType.Number
  | String _ => EType.String
  | Array _ => EType.Array
  | Object _ => EType.Object

/-- Models `TJsonNode::IsNull`. -/
def IsNull (self : TJsonNode) : Bool := decide (self.GetType = EType.Null)

/-- Models `TJsonNode::IsBoolean`. -/
def IsBoolean (self : TJsonNode) : Bool := decide (self.GetType = EType.Boolean)

/-- Models `TJsonNode::IsNumber`. -/
def IsNumber (self : TJsonNode) : Bool := decide (self.GetType = EType.Number)

/-- Models `TJsonNode::IsString`. -/
def IsString (self : TJsonNode) : Bool := decide (self.GetType = EType.String)

/-- Models `TJsonNode::IsArray`. -/
def IsArray (self : TJsonNode) : Bool := decide (self.GetType = EType.Array)

/-- Models `TJsonNode::IsObject`. -/
def IsObject (self : TJsonNode) : Bool := decide (self.GetType = EType.Object)

/-! ## Container operations -/

/-- Models `TJsonNode::size`. -/
def size : TJsonNode → Except TException Nat
  | Array value => .ok value.length
  | Object value => .ok value.length
  | _ => .error .notContainer

/-- Models `TJsonNode::empty`.  The function has no `THROW`: every result is a return value. -/
def empty : TJsonNode → Except TException Bool
  | Array value => .ok value.isEmpty
  | Object value => .ok value.isEmpty
  | Null => .ok true
  | _ => .ok false

/-- Models `TJsonNode::contains`. -/
def contains (self : TJsonNode) (key : string) : Except TException Bool :=
  match self with
  | Object value => .ok (umap_find value key).isSome
  | _ => .error .notObject

/-- Models the private `TJsonNode::Clear`: the payload of a String, Array or Object is deleted,
then `Type_ = Null`. -/
def Clear : TJsonNode → TJsonNode
  | String _ => Null
  | Array _ => Null
  | Object _ => Null
  | _ => Null

/-- Models `TJsonNode::clear`.  The function has no `THROW`: it always returns. -/
def clear : TJsonNode → Except TException Unit × TJsonNode
  | Array _ => (.ok (), Array [])
  | Object _ => (.ok (), Object [])
  | other => (.ok (), Clear other)

/-! ## Access -/

/-- Models `TJsonNode::at(const std::string&)` (both overloads): the referenced member and the
state of the node after the call. -/
def at_key (self : TJsonNode) (key : string) : Except TException TJsonNode × TJsonNode :=
  match self with
  | Object m =>
    match umap_find m key with
    | none => (.error (.keyNotFound key), self)
    | some v => (.ok v, self)
  | _ => (.error .notObject, self)

/-- Models `TJsonNode::at(size_t)` (both overloads). -/
def at_idx (self : TJsonNode) (idx : Nat) : Except TException TJsonNode × TJsonNode :=
  match self with
  | Array xs =>
    match xs[idx]? with
    | none => (.error (.indexOutOfBounds idx xs.length), self)
    | some v => (.ok v, self)
  | _ => (.error .notArray, self)

/-- Models `TJsonNode::operator[](const std::string&)`: the referenced slot (its current value)
and the state of the node after the call; the reference designates member `key` of that
state. -/
def operator_index_key (self : TJsonNode) (key : string) :
    Except TException TJsonNode × TJsonNode :=
  -- auto-vivify to object
  let self := match self with
    | Null => Object []
    | other => other
  match self with
  | Object m =>
    -- `(*Value_.Object)[key]`: value-initialise the slot if the key is absent
    match umap_find m key with
    | some v => (.ok v, Object m)
    | none => (.ok Null, Object (m ++ [(key, Null)]))
  | _ => (.error .notObject, self)

/-- Models `TJsonNode::operator[](size_t)` (both overloads). -/
def operator_index_idx (self : TJsonNode) (idx : Nat) :
    Except TException TJsonNode × TJsonNode :=
  match self with
  | Array xs =>
    match xs[idx]? with
    | none => (.error (.indexOutOfBounds idx xs.length), self)
    | some v => (.ok v, self)
  | _ => (.error .notArray, self)

/-- Assignment through the reference returned by `at(key)` / `operator[](key)`:
the member stored under `key` becomes `value`. -/
def store_key (self : TJsonNode) (key : string) (value : TJsonNode) : TJsonNode :=
  match self with
  | Object m => Object (umap_store m key value)
  | other => other

/-- The statement `v[a][b] = x;`: index `v` by `a`, index the returned slot by `b`, assign
`x` through the second reference; every change of a slot is a change of the node that owns
it.  The result is the state of `v` afterwards. -/
def index_index_assign (v : TJsonNode) (a b : string) (x : TJsonNode) :
    Except TException Unit × TJsonNode :=
  match operator_index_key v a with
  | (.error e, v1) => (.error e, v1)
  | (.ok slot, v1) =>
    match operator_index_key slot b with
    | (.error e, slot1) => (.error e, store_key v1 a slot1)
    | (.ok _, slot1) => (.ok (), store_key v1 a (store_key slot1 b x))

/-! ## Mutation -/

/-- Models `TJsonNode::emplace(key, value)` (all overloads; the templates wrap the argument in a
`TJsonNode` first).  Returns the `inserted` flag of the `(iterator, bool)` pair. -/
def emplace (self : TJsonNode) (key : string) (value : TJsonNode) :
    Except TException Bool × TJsonNode :=
  match self with
  | Object m => (.ok (umap_emplace m key value).2, Object (umap_emplace m key value).1)
  | _ => (.error .notObject, self)

/-- Models `TJsonNode::insert(key, value)` (all overloads). -/
def insert (self : TJsonNode) (key : string) (value : TJsonNode) :
    Except TException Bool × TJsonNode :=
  match self with
  | Object m => (.ok (umap_emplace m key value).2, Object (umap_emplace m key value).1)
  | _ => (.error .notObject, self)

/-- Models `TJsonNode::erase(const std::string&)`: whether an entry was removed, and the node
afterwards. -/
def erase_key (self : TJsonNode) (key : string) : Except TException Bool × TJsonNode :=
  match self with
  | Object value =>
    (.ok (decide ((umap_erase value key).2 > 0)), Object (umap_erase value key).1)
  | _ => (.error .notObject, self)

/-- Models `TJsonNode::erase(size_t)`. -/
def erase_idx (self : TJsonNode) (idx : Nat) : Except TException Unit × TJsonNode :=
  match self with
  | Array value =>
    if idx ≥ value.length then (.error (.indexOutOfBounds idx value.length), self)
    else (.ok (), Array (value.eraseIdx idx))
  | _ => (.error .notArray, self)

/-! ## Move semantics -/

/-- One step from a container node to a node it owns: the element at an index of an Array,
or the value under a key of an Object. -/
inductive TStep where
  | index (i : Nat)
  | key (k : string)
  deriving DecidableEq

/-- The place of a node object in a program state: the address of a top-level object (a
variable, say) and the steps that lead from it to the node; no steps for the top-level
object itself.  Different places are different objects. -/
structure TPlace where
  address : Nat
  path : List TStep
  deriving DecidableEq

/-- The objects of a program state: the top-level objects, the address of one being its
position in the list.  The nodes inside them are objects too: an Array owns its elements,
an Object the values of its keys. -/
abbrev Memory := List TJsonNode

/-- The node one step inside a node. -/
def part : TJsonNode → TStep → Option TJsonNode
  | Array value, .index i => value[i]?
  | Object value, .key k => umap_find value k
  | _, _ => none

/-- Put the node `c` one step inside a node, in the place of the node that is there. -/
def setPart : TJsonNode → TStep → TJsonNode → TJsonNode
  | Array value, .index i, c => Array (value.set i c)
  | Object value, .key k, c =>
    Object (value.map (fun kv => if kv.1 = k then (kv.1, c) else kv))
  | v, _, _ => v

/-- The node that the steps lead to. -/
def partAt : TJsonNode → List TStep → Option TJsonNode
  | v, [] => some v
  | v, s :: rest =>
    match part v s with
    | none => none
    | some c => partAt c rest

/-- Put the node `c` where the steps lead to; `none` when they lead nowhere. -/
def setPartAt : TJsonNode → List TStep → TJsonNode → Option TJsonNode
  | _, [], c => some c
  | v, s :: rest, c =>
    match part v s with
    | none => none
    | some old =>
      match setPartAt old rest c with
      | none => none
      | some new => some (setPart v s new)

/-- The node object at a place, if there is one. -/
def Memory.read (mem : Memory) (p : TPlace) : Option TJsonNode :=
  match mem[p.address]? with
  | none => none
  | some v => partAt v p.path

/-- Give the object at a place the state `c`; `none` when there is no object at the
place. -/
def Memory.write (mem : Memory) (p : TPlace) (c : TJsonNode) : Option Memory :=
  match mem[p.address]? with
  | none => none
  | some v =>
    match setPartAt v p.path c with
    | none => none
    | some r => some (mem.set p.address r)

/-- Two places are apart: the objects at them are separate, neither is the other and
neither is inside the other. -/
def TPlace.Apart (p q : TPlace) : Prop :=
  p.address ≠ q.address ∨ (¬ p.path <+: q.path ∧ ¬ q.path <+: p.path)

/-- The object at `q` is inside the object at `p`, some steps away. -/
def TPlace.Inside (q p : TPlace) : Prop :=
  q.address = p.address ∧ ∃ s rest, q.path = p.path ++ s :: rest

/-- Models the move constructor `TJsonNode::TJsonNode(TJsonNode&&)`: a new object is
initialised from the object at `other`.  The new object becomes the last top-level object
of the state, at the address `mem.length`.  `none`: there is no object at `other`. -/
def move_construct (mem : Memory) (other : TPlace) : Option Memory :=
  match mem.read other with
  | none => none
  | some v =>
    -- `Type_(other.Type_), Value_(other.Value_)`
    -- `other.Type_ = Null; other.Value_.Number = 0.0`
    match mem.write other Null with
    | none => none
    | some mem1 => some (mem1 ++ [v])

/-- Models the move assignment `TJsonNode::operator=(TJsonNode&&)` of the object at `other`
to the object at `this`.  `Clear()` deletes the payload of `*this` and with it every node
inside `*this`; `none` stands for the read of `other.Type_` after `other` has been
destroyed that way (the behaviour is undefined), and for a call with no object at `this`
or at `other`. -/
def operator_assign_move (mem : Memory) (this other : TPlace) : Option Memory :=
  if this ≠ other then
    match mem.read this with
    | none => none
    | some old =>
      -- `Clear()`
      match mem.write this (Clear old) with
      | none => none
      | some mem1 =>
        -- `Type_ = other.Type_; Value_ = other.Value_`
        match mem1.read other with
        | none => none
        | some v =>
          match mem1.write this v with
          | none => none
          | some mem2 =>
            -- `other.Type_ = Null; other.Value_.Number = 0.0`
            mem2.write other Null
  else some mem


/-! ## `double` arithmetic used by the serializer and the parser -/

end TJsonNode

/-- Floor of the binary logarithm of a natural number (`0` for `0`), by repeated halving. -/
def log2Nat : Nat → Nat → Nat
  | 0, _ => 0
  | fuel + 1, n => if n < 2 then 0 else log2Nat fuel (n / 2) + 1

/-- The power `2^e` for an integer exponent. -/
def pow2 (e : Int) : ℚ :=
  if 0 ≤ e then ((2 ^ e.toNat : ℕ) : ℚ) else 1 / ((2 ^ (-e).toNat : ℕ) : ℚ)

/-- Floor of the binary logarithm of a positive rational. -/
def flog2 (a : ℚ) : Int :=
  if pow2 ((log2Nat a.num.natAbs a.num.natAbs : Int) - (log2Nat a.den a.den : Int)) ≤ a then
    (log2Nat a.num.natAbs a.num.natAbs : Int) - (log2Nat a.den a.den : Int)
  else (log2Nat a.num.natAbs a.num.natAbs : Int) - (log2Nat a.den a.den : Int) - 1

/-- Unit in the last place of the binary64 format at magnitude `a > 0`: 53 significant
bits, the exponent of the leading bit clamped at `-1022` (subnormal range). -/
def ulp (a : ℚ) : ℚ := pow2 (max (flog2 a) (-1022) - 52)

/-- Round a rational to the nearest integer, ties to even. -/
def roundHalfEven (x : ℚ) : Int :=
  if x - ⌊x⌋ < 1 / 2 then ⌊x⌋
  else if 1 / 2 < x - ⌊x⌋ then ⌊x⌋ + 1
  else if ⌊x⌋ % 2 = 0 then ⌊x⌋ else ⌊x⌋ + 1

/-- The rational is the value of a finite binary64 number: zero, or a multiple of the unit
in the last place of its own magnitude, below `2^1024`. -/
def IsDouble (q : ℚ) : Prop :=
  q = 0 ∨ ((|q| / ulp |q|).den = 1 ∧ |q| < pow2 1024)

instance (q : ℚ) : Decidable (IsDouble q) := by
  unfold IsDouble
  exact inferInstance

/-- Conversion of an exact value to `double` (round to nearest, ties to even; overflow
gives an infinity). -/
def Double.ofRat (q : ℚ) : Double :=
  if q = 0 then .finite 0
  else if pow2 1024 ≤ (roundHalfEven (|q| / ulp |q|) : ℚ) * ulp |q| then
    .inf (decide (q < 0))
  else if q < 0 then .finite (-((roundHalfEven (|q| / ulp |q|) : ℚ) * ulp |q|))
  else .finite ((roundHalfEven (|q| / ulp |q|) : ℚ) * ulp |q|)

/-- Models `static_cast<double>(n)` for an integer `n`. -/
def Double.ofInt (n : Int) : Double := Double.ofRat (n : ℚ)

/-- Models `operator==` on `double`: a NaN equals nothing. -/
def Double.eq : Double → Double → Bool
  | .finite a, .finite b => decide (a = b)
  | .inf a, .inf b => decide (a = b)
  | _, _ => false

/-- Discard the fractional part (round toward zero). -/
def truncate (q : ℚ) : Int := if 0 ≤ q then ⌊q⌋ else -⌊-q⌋

/-- Models `static_cast<long long>(x)`: truncation toward zero; when the truncated value does not
fit (undefined behaviour in C++) the x86-64 conversion instruction yields `LLONG_MIN`. -/
def static_cast_long_long : Double → Int
  | .finite q =>
    if -(2 : Int) ^ 63 ≤ truncate q ∧ truncate q < (2 : Int) ^ 63 then truncate q
    else -(2 : Int) ^ 63
  | _ => -(2 : Int) ^ 63

/-- Models `static_cast<int>(x)`: truncation toward zero; when the truncated value does not
fit (undefined behaviour in C++) the x86-64 conversion instruction yields `INT_MIN`. -/
def static_cast_int : Double → Int
  | .finite q =>
    if -(2 : Int) ^ 31 ≤ truncate q ∧ truncate q < (2 : Int) ^ 31 then truncate q
    else -(2 : Int) ^ 31
  | _ => -(2 : Int) ^ 31

/-- Models `static_cast<long>(x)`; `long` has 64 bits (LP64). -/
def static_cast_long (x : Double) : Int := static_cast_long_long x

/-- Models `static_cast<unsigned int>(x)`: truncation toward zero; when the truncated value
does not fit (undefined behaviour in C++) the x86-64 code converts to a signed 64-bit
integer and keeps the low 32 bits. -/
def static_cast_unsigned_int (x : Double) : Nat := (static_cast_long_long x % 2 ^ 32).toNat

/-- Models `static_cast<unsigned long long>(x)`: truncation toward zero; when the truncated
value does not fit (undefined behaviour in C++) the result is that of the x86-64 code:
below `2^63` the bits of the signed conversion, from `2^64` on zero. -/
def static_cast_unsigned_long_long : Double → Nat
  | .finite q =>
    if q < 9223372036854775808 then (static_cast_long_long (.finite q) % 2 ^ 64).toNat
    else if q < 18446744073709551616 then (truncate q).toNat
    else 0
  | .inf negative => if negative then 2 ^ 63 else 0
  | .nan _ => 2 ^ 63

/-- Models `static_cast<unsigned long>(x)`; `unsigned long` has 64 bits (LP64). -/
def static_cast_unsigned_long (x : Double) : Nat := static_cast_unsigned_long_long x

/-- Unit in the last place of the binary32 format at magnitude `a > 0`: 24 significant
bits, the exponent of the leading bit clamped at `-126` (subnormal range). -/
def ulp_float (a : ℚ) : ℚ := pow2 (max (flog2 a) (-126) - 23)

/-- Models `static_cast<float>(x)`: round to the nearest binary32 value, ties to even;
overflow gives an infinity.  The result is given by its value. -/
def static_cast_float : Double → Double
  | .finite q =>
    if q = 0 then .finite 0
    else if pow2 128 ≤ (roundHalfEven (|q| / ulp_float |q|) : ℚ) * ulp_float |q| then
      .inf (decide (q < 0))
    else if q < 0 then .finite (-((roundHalfEven (|q| / ulp_float |q|) : ℚ) * ulp_float |q|))
    else .finite ((roundHalfEven (|q| / ulp_float |q|) : ℚ) * ulp_float |q|)
  | .inf negative => .inf negative
  | .nan negative => .nan negative

/-- The character of a decimal digit. -/
def digitChar (d : Nat) : Char := Char.ofNat (48 + d)

/-- Decimal digits of `n`, most significant first, in front of `acc`. -/
def decimalDigits : Nat → Nat → List Char → List Char
  | 0, _, acc => acc
  | fuel + 1, n, acc =>
    if n < 10 then digitChar n :: acc
    else decimalDigits fuel (n / 10) (digitChar (n % 10) :: acc)

/-- Decimal rendering of a natural number. -/
def to_string_nat (n : Nat) : string := decimalDigits (n + 1) n []

/-- Models `std::to_string(long long)`. -/
def to_string_long_long (n : Int) : string :=
  if n < 0 then '-' :: to_string_nat n.natAbs else to_string_nat n.toNat

/-- Models `std::to_string(double)`, i.e. `printf("%f")`: six digits after the decimal point,
correctly rounded. -/
def to_string_double : Double → string
  | .finite q =>
    (if q < 0 then ['-'] else [])
      ++ to_string_nat ((roundHalfEven (|q| * 1000000)).toNat / 1000000)
      ++ ['.']
      ++ [digitChar ((roundHalfEven (|q| * 1000000)).toNat / 100000 % 10),
          digitChar ((roundHalfEven (|q| * 1000000)).toNat / 10000 % 10),
          digitChar ((roundHalfEven (|q| * 1000000)).toNat / 1000 % 10),
          digitChar ((roundHalfEven (|q| * 1000000)).toNat / 100 % 10),
          digitChar ((roundHalfEven (|q| * 1000000)).toNat / 10 % 10),
          digitChar ((roundHalfEven (|q| * 1000000)).toNat % 10)]
  | .inf negative => (if negative then ['-'] else []) ++ ['i', 'n', 'f']
  | .nan negative => (if negative then ['-'] else []) ++ ['n', 'a', 'n']

/-- The character is one of `0`..`9`. -/
def isDigit (c : Char) : Bool := decide (48 ≤ c.toNat ∧ c.toNat ≤ 57)

/-- Value of a run of decimal digits. -/
def decimalValue (ds : List Char) : Nat := ds.foldl (fun a c => 10 * a + (c.toNat - 48)) 0

/-- The digits of the fractional part `.digits` at the cursor (none when there is no `.`),
as `strtod` reads them. -/
def decimalFraction (s : string) : string :=
  if s.headD (Char.ofNat 0) = '.' then s.tail.takeWhile isDigit else []

/-- The cursor behind the fractional part. -/
def decimalAfterFraction (s : string) : string :=
  if s.headD (Char.ofNat 0) = '.' then s.tail.dropWhile isDigit else s

/-- The exponent part `[eE][+-]?digits` at the cursor, as `strtod` reads it: whether it is
negative, and the power of ten it denotes (one when there is no exponent part). -/
def decimalExponent (s : string) : Bool × Nat :=
  if s.headD (Char.ofNat 0) = 'e' ∨ s.headD (Char.ofNat 0) = 'E' then
    if s.tail.headD (Char.ofNat 0) = '-' then
      (true, 10 ^ decimalValue (s.tail.tail.takeWhile isDigit))
    else if s.tail.headD (Char.ofNat 0) = '+' then
      (false, 10 ^ decimalValue (s.tail.tail.takeWhile isDigit))
    else (false, 10 ^ decimalValue (s.tail.takeWhile isDigit))
  else (false, 1)

/-- The exact value of unsigned decimal text `digits(.digits)?([eE][+-]?digits)?`, as
`strtod` reads it (the longest such initial part of `s`); `none` when there is no digit to
convert. -/
def decimalMagnitude (s : string) : Option ℚ :=
  if s.takeWhile isDigit = [] ∧ decimalFraction (s.dropWhile isDigit) = [] then none
  else if (decimalExponent (decimalAfterFraction (s.dropWhile isDigit))).1 then
    some ((decimalValue (s.takeWhile isDigit ++ decimalFraction (s.dropWhile isDigit)) : ℚ)
      / ((10 ^ (decimalFraction (s.dropWhile isDigit)).length : ℕ) : ℚ)
      / (((decimalExponent (decimalAfterFraction (s.dropWhile isDigit))).2 : ℕ) : ℚ))
  else
    some ((decimalValue (s.takeWhile isDigit ++ decimalFraction (s.dropWhile isDigit)) : ℚ)
      / ((10 ^ (decimalFraction (s.dropWhile isDigit)).length : ℕ) : ℚ)
      * (((decimalExponent (decimalAfterFraction (s.dropWhile isDigit))).2 : ℕ) : ℚ))

/-- The exact value of decimal text with an optional leading `-`. -/
def decimalTextValue (s : string) : Option ℚ :=
  if s.headD (Char.ofNat 0) = '-' then
    match decimalMagnitude s.tail with
    | none => none
    | some m => some (-m)
  else decimalMagnitude s

/-- The magnitude `a > 0` rounded to 53 significant bits with no bound on the exponent
(round to nearest, ties to even). -/
def roundToPrecision (a : ℚ) : ℚ :=
  (roundHalfEven (a / pow2 (flog2 a - 52)) : ℚ) * pow2 (flog2 a - 52)

/-- The result of `std::stod` for text of exact value `exact`: the correctly rounded
`double`, or `std::out_of_range` when `strtod` reports `ERANGE`.  glibc reports it on
overflow and on underflow, that is, when the result is inexact and the value is tiny; on
x86-64 tininess is detected after rounding: the value is tiny when, rounded to 53
significant bits with no bound on the exponent, it is still below `2^-1022`.  So
`2.2250738585072012e-308`, which lies below `2^-1022` and is rounded up to it, is out of
range. -/
def stod_round (exact : ℚ) : Except TException Double :=
  match Double.ofRat exact with
  | .finite r =>
    if roundToPrecision |exact| < pow2 (-1022) ∧ r ≠ exact then .error .stdOutOfRange
    else .ok (.finite r)
  | _ => .error .stdOutOfRange

/-- Models `std::stod` on decimal text (the only shape `ParseNumber` passes);
`std::invalid_argument` when there is no digit to convert. -/
def stod (s : string) : Except TException Double :=
  match decimalTextValue s with
  | none => .error .stdInvalidArgument
  | some exact => stod_round exact

namespace TJsonNode

/-! ## Serialization -/

/-- Models `std::string(count, ch)` with an `int` count: a negative count converts to a huge
`size_type` and the constructor throws `std::length_error`.  The count is the value of the
`int` expression; `std_string_fill_checked` takes the outcome of the expression, which may
have overflowed. -/
def std_string_fill (count : Int) (ch : Char) : Except TException string :=
  if count < 0 then .error .stdLengthError else .ok (List.replicate count.toNat ch)

/-- Lower-case hexadecimal digit (`%x`). -/
def hexDigit (d : Nat) : Char := if d < 10 then Char.ofNat (48 + d) else Char.ofNat (87 + d)

/-- The body of the loop of `TJsonNode::EscapeString` for one character.  `char` is signed:
`ch < 32` holds for the control characters and for every byte from 0x80 on; `%04x` prints
the value of `static_cast<unsigned char>(ch)`. -/
def EscapeChar (ch : Char) : string :=
  if ch = '"' then ['\\', '"']
  else if ch = '\\' then ['\\', '\\']
  else if ch = Char.ofNat 8 then ['\\', 'b']
  else if ch = Char.ofNat 12 then ['\\', 'f']
  else if ch = '\n' then ['\\', 'n']
  else if ch = '\r' then ['\\', 'r']
  else if ch = '\t' then ['\\', 't']
  else if ch.toNat % 256 < 32 ∨ 128 ≤ ch.toNat % 256 then
    ['\\', 'u', hexDigit (ch.toNat % 256 / 4096 % 16), hexDigit (ch.toNat % 256 / 256 % 16),
      hexDigit (ch.toNat % 256 / 16 % 16), hexDigit (ch.toNat % 256 % 16)]
  else [ch]

/-- Models `TJsonNode::EscapeString`. -/
def EscapeString : string → string
  | [] => []
  | ch :: rest => EscapeChar ch ++ EscapeString rest

mutual
/-- Models `TJsonNode::ToStringImpl`: the text appended to `result`.  The expressions
`currentIndent * 2`, `(currentIndent + 1) * 2` and `currentIndent + 1` are evaluated in the
integers here; `ToStringImpl_checked` evaluates them in `int`. -/
def ToStringImpl : TJsonNode → Bool → Int → Except TException string
  | self, pretty, currentIndent =>
    match (if pretty then std_string_fill (currentIndent * 2) ' ' else .ok []) with
    | .error e => .error e
    | .ok indentStr =>
      match (if pretty then std_string_fill ((currentIndent + 1) * 2) ' ' else .ok []) with
      | .error e => .error e
      | .ok nextIndentStr =>
        match self with
        | Null => .ok ['n', 'u', 'l', 'l']
        | Boolean value => .ok (if value then ['t', 'r', 'u', 'e'] else ['f', 'a', 'l', 's', 'e'])
        | Number value =>
          -- check if it's an integer
          if Double.eq value (Double.ofInt (static_cast_long_long value)) then
            .ok (to_string_long_long (static_cast_long_long value))
          else .ok (to_string_double value)
        | String value => .ok (['"'] ++ EscapeString value ++ ['"'])
        | Array value =>
          match value with
          | [] => .ok ['[', ']']
          | x :: xs =>
            match ToStringImpl_elements (x :: xs) pretty currentIndent nextIndentStr with
            | .error e => .error e
            | .ok body =>
              .ok (['['] ++ (if pretty then ['\n'] else []) ++ body ++ indentStr ++ [']'])
        | Object value =>
          match value with
          | [] => .ok ['{', '}']
          | m :: ms =>
            match ToStringImpl_members (m :: ms) pretty currentIndent nextIndentStr with
            | .error e => .error e
            | .ok body =>
              .ok (['{'] ++ (if pretty then ['\n'] else []) ++ body ++ indentStr ++ ['}'])
/-- The `for` loop of the `Array` case, from element `i` on. -/
def ToStringImpl_elements : List TJsonNode → Bool → Int → string → Except TException string
  | [], _, _, _ => .ok []
  | x :: rest, pretty, currentIndent, nextIndentStr =>
    match ToStringImpl x pretty (currentIndent + 1) with
    | .error e => .error e
    | .ok item =>
      match ToStringImpl_elements rest pretty currentIndent nextIndentStr with
      | .error e => .error e
      | .ok tail =>
        .ok (nextIndentStr ++ item ++ (if rest.isEmpty then [] else [','])
          ++ (if pretty then ['\n'] else []) ++ tail)
/-- The range-`for` loop of the `Object` case, from the current member on. -/
def ToStringImpl_members : List (string × TJsonNode) → Bool → Int → string →
    Except TException string
  | [], _, _, _ => .ok []
  | (key, value) :: rest, pretty, currentIndent, nextIndentStr =>
    match ToStringImpl value pretty (currentIndent + 1) with
    | .error e => .error e
    | .ok item =>
      match ToStringImpl_members rest pretty currentIndent nextIndentStr with
      | .error e => .error e
      | .ok tail =>
        .ok (nextIndentStr ++ ['"'] ++ EscapeString key ++ ['"'] ++ [':']
          ++ (if pretty then [' '] else []) ++ item ++ (if rest.isEmpty then [] else [','])
          ++ (if pretty then ['\n'] else []) ++ tail)
end

/-- Models `TJsonNode::ToString`. -/
def ToString (self : TJsonNode) (pretty : Bool) (indent : Int) : Except TException string :=
  ToStringImpl self pretty indent

/-! ## Serialization with the arithmetic of `int` -/

/-- The largest value of `int` (32 bits, two's complement). -/
def INT_MAX : Int := 2147483647

/-- The smallest value of `int`. -/
def INT_MIN : Int := -2147483648

/-- The outcome of an `int` operation whose mathematical result is `n`: `none` when `n` is
not representable in `int` (signed overflow, the behaviour is undefined). -/
def int_checked (n : Int) : Option Int :=
  if INT_MIN ≤ n ∧ n ≤ INT_MAX then some n else none

/-- Models `std::string(count, ' ')` where `count` is the outcome of an `int` expression:
nothing is constructed when evaluating the expression overflowed. -/
def std_string_fill_checked (count : Option Int) : Option (Except TException string) :=
  match count with
  | none => none
  | some n => some (std_string_fill n ' ')

mutual
/-- Models `TJsonNode::ToStringImpl` with the arithmetic of `int`: the text appended to
`result`, the exception thrown, or `none` when one of the `int` expressions
`currentIndent * 2`, `(currentIndent + 1) * 2` (both evaluated only when `pretty` is set)
and `currentIndent + 1` (the argument of the recursive calls) overflows. -/
def ToStringImpl_checked : TJsonNode → Bool → Int → Option (Except TException string)
  | self, pretty, currentIndent =>
    match (if pretty then std_string_fill_checked (int_checked (currentIndent * 2))
        else some (.ok [])) with
    | none => none
    | some (.error e) => some (.error e)
    | some (.ok indentStr) =>
      match (if pretty then
          std_string_fill_checked
            ((int_checked (currentIndent + 1)).bind (fun n => int_checked (n * 2)))
        else some (.ok [])) with
      | none => none
      | some (.error e) => some (.error e)
      | some (.ok nextIndentStr) =>
        match self with
        | Null => some (.ok ['n', 'u', 'l', 'l'])
        | Boolean value =>
          some (.ok (if value then ['t', 'r', 'u', 'e'] else ['f', 'a', 'l', 's', 'e']))
        | Number value =>
          if Double.eq value (Double.ofInt (static_cast_long_long value)) then
            some (.ok (to_string_long_long (static_cast_long_long value)))
          else some (.ok (to_string_double value))
        | String value => some (.ok (['"'] ++ EscapeString value ++ ['"']))
        | Array value =>
          match value with
          | [] => some (.ok ['[', ']'])
          | x :: xs =>
            match ToStringImpl_elements_checked (x :: xs) pretty currentIndent
                nextIndentStr with
            | none => none
            | some (.error e) => some (.error e)
            | some (.ok body) =>
              some (.ok (['['] ++ (if pretty then ['\n'] else []) ++ body ++ indentStr
                ++ [']']))
        | Object value =>
          match value with
          | [] => some (.ok ['{', '}'])
          | m :: ms =>
            match ToStringImpl_members_checked (m :: ms) pretty currentIndent
                nextIndentStr with
            | none => none
            | some (.error e) => some (.error e)
            | some (.ok body) =>
              some (.ok (['{'] ++ (if pretty then ['\n'] else []) ++ body ++ indentStr
                ++ ['}']))
/-- The `for` loop of the `Array` case, from element `i` on, with the arithmetic of `int`. -/
def ToStringImpl_elements_checked :
    List TJsonNode → Bool → Int → string → Option (Except TException string)
  | [], _, _, _ => some (.ok [])
  | x :: rest, pretty, currentIndent, nextIndentStr =>
    match int_checked (currentIndent + 1) with
    | none => none
    | some next =>
      match ToStringImpl_checked x pretty next with
      | none => none
      | some (.error e) => some (.error e)
      | some (.ok item) =>
        match ToStringImpl_elements_checked rest pretty currentIndent nextIndentStr with
        | none => none
        | some (.error e) => some (.error e)
        | some (.ok tail) =>
          some (.ok (nextIndentStr ++ item ++ (if rest.isEmpty then [] else [','])
            ++ (if pretty then ['\n'] else []) ++ tail))
/-- The range-`for` loop of the `Object` case, from the current member on, with the
arithmetic of `int`. -/
def ToStringImpl_members_checked :
    List (string × TJsonNode) → Bool → Int → string → Option (Except TException string)
  | [], _, _, _ => some (.ok [])
  | (key, value) :: rest, pretty, currentIndent, nextIndentStr =>
    match int_checked (currentIndent + 1) with
    | none => none
    | some next =>
      match ToStringImpl_checked value pretty next with
      | none => none
      | some (.error e) => some (.error e)
      | some (.ok item) =>
        match ToStringImpl_members_checked rest pretty currentIndent nextIndentStr with
        | none => none
        | some (.error e) => some (.error e)
        | some (.ok tail) =>
          some (.ok (nextIndentStr ++ ['"'] ++ EscapeString key ++ ['"'] ++ [':']
            ++ (if pretty then [' '] else []) ++ item
            ++ (if rest.isEmpty then [] else [','])
            ++ (if pretty then ['\n'] else []) ++ tail))
end

/-- Models `TJsonNode::ToString` with the arithmetic of `int`. -/
def ToString_checked (self : TJsonNode) (pretty : Bool) (indent : Int) :
    Option (Except TException string) :=
  ToStringImpl_checked self pretty indent

mutual
/-- The number of non-empty containers that are nested in each other in a document: how
often `ToStringImpl` passes `currentIndent + 1` on before it reaches its innermost call. -/
def depth : TJsonNode → Nat
  | Array (x :: xs) => depth_elements (x :: xs) + 1
  | Object (m :: ms) => depth_members (m :: ms) + 1
  | _ => 0
/-- The largest `depth` of the elements. -/
def depth_elements : List TJsonNode → Nat
  | [] => 0
  | x :: rest => max (depth x) (depth_elements rest)
/-- The largest `depth` of the member values. -/
def depth_members : List (string × TJsonNode) → Nat
  | [] => 0
  | (_, value) :: rest => max (depth value) (depth_members rest)
end


/-! ## Conversion operators -/

/-- Models `TJsonNode::operator bool`. -/
def operator_bool : TJsonNode → Except TException Bool
  | Boolean value => .ok value
  | _ => .error .notBoolean

/-- Models `TJsonNode::operator int`. -/
def operator_int : TJsonNode → Except TException Int
  | Number value => .ok (static_cast_int value)
  | _ => .error .notNumber

/-- Models `TJsonNode::operator long`. -/
def operator_long : TJsonNode → Except TException Int
  | Number value => .ok (static_cast_long value)
  | _ => .error .notNumber

/-- Models `TJsonNode::operator long long`. -/
def operator_long_long : TJsonNode → Except TException Int
  | Number value => .ok (static_cast_long_long value)
  | _ => .error .notNumber

/-- Models `TJsonNode::operator unsigned int`. -/
def operator_unsigned_int : TJsonNode → Except TException Nat
  | Number value => .ok (static_cast_unsigned_int value)
  | _ => .error .notNumber

/-- Models `TJsonNode::operator unsigned long`. -/
def operator_unsigned_long : TJsonNode → Except TException Nat
  | Number value => .ok (static_cast_unsigned_long value)
  | _ => .error .notNumber

/-- Models `TJsonNode::operator unsigned long long`. -/
def operator_unsigned_long_long : TJsonNode → Except TException Nat
  | Number value => .ok (static_cast_unsigned_long_long value)
  | _ => .error .notNumber

/-- Models `TJsonNode::operator float`. -/
def operator_float : TJsonNode → Except TException Double
  | Number value => .ok (static_cast_float value)
  | _ => .error .notNumber

/-- Models `TJsonNode::operator double`. -/
def operator_double : TJsonNode → Except TException Double
  | Number value => .ok value
  | _ => .error .notNumber

/-- Models `TJsonNode::operator std::string`. -/
def operator_string : TJsonNode → Except TException string
  | String value => .ok value
  | _ => .error .notString

/-- The range-`for` loop of `TJsonNode::operator std::vector<Type>`: `result` holds the
entries converted so far, `convert` is `static_cast<Type>(item)`. -/
def operator_vector_loop {T : Type} (convert : TJsonNode → Except TException T) :
    List TJsonNode → List T → Except TException (List T)
  | [], result => .ok result
  | item :: rest, result =>
    match convert item with
    | .error e => .error e
    | .ok x => operator_vector_loop convert rest (result ++ [x])

/-- Models `TJsonNode::operator std::vector<Type>`, given the conversion to `Type`. -/
def operator_vector {T : Type} (convert : TJsonNode → Except TException T) :
    TJsonNode → Except TException (List T)
  | Array value => operator_vector_loop convert value []
  | _ => .error .notArray

/-! ## Parsing -/

/-- Models `*ptr`: the character under the cursor, NUL at the end of the text. -/
def peek (ptr : string) : Char := ptr.headD (Char.ofNat 0)

/-- Models `TJsonNode::SkipWhitespace`. -/
def SkipWhitespace : string → string
  | [] => []
  | c :: rest =>
    if c = ' ' ∨ c = '\t' ∨ c = '\n' ∨ c = '\r' then SkipWhitespace rest else c :: rest

/-- Models `TJsonNode::ParseLiteral`: `strncmp(ptr, literal, len)` over a NUL-free literal, then
`ptr += len`. -/
def ParseLiteral (ptr literal : string) (value : TJsonNode) :
    Except TException (TJsonNode × string) :=
  if ptr.take literal.length = literal then .ok (value, ptr.drop literal.length)
  else .error (.expectedLiteral literal)

/-- Value of a hexadecimal digit, as tested in the `\u` loop of `ParseString`. -/
def hexValue (ch : Char) : Option Nat :=
  if 48 ≤ ch.toNat ∧ ch.toNat ≤ 57 then some (ch.toNat - 48)
  else if 97 ≤ ch.toNat ∧ ch.toNat ≤ 102 then some (ch.toNat - 97 + 10)
  else if 65 ≤ ch.toNat ∧ ch.toNat ≤ 70 then some (ch.toNat - 65 + 10)
  else none

/-- The `for` loop over the four hexadecimal digits of a `\u` escape in
`TJsonNode::ParseString`: the code point and the cursor behind the digits. -/
def ParseString_codepoint (ptr : string) : Except TException (Nat × string) :=
  match hexValue (peek ptr) with
  | none => .error .invalidUnicodeEscape
  | some d1 =>
    match hexValue (peek ptr.tail) with
    | none => .error .invalidUnicodeEscape
    | some d2 =>
      match hexValue (peek ptr.tail.tail) with
      | none => .error .invalidUnicodeEscape
      | some d3 =>
        match hexValue (peek ptr.tail.tail.tail) with
        | none => .error .invalidUnicodeEscape
        | some d4 => .ok (((d1 * 16 + d2) * 16 + d3) * 16 + d4, ptr.tail.tail.tail.tail)

/-- The `while` loop of `TJsonNode::ParseString` together with the check of the closing
quote that follows it; `fuel` bounds the number of iterations, `result` is the text read so
far.  Returns the text and the cursor behind the closing quote. -/
def ParseString_loop : Nat → string → string → Except TException (string × string)
  | 0, _, _ => .error .outOfFuel
  | fuel + 1, ptr, result =>
    if peek ptr = '"' then .ok (result, ptr.tail)
    else if peek ptr = Char.ofNat 0 then .error .unterminatedString
    else if peek ptr = '\\' then
      if peek ptr.tail = '"' then ParseString_loop fuel ptr.tail.tail (result ++ ['"'])
      else if peek ptr.tail = '\\' then ParseString_loop fuel ptr.tail.tail (result ++ ['\\'])
      else if peek ptr.tail = '/' then ParseString_loop fuel ptr.tail.tail (result ++ ['/'])
      else if peek ptr.tail = 'b' then
        ParseString_loop fuel ptr.tail.tail (result ++ [Char.ofNat 8])
      else if peek ptr.tail = 'f' then
        ParseString_loop fuel ptr.tail.tail (result ++ [Char.ofNat 12])
      else if peek ptr.tail = 'n' then ParseString_loop fuel ptr.tail.tail (result ++ ['\n'])
      else if peek ptr.tail = 'r' then ParseString_loop fuel ptr.tail.tail (result ++ ['\r'])
      else if peek ptr.tail = 't' then ParseString_loop fuel ptr.tail.tail (result ++ ['\t'])
      else if peek ptr.tail = 'u' then
        -- unicode escape sequence
        match ParseString_codepoint ptr.tail.tail with
        | .error e => .error e
        | .ok (codepoint, ptr1) =>
          -- simple handling: only ASCII range
          if codepoint < 128 then ParseString_loop fuel ptr1 (result ++ [Char.ofNat codepoint])
          else ParseString_loop fuel ptr1 (result ++ ['?'])
      else .error (.invalidEscape (peek ptr.tail))
    else ParseString_loop fuel ptr.tail (result ++ [peek ptr])

/-- Models `TJsonNode::ParseString`.  Every iteration of the loop consumes a character, so the
length of the text bounds the number of iterations. -/
def ParseString (ptr : string) : Except TException (TJsonNode × string) :=
  if peek ptr ≠ '"' then .error .expectedStringStart
  else
    match ParseString_loop (ptr.tail.length + 1) ptr.tail [] with
    | .error e => .error e
    | .ok (result, ptr1) => .ok (String result, ptr1)

/-- Models `TJsonNode::ParseNumber`, the scan of the integer part: the cursor behind it. -/
def ParseNumber_integer (ptr : string) : Except TException string :=
  if peek ptr = '0' then .ok ptr.tail
  else if 49 ≤ (peek ptr).toNat ∧ (peek ptr).toNat ≤ 57 then .ok (ptr.dropWhile isDigit)
  else .error .invalidNumberFormat

/-- Models `TJsonNode::ParseNumber`, the scan of the optional fractional part. -/
def ParseNumber_fraction (ptr : string) : Except TException string :=
  if peek ptr = '.' then
    if isDigit (peek ptr.tail) then .ok (ptr.tail.dropWhile isDigit)
    else .error .expectedDigitAfterPoint
  else .ok ptr

/-- Models `TJsonNode::ParseNumber`, the scan of the optional exponent. -/
def ParseNumber_exponent (ptr : string) : Except TException string :=
  if peek ptr = 'e' ∨ peek ptr = 'E' then
    if peek ptr.tail = '+' ∨ peek ptr.tail = '-' then
      if isDigit (peek ptr.tail.tail) then .ok (ptr.tail.tail.dropWhile isDigit)
      else .error .expectedDigitInExponent
    else if isDigit (peek ptr.tail) then .ok (ptr.tail.dropWhile isDigit)
    else .error .expectedDigitInExponent
  else .ok ptr

/-- Models `TJsonNode::ParseNumber`. -/
def ParseNumber (start : string) : Except TException (TJsonNode × string) :=
  -- optional minus sign
  match ParseNumber_integer (if peek start = '-' then start.tail else start) with
  | .error e => .error e
  | .ok ptr1 =>
    match ParseNumber_fraction ptr1 with
    | .error e => .error e
    | .ok ptr2 =>
      match ParseNumber_exponent ptr2 with
      | .error e => .error e
      | .ok ptr =>
        -- `std::string numStr(start, ptr - start)`
        match stod (start.take (start.length - ptr.length)) with
        | .error e => .error e
        | .ok value => .ok (Number value, ptr)

/-- The `while (true)` loop of `TJsonNode::ParseArray`; `fuel` bounds the number of
iterations, `result` holds the elements read so far. -/
def ParseArray_loop (ParseValue : string → Except TException (TJsonNode × string)) :
    Nat → string → List TJsonNode → Except TException (TJsonNode × string)
  | 0, _, _ => .error .outOfFuel
  | fuel + 1, ptr, result =>
    match ParseValue ptr with
    | .error e => .error e
    | .ok (value, ptr1) =>
      if peek (SkipWhitespace ptr1) = ']' then
        .ok (Array (result ++ [value]), (SkipWhitespace ptr1).tail)
      else if peek (SkipWhitespace ptr1) ≠ ',' then .error .expectedCommaOrBracket
      else
        ParseArray_loop ParseValue fuel (SkipWhitespace (SkipWhitespace ptr1).tail)
          (result ++ [value])

/-- Models `TJsonNode::ParseArray`, given the parser of the elements.  Every iteration of the loop
consumes a character, so the length of the text bounds the number of iterations. -/
def ParseArray (ParseValue : string → Except TException (TJsonNode × string))
    (ptr : string) : Except TException (TJsonNode × string) :=
  if peek ptr ≠ '[' then .error .expectedArrayStart
  else if peek (SkipWhitespace ptr.tail) = ']' then
    .ok (Array [], (SkipWhitespace ptr.tail).tail)
  else
    ParseArray_loop ParseValue ((SkipWhitespace ptr.tail).length + 1)
      (SkipWhitespace ptr.tail) []

/-- The `while (true)` loop of `TJsonNode::ParseObject`; `fuel` bounds the number of
iterations, `result` holds the members read so far. -/
def ParseObject_loop (ParseValue : string → Except TException (TJsonNode × string)) :
    Nat → string → List (string × TJsonNode) → Except TException (TJsonNode × string)
  | 0, _, _ => .error .outOfFuel
  | fuel + 1, ptr, result =>
    if peek (SkipWhitespace ptr) ≠ '"' then .error .expectedKeyQuote
    else
      match ParseString (SkipWhitespace ptr) with
      | .error e => .error e
      | .ok (keyNode, ptr1) =>
        match operator_string keyNode with
        | .error e => .error e
        | .ok key =>
          if peek (SkipWhitespace ptr1) ≠ ':' then .error .expectedColon
          else
            match ParseValue (SkipWhitespace ptr1).tail with
            | .error e => .error e
            | .ok (value, ptr2) =>
              -- `result.Value_.Object->emplace(std::move(key), std::move(value))`
              if peek (SkipWhitespace ptr2) = '}' then
                .ok (Object (umap_emplace result key value).1, (SkipWhitespace ptr2).tail)
              else if peek (SkipWhitespace ptr2) ≠ ',' then .error .expectedCommaOrBrace
              else
                ParseObject_loop ParseValue fuel (SkipWhitespace ptr2).tail
                  (umap_emplace result key value).1

/-- Models `TJsonNode::ParseObject`, given the parser of the member values. -/
def ParseObject (ParseValue : string → Except TException (TJsonNode × string))
    (ptr : string) : Except TException (TJsonNode × string) :=
  if peek ptr ≠ '{' then .error .expectedObjectStart
  else if peek (SkipWhitespace ptr.tail) = '}' then
    .ok (Object [], (SkipWhitespace ptr.tail).tail)
  else
    ParseObject_loop ParseValue ((SkipWhitespace ptr.tail).length + 1)
      (SkipWhitespace ptr.tail) []

/-- Models `TJsonNode::ParseValue`; `fuel` bounds the nesting depth of the recursive descent. -/
def ParseValue : Nat → string → Except TException (TJsonNode × string)
  | 0, _ => .error .outOfFuel
  | fuel + 1, ptr =>
    if peek (SkipWhitespace ptr) = 'n' then
      ParseLiteral (SkipWhitespace ptr) ['n', 'u', 'l', 'l'] Null
    else if peek (SkipWhitespace ptr) = 't' then
      ParseLiteral (SkipWhitespace ptr) ['t', 'r', 'u', 'e'] (Boolean true)
    else if peek (SkipWhitespace ptr) = 'f' then
      ParseLiteral (SkipWhitespace ptr) ['f', 'a', 'l', 's', 'e'] (Boolean false)
    else if peek (SkipWhitespace ptr) = '"' then ParseString (SkipWhitespace ptr)
    else if peek (SkipWhitespace ptr) = '[' then
      ParseArray (ParseValue fuel) (SkipWhitespace ptr)
    else if peek (SkipWhitespace ptr) = '{' then
      ParseObject (ParseValue fuel) (SkipWhitespace ptr)
    else if peek (SkipWhitespace ptr) = '-' ∨ isDigit (peek (SkipWhitespace ptr)) then
      ParseNumber (SkipWhitespace ptr)
    else .error (.unexpectedCharacter (peek (SkipWhitespace ptr)))

/-- Models `TJsonNode::Parse(const char*)`; `json` is the text in front of the terminating NUL.
Every level of nesting consumes a character, so the length of the text bounds the depth. -/
def Parse (json : string) : Except TException TJsonNode :=
  if peek (SkipWhitespace json) = Char.ofNat 0 then .error .emptyJson
  else
    match ParseValue ((SkipWhitespace json).length + 1) (SkipWhitespace json) with
    | .error e => .error e
    | .ok (result, ptr) =>
      if peek (SkipWhitespace ptr) ≠ Char.ofNat 0 then .error .trailingCharacters
      else .ok result

/-- Models `std::string::c_str`, seen as a C string: the characters in front of the first NUL. -/
def c_str (s : string) : string := s.takeWhile (fun c => decide (c ≠ Char.ofNat 0))

/-- Models `TJsonNode::Parse(const std::string&)`. -/
def Parse_std_string (json : string) : Except TException TJsonNode := Parse (c_str json)

/-! ## Notions used in the statements -/

/-- Whitespace as skipped by `SkipWhitespace`. -/
def isWhitespace (c : Char) : Bool := decide (c = ' ' ∨ c = '\t' ∨ c = '\n' ∨ c = '\r')

/-- The cursor `r` lies strictly behind the cursor `p` of the same text. -/
def Advanced (r p : string) : Prop := r <:+ p ∧ r.length < p.length

/-- A value parser that, whenever it succeeds, leaves the cursor strictly behind where it
started, in the same text. -/
def Consuming (pv : string → Except TException (TJsonNode × string)) : Prop :=
  ∀ p v r, pv p = .ok (v, r) → Advanced r p

/-- A value parser that does not exhaust its budget on any text of length at most `n`. -/
def FuelSafe (pv : string → Except TException (TJsonNode × string)) (n : Nat) : Prop :=
  ∀ q : string, q.length ≤ n → pv q ≠ .error .outOfFuel

/-- The parser `pv'` agrees with `pv` wherever `pv` does not exhaust its budget. -/
def Extends (pv pv' : string → Except TException (TJsonNode × string)) : Prop :=
  ∀ q : string, pv q ≠ .error .outOfFuel → pv' q = pv q

/-- The text consists of ASCII characters (bytes 0..127) only. -/
def IsAscii (s : string) : Prop := ∀ c ∈ s, c.toNat < 128

instance (s : string) : Decidable (IsAscii s) := by
  unfold IsAscii
  exact inferInstance

mutual
/-- A document all of whose numbers satisfy `num`, all of whose strings and keys are ASCII
text, and whose objects have pairwise distinct keys (as a `std::unordered_map` has). -/
def DocumentOver (num : Double → Prop) : TJsonNode → Prop
  | Null => True
  | Boolean _ => True
  | Number d => num d
  | String s => IsAscii s
  | Array xs => ElementsOver num xs
  | Object m => MembersOver num m ∧ (m.map Prod.fst).Nodup
/-- Every element is a `DocumentOver num`. -/
def ElementsOver (num : Double → Prop) : List TJsonNode → Prop
  | [] => True
  | x :: xs => DocumentOver num x ∧ ElementsOver num xs
/-- Every key is ASCII and every value is a `DocumentOver num`. -/
def MembersOver (num : Double → Prop) : List (string × TJsonNode) → Prop
  | [] => True
  | (k, v) :: rest => IsAscii k ∧ DocumentOver num v ∧ MembersOver num rest
end

/-- A number that is an exact integer or an exactly representable `double`: a finite
binary64 value. -/
def RepresentableNumber : Double → Prop
  | .finite q => IsDouble q
  | _ => False

/-- A finite binary64 value with at most six decimal places (whole numbers included). -/
def SixDecimalNumber : Double → Prop
  | .finite q => IsDouble q ∧ (q * 1000000).den = 1
  | _ => False

/-- The value of the text `std::to_string(double)` writes for the finite value `q`: `q`
rounded to six decimal places (ties to even). -/
def sixDecimalValue (q : ℚ) : ℚ :=
  if q < 0 then -(((roundHalfEven (|q| * 1000000)).toNat : ℚ) / 1000000)
  else ((roundHalfEven (|q| * 1000000)).toNat : ℚ) / 1000000

/-- A number that survives the six-decimal rendering: a finite binary64 value that
`std::stod` returns for that value rounded to six decimal places.  Every whole number is
of this kind, and so is every `double` that is the nearest one to a decimal number of at
most six decimal places which its rendering shows (0.1, 2.5, -3.75); 2^-21 is not. -/
def SixDecimalStable : Double → Prop
  | .finite q => IsDouble q ∧ stod_round (sixDecimalValue q) = .ok (.finite q)
  | _ => False

mutual
/-- Equality of documents that ignores the order of object members: equal scalars, arrays
equal element by element, objects with the same number of members in which every member
of the first has a member of the same key and the same document in the second. -/
def SameDocument : TJsonNode → TJsonNode → Prop
  | Null, w => w = Null
  | Boolean a, w => w = Boolean a
  | Number a, w => w = Number a
  | String a, w => w = String a
  | Array xs, w => ∃ ys, w = Array ys ∧ SameElements xs ys
  | Object m, w => ∃ n, w = Object n ∧ n.length = m.length ∧ SameMembers m n
/-- Element-wise `SameDocument`. -/
def SameElements : List TJsonNode → List TJsonNode → Prop
  | [], ys => ys = []
  | x :: xs, ys => ∃ y ys', ys = y :: ys' ∧ SameDocument x y ∧ SameElements xs ys'
/-- Every member of the first list has a counterpart in the second. -/
def SameMembers : List (string × TJsonNode) → List (string × TJsonNode) → Prop
  | [], _ => True
  | (k, v) :: rest, n => (∃ w, umap_find n k = some w ∧ SameDocument v w) ∧ SameMembers rest n
end

/-- What may follow a value in a text: nothing, a `,`, a `]`, a `}` or whitespace. -/
def Delimited (rest : string) : Prop :=
  rest = [] ∨ ∃ c r, rest = c :: r ∧ (c = ',' ∨ c = ']' ∨ c = '}' ∨ isWhitespace c = true)

/-- The text `t` is a complete value text for `v`: followed by anything a value may be
followed by, `ParseValue` reads exactly `t` and returns `v`. -/
def ReadsAs (t : string) (v : TJsonNode) : Prop :=
  ∀ rest, Delimited rest → ∃ fuel, ParseValue fuel (t ++ rest) = .ok (v, rest)

/-- The text `t` is a string literal for the key `k`: `ParseString` reads exactly `t` and
returns `k`. -/
def ReadsAsKey (t : string) (k : string) : Prop :=
  ∀ rest, ParseString (t ++ rest) = .ok (String k, rest)

/-- One member of an object text: whitespace, the key literal, whitespace, `:`, the value
text (which may start with whitespace), whitespace. -/
structure MemberText where
  lead : string
  keyText : string
  key : string
  mid : string
  valueText : string
  value : TJsonNode
  trail : string

/-- The parts of a member text are what their names say. -/
def MemberText.WellFormed (t : MemberText) : Prop :=
  (∀ c ∈ t.lead, isWhitespace c = true) ∧ ReadsAsKey t.keyText t.key
    ∧ (∀ c ∈ t.mid, isWhitespace c = true) ∧ ReadsAs t.valueText t.value
    ∧ (∀ c ∈ t.trail, isWhitespace c = true)

/-- The characters of one member text. -/
def MemberText.text (t : MemberText) : string :=
  t.lead ++ t.keyText ++ t.mid ++ [':'] ++ t.valueText ++ t.trail

/-- The member texts separated by `,`. -/
def membersText : List MemberText → string
  | [] => []
  | [t] => t.text
  | t :: rest => t.text ++ [','] ++ membersText rest

/-- The object text `{ member , member , ... }`. -/
def objectText (ms : List MemberText) : string := ['{'] ++ membersText ms ++ ['}']

/-- One element of an array text: the value text (which may start with whitespace) and
the whitespace behind it. -/
structure ElementText where
  valueText : string
  value : TJsonNode
  trail : string

/-- The parts of an element text are what their names say. -/
def ElementText.WellFormed (t : ElementText) : Prop :=
  ReadsAs t.valueText t.value ∧ (∀ c ∈ t.trail, isWhitespace c = true)

/-- The element texts separated by `,`. -/
def elementsText : List ElementText → string
  | [] => []
  | [t] => t.valueText ++ t.trail
  | t :: rest => t.valueText ++ t.trail ++ [','] ++ elementsText rest

/-- The array text `[ element , element , ... ]`. -/
def arrayText (es : List ElementText) : string := ['['] ++ elementsText es ++ [']']

/-- The members a sequence of `emplace` calls leaves in the mapping `acc`. -/
def emplaceAll (acc : List (string × TJsonNode)) :
    List (string × TJsonNode) → List (string × TJsonNode)
  | [] => acc
  | (k, v) :: rest => emplaceAll (umap_emplace acc k v).1 rest

mutual
/-- The compact rendering of a document (`ToStringImpl` with `pretty = false`, see
`ToStringImpl_compact`). -/
def compactText : TJsonNode → string
  | Null => ['n', 'u', 'l', 'l']
  | Boolean value => if value then ['t', 'r', 'u', 'e'] else ['f', 'a', 'l', 's', 'e']
  | Number value =>
    if Double.eq value (Double.ofInt (static_cast_long_long value)) then
      to_string_long_long (static_cast_long_long value)
    else to_string_double value
  | String value => ['"'] ++ EscapeString value ++ ['"']
  | Array value => ['['] ++ compactElements value ++ [']']
  | Object value => ['{'] ++ compactMembers value ++ ['}']
/-- The compact rendering of the elements of an array. -/
def compactElements : List TJsonNode → string
  | [] => []
  | x :: rest => compactText x ++ (if rest.isEmpty then [] else [',']) ++ compactElements rest
/-- The compact rendering of the members of an object. -/
def compactMembers : List (string × TJsonNode) → string
  | [] => []
  | (key, value) :: rest =>
    ['"'] ++ EscapeString key ++ ['"'] ++ [':'] ++ compactText value
      ++ (if rest.isEmpty then [] else [',']) ++ compactMembers rest
end

/-- No character of a number can stand at the cursor: not a digit, `.`, `e` or `E`. -/
def NumberEnd (rest : string) : Prop :=
  isDigit (peek rest) = false ∧ peek rest ≠ '.' ∧ peek rest ≠ 'e' ∧ peek rest ≠ 'E'

/-- An integer part as the JSON grammar wants it: `0`, or a digit `1`..`9` followed by
digits. -/
def IntegerPart (ip : string) : Prop :=
  ip = ['0'] ∨ ∃ c r, ip = c :: r ∧ (49 ≤ c.toNat ∧ c.toNat ≤ 57) ∧ ∀ d ∈ r, isDigit d = true

/-- The element text of a document in the compact rendering: no whitespace. -/
def compactElement (x : TJsonNode) : ElementText := ⟨compactText x, x, []⟩

/-- The member text of a key and a document in the compact rendering: `"key":value`. -/
def compactMember (kv : string × TJsonNode) : MemberText :=
  ⟨[], ['"'] ++ EscapeString kv.1 ++ ['"'], kv.1, [], compactText kv.2, kv.2, []⟩

/-- Where a left-to-right scan of a JSON text stands: outside the string literals, inside
a string literal, or behind a backslash inside a string literal. -/
inductive EScanState where
  | code
  | text
  | escape
  deriving DecidableEq

/-- Behind optional whitespace the text goes on with `]` or `}`. -/
def closesNext (rest : string) : Bool :=
  decide (peek (SkipWhitespace rest) = ']' ∨ peek (SkipWhitespace rest) = '}')

/-- The text has a trailing comma: a `,` outside the string literals that is followed, after
optional whitespace, by `]` or `}`.  The first argument is the state of the scan at the
start of the text. -/
def hasTrailingComma : EScanState → string → Bool
  | _, [] => false
  | .code, c :: rest =>
    if c = '"' then hasTrailingComma .text rest
    else if c = ',' then closesNext rest || hasTrailingComma .code rest
    else hasTrailingComma .code rest
  | .text, c :: rest =>
    if c = '\\' then hasTrailingComma .escape rest
    else if c = '"' then hasTrailingComma .code rest
    else hasTrailingComma .text rest
  | .escape, _ :: rest => hasTrailingComma .text rest

/-- An exception that escapes `Parse`: an error of kind ParseError, or the
`std::out_of_range` of `std::stod`. -/
def RaisedByParse (e : TException) : Prop :=
  e.kind = some EErrorKind.ParseError ∨ e = TException.stdOutOfRange

/-- The indentation of nesting depth `d` in the pretty layout: `2 * d` spaces. -/
def indentation (d : Nat) : string := List.replicate (2 * d) ' '

mutual
/-- The pretty layout of a document whose own nesting depth is `d`, as the specification
describes it: scalars and empty containers as in the compact rendering; a non-empty
container opens with its bracket and a newline, has each element or member on a line of
its own behind the indentation of depth `d + 1`, and closes with its bracket behind the
indentation of depth `d`. -/
def prettyText : Nat → TJsonNode → string
  | _, Null => ['n', 'u', 'l', 'l']
  | _, Boolean value => if value then ['t', 'r', 'u', 'e'] else ['f', 'a', 'l', 's', 'e']
  | _, Number value =>
    if Double.eq value (Double.ofInt (static_cast_long_long value)) then
      to_string_long_long (static_cast_long_long value)
    else to_string_double value
  | _, String value => ['"'] ++ EscapeString value ++ ['"']
  | _, Array [] => ['[', ']']
  | d, Array (x :: xs) =>
    ['[', '\n'] ++ prettyElements (d + 1) (x :: xs) ++ indentation d ++ [']']
  | _, Object [] => ['{', '}']
  | d, Object (m :: ms) =>
    ['{', '\n'] ++ prettyMembers (d + 1) (m :: ms) ++ indentation d ++ ['}']
/-- The lines of the elements of an array, the elements being at depth `d`: indentation,
element, a `,` behind every element but the last, newline. -/
def prettyElements : Nat → List TJsonNode → string
  | _, [] => []
  | d, x :: rest =>
    indentation d ++ prettyText d x ++ (if rest.isEmpty then [] else [',']) ++ ['\n']
      ++ prettyElements d rest
/-- The lines of the members of an object, the members being at depth `d`: indentation,
the quoted key, `: `, the value, a `,` behind every member but the last, newline. -/
def prettyMembers : Nat → List (string × TJsonNode) → string
  | _, [] => []
  | d, (key, value) :: rest =>
    indentation d ++ ['"'] ++ EscapeString key ++ ['"'] ++ [':', ' '] ++ prettyText d value
      ++ (if rest.isEmpty then [] else [',']) ++ ['\n'] ++ prettyMembers d rest
end

/-- The text is made only of the characters `0`-`9`, `-`, `+`, `.`, `e`, `E`. -/
def IsNumberAlphabet (s : string) : Prop :=
  ∀ c ∈ s, isDigit c = true ∨ c = '-' ∨ c = '+' ∨ c = '.' ∨ c = 'e' ∨ c = 'E'

/-- A fractional part as the JSON grammar wants it: nothing, or `.` followed by at least
one digit. -/
def FractionPart (frac : string) : Prop :=
  frac = [] ∨ ∃ fp, frac = '.' :: fp ∧ fp ≠ [] ∧ ∀ c ∈ fp, isDigit c = true

/-- An exponent part as the JSON grammar wants it: nothing, or `e` or `E`, an optional
sign, and at least one digit. -/
def ExponentPart (ex : string) : Prop :=
  ex = [] ∨ ∃ m sg ep, ex = m :: (sg ++ ep) ∧ (m = 'e' ∨ m = 'E')
    ∧ (sg = [] ∨ sg = ['+'] ∨ sg = ['-']) ∧ ep ≠ [] ∧ ∀ c ∈ ep, isDigit c = true

/-- The text matches `-?(0|[1-9][0-9]*)(.[0-9]+)?([eE][+-]?[0-9]+)?`. -/
def MatchesNumberGrammar (s : string) : Prop :=
  ∃ sign ip frac ex, s = sign ++ ip ++ frac ++ ex ∧ (sign = [] ∨ sign = ['-'])
    ∧ IntegerPart ip ∧ FractionPart frac ∧ ExponentPart ex

/-- The text `y` behind the parts of a number text lets the scan of `ParseNumber` stop
where each part ends: an integer part other than `0` is not followed by a digit, a missing
fractional part not by `.` and a present one not by a digit, a missing exponent not by `e`
or `E` and a present one not by a digit. -/
def StopsNumber (ip frac ex y : string) : Prop :=
  (ip = ['0'] ∨ isDigit (peek (frac ++ (ex ++ y))) = false)
  ∧ ((frac = [] ∧ peek (ex ++ y) ≠ '.') ∨ (frac ≠ [] ∧ isDigit (peek (ex ++ y)) = false))
  ∧ ((ex = [] ∧ peek y ≠ 'e' ∧ peek y ≠ 'E') ∨ (ex ≠ [] ∧ isDigit (peek y) = false))

/-- At the cursor `q` stands a number that is outside the range of `double`: `q` starts
with a text that matches the number grammar, on which `std::stod` throws
`std::out_of_range`, and that exception escapes from `ParseNumber` called at `q`. -/
def OutOfRangeNumberAt (q : string) : Prop :=
  ParseNumber q = .error .stdOutOfRange
  ∧ ∃ tok rest, q = tok ++ rest ∧ MatchesNumberGrammar tok
      ∧ stod tok = .error .stdOutOfRange

/-- The four characters at the cursor are hexadecimal digits. -/
def fourHexDigits (p : string) : Bool :=
  (hexValue (peek p)).isSome && (hexValue (peek p.tail)).isSome
    && (hexValue (peek p.tail.tail)).isSome && (hexValue (peek p.tail.tail.tail)).isSome

/-- The text has a malformed string literal: a string literal that is not closed by an
unescaped `"` before the end of the text, or inside a string literal a backslash that is
followed by nothing or by a character other than `"` `\` `/` `b` `f` `n` `r` `t` `u`, or a
`\u` that is not followed by four hexadecimal digits.  The first argument is the state of
the scan at the start of the text. -/
def hasMalformedString : EScanState → string → Bool
  | .code, [] => false
  | .code, c :: rest =>
    if c = '"' then hasMalformedString .text rest else hasMalformedString .code rest
  | .text, [] => true
  | .text, c :: rest =>
    if c = '\\' then hasMalformedString .escape rest
    else if c = '"' then hasMalformedString .code rest
    else hasMalformedString .text rest
  | .escape, [] => true
  | .escape, c :: rest =>
    if c = 'u' then (if fourHexDigits rest then hasMalformedString .text rest else true)
    else if c = '"' ∨ c = '\\' ∨ c = '/' ∨ c = 'b' ∨ c = 'f' ∨ c = 'n' ∨ c = 'r' ∨ c = 't' then
      hasMalformedString .text rest
    else true

/-- Where a scan that follows the structure of a JSON text stands: at a place for values
or punctuation outside the string literals (`value`); behind a `{`, where a key or `}` is
due (`firstKey`); behind a `,` of an object, where a key is due (`nextKey`); inside a key
(`key`, `keyEscape` behind a backslash); behind a key, where `:` is due (`colon`); inside
a string literal that is a value (`text`, `textEscape` behind a backslash). -/
inductive EMemberScan where
  | value
  | firstKey
  | nextKey
  | key
  | keyEscape
  | colon
  | text
  | textEscape
  deriving DecidableEq

/-- Behind optional whitespace the text goes on with `}` or `,`. -/
def valueMissing (rest : string) : Bool :=
  decide (peek (SkipWhitespace rest) = '}' ∨ peek (SkipWhitespace rest) = ',')

/-- The text has a malformed object member: a member that does not start with `"` (behind
`{` and optional whitespace something other than `"` or `}`, or behind a `,` of an object
and optional whitespace something other than `"`), a key that is followed, after optional
whitespace, by something other than `:`, or a `:` behind a key that is followed, after
optional whitespace, by `}` or `,`.  The end of the text is something other than `"` and
`:`: a text that ends behind `{`, behind a `,` of an object or behind a key has a malformed
member.  The first argument lists the containers that are open at the start of the text,
innermost first (`true` for an object, `false` for an array), the second is the state of
the scan there. -/
def hasMalformedMember : List Bool → EMemberScan → string → Bool
  | _, .firstKey, [] => true
  | _, .nextKey, [] => true
  | _, .colon, [] => true
  | _, _, [] => false
  | stack, .value, c :: rest =>
    if c = '"' then hasMalformedMember stack .text rest
    else if c = '{' then hasMalformedMember (true :: stack) .firstKey rest
    else if c = '[' then hasMalformedMember (false :: stack) .value rest
    else if c = '}' ∨ c = ']' then hasMalformedMember stack.tail .value rest
    else if c = ',' then
      if stack.headD false then hasMalformedMember stack .nextKey rest
      else hasMalformedMember stack .value rest
    else hasMalformedMember stack .value rest
  | stack, .firstKey, c :: rest =>
    if isWhitespace c then hasMalformedMember stack .firstKey rest
    else if c = '"' then hasMalformedMember stack .key rest
    else if c = '}' then hasMalformedMember stack.tail .value rest
    else true
  | stack, .nextKey, c :: rest =>
    if isWhitespace c then hasMalformedMember stack .nextKey rest
    else if c = '"' then hasMalformedMember stack .key rest
    else true
  | stack, .key, c :: rest =>
    if c = '\\' then hasMalformedMember stack .keyEscape rest
    else if c = '"' then hasMalformedMember stack .colon rest
    else hasMalformedMember stack .key rest
  | stack, .keyEscape, _ :: rest => hasMalformedMember stack .key rest
  | stack, .colon, c :: rest =>
    if isWhitespace c then hasMalformedMember stack .colon rest
    else if c = ':' then valueMissing rest || hasMalformedMember stack .value rest
    else true
  | stack, .text, c :: rest =>
    if c = '\\' then hasMalformedMember stack .textEscape rest
    else if c = '"' then hasMalformedMember stack .value rest
    else hasMalformedMember stack .text rest
  | stack, .textEscape, _ :: rest => hasMalformedMember stack .text rest

/-- The scan for a malformed member, split at the place of the text where `n` characters
are left: the scan finds no malformed member in front of that place, stands at a place for
a value there (between the tokens, outside the keys and string literals), and finds a
malformed member from there on. -/
def hasMalformedMemberBehind (n : Nat) : List Bool → EMemberScan → string → Bool
  | _, _, [] => false
  | stack, .value, c :: rest =>
    if rest.length + 1 = n then hasMalformedMember stack .value (c :: rest)
    else if c = '"' then hasMalformedMemberBehind n stack .text rest
    else if c = '{' then hasMalformedMemberBehind n (true :: stack) .firstKey rest
    else if c = '[' then hasMalformedMemberBehind n (false :: stack) .value rest
    else if c = '}' ∨ c = ']' then hasMalformedMemberBehind n stack.tail .value rest
    else if c = ',' then
      if stack.headD false then hasMalformedMemberBehind n stack .nextKey rest
      else hasMalformedMemberBehind n stack .value rest
    else hasMalformedMemberBehind n stack .value rest
  | stack, .firstKey, c :: rest =>
    if isWhitespace c then hasMalformedMemberBehind n stack .firstKey rest
    else if c = '"' then hasMalformedMemberBehind n stack .key rest
    else if c = '}' then hasMalformedMemberBehind n stack.tail .value rest
    else false
  | stack, .nextKey, c :: rest =>
    if isWhitespace c then hasMalformedMemberBehind n stack .nextKey rest
    else if c = '"' then hasMalformedMemberBehind n stack .key rest
    else false
  | stack, .key, c :: rest =>
    if c = '\\' then hasMalformedMemberBehind n stack .keyEscape rest
    else if c = '"' then hasMalformedMemberBehind n stack .colon rest
    else hasMalformedMemberBehind n stack .key rest
  | stack, .keyEscape, _ :: rest => hasMalformedMemberBehind n stack .key rest
  | stack, .colon, c :: rest =>
    if isWhitespace c then hasMalformedMemberBehind n stack .colon rest
    else if c = ':' then
      if valueMissing rest then false else hasMalformedMemberBehind n stack .value rest
    else false
  | stack, .text, c :: rest =>
    if c = '\\' then hasMalformedMemberBehind n stack .textEscape rest
    else if c = '"' then hasMalformedMemberBehind n stack .value rest
    else hasMalformedMemberBehind n stack .text rest
  | stack, .textEscape, _ :: rest => hasMalformedMemberBehind n stack .text rest

/-- The structural tokens of a JSON text: `[`, `]`, `{`, `}`, `,` and `:`. -/
def isStructural (c : Char) : Bool :=
  decide (c = '[' ∨ c = ']' ∨ c = '{' ∨ c = '}' ∨ c = ',' ∨ c = ':')

/-- The state of a left-to-right scan behind a piece of text, from the state in front of
it: outside the string literals, inside one, or behind a backslash inside one. -/
def scanState : EScanState → string → EScanState
  | s, [] => s
  | .code, c :: rest => if c = '"' then scanState .text rest else scanState .code rest
  | .text, c :: rest =>
    if c = '\\' then scanState .escape rest
    else if c = '"' then scanState .code rest
    else scanState .text rest
  | .escape, _ :: rest => scanState .text rest

/-- A place of the text `a ++ b`, between `a` and `b`, that is the start of the text, its
end, or immediately behind or immediately in front of a structural token that lies outside
the string literals. -/
def InsertionPoint (a b : string) : Prop :=
  a = [] ∨ b = []
  ∨ (∃ a0 c, a = a0 ++ [c] ∧ isStructural c = true ∧ scanState .code a0 = .code)
  ∨ (∃ c b0, b = c :: b0 ∧ isStructural c = true ∧ scanState .code a = .code)

/-- What is left of an insertion point while the text in front of it is read: `a` is the
part in front of the place that has not been read yet, `b` the text behind the place. -/
def Boundary (a b : string) : Prop :=
  b = [] ∨ (scanState .code a = .code
    ∧ (a = [] ∨ (∃ c, a.getLast? = some c ∧ isStructural c = true)
      ∨ isStructural (peek b) = true))

/-- The cursors `p` and `p1` stand at the same place of a text and of the text with `w`
inserted in front of `b`: both behind the place, or both in front of it. -/
def Inserted (w b p p1 : string) : Prop :=
  p1 = p ∨ ∃ a, p = a ++ b ∧ p1 = a ++ (w ++ b) ∧ Boundary a b

/-- As `Inserted`, with both cursors behind the place or both strictly in front of it. -/
def InsertedInside (w b p p1 : string) : Prop :=
  p1 = p ∨ ∃ a, a ≠ [] ∧ p = a ++ b ∧ p1 = a ++ (w ++ b) ∧ Boundary a b

/-- A whole number of magnitude at most `2^53`. -/
def WholeNumber53 : Double → Prop
  | .finite q => q.den = 1 ∧ |q| ≤ 2 ^ 53
  | _ => False

/-! ## Construction from values -/

/-- Models the constructor `TJsonNode::TJsonNode(bool)`. -/
def construct_bool (value : Bool) : TJsonNode := Boolean value

/-- Models the constructor `TJsonNode::TJsonNode(int)`. -/
def construct_int (value : Int) : TJsonNode := Number (Double.ofInt value)

/-- Models the constructors `TJsonNode::TJsonNode(const std::string&)` and
`TJsonNode::TJsonNode(std::string&&)`. -/
def construct_string (value : string) : TJsonNode := String value

/-- Models `TJsonNode::InitFromVector` (both overloads): the range-`for` loop that appends
`TJsonNode(item)` to `*Value_.Array`, whose content so far is `array`; `construct` is the
constructor overload resolution selects for `Type`. -/
def InitFromVector {T : Type} (construct : T → TJsonNode) : List T → TArray → TArray
  | [], array => array
  | item :: rest, array => InitFromVector construct rest (array ++ [construct item])

/-- Models the constructors `TJsonNode::TJsonNode(const std::vector<Type>&)` and
`TJsonNode::TJsonNode(std::vector<Type>&&)`. -/
def construct_vector {T : Type} (construct : T → TJsonNode) (value : List T) : TJsonNode :=
  -- `Value_.Array = new TArray(); InitFromVector(value)`
  Array (InitFromVector construct value [])

/-- The texts `x` and `y` read alike: a scan is outside the string literals behind each of
them when it is in front, and wherever `x` stands in a text, outside the string literals,
`Parse` returns a document for the text exactly when it returns that document for the
text with `y` in the place of `x`. -/
def ReadsAlike (x y : string) : Prop :=
  scanState .code x = .code ∧ scanState .code y = .code
  ∧ ∀ (pre post : string) (d : TJsonNode), scanState .code pre = .code →
      (Parse (pre ++ (x ++ post)) = .ok d ↔ Parse (pre ++ (y ++ post)) = .ok d)

/-! ## The parser over a terminated buffer, every access checked

A second embedding of the parsing functions, for the accesses to the text.  The text is a
buffer that ends with its terminator; a cursor is the part of the buffer from its position
on, so it is the empty list exactly when it stands behind the terminator.  Every `*ptr` and
every `++ptr` of the source is a step that can fail: the result `none` says that the code
read a character behind the terminator or moved the cursor behind it. -/

/-- Models `*ptr` over the buffer: `none` when the cursor stands behind the terminator. -/
def deref : string → Option Char
  | [] => none
  | c :: _ => some c

/-- Models `++ptr` over the buffer: `none` when the cursor would leave the buffer, that is,
when it stands on the last character (the terminator) or behind it. -/
def increment : string → Option string
  | [] => none
  | [_] => none
  | _ :: c :: rest => some (c :: rest)

/-- Models `TJsonNode::SkipWhitespace` over the buffer. -/
def SkipWhitespace_checked : string → Option string
  | [] => none
  | [c] => if c = ' ' ∨ c = '\t' ∨ c = '\n' ∨ c = '\r' then none else some [c]
  | c :: d :: rest =>
    if c = ' ' ∨ c = '\t' ∨ c = '\n' ∨ c = '\r' then SkipWhitespace_checked (d :: rest)
    else some (c :: d :: rest)

/-- The loops `while (*ptr >= '0' && *ptr <= '9') ++ptr;` of `TJsonNode::ParseNumber` over
the buffer. -/
def skipDigits_checked : string → Option string
  | [] => none
  | [c] => if isDigit c then none else some [c]
  | c :: d :: rest =>
    if isDigit c then skipDigits_checked (d :: rest) else some (c :: d :: rest)

/-- Models `strncmp(ptr, literal, len) == 0` over the buffer, `len` being the length of the
literal: the characters are compared one by one, up to the first difference, the first NUL or
`len` characters. -/
def strncmp_checked : string → string → Option Bool
  | _, [] => some true
  | [], _ :: _ => none
  | c :: rest, l :: literal =>
    if c ≠ l then some false
    else if c = Char.ofNat 0 then some true
    else strncmp_checked rest literal

/-- Models `ptr += len` over the buffer, one step at a time. -/
def advance_checked : Nat → string → Option string
  | 0, ptr => some ptr
  | len + 1, ptr =>
    match increment ptr with
    | none => none
    | some ptr1 => advance_checked len ptr1

/-- Models `TJsonNode::ParseLiteral` over the buffer. -/
def ParseLiteral_checked (ptr literal : string) (value : TJsonNode) :
    Option (Except TException (TJsonNode × string)) :=
  match strncmp_checked ptr literal with
  | none => none
  | some false => some (.error (.expectedLiteral literal))
  | some true =>
    match advance_checked literal.length ptr with
    | none => none
    | some ptr1 => some (.ok (value, ptr1))

/-- The `for` loop over the hexadecimal digits of a `\u` escape in `TJsonNode::ParseString`
over the buffer: `count` digits are still to be read, `codepoint` is the value so far. -/
def ParseString_codepoint_checked :
    Nat → Nat → string → Option (Except TException (Nat × string))
  | 0, codepoint, ptr => some (.ok (codepoint, ptr))
  | count + 1, codepoint, ptr =>
    match deref ptr with
    | none => none
    | some ch =>
      match hexValue ch with
      | none => some (.error .invalidUnicodeEscape)
      | some d =>
        match increment ptr with
        | none => none
        | some ptr1 => ParseString_codepoint_checked count (codepoint * 16 + d) ptr1

/-- The character the `switch` of `TJsonNode::ParseString` appends for the escape `\e`, for
the eight escapes of one character. -/
def simpleEscape (e : Char) : Option Char :=
  if e = '"' then some '"'
  else if e = '\\' then some '\\'
  else if e = '/' then some '/'
  else if e = 'b' then some (Char.ofNat 8)
  else if e = 'f' then some (Char.ofNat 12)
  else if e = 'n' then some '\n'
  else if e = 'r' then some '\r'
  else if e = 't' then some '\t'
  else none

/-- The `while` loop of `TJsonNode::ParseString` over the buffer, together with the check of
the closing quote that follows it. -/
def ParseString_loop_checked :
    Nat → string → string → Option (Except TException (string × string))
  | 0, _, _ => some (.error .outOfFuel)
  | fuel + 1, ptr, result =>
    match deref ptr with
    | none => none
    | some c =>
      if c = '"' then
        match increment ptr with
        | none => none
        | some ptr1 => some (.ok (result, ptr1))
      else if c = Char.ofNat 0 then some (.error .unterminatedString)
      else if c = '\\' then
        match increment ptr with
        | none => none
        | some ptr1 =>
          match deref ptr1 with
          | none => none
          | some e =>
            match simpleEscape e with
            | some u =>
              match increment ptr1 with
              | none => none
              | some ptr2 => ParseString_loop_checked fuel ptr2 (result ++ [u])
            | none =>
              if e = 'u' then
                match increment ptr1 with
                | none => none
                | some ptr2 =>
                  match ParseString_codepoint_checked 4 0 ptr2 with
                  | none => none
                  | some (.error x) => some (.error x)
                  | some (.ok (codepoint, ptr3)) =>
                    if codepoint < 128 then
                      ParseString_loop_checked fuel ptr3 (result ++ [Char.ofNat codepoint])
                    else ParseString_loop_checked fuel ptr3 (result ++ ['?'])
              else some (.error (.invalidEscape e))
      else
        match increment ptr with
        | none => none
        | some ptr1 => ParseString_loop_checked fuel ptr1 (result ++ [c])

/-- Models `TJsonNode::ParseString` over the buffer. -/
def ParseString_checked (ptr : string) : Option (Except TException (TJsonNode × string)) :=
  match deref ptr with
  | none => none
  | some c =>
    if c ≠ '"' then some (.error .expectedStringStart)
    else
      match increment ptr with
      | none => none
      | some ptr1 =>
        match ParseString_loop_checked ptr1.length ptr1 [] with
        | none => none
        | some (.error e) => some (.error e)
        | some (.ok (result, ptr2)) => some (.ok (String result, ptr2))

/-- Models `TJsonNode::ParseNumber` over the buffer, the scan of the integer part. -/
def ParseNumber_integer_checked (ptr : string) : Option (Except TException string) :=
  match deref ptr with
  | none => none
  | some c =>
    if c = '0' then
      match increment ptr with
      | none => none
      | some ptr1 => some (.ok ptr1)
    else if 49 ≤ c.toNat ∧ c.toNat ≤ 57 then
      match skipDigits_checked ptr with
      | none => none
      | some ptr1 => some (.ok ptr1)
    else some (.error .invalidNumberFormat)

/-- Models `TJsonNode::ParseNumber` over the buffer, the scan of the optional fractional
part. -/
def ParseNumber_fraction_checked (ptr : string) : Option (Except TException string) :=
  match deref ptr with
  | none => none
  | some c =>
    if c = '.' then
      match increment ptr with
      | none => none
      | some ptr1 =>
        match deref ptr1 with
        | none => none
        | some d =>
          if isDigit d then
            match skipDigits_checked ptr1 with
            | none => none
            | some ptr2 => some (.ok ptr2)
          else some (.error .expectedDigitAfterPoint)
    else some (.ok ptr)

/-- Models `TJsonNode::ParseNumber` over the buffer, the scan of the optional exponent. -/
def ParseNumber_exponent_checked (ptr : string) : Option (Except TException string) :=
  match deref ptr with
  | none => none
  | some c =>
    if c = 'e' ∨ c = 'E' then
      match increment ptr with
      | none => none
      | some ptr1 =>
        match deref ptr1 with
        | none => none
        | some s =>
          if s = '+' ∨ s = '-' then
            match increment ptr1 with
            | none => none
            | some ptr2 =>
              match deref ptr2 with
              | none => none
              | some d =>
                if isDigit d then
                  match skipDigits_checked ptr2 with
                  | none => none
                  | some ptr3 => some (.ok ptr3)
                else some (.error .expectedDigitInExponent)
          else if isDigit s then
            match skipDigits_checked ptr1 with
            | none => none
            | some ptr2 => some (.ok ptr2)
          else some (.error .expectedDigitInExponent)
    else some (.ok ptr)

/-- Models `TJsonNode::ParseNumber` over the buffer.  `std::string numStr(start, ptr - start)`
copies characters in front of the cursor, which the scan has read already. -/
def ParseNumber_checked (start : string) : Option (Except TException (TJsonNode × string)) :=
  match deref start with
  | none => none
  | some c =>
    -- optional minus sign
    match (if c = '-' then increment start else some start) with
    | none => none
    | some ptr0 =>
      match ParseNumber_integer_checked ptr0 with
      | none => none
      | some (.error e) => some (.error e)
      | some (.ok ptr1) =>
        match ParseNumber_fraction_checked ptr1 with
        | none => none
        | some (.error e) => some (.error e)
        | some (.ok ptr2) =>
          match ParseNumber_exponent_checked ptr2 with
          | none => none
          | some (.error e) => some (.error e)
          | some (.ok ptr) =>
            match stod (start.take (start.length - ptr.length)) with
            | .error e => some (.error e)
            | .ok value => some (.ok (Number value, ptr))

/-- The `while (true)` loop of `TJsonNode::ParseArray` over the buffer. -/
def ParseArray_loop_checked
    (ParseValue : string → Option (Except TException (TJsonNode × string))) :
    Nat → string → List TJsonNode → Option (Except TException (TJsonNode × string))
  | 0, _, _ => some (.error .outOfFuel)
  | fuel + 1, ptr, result =>
    match ParseValue ptr with
    | none => none
    | some (.error e) => some (.error e)
    | some (.ok (value, ptr1)) =>
      match SkipWhitespace_checked ptr1 with
      | none => none
      | some ptr2 =>
        match deref ptr2 with
        | none => none
        | some c =>
          if c = ']' then
            match increment ptr2 with
            | none => none
            | some ptr3 => some (.ok (Array (result ++ [value]), ptr3))
          else if c ≠ ',' then some (.error .expectedCommaOrBracket)
          else
            match increment ptr2 with
            | none => none
            | some ptr3 =>
              match SkipWhitespace_checked ptr3 with
              | none => none
              | some ptr4 => ParseArray_loop_checked ParseValue fuel ptr4 (result ++ [value])

/-- Models `TJsonNode::ParseArray` over the buffer, given the parser of the elements. -/
def ParseArray_checked
    (ParseValue : string → Option (Except TException (TJsonNode × string)))
    (ptr : string) : Option (Except TException (TJsonNode × string)) :=
  match deref ptr with
  | none => none
  | some c =>
    if c ≠ '[' then some (.error .expectedArrayStart)
    else
      match increment ptr with
      | none => none
      | some ptr1 =>
        match SkipWhitespace_checked ptr1 with
        | none => none
        | some ptr2 =>
          match deref ptr2 with
          | none => none
          | some d =>
            if d = ']' then
              match increment ptr2 with
              | none => none
              | some ptr3 => some (.ok (Array [], ptr3))
            else ParseArray_loop_checked ParseValue ptr2.length ptr2 []

/-- The `while (true)` loop of `TJsonNode::ParseObject` over the buffer. -/
def ParseObject_loop_checked
    (ParseValue : string → Option (Except TException (TJsonNode × string))) :
    Nat → string → List (string × TJsonNode)
      → Option (Except TException (TJsonNode × string))
  | 0, _, _ => some (.error .outOfFuel)
  | fuel + 1, ptr, result =>
    match SkipWhitespace_checked ptr with
    | none => none
    | some ptr0 =>
      match deref ptr0 with
      | none => none
      | some c =>
        if c ≠ '"' then some (.error .expectedKeyQuote)
        else
          match ParseString_checked ptr0 with
          | none => none
          | some (.error e) => some (.error e)
          | some (.ok (keyNode, ptr1)) =>
            match operator_string keyNode with
            | .error e => some (.error e)
            | .ok key =>
              match SkipWhitespace_checked ptr1 with
              | none => none
              | some ptr2 =>
                match deref ptr2 with
                | none => none
                | some d =>
                  if d ≠ ':' then some (.error .expectedColon)
                  else
                    match increment ptr2 with
                    | none => none
                    | some ptr3 =>
                      match ParseValue ptr3 with
                      | none => none
                      | some (.error e) => some (.error e)
                      | some (.ok (value, ptr4)) =>
                        match SkipWhitespace_checked ptr4 with
                        | none => none
                        | some ptr5 =>
                          match deref ptr5 with
                          | none => none
                          | some f =>
                            if f = '}' then
                              match increment ptr5 with
                              | none => none
                              | some ptr6 =>
                                some (.ok (Object (umap_emplace result key value).1, ptr6))
                            else if f ≠ ',' then some (.error .expectedCommaOrBrace)
                            else
                              match increment ptr5 with
                              | none => none
                              | some ptr6 =>
                                ParseObject_loop_checked ParseValue fuel ptr6
                                  (umap_emplace result key value).1

/-- Models `TJsonNode::ParseObject` over the buffer, given the parser of the member values. -/
def ParseObject_checked
    (ParseValue : string → Option (Except TException (TJsonNode × string)))
    (ptr : string) : Option (Except TException (TJsonNode × string)) :=
  match deref ptr with
  | none => none
  | some c =>
    if c ≠ '{' then some (.error .expectedObjectStart)
    else
      match increment ptr with
      | none => none
      | some ptr1 =>
        match SkipWhitespace_checked ptr1 with
        | none => none
        | some ptr2 =>
          match deref ptr2 with
          | none => none
          | some d =>
            if d = '}' then
              match increment ptr2 with
              | none => none
              | some ptr3 => some (.ok (Object [], ptr3))
            else ParseObject_loop_checked ParseValue ptr2.length ptr2 []

/-- Models `TJsonNode::ParseValue` over the buffer; `fuel` bounds the nesting depth. -/
def ParseValue_checked : Nat → string → Option (Except TException (TJsonNode × string))
  | 0, _ => some (.error .outOfFuel)
  | fuel + 1, ptr =>
    match SkipWhitespace_checked ptr with
    | none => none
    | some ptr0 =>
      match deref ptr0 with
      | none => none
      | some c =>
        if c = 'n' then ParseLiteral_checked ptr0 ['n', 'u', 'l', 'l'] Null
        else if c = 't' then ParseLiteral_checked ptr0 ['t', 'r', 'u', 'e'] (Boolean true)
        else if c = 'f' then
          ParseLiteral_checked ptr0 ['f', 'a', 'l', 's', 'e'] (Boolean false)
        else if c = '"' then ParseString_checked ptr0
        else if c = '[' then ParseArray_checked (ParseValue_checked fuel) ptr0
        else if c = '{' then ParseObject_checked (ParseValue_checked fuel) ptr0
        else if c = '-' ∨ isDigit c then ParseNumber_checked ptr0
        else some (.error (.unexpectedCharacter c))

/-- Models `TJsonNode::Parse(const char*)` over the buffer `json`, which ends with its
terminator: `none` when the code reads a character behind the terminator or moves the
cursor behind it, the outcome of the call otherwise. -/
def Parse_checked (json : string) : Option (Except TException TJsonNode) :=
  match SkipWhitespace_checked json with
  | none => none
  | some ptr0 =>
    match deref ptr0 with
    | none => none
    | some c =>
      if c = Char.ofNat 0 then some (.error .emptyJson)
      else
        match ParseValue_checked ptr0.length ptr0 with
        | none => none
        | some (.error e) => some (.error e)
        | some (.ok (result, ptr1)) =>
          match SkipWhitespace_checked ptr1 with
          | none => none
          | some ptr2 =>
            match deref ptr2 with
            | none => none
            | some d =>
              if d ≠ Char.ofNat 0 then some (.error .trailingCharacters)
              else some (.ok result)

/-- The outcome of a step of the parser on a text, with the cursor it leaves taken in the
buffer that holds the text and its terminator. -/
def inBuffer {α : Type} : Except TException (α × string) → Except TException (α × string)
  | .ok (v, r) => .ok (v, r ++ [Char.ofNat 0])
  | .error e => .error e

end TJsonNode

end NJson

/-!
# NCommon::GetOpts — the positional-argument constraints of `src/common/getopts.{h,cpp}`

`size_t` values are natural numbers (only compared, never added); `std::optional<size_t>`
is `Option Nat`.
-/

namespace NCommon

/-- The exceptions the constraint code raises, one constructor per message of
`getopts.cpp`. -/
inductive TGetOptsException where
  /-- Message "Expected exactly {} argument(s), but got {}" -/
  | expectedExactly (expected got : Nat)
  /-- Message "Expected at least {} argument(s), but got {}" -/
  | expectedAtLeast (expected got : Nat)
  /-- Message "Expected at most {} argument(s), but got {}" -/
  | expectedAtMost (expected got : Nat)
  /-- Message "Min count ({}) must be <= max count ({})" -/
  | minAboveMax (minCount maxCount : Nat)
  /-- Message "Cannot have both subcommands and positional arguments constraints" -/
  | subcommandsAndConstraints
  deriving DecidableEq, Repr

/-- Modelled from the spec: `common/exception.h` (the `ASSERT` and `THROW` macros) is not
among the sources.  `ASSERT(condition, message...)` is taken to raise the exception with
that message when the condition is false and to do nothing otherwise, as the use of the
macro to reject the input of the user (unknown options, missing arguments) requires. -/
def ASSERT (condition : Bool) (e : TGetOptsException) : Except TGetOptsException Unit :=
  if condition then .ok () else .error e

/-- Models `GetOpts::TSubcommandInfo` without the pointer to the instance. -/
structure TSubcommandInfo where
  Name : List Char
  HelpText : List Char
  deriving DecidableEq

/-- Models the data members of `GetOpts` that the constraints on the positional arguments
read and write. -/
structure GetOpts where
  Positional_ : List (List Char)
  Subcommands_ : List TSubcommandInfo
  ArgsMinCount_ : Option Nat
  ArgsMaxCount_ : Option Nat
  HasArgumentsConstraints_ : Bool
  deriving DecidableEq

namespace GetOpts

/-- Models the state of these members behind the constructor `GetOpts() = default`. -/
def default : GetOpts := ⟨[], [], none, none, false⟩

/-- Models `GetOpts::ValidateNoArgumentsAndSubcommands`. -/
def ValidateNoArgumentsAndSubcommands (self : GetOpts) : Except TGetOptsException Unit :=
  ASSERT (self.Subcommands_.isEmpty || !self.HasArgumentsConstraints_) .subcommandsAndConstraints

/-- Models `GetOpts::SetArgumentsCount`. -/
def SetArgumentsCount (self : GetOpts) (count : Nat) : Except TGetOptsException GetOpts :=
  match ValidateNoArgumentsAndSubcommands self with
  | .error e => .error e
  | .ok () =>
    .ok { self with
      ArgsMinCount_ := some count, ArgsMaxCount_ := some count,
      HasArgumentsConstraints_ := true }

/-- Models `GetOpts::SetArgumentsMinCount`. -/
def SetArgumentsMinCount (self : GetOpts) (minCount : Nat) : Except TGetOptsException GetOpts :=
  match ValidateNoArgumentsAndSubcommands self with
  | .error e => .error e
  | .ok () => .ok { self with ArgsMinCount_ := some minCount, HasArgumentsConstraints_ := true }

/-- Models `GetOpts::SetArgumentsMaxCount`. -/
def SetArgumentsMaxCount (self : GetOpts) (maxCount : Nat) : Except TGetOptsException GetOpts :=
  match ValidateNoArgumentsAndSubcommands self with
  | .error e => .error e
  | .ok () => .ok { self with ArgsMaxCount_ := some maxCount, HasArgumentsConstraints_ := true }

/-- Models `GetOpts::SetArgumentsRange`. -/
def SetArgumentsRange (self : GetOpts) (minCount maxCount : Nat) :
    Except TGetOptsException GetOpts :=
  match ValidateNoArgumentsAndSubcommands self with
  | .error e => .error e
  | .ok () =>
    match ASSERT (decide (minCount ≤ maxCount)) (.minAboveMax minCount maxCount) with
    | .error e => .error e
    | .ok () =>
      .ok { self with
        ArgsMinCount_ := some minCount, ArgsMaxCount_ := some maxCount,
        HasArgumentsConstraints_ := true }

/-- Models `GetOpts::ProcessPositional`. -/
def ProcessPositional (self : GetOpts) (arg : List Char) : GetOpts :=
  { self with Positional_ := self.Positional_ ++ [arg] }

/-- Models `GetOpts::ValidateArguments`.  The dereference `*ArgsMinCount_` of an optional
is `getD 0`; the code evaluates it only behind `has_value()`. -/
def ValidateArguments (self : GetOpts) : Except TGetOptsException Unit :=
  if !self.HasArgumentsConstraints_ then .ok ()
  else
    -- `size_t argsCount = Positional_.size()`
    if self.ArgsMinCount_.isSome
        && decide (self.Positional_.length < self.ArgsMinCount_.getD 0) then
      if self.ArgsMaxCount_.isSome
          && decide (self.ArgsMinCount_.getD 0 = self.ArgsMaxCount_.getD 0) then
        .error (.expectedExactly (self.ArgsMinCount_.getD 0) self.Positional_.length)
      else .error (.expectedAtLeast (self.ArgsMinCount_.getD 0) self.Positional_.length)
    else if self.ArgsMaxCount_.isSome
        && decide (self.Positional_.length > self.ArgsMaxCount_.getD 0) then
      if self.ArgsMinCount_.isSome
          && decide (self.ArgsMinCount_.getD 0 = self.ArgsMaxCount_.getD 0) then
        .error (.expectedExactly (self.ArgsMaxCount_.getD 0) self.Positional_.length)
      else .error (.expectedAtMost (self.ArgsMaxCount_.getD 0) self.Positional_.length)
    else .ok ()

end GetOpts

end NCommon

namespace NJson

/-! # Theorems -/

/-! ## The mapping -/

theorem umap_find_append {V : Type} (m : List (string × V)) (k : string) (v : V)
    (key : string) :
    umap_find (m ++ [(k, v)]) key
      = match umap_find m key with
        | some w => some w
        | none => if k = key then some v else none := by
  induction m with
  | nil => simp [umap_find]
  | cons kv rest ih =>
    obtain ⟨k0, v0⟩ := kv
    by_cases h : k0 = key
    · simp [umap_find, h]
    · simp [umap_find, h, ih]


namespace TJsonNode

/-! ## Accessors and mutators -/

/-- C4: keyed `operator[]` auto-vivifies.  On a Null node it yields the Object whose only
member is `k ↦ Null`; on an Object it leaves the node unchanged when `k` is a member and
otherwise adds `k ↦ Null`, every other member and the count of the old members being kept;
and `v[a][b] = x` on a Null `v` leaves `v` equal to the Object `{a: {b: x}}`. -/
theorem operator_index_key_autovivifies (k a b : string) (x : TJsonNode) (m : TObject) :
    operator_index_key Null k = (.ok Null, Object [(k, Null)])
    ∧ (match umap_find m k with
        | some v => operator_index_key (Object m) k = (.ok v, Object m)
        | none =>
          ∃ m', operator_index_key (Object m) k = (.ok Null, Object m')
            ∧ umap_find m' k = some Null
            ∧ (∀ k', k' ≠ k → umap_find m' k' = umap_find m k')
            ∧ m'.length = m.length + 1)
    ∧ index_index_assign Null a b x = (.ok (), Object [(a, Object [(b, x)])]) := by
  refine ⟨by simp [operator_index_key, umap_find], ?_, ?_⟩
  · cases hf : umap_find m k with
    | some v => simp [operator_index_key, hf]
    | none =>
      refine ⟨m ++ [(k, Null)], by simp [operator_index_key, hf], ?_, ?_, by simp⟩
      · simp [umap_find_append, hf]
      · intro k' hk'
        rw [umap_find_append]
        cases hf' : umap_find m k' with
        | some w => rfl
        | none => simp [Ne.symm hk']
  · simp [index_index_assign, operator_index_key, umap_find, store_key, umap_store]

/-- C5 (as stated, refuted): `at("a")` on a Null node does not fail with the key-missing
error. -/
theorem at_key_Null_not_KeyNotFound :
    ¬ ∃ e, (at_key Null ['a']).1 = .error e ∧ e.kind = some EErrorKind.KeyNotFound := by
  rintro ⟨e, he, hk⟩
  have h : e = TException.notObject := by
    simp only [at_key] at he
    exact (Except.error.inj he).symm
  subst h
  simp [TException.kind] at hk

/-- C5 (amended): for a Null node and every key, `at(key)` fails with the wrong-kind error
("TJsonNode is not an object") and the node is still Null afterwards. -/
theorem at_key_Null_WrongKind (k : string) :
    at_key Null k = (.error .notObject, Null)
    ∧ TException.notObject.kind = some EErrorKind.WrongKind := by
  exact ⟨rfl, rfl⟩

/-- C7: `insert` and `emplace` never auto-vivify.  On an Object they succeed; on every
other kind, Null included, they fail with WrongKind and leave the node as it was. -/
theorem insert_emplace_require_Object (v : TJsonNode) (k : string) (x : TJsonNode) :
    (match v with
      | Object _ => (∃ r, (insert v k x).1 = .ok r) ∧ (∃ r, (emplace v k x).1 = .ok r)
      | _ => insert v k x = (.error .notObject, v) ∧ emplace v k x = (.error .notObject, v))
    ∧ insert Null k x = (.error .notObject, Null)
    ∧ emplace Null k x = (.error .notObject, Null)
    ∧ TException.notObject.kind = some EErrorKind.WrongKind := by
  refine ⟨?_, rfl, rfl, rfl⟩
  cases v <;> simp [insert, emplace]

/-- C8: key-checked access.  On an Object, `at(k)` returns the value stored under `k` when
`k` is a member and fails with KeyNotFound when it is not; on a Boolean, Number, String or
Array node it fails with WrongKind; the node is never changed. -/
theorem at_key_checked (v : TJsonNode) (k : string) :
    (at_key v k).2 = v
    ∧ (match v with
        | Object m =>
          (match umap_find m k with
            | some w => (at_key v k).1 = .ok w
            | none => ∃ e, (at_key v k).1 = .error e ∧ e.kind = some EErrorKind.KeyNotFound)
        | Null => True
        | _ => ∃ e, (at_key v k).1 = .error e ∧ e.kind = some EErrorKind.WrongKind) := by
  cases v with
  | Object m =>
    cases hf : umap_find m k with
    | some w => simp [at_key, hf]
    | none => simp [at_key, hf, TException.kind]
  | _ => simp [at_key, TException.kind]

/-- C9: index access is strict and identical for `at(index)` and `operator[](index)`:
both return the `i`-th element of an Array when `i < size`, both fail with IndexOutOfRange
when `i >= size`, both fail with WrongKind on every other kind (Null included), and neither
changes the node. -/
theorem at_idx_operator_index_idx_agree (v : TJsonNode) (i : Nat) :
    at_idx v i = operator_index_idx v i
    ∧ (at_idx v i).2 = v
    ∧ (operator_index_idx v i).2 = v
    ∧ (match v with
        | Array xs =>
          (match xs[i]? with
            | some w => i < xs.length ∧ (at_idx v i).1 = .ok w
            | none =>
              xs.length ≤ i
                ∧ ∃ e, (at_idx v i).1 = .error e ∧ e.kind = some EErrorKind.IndexOutOfRange)
        | _ => ∃ e, (at_idx v i).1 = .error e ∧ e.kind = some EErrorKind.WrongKind) := by
  cases v with
  | Array xs =>
    cases hg : xs[i]? with
    | some w =>
      have hlt : i < xs.length := by
        by_contra hcon
        rw [List.getElem?_eq_none (by omega)] at hg
        cases hg
      simp [at_idx, operator_index_idx, hg, hlt]
    | none =>
      have hle : xs.length ≤ i := by
        by_contra hcon
        rw [List.getElem?_eq_getElem (by omega)] at hg
        cases hg
      simp [at_idx, operator_index_idx, hg, hle, TException.kind]
  | _ => simp [at_idx, operator_index_idx, TException.kind]

/-- C10: on a Boolean, Number, String or Array node, `operator[](k)` fails with WrongKind
and leaves the node unchanged (kind and payload). -/
theorem operator_index_key_WrongKind (k : string) (b : Bool) (d : Double) (s : string)
    (es : TArray) :
    operator_index_key (Boolean b) k = (.error .notObject, Boolean b)
    ∧ operator_index_key (Number d) k = (.error .notObject, Number d)
    ∧ operator_index_key (String s) k = (.error .notObject, String s)
    ∧ operator_index_key (Array es) k = (.error .notObject, Array es)
    ∧ TException.notObject.kind = some EErrorKind.WrongKind := by
  exact ⟨rfl, rfl, rfl, rfl, rfl⟩

/-! ## The cursor -/

theorem SkipWhitespace_suffix (p : string) : SkipWhitespace p <:+ p := by
  induction p with
  | nil => simp [SkipWhitespace]
  | cons c rest ih =>
    unfold SkipWhitespace
    split
    · exact ih.trans (List.suffix_cons c rest)
    · exact List.suffix_refl _

theorem SkipWhitespace_length_le (p : string) : (SkipWhitespace p).length ≤ p.length :=
  (SkipWhitespace_suffix p).length_le

theorem SkipWhitespace_eq_nil_iff (p : string) :
    SkipWhitespace p = [] ↔ ∀ c ∈ p, isWhitespace c = true := by
  induction p with
  | nil => simp [SkipWhitespace]
  | cons c rest ih =>
    unfold SkipWhitespace
    by_cases h : c = ' ' ∨ c = '\t' ∨ c = '\n' ∨ c = '\r'
    · simp only [h, if_true, ih]
      simp [isWhitespace, h]
    · simp only [h, if_false]
      simp [isWhitespace, h]

theorem tail_suffix (p : string) : p.tail <:+ p := by
  cases p with
  | nil => simp
  | cons c rest => exact List.suffix_cons c rest


theorem Advanced.of_suffix_left {r q p : string} (h1 : r <:+ q) (h2 : Advanced q p) :
    Advanced r p :=
  ⟨h1.trans h2.1, by have := h1.length_le; have := h2.2; omega⟩

theorem Advanced.of_suffix_right {r q p : string} (h1 : Advanced r q) (h2 : q <:+ p) :
    Advanced r p :=
  ⟨h1.1.trans h2, by have := h2.length_le; have := h1.2; omega⟩

theorem Advanced.trans {r q p : string} (h1 : Advanced r q) (h2 : Advanced q p) :
    Advanced r p :=
  h1.of_suffix_right h2.1

theorem Advanced_tail {p : string} (h : peek p ≠ Char.ofNat 0) : Advanced p.tail p := by
  cases p with
  | nil => simp [peek] at h
  | cons c rest => exact ⟨List.suffix_cons c rest, by simp⟩

theorem Advanced_tail_of_peek {p : string} {c : Char} (h : peek p = c)
    (hc : c ≠ Char.ofNat 0) : Advanced p.tail p :=
  Advanced_tail (by rw [h]; exact hc)

theorem dropWhile_suffix (f : Char → Bool) (p : string) : p.dropWhile f <:+ p := by
  induction p with
  | nil => simp
  | cons c rest ih =>
    rw [List.dropWhile_cons]
    split
    · exact ih.trans (List.suffix_cons c rest)
    · exact List.suffix_refl _

theorem ParseString_codepoint_suffix {p r : string} {cp : Nat}
    (h : ParseString_codepoint p = .ok (cp, r)) : r <:+ p := by
  unfold ParseString_codepoint at h
  split at h
  · cases h
  · split at h
    · cases h
    · split at h
      · cases h
      · split at h
        · cases h
        · injection h with h
          injection h with h1 h2
          subst h2
          exact (tail_suffix _).trans ((tail_suffix _).trans ((tail_suffix _).trans (tail_suffix _)))

theorem ParseString_loop_advanced (fuel : Nat) (p acc s r : string)
    (h : ParseString_loop fuel p acc = .ok (s, r)) : Advanced r p := by
  induction fuel generalizing p acc with
  | zero => simp [ParseString_loop] at h
  | succ fuel ih =>
    rw [ParseString_loop] at h
    have tt : p.tail.tail <:+ p := (tail_suffix _).trans (tail_suffix _)
    by_cases h1 : peek p = '"'
    · rw [if_pos h1] at h
      injection h with h
      injection h with ha hb
      subst hb
      exact Advanced_tail_of_peek h1 (by decide)
    rw [if_neg h1] at h
    by_cases h2 : peek p = Char.ofNat 0
    · rw [if_pos h2] at h
      cases h
    rw [if_neg h2] at h
    by_cases h3 : peek p = '\\'
    · rw [if_pos h3] at h
      by_cases e1 : peek p.tail = '"'
      · rw [if_pos e1] at h
        exact (ih _ _ h).of_suffix_right tt
      rw [if_neg e1] at h
      by_cases e2 : peek p.tail = '\\'
      · rw [if_pos e2] at h
        exact (ih _ _ h).of_suffix_right tt
      rw [if_neg e2] at h
      by_cases e3 : peek p.tail = '/'
      · rw [if_pos e3] at h
        exact (ih _ _ h).of_suffix_right tt
      rw [if_neg e3] at h
      by_cases e4 : peek p.tail = 'b'
      · rw [if_pos e4] at h
        exact (ih _ _ h).of_suffix_right tt
      rw [if_neg e4] at h
      by_cases e5 : peek p.tail = 'f'
      · rw [if_pos e5] at h
        exact (ih _ _ h).of_suffix_right tt
      rw [if_neg e5] at h
      by_cases e6 : peek p.tail = 'n'
      · rw [if_pos e6] at h
        exact (ih _ _ h).of_suffix_right tt
      rw [if_neg e6] at h
      by_cases e7 : peek p.tail = 'r'
      · rw [if_pos e7] at h
        exact (ih _ _ h).of_suffix_right tt
      rw [if_neg e7] at h
      by_cases e8 : peek p.tail = 't'
      · rw [if_pos e8] at h
        exact (ih _ _ h).of_suffix_right tt
      rw [if_neg e8] at h
      by_cases e9 : peek p.tail = 'u'
      · rw [if_pos e9] at h
        cases hcp : ParseString_codepoint p.tail.tail with
        | error e => rw [hcp] at h; cases h
        | ok res =>
          obtain ⟨cp, p1⟩ := res
          rw [hcp] at h
          have hs := ParseString_codepoint_suffix hcp
          by_cases hlt : cp < 128
          · simp only [hlt, if_true] at h
            exact (ih _ _ h).of_suffix_right (hs.trans tt)
          · simp only [hlt, if_false] at h
            exact (ih _ _ h).of_suffix_right (hs.trans tt)
      · rw [if_neg e9] at h
        cases h
    · rw [if_neg h3] at h
      exact (ih _ _ h).of_suffix_right (tail_suffix _)

theorem ParseString_advanced {p r : string} {v : TJsonNode}
    (h : ParseString p = .ok (v, r)) : Advanced r p := by
  unfold ParseString at h
  by_cases h1 : peek p ≠ '"'
  · rw [if_pos h1] at h
    cases h
  rw [if_neg h1] at h
  cases hl : ParseString_loop (p.tail.length + 1) p.tail [] with
  | error e => rw [hl] at h; cases h
  | ok res =>
    obtain ⟨s, p1⟩ := res
    rw [hl] at h
    injection h with h
    injection h with ha hb
    subst hb
    exact (ParseString_loop_advanced _ _ _ _ _ hl).of_suffix_right (tail_suffix _)

theorem ParseLiteral_advanced {p lit r : string} {v w : TJsonNode} (hlit : lit ≠ [])
    (h : ParseLiteral p lit v = .ok (w, r)) : Advanced r p := by
  unfold ParseLiteral at h
  by_cases h1 : p.take lit.length = lit
  · rw [if_pos h1] at h
    injection h with h
    injection h with ha hb
    subst hb
    refine ⟨List.drop_suffix _ _, ?_⟩
    have hlen : lit.length ≤ p.length := by
      have := congrArg List.length h1
      rw [List.length_take] at this
      omega
    have hpos : 0 < lit.length := List.length_pos.mpr hlit
    rw [List.length_drop]
    omega
  · rw [if_neg h1] at h
    cases h

theorem ParseNumber_integer_advanced {p r : string}
    (h : ParseNumber_integer p = .ok r) : Advanced r p := by
  unfold ParseNumber_integer at h
  by_cases h1 : peek p = '0'
  · rw [if_pos h1] at h
    injection h with h
    subst h
    exact Advanced_tail_of_peek h1 (by decide)
  rw [if_neg h1] at h
  by_cases h2 : 49 ≤ (peek p).toNat ∧ (peek p).toNat ≤ 57
  · rw [if_pos h2] at h
    injection h with h
    subst h
    cases p with
    | nil => simp [peek] at h2
    | cons c rest =>
      have hd : isDigit c = true := by
        simp only [peek, List.headD_cons] at h2
        simp only [isDigit, decide_eq_true_eq]
        omega
      rw [List.dropWhile_cons, if_pos hd]
      exact ⟨(dropWhile_suffix _ _).trans (List.suffix_cons c rest),
        by have := (dropWhile_suffix isDigit rest).length_le; simp; omega⟩
  · rw [if_neg h2] at h
    cases h

theorem ParseNumber_fraction_suffix {p r : string}
    (h : ParseNumber_fraction p = .ok r) : r <:+ p := by
  unfold ParseNumber_fraction at h
  by_cases h1 : peek p = '.'
  · rw [if_pos h1] at h
    by_cases h2 : isDigit (peek p.tail) = true
    · rw [if_pos h2] at h
      injection h with h
      subst h
      exact (dropWhile_suffix _ _).trans (tail_suffix _)
    · rw [if_neg h2] at h
      cases h
  · rw [if_neg h1] at h
    injection h with h
    subst h
    exact List.suffix_refl _

theorem ParseNumber_exponent_suffix {p r : string}
    (h : ParseNumber_exponent p = .ok r) : r <:+ p := by
  unfold ParseNumber_exponent at h
  by_cases h1 : peek p = 'e' ∨ peek p = 'E'
  · rw [if_pos h1] at h
    by_cases h2 : peek p.tail = '+' ∨ peek p.tail = '-'
    · rw [if_pos h2] at h
      by_cases h3 : isDigit (peek p.tail.tail) = true
      · rw [if_pos h3] at h
        injection h with h
        subst h
        exact (dropWhile_suffix _ _).trans ((tail_suffix _).trans (tail_suffix _))
      · rw [if_neg h3] at h
        cases h
    · rw [if_neg h2] at h
      by_cases h3 : isDigit (peek p.tail) = true
      · rw [if_pos h3] at h
        injection h with h
        subst h
        exact (dropWhile_suffix _ _).trans (tail_suffix _)
      · rw [if_neg h3] at h
        cases h
  · rw [if_neg h1] at h
    injection h with h
    subst h
    exact List.suffix_refl _

theorem ParseNumber_advanced {p r : string} {v : TJsonNode}
    (h : ParseNumber p = .ok (v, r)) : Advanced r p := by
  unfold ParseNumber at h
  cases h1 : ParseNumber_integer (if peek p = '-' then p.tail else p) with
  | error e => rw [h1] at h; cases h
  | ok p1 =>
    rw [h1] at h
    simp only at h
    cases h2 : ParseNumber_fraction p1 with
    | error e => rw [h2] at h; cases h
    | ok p2 =>
      rw [h2] at h
      simp only at h
      cases h3 : ParseNumber_exponent p2 with
      | error e => rw [h3] at h; cases h
      | ok p3 =>
        rw [h3] at h
        simp only at h
        cases h4 : stod (p.take (p.length - p3.length)) with
        | error e => simp [h4] at h
        | ok d =>
          rw [h4] at h
          injection h with h
          injection h with ha hb
          subst hb
          have hs : (if peek p = '-' then p.tail else p) <:+ p := by
            by_cases hm : peek p = '-'
            · rw [if_pos hm]; exact tail_suffix _
            · rw [if_neg hm]
          exact Advanced.of_suffix_left
            ((ParseNumber_exponent_suffix h3).trans (ParseNumber_fraction_suffix h2))
            ((ParseNumber_integer_advanced h1).of_suffix_right hs)

theorem ParseArray_loop_advanced {pv : string → Except TException (TJsonNode × string)}
    (hpv : Consuming pv) (fuel : Nat) (p : string) (acc : List TJsonNode) (v : TJsonNode)
    (r : string) (h : ParseArray_loop pv fuel p acc = .ok (v, r)) : Advanced r p := by
  induction fuel generalizing p acc with
  | zero => simp [ParseArray_loop] at h
  | succ fuel ih =>
    rw [ParseArray_loop] at h
    cases hv : pv p with
    | error e => rw [hv] at h; cases h
    | ok res =>
      obtain ⟨x, p1⟩ := res
      rw [hv] at h
      have a1 := hpv _ _ _ hv
      simp only at h
      by_cases c1 : peek (SkipWhitespace p1) = ']'
      · rw [if_pos c1] at h
        injection h with h
        injection h with ha hb
        subst hb
        exact Advanced.of_suffix_left ((tail_suffix _).trans (SkipWhitespace_suffix _)) a1
      rw [if_neg c1] at h
      by_cases c2 : peek (SkipWhitespace p1) ≠ ','
      · rw [if_pos c2] at h
        cases h
      rw [if_neg c2] at h
      have := ih _ _ h
      exact Advanced.of_suffix_left
        (this.1.trans ((SkipWhitespace_suffix _).trans
          ((tail_suffix _).trans (SkipWhitespace_suffix _)))) a1

theorem ParseArray_advanced {pv : string → Except TException (TJsonNode × string)}
    (hpv : Consuming pv) {p r : string} {v : TJsonNode}
    (h : ParseArray pv p = .ok (v, r)) : Advanced r p := by
  unfold ParseArray at h
  by_cases c0 : peek p ≠ '['
  · rw [if_pos c0] at h
    cases h
  rw [if_neg c0] at h
  have c0' : peek p = '[' := by simpa using c0
  have a0 : Advanced p.tail p := Advanced_tail_of_peek c0' (by decide)
  by_cases c1 : peek (SkipWhitespace p.tail) = ']'
  · rw [if_pos c1] at h
    injection h with h
    injection h with ha hb
    subst hb
    exact Advanced.of_suffix_left ((tail_suffix _).trans (SkipWhitespace_suffix _)) a0
  rw [if_neg c1] at h
  exact Advanced.of_suffix_left
    ((ParseArray_loop_advanced hpv _ _ _ _ _ h).1.trans (SkipWhitespace_suffix _)) a0

theorem ParseObject_loop_advanced {pv : string → Except TException (TJsonNode × string)}
    (hpv : Consuming pv) (fuel : Nat) (p : string) (acc : List (string × TJsonNode))
    (v : TJsonNode) (r : string) (h : ParseObject_loop pv fuel p acc = .ok (v, r)) :
    Advanced r p := by
  induction fuel generalizing p acc with
  | zero => simp [ParseObject_loop] at h
  | succ fuel ih =>
    rw [ParseObject_loop] at h
    by_cases c0 : peek (SkipWhitespace p) ≠ '"'
    · rw [if_pos c0] at h
      cases h
    rw [if_neg c0] at h
    cases hk : ParseString (SkipWhitespace p) with
    | error e => rw [hk] at h; cases h
    | ok res =>
      obtain ⟨keyNode, p1⟩ := res
      rw [hk] at h
      have a1 : Advanced p1 p := (ParseString_advanced hk).of_suffix_right (SkipWhitespace_suffix _)
      simp only at h
      cases hs : operator_string keyNode with
      | error e => rw [hs] at h; cases h
      | ok key =>
        rw [hs] at h
        simp only at h
        by_cases c1 : peek (SkipWhitespace p1) ≠ ':'
        · rw [if_pos c1] at h
          cases h
        rw [if_neg c1] at h
        cases hv : pv (SkipWhitespace p1).tail with
        | error e => rw [hv] at h; cases h
        | ok res2 =>
          obtain ⟨x, p2⟩ := res2
          rw [hv] at h
          simp only at h
          have a2 : Advanced p2 p :=
            Advanced.of_suffix_left
              ((hpv _ _ _ hv).1.trans ((tail_suffix _).trans (SkipWhitespace_suffix _))) a1
          by_cases c2 : peek (SkipWhitespace p2) = '}'
          · rw [if_pos c2] at h
            injection h with h
            injection h with ha hb
            subst hb
            exact Advanced.of_suffix_left ((tail_suffix _).trans (SkipWhitespace_suffix _)) a2
          rw [if_neg c2] at h
          by_cases c3 : peek (SkipWhitespace p2) ≠ ','
          · rw [if_pos c3] at h
            cases h
          rw [if_neg c3] at h
          exact Advanced.of_suffix_left
            ((ih _ _ h).1.trans ((tail_suffix _).trans (SkipWhitespace_suffix _))) a2

theorem ParseObject_advanced {pv : string → Except TException (TJsonNode × string)}
    (hpv : Consuming pv) {p r : string} {v : TJsonNode}
    (h : ParseObject pv p = .ok (v, r)) : Advanced r p := by
  unfold ParseObject at h
  by_cases c0 : peek p ≠ '{'
  · rw [if_pos c0] at h
    cases h
  rw [if_neg c0] at h
  have c0' : peek p = '{' := by simpa using c0
  have a0 : Advanced p.tail p := Advanced_tail_of_peek c0' (by decide)
  by_cases c1 : peek (SkipWhitespace p.tail) = '}'
  · rw [if_pos c1] at h
    injection h with h
    injection h with ha hb
    subst hb
    exact Advanced.of_suffix_left ((tail_suffix _).trans (SkipWhitespace_suffix _)) a0
  rw [if_neg c1] at h
  exact Advanced.of_suffix_left
    ((ParseObject_loop_advanced hpv _ _ _ _ _ h).1.trans (SkipWhitespace_suffix _)) a0

theorem ParseValue_consuming (fuel : Nat) : Consuming (ParseValue fuel) := by
  induction fuel with
  | zero =>
    intro p v r h
    simp [ParseValue] at h
  | succ fuel ih =>
    intro p v r h
    rw [ParseValue] at h
    have hs := SkipWhitespace_suffix p
    by_cases c1 : peek (SkipWhitespace p) = 'n'
    · rw [if_pos c1] at h
      exact (ParseLiteral_advanced (by simp) h).of_suffix_right hs
    rw [if_neg c1] at h
    by_cases c2 : peek (SkipWhitespace p) = 't'
    · rw [if_pos c2] at h
      exact (ParseLiteral_advanced (by simp) h).of_suffix_right hs
    rw [if_neg c2] at h
    by_cases c3 : peek (SkipWhitespace p) = 'f'
    · rw [if_pos c3] at h
      exact (ParseLiteral_advanced (by simp) h).of_suffix_right hs
    rw [if_neg c3] at h
    by_cases c4 : peek (SkipWhitespace p) = '"'
    · rw [if_pos c4] at h
      exact (ParseString_advanced h).of_suffix_right hs
    rw [if_neg c4] at h
    by_cases c5 : peek (SkipWhitespace p) = '['
    · rw [if_pos c5] at h
      exact (ParseArray_advanced ih h).of_suffix_right hs
    rw [if_neg c5] at h
    by_cases c6 : peek (SkipWhitespace p) = '{'
    · rw [if_pos c6] at h
      exact (ParseObject_advanced ih h).of_suffix_right hs
    rw [if_neg c6] at h
    by_cases c7 : peek (SkipWhitespace p) = '-' ∨ isDigit (peek (SkipWhitespace p)) = true
    · rw [if_pos c7] at h
      exact (ParseNumber_advanced h).of_suffix_right hs
    · rw [if_neg c7] at h
      cases h

/-! ## The recursion budget is never exhausted -/

theorem ParseString_codepoint_no_fuel_error (p : string) :
    ParseString_codepoint p ≠ .error .outOfFuel := by
  unfold ParseString_codepoint
  cases hexValue (peek p) with
  | none => simp
  | some d1 =>
    cases hexValue (peek p.tail) with
    | none => simp
    | some d2 =>
      cases hexValue (peek p.tail.tail) with
      | none => simp
      | some d3 =>
        cases hexValue (peek p.tail.tail.tail) with
        | none => simp
        | some d4 => simp

theorem length_tail_lt {p : string} (h : peek p ≠ Char.ofNat 0) : p.tail.length < p.length :=
  (Advanced_tail h).2

theorem length_tail_le (p : string) : p.tail.length ≤ p.length := (tail_suffix p).length_le

theorem ParseString_loop_no_fuel_error (fuel : Nat) (p acc : string) (hf : p.length < fuel) :
    ParseString_loop fuel p acc ≠ .error .outOfFuel := by
  induction fuel generalizing p acc with
  | zero => omega
  | succ fuel ih =>
    rw [ParseString_loop]
    by_cases h1 : peek p = '"'
    · rw [if_pos h1]; simp
    rw [if_neg h1]
    by_cases h2 : peek p = Char.ofNat 0
    · rw [if_pos h2]; simp
    rw [if_neg h2]
    have l1 : p.tail.length < fuel := by have := length_tail_lt h2; omega
    have l2 : p.tail.tail.length < fuel := by have := length_tail_le p.tail; omega
    by_cases h3 : peek p = '\\'
    · rw [if_pos h3]
      by_cases e1 : peek p.tail = '"'
      · rw [if_pos e1]; exact ih _ _ l2
      rw [if_neg e1]
      by_cases e2 : peek p.tail = '\\'
      · rw [if_pos e2]; exact ih _ _ l2
      rw [if_neg e2]
      by_cases e3 : peek p.tail = '/'
      · rw [if_pos e3]; exact ih _ _ l2
      rw [if_neg e3]
      by_cases e4 : peek p.tail = 'b'
      · rw [if_pos e4]; exact ih _ _ l2
      rw [if_neg e4]
      by_cases e5 : peek p.tail = 'f'
      · rw [if_pos e5]; exact ih _ _ l2
      rw [if_neg e5]
      by_cases e6 : peek p.tail = 'n'
      · rw [if_pos e6]; exact ih _ _ l2
      rw [if_neg e6]
      by_cases e7 : peek p.tail = 'r'
      · rw [if_pos e7]; exact ih _ _ l2
      rw [if_neg e7]
      by_cases e8 : peek p.tail = 't'
      · rw [if_pos e8]; exact ih _ _ l2
      rw [if_neg e8]
      by_cases e9 : peek p.tail = 'u'
      · rw [if_pos e9]
        cases hcp : ParseString_codepoint p.tail.tail with
        | error e =>
          simp only
          intro hcon
          injection hcon with hcon
          subst hcon
          exact ParseString_codepoint_no_fuel_error _ hcp
        | ok res =>
          obtain ⟨cp, p1⟩ := res
          have hs := (ParseString_codepoint_suffix hcp).length_le
          simp only
          by_cases hlt : cp < 128
          · rw [if_pos hlt]; exact ih _ _ (by omega)
          · rw [if_neg hlt]; exact ih _ _ (by omega)
      · rw [if_neg e9]; simp
    · rw [if_neg h3]; exact ih _ _ l1

theorem ParseString_no_fuel_error (p : string) : ParseString p ≠ .error .outOfFuel := by
  unfold ParseString
  by_cases h1 : peek p ≠ '"'
  · rw [if_pos h1]; simp
  rw [if_neg h1]
  cases hl : ParseString_loop (p.tail.length + 1) p.tail [] with
  | error e =>
    simp only
    intro hcon
    injection hcon with hcon
    subst hcon
    exact ParseString_loop_no_fuel_error _ _ _ (by omega) hl
  | ok res => simp

theorem ParseLiteral_no_fuel_error (p lit : string) (v : TJsonNode) :
    ParseLiteral p lit v ≠ .error .outOfFuel := by
  unfold ParseLiteral
  by_cases h1 : p.take lit.length = lit
  · rw [if_pos h1]; simp
  · rw [if_neg h1]; simp

theorem stod_round_no_fuel_error (q : ℚ) : stod_round q ≠ .error .outOfFuel := by
  unfold stod_round
  cases Double.ofRat q with
  | finite r =>
    simp only
    by_cases h : roundToPrecision |q| < pow2 (-1022) ∧ r ≠ q
    · rw [if_pos h]; simp
    · rw [if_neg h]; simp
  | inf b => simp
  | nan b => simp

theorem stod_no_fuel_error (s : string) : stod s ≠ .error .outOfFuel := by
  unfold stod
  cases decimalTextValue s with
  | none => simp
  | some q => exact stod_round_no_fuel_error q

theorem ParseNumber_no_fuel_error (p : string) : ParseNumber p ≠ .error .outOfFuel := by
  unfold ParseNumber
  cases h1 : ParseNumber_integer (if peek p = '-' then p.tail else p) with
  | error e =>
    simp only
    unfold ParseNumber_integer at h1
    by_cases c1 : peek (if peek p = '-' then p.tail else p) = '0'
    · rw [if_pos c1] at h1; cases h1
    rw [if_neg c1] at h1
    by_cases c2 : 49 ≤ (peek (if peek p = '-' then p.tail else p)).toNat
        ∧ (peek (if peek p = '-' then p.tail else p)).toNat ≤ 57
    · rw [if_pos c2] at h1; cases h1
    · rw [if_neg c2] at h1
      injection h1 with h1
      subst h1
      simp
  | ok p1 =>
    simp only
    cases h2 : ParseNumber_fraction p1 with
    | error e =>
      simp only
      unfold ParseNumber_fraction at h2
      by_cases c1 : peek p1 = '.'
      · rw [if_pos c1] at h2
        by_cases c2 : isDigit (peek p1.tail) = true
        · rw [if_pos c2] at h2; cases h2
        · rw [if_neg c2] at h2
          injection h2 with h2
          subst h2
          simp
      · rw [if_neg c1] at h2; cases h2
    | ok p2 =>
      simp only
      cases h3 : ParseNumber_exponent p2 with
      | error e =>
        simp only
        unfold ParseNumber_exponent at h3
        by_cases c1 : peek p2 = 'e' ∨ peek p2 = 'E'
        · rw [if_pos c1] at h3
          by_cases c2 : peek p2.tail = '+' ∨ peek p2.tail = '-'
          · rw [if_pos c2] at h3
            by_cases c3 : isDigit (peek p2.tail.tail) = true
            · rw [if_pos c3] at h3; cases h3
            · rw [if_neg c3] at h3
              injection h3 with h3
              subst h3
              simp
          · rw [if_neg c2] at h3
            by_cases c3 : isDigit (peek p2.tail) = true
            · rw [if_pos c3] at h3; cases h3
            · rw [if_neg c3] at h3
              injection h3 with h3
              subst h3
              simp
        · rw [if_neg c1] at h3; cases h3
      | ok p3 =>
        simp only
        cases h4 : stod (p.take (p.length - p3.length)) with
        | error e =>
          simp only
          intro hcon
          injection hcon with hcon
          subst hcon
          exact stod_no_fuel_error _ h4
        | ok d => simp

theorem ParseArray_loop_no_fuel_error {pv : string → Except TException (TJsonNode × string)}
    (hpv : Consuming pv) (fuel : Nat) (p : string) (acc : List TJsonNode)
    (hf : p.length < fuel) (hs : FuelSafe pv p.length) :
    ParseArray_loop pv fuel p acc ≠ .error .outOfFuel := by
  induction fuel generalizing p acc with
  | zero => omega
  | succ fuel ih =>
    rw [ParseArray_loop]
    cases hv : pv p with
    | error e =>
      simp only
      intro hcon
      injection hcon with hcon
      subst hcon
      exact hs p (le_refl _) hv
    | ok res =>
      obtain ⟨x, p1⟩ := res
      have a1 := hpv _ _ _ hv
      simp only
      by_cases c1 : peek (SkipWhitespace p1) = ']'
      · rw [if_pos c1]; simp
      rw [if_neg c1]
      by_cases c2 : peek (SkipWhitespace p1) ≠ ','
      · rw [if_pos c2]; simp
      rw [if_neg c2]
      have hl : (SkipWhitespace (SkipWhitespace p1).tail).length ≤ p1.length :=
        ((SkipWhitespace_suffix _).trans
          ((tail_suffix _).trans (SkipWhitespace_suffix _))).length_le
      have := a1.2
      exact ih _ _ (by omega) (fun q hq => hs q (by omega))

theorem ParseArray_no_fuel_error {pv : string → Except TException (TJsonNode × string)}
    (hpv : Consuming pv) (p : string) (hs : FuelSafe pv p.length) :
    ParseArray pv p ≠ .error .outOfFuel := by
  unfold ParseArray
  by_cases c0 : peek p ≠ '['
  · rw [if_pos c0]; simp
  rw [if_neg c0]
  by_cases c1 : peek (SkipWhitespace p.tail) = ']'
  · rw [if_pos c1]; simp
  rw [if_neg c1]
  have hl : (SkipWhitespace p.tail).length ≤ p.length :=
    ((SkipWhitespace_suffix _).trans (tail_suffix _)).length_le
  exact ParseArray_loop_no_fuel_error hpv _ _ _ (by omega) (fun q hq => hs q (by omega))

theorem ParseObject_loop_no_fuel_error {pv : string → Except TException (TJsonNode × string)}
    (hpv : Consuming pv) (fuel : Nat) (p : string) (acc : List (string × TJsonNode))
    (hf : p.length < fuel) (hs : FuelSafe pv p.length) :
    ParseObject_loop pv fuel p acc ≠ .error .outOfFuel := by
  induction fuel generalizing p acc with
  | zero => omega
  | succ fuel ih =>
    rw [ParseObject_loop]
    by_cases c0 : peek (SkipWhitespace p) ≠ '"'
    · rw [if_pos c0]; simp
    rw [if_neg c0]
    cases hk : ParseString (SkipWhitespace p) with
    | error e =>
      simp only
      intro hcon
      injection hcon with hcon
      subst hcon
      exact ParseString_no_fuel_error _ hk
    | ok res =>
      obtain ⟨keyNode, p1⟩ := res
      have a1 : Advanced p1 p := (ParseString_advanced hk).of_suffix_right (SkipWhitespace_suffix _)
      simp only
      cases hs' : operator_string keyNode with
      | error e =>
        simp only
        cases keyNode <;> simp [operator_string] at hs' <;> subst hs' <;> simp
      | ok key =>
        simp only
        by_cases c1 : peek (SkipWhitespace p1) ≠ ':'
        · rw [if_pos c1]; simp
        rw [if_neg c1]
        have hl1 : (SkipWhitespace p1).tail.length ≤ p1.length :=
          ((tail_suffix _).trans (SkipWhitespace_suffix _)).length_le
        have := a1.2
        cases hv : pv (SkipWhitespace p1).tail with
        | error e =>
          simp only
          intro hcon
          injection hcon with hcon
          subst hcon
          exact hs _ (by omega) hv
        | ok res2 =>
          obtain ⟨x, p2⟩ := res2
          simp only
          have a2 := (hpv _ _ _ hv).2
          by_cases c2 : peek (SkipWhitespace p2) = '}'
          · rw [if_pos c2]; simp
          rw [if_neg c2]
          by_cases c3 : peek (SkipWhitespace p2) ≠ ','
          · rw [if_pos c3]; simp
          rw [if_neg c3]
          have hl2 : (SkipWhitespace p2).tail.length ≤ p2.length :=
            ((tail_suffix _).trans (SkipWhitespace_suffix _)).length_le
          exact ih _ _ (by omega) (fun q hq => hs q (by omega))

theorem ParseObject_no_fuel_error {pv : string → Except TException (TJsonNode × string)}
    (hpv : Consuming pv) (p : string) (hs : FuelSafe pv p.length) :
    ParseObject pv p ≠ .error .outOfFuel := by
  unfold ParseObject
  by_cases c0 : peek p ≠ '{'
  · rw [if_pos c0]; simp
  rw [if_neg c0]
  by_cases c1 : peek (SkipWhitespace p.tail) = '}'
  · rw [if_pos c1]; simp
  rw [if_neg c1]
  have hl : (SkipWhitespace p.tail).length ≤ p.length :=
    ((SkipWhitespace_suffix _).trans (tail_suffix _)).length_le
  exact ParseObject_loop_no_fuel_error hpv _ _ _ (by omega) (fun q hq => hs q (by omega))

theorem ParseValue_no_fuel_error (fuel : Nat) (p : string) (hf : p.length < fuel) :
    ParseValue fuel p ≠ .error .outOfFuel := by
  induction fuel generalizing p with
  | zero => omega
  | succ fuel ih =>
    rw [ParseValue]
    have hl := SkipWhitespace_length_le p
    by_cases c1 : peek (SkipWhitespace p) = 'n'
    · rw [if_pos c1]; exact ParseLiteral_no_fuel_error _ _ _
    rw [if_neg c1]
    by_cases c2 : peek (SkipWhitespace p) = 't'
    · rw [if_pos c2]; exact ParseLiteral_no_fuel_error _ _ _
    rw [if_neg c2]
    by_cases c3 : peek (SkipWhitespace p) = 'f'
    · rw [if_pos c3]; exact ParseLiteral_no_fuel_error _ _ _
    rw [if_neg c3]
    by_cases c4 : peek (SkipWhitespace p) = '"'
    · rw [if_pos c4]; exact ParseString_no_fuel_error _
    rw [if_neg c4]
    by_cases c5 : peek (SkipWhitespace p) = '['
    · rw [if_pos c5]
      unfold ParseArray
      rw [if_neg (by simp [c5])]
      by_cases d1 : peek (SkipWhitespace (SkipWhitespace p).tail) = ']'
      · rw [if_pos d1]; simp
      rw [if_neg d1]
      have hl2 : (SkipWhitespace (SkipWhitespace p).tail).length < (SkipWhitespace p).length := by
        have := (Advanced_tail_of_peek c5 (by decide)).2
        have := SkipWhitespace_length_le (SkipWhitespace p).tail
        omega
      exact ParseArray_loop_no_fuel_error (ParseValue_consuming fuel) _ _ _ (by omega)
        (fun q hq => ih q (by omega))
    rw [if_neg c5]
    by_cases c6 : peek (SkipWhitespace p) = '{'
    · rw [if_pos c6]
      unfold ParseObject
      rw [if_neg (by simp [c6])]
      by_cases d1 : peek (SkipWhitespace (SkipWhitespace p).tail) = '}'
      · rw [if_pos d1]; simp
      rw [if_neg d1]
      have hl2 : (SkipWhitespace (SkipWhitespace p).tail).length < (SkipWhitespace p).length := by
        have := (Advanced_tail_of_peek c6 (by decide)).2
        have := SkipWhitespace_length_le (SkipWhitespace p).tail
        omega
      exact ParseObject_loop_no_fuel_error (ParseValue_consuming fuel) _ _ _ (by omega)
        (fun q hq => ih q (by omega))
    rw [if_neg c6]
    by_cases c7 : peek (SkipWhitespace p) = '-' ∨ isDigit (peek (SkipWhitespace p)) = true
    · rw [if_pos c7]; exact ParseNumber_no_fuel_error _
    · rw [if_neg c7]; simp

/-! ## A larger budget does not change a result -/

theorem ParseArray_loop_extends {pv pv' : string → Except TException (TJsonNode × string)}
    (hext : Extends pv pv') (fuel : Nat) (p : string) (acc : List TJsonNode)
    (h : ParseArray_loop pv fuel p acc ≠ .error .outOfFuel) :
    ParseArray_loop pv' fuel p acc = ParseArray_loop pv fuel p acc := by
  induction fuel generalizing p acc with
  | zero => simp [ParseArray_loop] at h
  | succ fuel ih =>
    rw [ParseArray_loop] at h ⊢
    rw [ParseArray_loop]
    have hp : pv p ≠ .error .outOfFuel := by
      intro hcon
      rw [hcon] at h
      exact h rfl
    rw [hext p hp]
    cases hv : pv p with
    | error e => rfl
    | ok res =>
      obtain ⟨x, p1⟩ := res
      rw [hv] at h
      simp only at h ⊢
      by_cases c1 : peek (SkipWhitespace p1) = ']'
      · rw [if_pos c1]; rw [if_pos c1]
      rw [if_neg c1] at h ⊢
      rw [if_neg c1]
      by_cases c2 : peek (SkipWhitespace p1) ≠ ','
      · rw [if_pos c2]; rw [if_pos c2]
      rw [if_neg c2] at h ⊢
      rw [if_neg c2]
      exact ih _ _ h

theorem ParseArray_extends {pv pv' : string → Except TException (TJsonNode × string)}
    (hext : Extends pv pv') (p : string) (h : ParseArray pv p ≠ .error .outOfFuel) :
    ParseArray pv' p = ParseArray pv p := by
  unfold ParseArray at h ⊢
  by_cases c0 : peek p ≠ '['
  · rw [if_pos c0]; rw [if_pos c0]
  rw [if_neg c0] at h ⊢
  rw [if_neg c0]
  by_cases c1 : peek (SkipWhitespace p.tail) = ']'
  · rw [if_pos c1]; rw [if_pos c1]
  rw [if_neg c1] at h ⊢
  rw [if_neg c1]
  exact ParseArray_loop_extends hext _ _ _ h

theorem ParseObject_loop_extends {pv pv' : string → Except TException (TJsonNode × string)}
    (hext : Extends pv pv') (fuel : Nat) (p : string) (acc : List (string × TJsonNode))
    (h : ParseObject_loop pv fuel p acc ≠ .error .outOfFuel) :
    ParseObject_loop pv' fuel p acc = ParseObject_loop pv fuel p acc := by
  induction fuel generalizing p acc with
  | zero => simp [ParseObject_loop] at h
  | succ fuel ih =>
    rw [ParseObject_loop] at h ⊢
    rw [ParseObject_loop]
    by_cases c0 : peek (SkipWhitespace p) ≠ '"'
    · rw [if_pos c0]; rw [if_pos c0]
    rw [if_neg c0] at h ⊢
    rw [if_neg c0]
    cases hk : ParseString (SkipWhitespace p) with
    | error e => rfl
    | ok res =>
      obtain ⟨keyNode, p1⟩ := res
      rw [hk] at h
      simp only at h ⊢
      cases hs : operator_string keyNode with
      | error e => rfl
      | ok key =>
        rw [hs] at h
        simp only at h ⊢
        by_cases c1 : peek (SkipWhitespace p1) ≠ ':'
        · rw [if_pos c1]; rw [if_pos c1]
        rw [if_neg c1] at h ⊢
        rw [if_neg c1]
        have hp : pv (SkipWhitespace p1).tail ≠ .error .outOfFuel := by
          intro hcon
          rw [hcon] at h
          exact h rfl
        rw [hext _ hp]
        cases hv : pv (SkipWhitespace p1).tail with
        | error e => rfl
        | ok res2 =>
          obtain ⟨x, p2⟩ := res2
          rw [hv] at h
          simp only at h ⊢
          by_cases c2 : peek (SkipWhitespace p2) = '}'
          · rw [if_pos c2]; rw [if_pos c2]
          rw [if_neg c2] at h ⊢
          rw [if_neg c2]
          by_cases c3 : peek (SkipWhitespace p2) ≠ ','
          · rw [if_pos c3]; rw [if_pos c3]
          rw [if_neg c3] at h ⊢
          rw [if_neg c3]
          exact ih _ _ h

theorem ParseObject_extends {pv pv' : string → Except TException (TJsonNode × string)}
    (hext : Extends pv pv') (p : string) (h : ParseObject pv p ≠ .error .outOfFuel) :
    ParseObject pv' p = ParseObject pv p := by
  unfold ParseObject at h ⊢
  by_cases c0 : peek p ≠ '{'
  · rw [if_pos c0]; rw [if_pos c0]
  rw [if_neg c0] at h ⊢
  rw [if_neg c0]
  by_cases c1 : peek (SkipWhitespace p.tail) = '}'
  · rw [if_pos c1]; rw [if_pos c1]
  rw [if_neg c1] at h ⊢
  rw [if_neg c1]
  exact ParseObject_loop_extends hext _ _ _ h

theorem ParseValue_succ_extends (fuel : Nat) :
    Extends (ParseValue fuel) (ParseValue (fuel + 1)) := by
  induction fuel with
  | zero =>
    intro q h
    simp [ParseValue] at h
  | succ fuel ih =>
    intro q h
    rw [ParseValue] at h ⊢
    rw [ParseValue]
    by_cases c1 : peek (SkipWhitespace q) = 'n'
    · rw [if_pos c1]; rw [if_pos c1]
    rw [if_neg c1] at h ⊢
    rw [if_neg c1]
    by_cases c2 : peek (SkipWhitespace q) = 't'
    · rw [if_pos c2]; rw [if_pos c2]
    rw [if_neg c2] at h ⊢
    rw [if_neg c2]
    by_cases c3 : peek (SkipWhitespace q) = 'f'
    · rw [if_pos c3]; rw [if_pos c3]
    rw [if_neg c3] at h ⊢
    rw [if_neg c3]
    by_cases c4 : peek (SkipWhitespace q) = '"'
    · rw [if_pos c4]; rw [if_pos c4]
    rw [if_neg c4] at h ⊢
    rw [if_neg c4]
    by_cases c5 : peek (SkipWhitespace q) = '['
    · rw [if_pos c5] at h ⊢
      rw [if_pos c5]
      exact ParseArray_extends ih _ h
    rw [if_neg c5] at h ⊢
    rw [if_neg c5]
    by_cases c6 : peek (SkipWhitespace q) = '{'
    · rw [if_pos c6] at h ⊢
      rw [if_pos c6]
      exact ParseObject_extends ih _ h
    rw [if_neg c6] at h ⊢
    rw [if_neg c6]

theorem ParseValue_extends {fuel fuel' : Nat} (hle : fuel ≤ fuel') :
    Extends (ParseValue fuel) (ParseValue fuel') := by
  induction hle with
  | refl => intro q _; rfl
  | step _ ih =>
    intro q h
    have h1 := ih q h
    rw [← h1] at h
    rw [ParseValue_succ_extends _ q h, h1]

/-- The result of `ParseValue` does not depend on the budget once it is not exhausted; the
budget `Parse` passes is never exhausted. -/
theorem ParseValue_fuel_independent {fuel : Nat} {p : string} {res : TJsonNode × string}
    (h : ParseValue fuel p = .ok res) : ParseValue (p.length + 1) p = .ok res := by
  rcases Nat.le_total fuel (p.length + 1) with hle | hle
  · rw [ParseValue_extends hle p (by rw [h]; simp), h]
  · have hne := ParseValue_no_fuel_error (p.length + 1) p (by omega)
    rw [← ParseValue_extends hle p hne, h]

theorem peek_eq_nul_iff {q : string} (hq : ∀ c ∈ q, c ≠ Char.ofNat 0) :
    peek q = Char.ofNat 0 ↔ q = [] := by
  cases q with
  | nil => simp [peek]
  | cons c rest =>
    simp only [peek, List.headD_cons]
    constructor
    · intro h
      exact absurd h (hq c (List.mem_cons_self _ _))
    · intro h
      cases h

theorem nul_free_of_suffix {q p : string} (hs : q <:+ p) (hp : ∀ c ∈ p, c ≠ Char.ofNat 0) :
    ∀ c ∈ q, c ≠ Char.ofNat 0 :=
  fun c hc => hp c (hs.subset hc)

theorem Parse_ok_iff (text : string) (hnul : ∀ c ∈ text, c ≠ Char.ofNat 0) (v : TJsonNode) :
    Parse text = .ok v ↔
      ∃ fuel rest, ParseValue fuel (SkipWhitespace text) = .ok (v, rest)
        ∧ ∀ c ∈ rest, isWhitespace c = true := by
  have hp := nul_free_of_suffix (SkipWhitespace_suffix text) hnul
  constructor
  · intro h
    unfold Parse at h
    by_cases c0 : peek (SkipWhitespace text) = Char.ofNat 0
    · rw [if_pos c0] at h; cases h
    rw [if_neg c0] at h
    cases hv : ParseValue ((SkipWhitespace text).length + 1) (SkipWhitespace text) with
    | error e => rw [hv] at h; cases h
    | ok res =>
      obtain ⟨w, rest⟩ := res
      rw [hv] at h
      simp only at h
      by_cases c1 : peek (SkipWhitespace rest) ≠ Char.ofNat 0
      · rw [if_pos c1] at h; cases h
      rw [if_neg c1] at h
      injection h with h
      subst h
      refine ⟨_, rest, hv, ?_⟩
      have hr := (ParseValue_consuming _ _ _ _ hv).1
      have hsr := nul_free_of_suffix ((SkipWhitespace_suffix rest).trans hr) hp
      have c1' : peek (SkipWhitespace rest) = Char.ofNat 0 := by simpa using c1
      exact (SkipWhitespace_eq_nil_iff rest).mp ((peek_eq_nul_iff hsr).mp c1')
  · rintro ⟨fuel, rest, hv, hws⟩
    have hv' := ParseValue_fuel_independent hv
    have hadv := ParseValue_consuming _ _ _ _ hv
    have hne : SkipWhitespace text ≠ [] := by
      intro hcon
      have := hadv.2
      rw [hcon] at this
      simp at this
    unfold Parse
    rw [if_neg (fun hcon => hne ((peek_eq_nul_iff hp).mp hcon))]
    rw [hv']
    simp only
    rw [(SkipWhitespace_eq_nil_iff rest).mpr hws]
    simp [peek]

theorem Parse_whitespace_only (text : string) (hws : ∀ c ∈ text, isWhitespace c = true) :
    Parse text = .error .emptyJson := by
  unfold Parse
  rw [(SkipWhitespace_eq_nil_iff text).mpr hws]
  simp [peek]

theorem Parse_trailing (text : string) (hnul : ∀ c ∈ text, c ≠ Char.ofNat 0)
    (fuel : Nat) (v : TJsonNode) (rest : string)
    (hv : ParseValue fuel (SkipWhitespace text) = .ok (v, rest))
    (hrest : ∃ c ∈ rest, isWhitespace c = false) :
    Parse text = .error .trailingCharacters := by
  have hp := nul_free_of_suffix (SkipWhitespace_suffix text) hnul
  have hv' := ParseValue_fuel_independent hv
  have hadv := ParseValue_consuming _ _ _ _ hv
  have hne : SkipWhitespace text ≠ [] := by
    intro hcon
    have := hadv.2
    rw [hcon] at this
    simp at this
  have hsr := nul_free_of_suffix ((SkipWhitespace_suffix rest).trans hadv.1) hp
  have hnr : SkipWhitespace rest ≠ [] := by
    intro hcon
    obtain ⟨c, hc, hcw⟩ := hrest
    have := (SkipWhitespace_eq_nil_iff rest).mp hcon c hc
    rw [this] at hcw
    cases hcw
  unfold Parse
  rw [if_neg (fun hcon => hne ((peek_eq_nul_iff hp).mp hcon))]
  rw [hv']
  simp only
  rw [if_pos (fun hcon => hnr ((peek_eq_nul_iff hsr).mp hcon))]

/-- C3: top-level `Parse` consumes the whole input.  For a text (the characters of a C
string, so none of them NUL): `Parse` succeeds with `v` exactly when, after the leading
whitespace, one value `v` parses and only whitespace follows it; a text of whitespace only
(the empty text included) fails with ParseError; and a text in which a non-whitespace
character is left behind the first complete value fails with ParseError. -/
theorem Parse_consumes_whole_input (text : string) (hnul : ∀ c ∈ text, c ≠ Char.ofNat 0) :
    (∀ v, Parse text = .ok v ↔
        ∃ fuel rest, ParseValue fuel (SkipWhitespace text) = .ok (v, rest)
          ∧ ∀ c ∈ rest, isWhitespace c = true)
    ∧ ((∀ c ∈ text, isWhitespace c = true) →
        ∃ e, Parse text = .error e ∧ e.kind = some EErrorKind.ParseError)
    ∧ (∀ fuel v rest, ParseValue fuel (SkipWhitespace text) = .ok (v, rest) →
        (∃ c ∈ rest, isWhitespace c = false) →
        ∃ e, Parse text = .error e ∧ e.kind = some EErrorKind.ParseError) :=
  ⟨fun v => Parse_ok_iff text hnul v,
   fun hws => ⟨_, Parse_whitespace_only text hws, rfl⟩,
   fun fuel v rest hv hrest => ⟨_, Parse_trailing text hnul fuel v rest hv hrest, rfl⟩⟩

/-- Witness for C3: the text `[true] x` has no NUL, its first value `[true]` parses, the
character `x` is left over, and `Parse` fails with ParseError. -/
theorem Parse_consumes_whole_input_witness :
    (∀ c ∈ ['[', 't', 'r', 'u', 'e', ']', ' ', 'x'], c ≠ Char.ofNat 0)
    ∧ ∃ e, Parse ['[', 't', 'r', 'u', 'e', ']', ' ', 'x'] = .error e
        ∧ e.kind = some EErrorKind.ParseError :=
  ⟨by decide,
   (Parse_consumes_whole_input ['[', 't', 'r', 'u', 'e', ']', ' ', 'x'] (by decide)).2.2
      3 (Array [Boolean true]) [' ', 'x'] (by decide) ⟨'x', by decide, by decide⟩⟩

/-! ## The compact rendering -/

/-- Structural induction over documents. -/
theorem induction_on {P : TJsonNode → Prop} (hNull : P Null)
    (hBoolean : ∀ b, P (Boolean b)) (hNumber : ∀ d, P (Number d)) (hString : ∀ s, P (String s))
    (hArray : ∀ xs : List TJsonNode, (∀ x ∈ xs, P x) → P (Array xs))
    (hObject : ∀ m : List (string × TJsonNode), (∀ kv ∈ m, P kv.2) → P (Object m)) :
    ∀ v, P v := by
  intro v
  refine TJsonNode.rec (motive_1 := P) (motive_2 := fun xs => ∀ x ∈ xs, P x)
    (motive_3 := fun m => ∀ kv ∈ m, P kv.2) (motive_4 := fun kv => P kv.2)
    hNull hBoolean hNumber hString (fun xs ih => hArray xs ih) (fun m ih => hObject m ih)
    ?_ ?_ ?_ ?_ ?_ v
  · intro x hx; cases hx
  · intro x xs hx hxs y hy
    rcases List.mem_cons.mp hy with h | h
    · subst h; exact hx
    · exact hxs y h
  · intro kv hkv; cases hkv
  · intro kv m hkv hm y hy
    rcases List.mem_cons.mp hy with h | h
    · subst h; exact hkv
    · exact hm y h
  · intro k v hv; exact hv

theorem ToStringImpl_elements_compact (xs : List TJsonNode) (i : Int)
    (h : ∀ x ∈ xs, ∀ j : Int, ToStringImpl x false j = .ok (compactText x)) :
    ToStringImpl_elements xs false i [] = .ok (compactElements xs) := by
  induction xs with
  | nil => simp [ToStringImpl_elements, compactElements]
  | cons x rest ih =>
    rw [ToStringImpl_elements, h x (List.mem_cons_self _ _),
      ih (fun y hy => h y (List.mem_cons_of_mem _ hy))]
    simp [compactElements]

theorem ToStringImpl_members_compact (m : List (string × TJsonNode)) (i : Int)
    (h : ∀ kv ∈ m, ∀ j : Int, ToStringImpl kv.2 false j = .ok (compactText kv.2)) :
    ToStringImpl_members m false i [] = .ok (compactMembers m) := by
  induction m with
  | nil => simp [ToStringImpl_members, compactMembers]
  | cons kv rest ih =>
    obtain ⟨k, v⟩ := kv
    rw [ToStringImpl_members, h (k, v) (List.mem_cons_self _ _),
      ih (fun y hy => h y (List.mem_cons_of_mem _ hy))]
    simp [compactMembers]

/-- With `pretty = false` the serializer does not fail and produces the compact text,
whatever the indent. -/
theorem ToStringImpl_compact (v : TJsonNode) :
    ∀ i : Int, ToStringImpl v false i = .ok (compactText v) := by
  induction v using induction_on with
  | hNull => intro i; simp [ToStringImpl, compactText]
  | hBoolean b => intro i; simp [ToStringImpl, compactText]
  | hNumber d =>
    intro i
    simp only [ToStringImpl, compactText]
    by_cases h : Double.eq d (Double.ofInt (static_cast_long_long d)) = true
    · simp [h]
    · simp [h]
  | hString s => intro i; simp [ToStringImpl, compactText]
  | hArray xs ih =>
    intro i
    cases xs with
    | nil => simp [ToStringImpl, compactText, compactElements]
    | cons x rest =>
      simp only [ToStringImpl]
      simp [ToStringImpl_elements_compact (x :: rest) i ih, compactText]
  | hObject m ih =>
    intro i
    cases m with
    | nil => simp [ToStringImpl, compactText, compactMembers]
    | cons kv rest =>
      simp only [ToStringImpl]
      simp [ToStringImpl_members_compact (kv :: rest) i ih, compactText]

/-! ## Reading a value text -/

theorem SkipWhitespace_cons_of_not_ws {c : Char} (h : isWhitespace c = false) (r : string) :
    SkipWhitespace (c :: r) = c :: r := by
  rw [SkipWhitespace]
  have : ¬ (c = ' ' ∨ c = '\t' ∨ c = '\n' ∨ c = '\r') := by
    simpa [isWhitespace] using h
  rw [if_neg this]

theorem SkipWhitespace_of_peek_not_ws {p : string} (h : isWhitespace (peek p) = false) :
    SkipWhitespace p = p := by
  cases p with
  | nil => rfl
  | cons c r => exact SkipWhitespace_cons_of_not_ws h r

theorem SkipWhitespace_append_ws {w : string} (hw : ∀ c ∈ w, isWhitespace c = true)
    (p : string) : SkipWhitespace (w ++ p) = SkipWhitespace p := by
  induction w with
  | nil => rfl
  | cons c r ih =>
    have hc : c = ' ' ∨ c = '\t' ∨ c = '\n' ∨ c = '\r' := by
      simpa [isWhitespace] using hw c (List.mem_cons_self _ _)
    rw [List.cons_append, SkipWhitespace, if_pos hc]
    exact ih (fun d hd => hw d (List.mem_cons_of_mem _ hd))

theorem peek_SkipWhitespace_not_ws (p : string) :
    isWhitespace (peek (SkipWhitespace p)) = false := by
  induction p with
  | nil => simp [SkipWhitespace, peek, isWhitespace]
  | cons c r ih =>
    rw [SkipWhitespace]
    by_cases hc : c = ' ' ∨ c = '\t' ∨ c = '\n' ∨ c = '\r'
    · rw [if_pos hc]; exact ih
    · rw [if_neg hc]
      simpa [peek, isWhitespace] using hc

theorem SkipWhitespace_idem (p : string) :
    SkipWhitespace (SkipWhitespace p) = SkipWhitespace p :=
  SkipWhitespace_of_peek_not_ws (peek_SkipWhitespace_not_ws p)

theorem ParseValue_SkipWhitespace (fuel : Nat) (p : string) :
    ParseValue fuel (SkipWhitespace p) = ParseValue fuel p := by
  cases fuel with
  | zero => simp [ParseValue]
  | succ fuel =>
    rw [ParseValue, ParseValue, SkipWhitespace_idem]

theorem ParseValue_of_fuel_gt {fuel : Nat} {p : string} {res : TJsonNode × string}
    (h : ParseValue fuel p = .ok res) (fuel' : Nat) (hf : p.length < fuel') :
    ParseValue fuel' p = .ok res := by
  have h1 := ParseValue_fuel_independent h
  rw [ParseValue_extends (show p.length + 1 ≤ fuel' by omega) p (by rw [h1]; simp), h1]

theorem ReadsAs.at_fuel {t : string} {v : TJsonNode} (h : ReadsAs t v) {rest : string}
    (hr : Delimited rest) (fuel : Nat) (hf : (t ++ rest).length < fuel) :
    ParseValue fuel (t ++ rest) = .ok (v, rest) := by
  obtain ⟨f0, h0⟩ := h rest hr
  exact ParseValue_of_fuel_gt h0 fuel hf

theorem Delimited_ws_append {w : string} (hw : ∀ c ∈ w, isWhitespace c = true) {c : Char}
    (hc : c = ',' ∨ c = ']' ∨ c = '}') (r : string) : Delimited (w ++ c :: r) := by
  cases w with
  | nil =>
    right
    exact ⟨c, r, rfl, by rcases hc with h | h | h <;> simp [h]⟩
  | cons d w' =>
    right
    exact ⟨d, w' ++ c :: r, rfl, Or.inr (Or.inr (Or.inr (hw d (List.mem_cons_self _ _))))⟩

theorem SkipWhitespace_ws_append_cons {w : string} (hw : ∀ c ∈ w, isWhitespace c = true)
    {c : Char} (hc : isWhitespace c = false) (r : string) :
    SkipWhitespace (w ++ c :: r) = c :: r := by
  rw [SkipWhitespace_append_ws hw, SkipWhitespace_cons_of_not_ws hc]

/-- A value starts with one of the characters `ParseValue` dispatches on. -/
theorem ParseValue_ok_peek {fuel : Nat} {p : string} {res : TJsonNode × string}
    (h : ParseValue fuel p = .ok res) :
    peek (SkipWhitespace p) = 'n' ∨ peek (SkipWhitespace p) = 't'
      ∨ peek (SkipWhitespace p) = 'f' ∨ peek (SkipWhitespace p) = '"'
      ∨ peek (SkipWhitespace p) = '[' ∨ peek (SkipWhitespace p) = '{'
      ∨ peek (SkipWhitespace p) = '-' ∨ isDigit (peek (SkipWhitespace p)) = true := by
  cases fuel with
  | zero => simp [ParseValue] at h
  | succ fuel =>
    rw [ParseValue] at h
    by_cases c1 : peek (SkipWhitespace p) = 'n'
    · exact Or.inl c1
    rw [if_neg c1] at h
    by_cases c2 : peek (SkipWhitespace p) = 't'
    · exact Or.inr (Or.inl c2)
    rw [if_neg c2] at h
    by_cases c3 : peek (SkipWhitespace p) = 'f'
    · exact Or.inr (Or.inr (Or.inl c3))
    rw [if_neg c3] at h
    by_cases c4 : peek (SkipWhitespace p) = '"'
    · exact Or.inr (Or.inr (Or.inr (Or.inl c4)))
    rw [if_neg c4] at h
    by_cases c5 : peek (SkipWhitespace p) = '['
    · exact Or.inr (Or.inr (Or.inr (Or.inr (Or.inl c5))))
    rw [if_neg c5] at h
    by_cases c6 : peek (SkipWhitespace p) = '{'
    · exact Or.inr (Or.inr (Or.inr (Or.inr (Or.inr (Or.inl c6)))))
    rw [if_neg c6] at h
    by_cases c7 : peek (SkipWhitespace p) = '-' ∨ isDigit (peek (SkipWhitespace p)) = true
    · exact Or.inr (Or.inr (Or.inr (Or.inr (Or.inr (Or.inr c7)))))
    · rw [if_neg c7] at h
      cases h

theorem ParseValue_ok_peek_ne {fuel : Nat} {p : string} {res : TJsonNode × string}
    (h : ParseValue fuel p = .ok res) :
    peek (SkipWhitespace p) ≠ ']' ∧ peek (SkipWhitespace p) ≠ '}' := by
  have := ParseValue_ok_peek h
  constructor
  · intro hc
    rw [hc] at this
    revert this
    decide
  · intro hc
    rw [hc] at this
    revert this
    decide

/-! ## Array texts -/

theorem ParseArray_loop_elements (F : Nat) (rest : string) (es : List ElementText)
    (hne : es ≠ []) (hwf : ∀ t ∈ es, t.WellFormed)
    (hF : (elementsText es ++ ']' :: rest).length < F) (fuel : Nat)
    (hfuel : (SkipWhitespace (elementsText es ++ ']' :: rest)).length < fuel)
    (acc : List TJsonNode) :
    ParseArray_loop (ParseValue F) fuel (SkipWhitespace (elementsText es ++ ']' :: rest)) acc
      = .ok (Array (acc ++ es.map ElementText.value), rest) := by
  induction es generalizing fuel acc with
  | nil => exact absurd rfl hne
  | cons t ts ih =>
    obtain ⟨hread, htrail⟩ := hwf t (List.mem_cons_self _ _)
    cases fuel with
    | zero => omega
    | succ fuel =>
      cases ts with
      | nil =>
        have htext : elementsText [t] ++ ']' :: rest
            = t.valueText ++ (t.trail ++ ']' :: rest) := by
          simp [elementsText]
        rw [htext] at hF hfuel ⊢
        rw [ParseArray_loop, ParseValue_SkipWhitespace,
          hread.at_fuel (Delimited_ws_append htrail (Or.inr (Or.inl rfl)) rest) F hF]
        simp only
        rw [SkipWhitespace_ws_append_cons htrail (by decide)]
        simp [peek]
      | cons t' ts' =>
        have htext : elementsText (t :: t' :: ts') ++ ']' :: rest
            = t.valueText ++ (t.trail ++ ',' :: (elementsText (t' :: ts') ++ ']' :: rest)) := by
          simp [elementsText]
        rw [htext] at hF hfuel ⊢
        have hv := hread.at_fuel
          (Delimited_ws_append htrail (Or.inl rfl) (elementsText (t' :: ts') ++ ']' :: rest)) F hF
        have hadv := ParseValue_consuming F _ _ _
          (by rw [ParseValue_SkipWhitespace]; exact hv)
        rw [ParseArray_loop, ParseValue_SkipWhitespace, hv]
        simp only
        rw [SkipWhitespace_ws_append_cons htrail (by decide)]
        have e1 : peek (',' :: (elementsText (t' :: ts') ++ ']' :: rest)) ≠ ']' := by
          simp [peek]
        have e2 : ¬ peek (',' :: (elementsText (t' :: ts') ++ ']' :: rest)) ≠ ',' := by
          simp [peek]
        rw [if_neg e1, if_neg e2, List.tail_cons]
        have hlen : (elementsText (t' :: ts') ++ ']' :: rest).length
            < (SkipWhitespace (t.valueText
                ++ (t.trail ++ ',' :: (elementsText (t' :: ts') ++ ']' :: rest)))).length := by
          have := hadv.2
          simp only [List.length_append, List.length_cons] at this ⊢
          omega
        have hF' : (elementsText (t' :: ts') ++ ']' :: rest).length < F := by
          simp only [List.length_append, List.length_cons] at hF ⊢
          omega
        have hskip := SkipWhitespace_length_le (elementsText (t' :: ts') ++ ']' :: rest)
        rw [ih (by simp) (fun u hu => hwf u (List.mem_cons_of_mem _ hu)) hF' fuel (by omega)]
        simp

/-- An array text reads as the array of the values of its elements. -/
theorem ReadsAs_arrayText (es : List ElementText) (hwf : ∀ t ∈ es, t.WellFormed) :
    ReadsAs (arrayText es) (Array (es.map ElementText.value)) := by
  intro rest _
  refine ⟨(arrayText es ++ rest).length + 1, ?_⟩
  have hsk : SkipWhitespace (arrayText es ++ rest) = arrayText es ++ rest := by
    simp only [arrayText, List.append_assoc, List.singleton_append, List.cons_append]
    exact SkipWhitespace_cons_of_not_ws (by decide) _
  rw [ParseValue, hsk]
  have hp : peek (arrayText es ++ rest) = '[' := by simp [arrayText, peek]
  rw [if_neg (by rw [hp]; decide), if_neg (by rw [hp]; decide), if_neg (by rw [hp]; decide),
    if_neg (by rw [hp]; decide), if_pos hp]
  have htail : (arrayText es ++ rest).tail = elementsText es ++ ']' :: rest := by
    simp [arrayText]
  unfold ParseArray
  rw [if_neg (by rw [hp]; decide), htail]
  cases es with
  | nil =>
    have : SkipWhitespace (elementsText [] ++ ']' :: rest) = ']' :: rest := by
      simp only [elementsText, List.nil_append]
      exact SkipWhitespace_cons_of_not_ws (by decide) _
    rw [this]
    simp [peek]
  | cons t ts =>
    have hF : (elementsText (t :: ts) ++ ']' :: rest).length
        < (arrayText (t :: ts) ++ rest).length := by
      simp [arrayText]
    have hnot : peek (SkipWhitespace (elementsText (t :: ts) ++ ']' :: rest)) ≠ ']' := by
      obtain ⟨hread, htrail⟩ := hwf t (List.mem_cons_self _ _)
      cases ts with
      | nil =>
        have htext : elementsText [t] ++ ']' :: rest
            = t.valueText ++ (t.trail ++ ']' :: rest) := by
          simp [elementsText]
        rw [htext]
        obtain ⟨f0, h0⟩ := hread _ (Delimited_ws_append htrail (Or.inr (Or.inl rfl)) rest)
        exact (ParseValue_ok_peek_ne h0).1
      | cons t' ts' =>
        have htext : elementsText (t :: t' :: ts') ++ ']' :: rest
            = t.valueText ++ (t.trail ++ ',' :: (elementsText (t' :: ts') ++ ']' :: rest)) := by
          simp [elementsText]
        rw [htext]
        obtain ⟨f0, h0⟩ := hread _ (Delimited_ws_append htrail (Or.inl rfl)
          (elementsText (t' :: ts') ++ ']' :: rest))
        exact (ParseValue_ok_peek_ne h0).1
    rw [if_neg hnot,
      ParseArray_loop_elements _ rest (t :: ts) (by simp) hwf hF _ (by omega) []]
    simp

/-! ## Object texts -/

theorem ReadsAsKey.starts_with_quote {t k : string} (h : ReadsAsKey t k) (rest : string) :
    peek (t ++ rest) = '"' := by
  have h1 := h rest
  unfold ParseString at h1
  by_cases c : peek (t ++ rest) ≠ '"'
  · rw [if_pos c] at h1; cases h1
  · simpa using c

theorem ParseObject_loop_SkipWhitespace
    (pv : string → Except TException (TJsonNode × string)) (fuel : Nat) (p : string)
    (acc : List (string × TJsonNode)) :
    ParseObject_loop pv fuel (SkipWhitespace p) acc = ParseObject_loop pv fuel p acc := by
  cases fuel with
  | zero => simp [ParseObject_loop]
  | succ fuel => rw [ParseObject_loop, ParseObject_loop, SkipWhitespace_idem]

theorem membersText_head (t : MemberText) (ht : t.WellFormed) (T : string) :
    SkipWhitespace (t.lead ++ (t.keyText ++ (t.mid ++ ':' :: (t.valueText ++ (t.trail ++ T)))))
      = t.keyText ++ (t.mid ++ ':' :: (t.valueText ++ (t.trail ++ T)))
    ∧ peek (t.keyText ++ (t.mid ++ ':' :: (t.valueText ++ (t.trail ++ T)))) = '"' := by
  obtain ⟨hlead, hkey, _, _, _⟩ := ht
  have hp := hkey.starts_with_quote (t.mid ++ ':' :: (t.valueText ++ (t.trail ++ T)))
  refine ⟨?_, hp⟩
  rw [SkipWhitespace_append_ws hlead]
  exact SkipWhitespace_of_peek_not_ws (by rw [hp]; decide)

theorem ParseObject_loop_members (F : Nat) (rest : string) (ms : List MemberText)
    (hne : ms ≠ []) (hwf : ∀ t ∈ ms, t.WellFormed)
    (hF : (membersText ms ++ '}' :: rest).length < F) (fuel : Nat)
    (hfuel : (SkipWhitespace (membersText ms ++ '}' :: rest)).length < fuel)
    (acc : List (string × TJsonNode)) :
    ParseObject_loop (ParseValue F) fuel (membersText ms ++ '}' :: rest) acc
      = .ok (Object (emplaceAll acc (ms.map (fun t => (t.key, t.value)))), rest) := by
  induction ms generalizing fuel acc with
  | nil => exact absurd rfl hne
  | cons t ts ih =>
    have ht := hwf t (List.mem_cons_self _ _)
    obtain ⟨hlead, hkey, hmid, hread, htrail⟩ := ht
    cases fuel with
    | zero => omega
    | succ fuel =>
      cases ts with
      | nil =>
        have htext : membersText [t] ++ '}' :: rest
            = t.lead ++ (t.keyText ++ (t.mid ++ ':' :: (t.valueText ++ (t.trail ++ '}' :: rest)))) := by
          simp [membersText, MemberText.text]
        rw [htext] at hF hfuel ⊢
        obtain ⟨hsk, hpk⟩ := membersText_head t (hwf t (List.mem_cons_self _ _)) ('}' :: rest)
        rw [ParseObject_loop, hsk, if_neg (by rw [hpk]; decide), hkey _]
        simp only [operator_string]
        rw [SkipWhitespace_ws_append_cons hmid (by decide)]
        have e1 : ¬ peek (':' :: (t.valueText ++ (t.trail ++ '}' :: rest))) ≠ ':' := by
          simp [peek]
        rw [if_neg e1, List.tail_cons,
          hread.at_fuel (Delimited_ws_append htrail (Or.inr (Or.inr rfl)) rest) F
            (by simp only [List.length_append, List.length_cons] at hF ⊢; omega)]
        simp only
        rw [SkipWhitespace_ws_append_cons htrail (by decide)]
        simp [peek, emplaceAll]
      | cons t' ts' =>
        have htext : membersText (t :: t' :: ts') ++ '}' :: rest
            = t.lead ++ (t.keyText ++ (t.mid ++ ':' :: (t.valueText
                ++ (t.trail ++ ',' :: (membersText (t' :: ts') ++ '}' :: rest))))) := by
          simp [membersText, MemberText.text]
        rw [htext] at hF hfuel ⊢
        obtain ⟨hsk, hpk⟩ := membersText_head t (hwf t (List.mem_cons_self _ _))
          (',' :: (membersText (t' :: ts') ++ '}' :: rest))
        rw [hsk] at hfuel
        rw [ParseObject_loop, hsk, if_neg (by rw [hpk]; decide), hkey _]
        simp only [operator_string]
        rw [SkipWhitespace_ws_append_cons hmid (by decide)]
        have e1 : ¬ peek (':' :: (t.valueText
            ++ (t.trail ++ ',' :: (membersText (t' :: ts') ++ '}' :: rest)))) ≠ ':' := by
          simp [peek]
        rw [if_neg e1, List.tail_cons,
          hread.at_fuel (Delimited_ws_append htrail (Or.inl rfl)
            (membersText (t' :: ts') ++ '}' :: rest)) F
            (by simp only [List.length_append, List.length_cons] at hF ⊢; omega)]
        simp only
        rw [SkipWhitespace_ws_append_cons htrail (by decide)]
        have e2 : peek (',' :: (membersText (t' :: ts') ++ '}' :: rest)) ≠ '}' := by
          simp [peek]
        have e3 : ¬ peek (',' :: (membersText (t' :: ts') ++ '}' :: rest)) ≠ ',' := by
          simp [peek]
        rw [if_neg e2, if_neg e3, List.tail_cons]
        have hskip := SkipWhitespace_length_le (membersText (t' :: ts') ++ '}' :: rest)
        rw [ih (by simp) (fun u hu => hwf u (List.mem_cons_of_mem _ hu))
          (by simp only [List.length_append, List.length_cons] at hF ⊢; omega) fuel
          (by simp only [List.length_append, List.length_cons] at hfuel hskip ⊢; omega)]
        simp [emplaceAll]

/-- An object text reads as the object that `emplace` builds from its members, taken in
the order of the text. -/
theorem ReadsAs_objectText (ms : List MemberText) (hwf : ∀ t ∈ ms, t.WellFormed) :
    ReadsAs (objectText ms)
      (Object (emplaceAll [] (ms.map (fun t => (t.key, t.value))))) := by
  intro rest _
  refine ⟨(objectText ms ++ rest).length + 1, ?_⟩
  have hsk : SkipWhitespace (objectText ms ++ rest) = objectText ms ++ rest := by
    simp only [objectText, List.append_assoc, List.singleton_append, List.cons_append]
    exact SkipWhitespace_cons_of_not_ws (by decide) _
  rw [ParseValue, hsk]
  have hp : peek (objectText ms ++ rest) = '{' := by simp [objectText, peek]
  rw [if_neg (by rw [hp]; decide), if_neg (by rw [hp]; decide), if_neg (by rw [hp]; decide),
    if_neg (by rw [hp]; decide), if_neg (by rw [hp]; decide), if_pos hp]
  have htail : (objectText ms ++ rest).tail = membersText ms ++ '}' :: rest := by
    simp [objectText]
  unfold ParseObject
  rw [if_neg (by rw [hp]; decide), htail]
  cases ms with
  | nil =>
    have : SkipWhitespace (membersText [] ++ '}' :: rest) = '}' :: rest := by
      simp only [membersText, List.nil_append]
      exact SkipWhitespace_cons_of_not_ws (by decide) _
    rw [this]
    simp [peek, emplaceAll]
  | cons t ts =>
    have hF : (membersText (t :: ts) ++ '}' :: rest).length
        < (objectText (t :: ts) ++ rest).length := by
      simp [objectText]
    have hnot : peek (SkipWhitespace (membersText (t :: ts) ++ '}' :: rest)) ≠ '}' := by
      cases ts with
      | nil =>
        have htext : membersText [t] ++ '}' :: rest
            = t.lead ++ (t.keyText ++ (t.mid ++ ':' :: (t.valueText ++ (t.trail ++ '}' :: rest)))) := by
          simp [membersText, MemberText.text]
        obtain ⟨hsk, hpk⟩ := membersText_head t (hwf t (List.mem_cons_self _ _)) ('}' :: rest)
        rw [htext, hsk, hpk]
        decide
      | cons t' ts' =>
        have htext : membersText (t :: t' :: ts') ++ '}' :: rest
            = t.lead ++ (t.keyText ++ (t.mid ++ ':' :: (t.valueText
                ++ (t.trail ++ ',' :: (membersText (t' :: ts') ++ '}' :: rest))))) := by
          simp [membersText, MemberText.text]
        obtain ⟨hsk, hpk⟩ := membersText_head t (hwf t (List.mem_cons_self _ _))
          (',' :: (membersText (t' :: ts') ++ '}' :: rest))
        rw [htext, hsk, hpk]
        decide
    rw [if_neg hnot, ParseObject_loop_SkipWhitespace,
      ParseObject_loop_members _ rest (t :: ts) (by simp) hwf hF _ (by omega) []]

/-! ## Members left by a sequence of `emplace` -/

theorem umap_find_emplace (acc : List (string × TJsonNode)) (k : string) (v : TJsonNode)
    (key : string) :
    umap_find (umap_emplace acc k v).1 key
      = match umap_find acc key with
        | some w => some w
        | none => if k = key then some v else none := by
  unfold umap_emplace
  cases hk : umap_find acc k with
  | some w0 =>
    simp only
    cases hkey : umap_find acc key with
    | some w => rfl
    | none =>
      have : k ≠ key := by
        intro h
        rw [h, hkey] at hk
        cases hk
      simp [this]
  | none =>
    simp only
    rw [umap_find_append]
    cases umap_find acc key <;> rfl

theorem umap_find_emplaceAll (ms acc : List (string × TJsonNode)) (key : string) :
    umap_find (emplaceAll acc ms) key
      = match umap_find acc key with
        | some w => some w
        | none => umap_find ms key := by
  induction ms generalizing acc with
  | nil =>
    simp only [emplaceAll, umap_find]
    cases umap_find acc key <;> rfl
  | cons kv rest ih =>
    obtain ⟨k, v⟩ := kv
    rw [emplaceAll, ih, umap_find_emplace]
    cases hkey : umap_find acc key with
    | some w => rfl
    | none =>
      by_cases h : k = key
      · simp [umap_find, h]
      · simp [umap_find, h]

theorem umap_find_eq_none_of_not_mem {V : Type} (m : List (string × V)) (k : string)
    (h : k ∉ m.map Prod.fst) : umap_find m k = none := by
  induction m with
  | nil => rfl
  | cons kv rest ih =>
    obtain ⟨k0, v0⟩ := kv
    simp only [List.map_cons, List.mem_cons, not_or] at h
    rw [umap_find, if_neg (fun hc => h.1 hc.symm)]
    exact ih h.2

theorem umap_find_of_first {V : Type} (pre post : List (string × V)) (k : string) (v : V)
    (h : k ∉ pre.map Prod.fst) : umap_find (pre ++ (k, v) :: post) k = some v := by
  induction pre with
  | nil => simp [umap_find]
  | cons kv rest ih =>
    obtain ⟨k0, v0⟩ := kv
    simp only [List.map_cons, List.mem_cons, not_or] at h
    rw [List.cons_append, umap_find, if_neg (fun hc => h.1 hc.symm)]
    exact ih h.2

theorem emplaceAll_of_nodup (ms acc : List (string × TJsonNode))
    (hnodup : (ms.map Prod.fst).Nodup)
    (hdisj : ∀ k ∈ ms.map Prod.fst, k ∉ acc.map Prod.fst) :
    emplaceAll acc ms = acc ++ ms := by
  induction ms generalizing acc with
  | nil => simp [emplaceAll]
  | cons kv rest ih =>
    obtain ⟨k, v⟩ := kv
    simp only [List.map_cons, List.nodup_cons] at hnodup
    have hk : umap_find acc k = none :=
      umap_find_eq_none_of_not_mem acc k (hdisj k (by simp))
    rw [emplaceAll]
    have he : (umap_emplace acc k v).1 = acc ++ [(k, v)] := by
      simp [umap_emplace, hk]
    rw [he, ih _ hnodup.2]
    · simp
    · intro k' hk' hmem
      simp only [List.map_append, List.map_cons, List.map_nil, List.mem_append,
        List.mem_singleton] at hmem
      rcases hmem with h | h
      · exact hdisj k' (by simp [hk']) h
      · subst h
        exact hnodup.1 hk'

/-! ## Literals -/

theorem ReadsAs_null : ReadsAs ['n', 'u', 'l', 'l'] Null := by
  intro rest _
  refine ⟨1, ?_⟩
  rw [ParseValue, List.cons_append, SkipWhitespace_cons_of_not_ws (by decide)]
  simp [peek, ParseLiteral]

theorem ReadsAs_true : ReadsAs ['t', 'r', 'u', 'e'] (Boolean true) := by
  intro rest _
  refine ⟨1, ?_⟩
  rw [ParseValue, List.cons_append, SkipWhitespace_cons_of_not_ws (by decide)]
  simp [peek, ParseLiteral]

theorem ReadsAs_false : ReadsAs ['f', 'a', 'l', 's', 'e'] (Boolean false) := by
  intro rest _
  refine ⟨1, ?_⟩
  rw [ParseValue, List.cons_append, SkipWhitespace_cons_of_not_ws (by decide)]
  simp [peek, ParseLiteral]

/-! ## String literals -/

theorem hexValue_hexDigit : ∀ d, d < 16 → hexValue (hexDigit d) = some d := by
  decide

theorem ParseString_codepoint_hex (a b c d : Nat) (ha : a < 16) (hb : b < 16) (hc : c < 16)
    (hd : d < 16) (p : string) :
    ParseString_codepoint (hexDigit a :: hexDigit b :: hexDigit c :: hexDigit d :: p)
      = .ok (((a * 16 + b) * 16 + c) * 16 + d, p) := by
  unfold ParseString_codepoint
  simp only [peek, List.headD_cons, List.tail_cons, hexValue_hexDigit a ha,
    hexValue_hexDigit b hb, hexValue_hexDigit c hc, hexValue_hexDigit d hd]


/-- One iteration of the loop of `ParseString` reads back one escaped ASCII character. -/
theorem ParseString_loop_EscapeChar (c : Char) (hc : c.toNat < 128) (fuel : Nat)
    (p acc : string) :
    ParseString_loop (fuel + 1) (EscapeChar c ++ p) acc = ParseString_loop fuel p (acc ++ [c]) := by
  unfold EscapeChar
  by_cases h1 : c = '"'
  · subst h1
    rw [if_pos rfl, ParseString_loop]
    simp [peek]
  rw [if_neg h1]
  by_cases h2 : c = '\\'
  · subst h2
    rw [if_pos rfl, ParseString_loop]
    simp [peek]
  rw [if_neg h2]
  by_cases h3 : c = Char.ofNat 8
  · subst h3
    rw [if_pos rfl, ParseString_loop]
    simp [peek]
  rw [if_neg h3]
  by_cases h4 : c = Char.ofNat 12
  · subst h4
    rw [if_pos rfl, ParseString_loop]
    simp [peek]
  rw [if_neg h4]
  by_cases h5 : c = '\n'
  · subst h5
    rw [if_pos rfl, ParseString_loop]
    simp [peek]
  rw [if_neg h5]
  by_cases h6 : c = '\r'
  · subst h6
    rw [if_pos rfl, ParseString_loop]
    simp [peek]
  rw [if_neg h6]
  by_cases h7 : c = '\t'
  · subst h7
    rw [if_pos rfl, ParseString_loop]
    simp [peek]
  rw [if_neg h7]
  have hmod : c.toNat % 256 = c.toNat := Nat.mod_eq_of_lt (by omega)
  by_cases h8 : c.toNat % 256 < 32 ∨ 128 ≤ c.toNat % 256
  · rw [if_pos h8]
    rw [hmod] at h8 ⊢
    have hlt : c.toNat < 32 := by omega
    have e1 : c.toNat / 4096 % 16 = 0 := by omega
    have e2 : c.toNat / 256 % 16 = 0 := by omega
    have e3 : c.toNat / 16 % 16 = c.toNat / 16 := by omega
    rw [e1, e2, e3, ParseString_loop]
    simp only [List.cons_append, List.nil_append, peek, List.headD_cons, List.tail_cons]
    rw [ParseString_codepoint_hex 0 0 (c.toNat / 16) (c.toNat % 16) (by omega) (by omega)
      (by omega) (by omega)]
    have hcp : ((0 * 16 + 0) * 16 + c.toNat / 16) * 16 + c.toNat % 16 = c.toNat := by omega
    simp only [hcp]
    simp [hc, Char.ofNat_toNat]
  · rw [if_neg h8]
    rw [hmod] at h8
    have h0 : c ≠ Char.ofNat 0 := by
      intro h
      rw [h] at h8
      revert h8
      decide
    rw [ParseString_loop]
    simp only [List.cons_append, List.nil_append, peek, List.headD_cons, List.tail_cons]
    rw [if_neg h1, if_neg h0, if_neg h2]

theorem ParseString_loop_EscapeString (s : string) (hs : IsAscii s) (fuel : Nat)
    (hf : s.length < fuel) (rest acc : string) :
    ParseString_loop fuel (EscapeString s ++ '"' :: rest) acc = .ok (acc ++ s, rest) := by
  induction s generalizing fuel acc with
  | nil =>
    cases fuel with
    | zero => simp at hf
    | succ fuel =>
      rw [EscapeString, List.nil_append, ParseString_loop]
      simp [peek]
  | cons c s ih =>
    cases fuel with
    | zero => simp at hf
    | succ fuel =>
      rw [EscapeString, List.append_assoc,
        ParseString_loop_EscapeChar c (hs c (List.mem_cons_self _ _)),
        ih (fun d hd => hs d (List.mem_cons_of_mem _ hd)) fuel
          (by simp only [List.length_cons] at hf; omega)]
      simp

theorem EscapeChar_length_pos (c : Char) : 1 ≤ (EscapeChar c).length := by
  unfold EscapeChar
  repeat' split
  all_goals simp

theorem EscapeString_length (s : string) : s.length ≤ (EscapeString s).length := by
  induction s with
  | nil => simp [EscapeString]
  | cons c s ih =>
    have := EscapeChar_length_pos c
    simp only [EscapeString, List.length_append, List.length_cons]
    omega

/-- The literal the serializer writes for an ASCII string is read back as that string. -/
theorem ReadsAsKey_quoted (s : string) (hs : IsAscii s) :
    ReadsAsKey (['"'] ++ EscapeString s ++ ['"']) s := by
  intro rest
  unfold ParseString
  have htext : ['"'] ++ EscapeString s ++ ['"'] ++ rest
      = '"' :: (EscapeString s ++ '"' :: rest) := by simp
  rw [htext]
  simp only [peek, List.headD_cons, List.tail_cons, ne_eq, not_true_eq_false, if_false]
  rw [ParseString_loop_EscapeString s hs _
    (by have := EscapeString_length s; simp only [List.length_append, List.length_cons]; omega)]
  simp

theorem ReadsAs_of_ReadsAsKey {t k : string} (h : ReadsAsKey t k) : ReadsAs t (String k) := by
  intro rest _
  refine ⟨1, ?_⟩
  have hp := h.starts_with_quote rest
  rw [ParseValue, SkipWhitespace_of_peek_not_ws (by rw [hp]; decide),
    if_neg (by rw [hp]; decide), if_neg (by rw [hp]; decide), if_neg (by rw [hp]; decide),
    if_pos hp]
  exact h rest

end TJsonNode


/-! ## Decimal digits -/

theorem digitChar_toNat (d : Nat) (h : d < 10) : (digitChar d).toNat = 48 + d := by
  revert d
  decide

theorem isDigit_digitChar (d : Nat) (h : d < 10) : isDigit (digitChar d) = true := by
  revert d
  decide

theorem decimalDigits_eq (n : Nat) : ∀ (fuel : Nat) (acc : List Char), n < fuel →
    decimalDigits fuel n acc = decimalDigits (n + 1) n [] ++ acc := by
  induction n using Nat.strong_induction_on with
  | _ n ih =>
    intro fuel acc hf
    cases fuel with
    | zero => omega
    | succ fuel =>
      rw [decimalDigits, decimalDigits]
      by_cases h : n < 10
      · rw [if_pos h, if_pos h]
        rfl
      · rw [if_neg h, if_neg h]
        have hlt : n / 10 < n := Nat.div_lt_self (by omega) (by omega)
        rw [ih (n / 10) hlt fuel _ (by omega), ih (n / 10) hlt n _ hlt]
        simp

theorem to_string_nat_eq (n : Nat) :
    to_string_nat n
      = if n < 10 then [digitChar n] else to_string_nat (n / 10) ++ [digitChar (n % 10)] := by
  unfold to_string_nat
  rw [decimalDigits]
  by_cases h : n < 10
  · rw [if_pos h, if_pos h]
  · rw [if_neg h, if_neg h]
    exact decimalDigits_eq (n / 10) n _ (Nat.div_lt_self (by omega) (by omega))

theorem decimalValue_snoc (xs : List Char) (c : Char) :
    decimalValue (xs ++ [c]) = 10 * decimalValue xs + (c.toNat - 48) := by
  simp [decimalValue, List.foldl_append]

theorem decimalValue_append (xs ys : List Char) :
    decimalValue (xs ++ ys) = decimalValue xs * 10 ^ ys.length + decimalValue ys := by
  induction ys using List.reverseRecOn with
  | nil => simp [decimalValue]
  | append_singleton ys c ih =>
    rw [← List.append_assoc, decimalValue_snoc, decimalValue_snoc, ih]
    simp only [List.length_append, List.length_singleton]
    ring

theorem decimalValue_singleton (c : Char) : decimalValue [c] = c.toNat - 48 := by
  simp [decimalValue]

theorem decimalValue_to_string_nat (n : Nat) : decimalValue (to_string_nat n) = n := by
  induction n using Nat.strong_induction_on with
  | _ n ih =>
    rw [to_string_nat_eq]
    by_cases h : n < 10
    · rw [if_pos h, decimalValue_singleton, digitChar_toNat n h]
      omega
    · rw [if_neg h, decimalValue_append, ih (n / 10) (Nat.div_lt_self (by omega) (by omega)),
        decimalValue_singleton, digitChar_toNat _ (Nat.mod_lt _ (by omega))]
      simp only [List.length_singleton, pow_one]
      omega

theorem to_string_nat_digits (n : Nat) : ∀ c ∈ to_string_nat n, isDigit c = true := by
  induction n using Nat.strong_induction_on with
  | _ n ih =>
    rw [to_string_nat_eq]
    by_cases h : n < 10
    · rw [if_pos h]
      intro c hc
      rw [List.mem_singleton] at hc
      rw [hc]
      exact isDigit_digitChar n h
    · rw [if_neg h]
      intro c hc
      rcases List.mem_append.mp hc with hc | hc
      · exact ih (n / 10) (Nat.div_lt_self (by omega) (by omega)) c hc
      · rw [List.mem_singleton] at hc
        rw [hc]
        exact isDigit_digitChar _ (Nat.mod_lt _ (by omega))

/-- The decimal rendering has no leading zero: it is `0` itself or starts with `1`..`9`. -/
theorem to_string_nat_head (n : Nat) :
    (n = 0 ∧ to_string_nat n = ['0'])
      ∨ (0 < n ∧ ∃ c r, to_string_nat n = c :: r ∧ 49 ≤ c.toNat ∧ c.toNat ≤ 57) := by
  induction n using Nat.strong_induction_on with
  | _ n ih =>
    rw [to_string_nat_eq]
    by_cases h : n < 10
    · rw [if_pos h]
      by_cases h0 : n = 0
      · left
        subst h0
        exact ⟨rfl, by decide⟩
      · right
        refine ⟨by omega, digitChar n, [], rfl, ?_⟩
        rw [digitChar_toNat n h]
        omega
    · rw [if_neg h]
      right
      refine ⟨by omega, ?_⟩
      rcases ih (n / 10) (Nat.div_lt_self (by omega) (by omega)) with ⟨h0, _⟩ | ⟨_, c, r, hcr, hc⟩
      · omega
      · exact ⟨c, r ++ [digitChar (n % 10)], by rw [hcr]; rfl, hc⟩

namespace TJsonNode

/-! ## Scanning a number -/

theorem dropWhile_digits_append (ds T : string) (hds : ∀ c ∈ ds, isDigit c = true)
    (hT : isDigit (peek T) = false) : (ds ++ T).dropWhile isDigit = T := by
  induction ds with
  | nil =>
    cases T with
    | nil => rfl
    | cons c r =>
      rw [List.nil_append, List.dropWhile_cons]
      simp only [peek, List.headD_cons] at hT
      simp [hT]
  | cons d ds ih =>
    rw [List.cons_append, List.dropWhile_cons, if_pos (hds d (List.mem_cons_self _ _))]
    exact ih (fun c hc => hds c (List.mem_cons_of_mem _ hc))

theorem takeWhile_digits_append (ds T : string) (hds : ∀ c ∈ ds, isDigit c = true)
    (hT : isDigit (peek T) = false) : (ds ++ T).takeWhile isDigit = ds := by
  induction ds with
  | nil =>
    cases T with
    | nil => rfl
    | cons c r =>
      rw [List.nil_append, List.takeWhile_cons]
      simp only [peek, List.headD_cons] at hT
      simp [hT]
  | cons d ds ih =>
    rw [List.cons_append, List.takeWhile_cons, if_pos (hds d (List.mem_cons_self _ _)),
      ih (fun c hc => hds c (List.mem_cons_of_mem _ hc))]

theorem IntegerPart.digits {ip : string} (h : IntegerPart ip) : ∀ c ∈ ip, isDigit c = true := by
  rcases h with h | ⟨c, r, h, hc, hr⟩
  · subst h
    decide
  · subst h
    intro d hd
    rcases List.mem_cons.mp hd with hd | hd
    · subst hd
      simp only [isDigit, decide_eq_true_eq]
      omega
    · exact hr d hd

theorem IntegerPart.ne_nil {ip : string} (h : IntegerPart ip) : ip ≠ [] := by
  rcases h with h | ⟨c, r, h, _⟩ <;> subst h <;> simp

theorem IntegerPart.peek_digit {ip : string} (h : IntegerPart ip) (T : string) :
    isDigit (peek (ip ++ T)) = true := by
  have hd := h.digits
  rcases h with h | ⟨c, r, h, _⟩ <;> subst h
  · simp only [List.cons_append, peek, List.headD_cons]
    decide
  · exact hd c (List.mem_cons_self _ _)

theorem IntegerPart_to_string_nat (n : Nat) : IntegerPart (to_string_nat n) := by
  rcases to_string_nat_head n with ⟨_, h⟩ | ⟨_, c, r, h, hc⟩
  · exact Or.inl h
  · refine Or.inr ⟨c, r, h, hc, ?_⟩
    intro d hd
    exact to_string_nat_digits n d (by rw [h]; exact List.mem_cons_of_mem _ hd)

theorem ParseNumber_integer_text {ip : string} (hip : IntegerPart ip) (T : string)
    (hT : isDigit (peek T) = false) : ParseNumber_integer (ip ++ T) = .ok T := by
  unfold ParseNumber_integer
  rcases hip with h | ⟨c, r, h, hc, hr⟩
  · subst h
    simp [peek]
  · subst h
    have hc0 : c ≠ '0' := by
      intro h0
      subst h0
      revert hc
      decide
    have hcd : isDigit c = true := by
      simp only [isDigit, decide_eq_true_eq]
      omega
    simp only [List.cons_append, peek, List.headD_cons]
    rw [if_neg hc0, if_pos hc, List.dropWhile_cons, if_pos hcd]
    exact congrArg Except.ok (dropWhile_digits_append r T hr hT)


/-- The scan of `ParseNumber` over `-?int(.frac)?` followed by something that cannot
continue a number: the text handed to `std::stod` is exactly the number text. -/
theorem ParseNumber_text (neg : Bool) (ip fp : string) (hip : IntegerPart ip)
    (hfp : ∀ c ∈ fp, isDigit c = true) (rest : string) (hrest : NumberEnd rest) :
    ParseNumber ((if neg then ['-'] else []) ++ ip ++ (if fp = [] then [] else '.' :: fp) ++ rest)
      = match stod ((if neg then ['-'] else []) ++ ip ++ (if fp = [] then [] else '.' :: fp)) with
        | .error e => .error e
        | .ok value => .ok (Number value, rest) := by
  obtain ⟨hr1, hr2, hr3, hr4⟩ := hrest
  have hX : isDigit (peek ((if fp = [] then [] else '.' :: fp) ++ rest)) = false := by
    by_cases hf : fp = []
    · rw [if_pos hf, List.nil_append]; exact hr1
    · rw [if_neg hf]
      simp only [List.cons_append, peek, List.headD_cons]
      decide
  have hstart : (if peek ((if neg then ['-'] else []) ++ ip
        ++ (if fp = [] then [] else '.' :: fp) ++ rest) = '-'
      then ((if neg then ['-'] else []) ++ ip ++ (if fp = [] then [] else '.' :: fp) ++ rest).tail
      else (if neg then ['-'] else []) ++ ip ++ (if fp = [] then [] else '.' :: fp) ++ rest)
      = ip ++ ((if fp = [] then [] else '.' :: fp) ++ rest) := by
    cases neg with
    | true => simp [peek]
    | false =>
      have hd := hip.peek_digit ((if fp = [] then [] else '.' :: fp) ++ rest)
      have hne : peek (ip ++ ((if fp = [] then [] else '.' :: fp) ++ rest)) ≠ '-' := by
        intro hc
        rw [hc] at hd
        revert hd
        decide
      simp only [Bool.false_eq_true, if_false, List.nil_append, List.append_assoc]
      rw [if_neg hne]
  have hfrac : ParseNumber_fraction ((if fp = [] then [] else '.' :: fp) ++ rest) = .ok rest := by
    unfold ParseNumber_fraction
    by_cases hf : fp = []
    · simp only [hf, if_true, List.nil_append]
      rw [if_neg hr2]
    · simp only [hf, if_false, List.cons_append, peek, List.headD_cons, List.tail_cons, if_true]
      have hpd : isDigit ((fp ++ rest).headD (Char.ofNat 0)) = true := by
        cases fp with
        | nil => exact absurd rfl hf
        | cons c r => exact hfp c (List.mem_cons_self _ _)
      rw [if_pos hpd, dropWhile_digits_append fp rest hfp hr1]
  have hexp : ParseNumber_exponent rest = .ok rest := by
    unfold ParseNumber_exponent
    rw [if_neg (by intro h; rcases h with h | h; exact hr3 h; exact hr4 h)]
  have htake : ((if neg then ['-'] else []) ++ ip ++ (if fp = [] then [] else '.' :: fp) ++ rest).take
      (((if neg then ['-'] else []) ++ ip ++ (if fp = [] then [] else '.' :: fp) ++ rest).length
        - rest.length)
      = (if neg then ['-'] else []) ++ ip ++ (if fp = [] then [] else '.' :: fp) := by
    rw [List.length_append, Nat.add_sub_cancel, List.take_left']
    rfl
  unfold ParseNumber
  rw [hstart, ParseNumber_integer_text hip _ hX]
  simp only
  rw [hfrac]
  simp only
  rw [hexp]
  simp only
  rw [htake]

/-! ## The value of a number text -/

theorem decimalMagnitude_text (ip fp : string) (hip : IntegerPart ip)
    (hfp : ∀ c ∈ fp, isDigit c = true) :
    decimalMagnitude (ip ++ (if fp = [] then [] else '.' :: fp))
      = some ((decimalValue (ip ++ fp) : ℚ) / ((10 ^ fp.length : ℕ) : ℚ)) := by
  have hF : isDigit (peek (if fp = [] then [] else '.' :: fp)) = false := by
    by_cases hf : fp = []
    · rw [if_pos hf]; decide
    · rw [if_neg hf]
      simp only [peek, List.headD_cons]
      decide
  have hint : (ip ++ (if fp = [] then [] else '.' :: fp)).takeWhile isDigit = ip :=
    takeWhile_digits_append ip _ hip.digits hF
  have hs2 : (ip ++ (if fp = [] then [] else '.' :: fp)).dropWhile isDigit
      = (if fp = [] then [] else '.' :: fp) :=
    dropWhile_digits_append ip _ hip.digits hF
  have hfrac : decimalFraction (if fp = [] then [] else '.' :: fp) = fp := by
    unfold decimalFraction
    by_cases hf : fp = []
    · subst hf
      simp
    · simp only [hf, if_false, List.headD_cons, if_true, List.tail_cons]
      have := takeWhile_digits_append fp [] hfp (by decide)
      rwa [List.append_nil] at this
  have hs3 : decimalAfterFraction (if fp = [] then [] else '.' :: fp) = [] := by
    unfold decimalAfterFraction
    by_cases hf : fp = []
    · subst hf
      simp
    · simp only [hf, if_false, List.headD_cons, if_true, List.tail_cons]
      have := dropWhile_digits_append fp [] hfp (by decide)
      rwa [List.append_nil] at this
  have hexp : decimalExponent [] = (false, 1) := by decide
  unfold decimalMagnitude
  rw [hint, hs2, hfrac, hs3, hexp]
  have hne := hip.ne_nil
  simp [hne]

theorem decimalTextValue_text (neg : Bool) (ip fp : string) (hip : IntegerPart ip)
    (hfp : ∀ c ∈ fp, isDigit c = true) :
    decimalTextValue ((if neg then ['-'] else []) ++ ip ++ (if fp = [] then [] else '.' :: fp))
      = some (if neg then -((decimalValue (ip ++ fp) : ℚ) / ((10 ^ fp.length : ℕ) : ℚ))
          else (decimalValue (ip ++ fp) : ℚ) / ((10 ^ fp.length : ℕ) : ℚ)) := by
  unfold decimalTextValue
  cases neg with
  | true =>
    have htext : (if true = true then ['-'] else []) ++ ip
        ++ (if fp = [] then [] else '.' :: fp)
        = '-' :: (ip ++ (if fp = [] then [] else '.' :: fp)) := by simp
    rw [htext]
    simp only [List.headD_cons, if_true, List.tail_cons]
    rw [decimalMagnitude_text ip fp hip hfp]
  | false =>
    have hd := hip.peek_digit (if fp = [] then [] else '.' :: fp)
    have hne : (ip ++ (if fp = [] then [] else '.' :: fp)).headD (Char.ofNat 0) ≠ '-' := by
      intro hc
      unfold peek at hd
      rw [hc] at hd
      revert hd
      decide
    simp only [Bool.false_eq_true, if_false, List.nil_append, List.append_assoc]
    rw [if_neg hne, decimalMagnitude_text ip fp hip hfp]

end TJsonNode


/-! ## Rounding to `double` -/

theorem pow2_pos (e : Int) : 0 < pow2 e := by
  unfold pow2
  split
  · positivity
  · positivity


theorem ulp_pos (a : ℚ) : 0 < ulp a := pow2_pos _

theorem roundHalfEven_intCast (n : ℤ) : roundHalfEven (n : ℚ) = n := by
  unfold roundHalfEven
  simp

theorem roundHalfEven_of_den_eq_one {x : ℚ} (h : x.den = 1) : (roundHalfEven x : ℚ) = x := by
  have hx : ((x.num : ℤ) : ℚ) = x := Rat.coe_int_num_of_den_eq_one h
  rw [← hx, roundHalfEven_intCast]

/-- A finite binary64 value converts to `double` unchanged. -/
theorem Double.ofRat_of_IsDouble {q : ℚ} (h : IsDouble q) : Double.ofRat q = .finite q := by
  unfold Double.ofRat
  by_cases h0 : q = 0
  · rw [if_pos h0, h0]
  rw [if_neg h0]
  rcases h with h | ⟨hden, hlt⟩
  · exact absurd h h0
  have hr : (roundHalfEven (|q| / ulp |q|) : ℚ) * ulp |q| = |q| := by
    rw [roundHalfEven_of_den_eq_one hden]
    exact div_mul_cancel₀ _ (ne_of_gt (ulp_pos _))
  rw [hr, if_neg (not_le.mpr hlt)]
  by_cases hneg : q < 0
  · rw [if_pos hneg, abs_of_neg hneg, neg_neg]
  · rw [if_neg hneg, abs_of_nonneg (not_lt.mp hneg)]

theorem stod_round_of_IsDouble {q : ℚ} (h : IsDouble q) : stod_round q = .ok (.finite q) := by
  unfold stod_round
  rw [Double.ofRat_of_IsDouble h]
  simp

/-- The conversion of an integer to `double` is integer-valued whenever it is finite. -/
theorem Double.ofInt_finite_den (t : ℤ) (r : ℚ) (h : Double.ofInt t = .finite r) :
    r.den = 1 := by
  unfold Double.ofInt Double.ofRat at h
  by_cases h0 : (t : ℚ) = 0
  · rw [if_pos h0] at h
    injection h with h
    rw [← h]
    rfl
  rw [if_neg h0] at h
  have key : ((roundHalfEven (|(t : ℚ)| / ulp |(t : ℚ)|) : ℚ) * ulp |(t : ℚ)|).den = 1 := by
    have habs : |(t : ℚ)| = ((|t| : ℤ) : ℚ) := by push_cast; rfl
    unfold ulp
    generalize max (flog2 |(t : ℚ)|) (-1022) - 52 = e
    rw [habs]
    unfold pow2
    by_cases he : 0 ≤ e
    · rw [if_pos he]
      have : ((roundHalfEven (((|t| : ℤ) : ℚ) / ((2 ^ e.toNat : ℕ) : ℚ)) : ℚ)
          * ((2 ^ e.toNat : ℕ) : ℚ))
          = (((roundHalfEven (((|t| : ℤ) : ℚ) / ((2 ^ e.toNat : ℕ) : ℚ))) * ((2 ^ e.toNat : ℕ) : ℤ) : ℤ) : ℚ) := by
        push_cast
        rfl
      rw [this]
      rfl
    · rw [if_neg he]
      have hx : ((|t| : ℤ) : ℚ) / (1 / ((2 ^ (-e).toNat : ℕ) : ℚ))
          = (((|t| * ((2 ^ (-e).toNat : ℕ) : ℤ)) : ℤ) : ℚ) := by
        push_cast
        field_simp
      rw [hx, roundHalfEven_intCast]
      have : (((|t| * ((2 ^ (-e).toNat : ℕ) : ℤ) : ℤ) : ℚ)) * (1 / ((2 ^ (-e).toNat : ℕ) : ℚ))
          = ((|t| : ℤ) : ℚ) := by
        push_cast
        field_simp
      rw [this]
      rfl
  by_cases hov : pow2 1024 ≤ (roundHalfEven (|(t : ℚ)| / ulp |(t : ℚ)|) : ℚ) * ulp |(t : ℚ)|
  · rw [if_pos hov] at h
    cases h
  rw [if_neg hov] at h
  by_cases hneg : (t : ℚ) < 0
  · rw [if_pos hneg] at h
    injection h with h
    rw [← h, Rat.neg_den]
    exact key
  · rw [if_neg hneg] at h
    injection h with h
    rw [← h]
    exact key

namespace TJsonNode

/-! ## Number texts -/

theorem NumberEnd_of_Delimited {rest : string} (h : Delimited rest) : NumberEnd rest := by
  rcases h with h | ⟨c, r, h, hc⟩
  · subst h
    exact ⟨by decide, by decide, by decide, by decide⟩
  · subst h
    simp only [NumberEnd, peek, List.headD_cons]
    rcases hc with hc | hc | hc | hc
    · subst hc; exact ⟨by decide, by decide, by decide, by decide⟩
    · subst hc; exact ⟨by decide, by decide, by decide, by decide⟩
    · subst hc; exact ⟨by decide, by decide, by decide, by decide⟩
    · have hw : c = ' ' ∨ c = '\t' ∨ c = '\n' ∨ c = '\r' := by
        simpa [isWhitespace] using hc
      rcases hw with hw | hw | hw | hw <;> subst hw <;>
        exact ⟨by decide, by decide, by decide, by decide⟩

/-- The dispatch of `ParseValue` on a text that starts with `-` or a digit. -/
theorem ParseValue_number (p : string)
    (hp : peek p = '-' ∨ isDigit (peek p) = true) (fuel : Nat) :
    ParseValue (fuel + 1) p = ParseNumber p := by
  have hws : isWhitespace (peek p) = false := by
    rcases hp with hp | hp
    · rw [hp]; decide
    · cases hcon : isWhitespace (peek p) with
      | false => rfl
      | true =>
        have hw : peek p = ' ' ∨ peek p = '\t' ∨ peek p = '\n' ∨ peek p = '\r' := by
          simpa [isWhitespace] using hcon
        rcases hw with hw | hw | hw | hw <;> rw [hw] at hp <;> revert hp <;> decide
  have hne : ∀ c : Char, c ≠ '-' → isDigit c = false → peek p ≠ c := by
    intro c h1 h2 hc
    rcases hp with hp | hp
    · exact h1 (hc ▸ hp)
    · rw [hc, h2] at hp
      cases hp
  rw [ParseValue, SkipWhitespace_of_peek_not_ws hws,
    if_neg (hne 'n' (by decide) (by decide)), if_neg (hne 't' (by decide) (by decide)),
    if_neg (hne 'f' (by decide) (by decide)), if_neg (hne '"' (by decide) (by decide)),
    if_neg (hne '[' (by decide) (by decide)), if_neg (hne '{' (by decide) (by decide)),
    if_pos hp]

theorem ReadsAs_number_text (neg : Bool) (ip fp : string) (hip : IntegerPart ip)
    (hfp : ∀ c ∈ fp, isDigit c = true) (d : Double)
    (hstod : stod ((if neg then ['-'] else []) ++ ip ++ (if fp = [] then [] else '.' :: fp))
      = .ok d) :
    ReadsAs ((if neg then ['-'] else []) ++ ip ++ (if fp = [] then [] else '.' :: fp))
      (Number d) := by
  intro rest hdel
  refine ⟨1, ?_⟩
  have hpeek : peek ((if neg then ['-'] else []) ++ ip
      ++ (if fp = [] then [] else '.' :: fp) ++ rest) = '-'
      ∨ isDigit (peek ((if neg then ['-'] else []) ++ ip
        ++ (if fp = [] then [] else '.' :: fp) ++ rest)) = true := by
    cases neg with
    | true => left; simp [peek]
    | false =>
      right
      have := hip.peek_digit ((if fp = [] then [] else '.' :: fp) ++ rest)
      simpa using this
  rw [ParseValue_number _ hpeek, ParseNumber_text neg ip fp hip hfp rest
    (NumberEnd_of_Delimited hdel), hstod]

/-! ## Numbers the serializer prints exactly -/

theorem truncate_intCast (n : ℤ) : truncate (n : ℚ) = n := by
  unfold truncate
  split
  · simp
  · rw [← Int.cast_neg, Int.floor_intCast]
    omega

theorem truncate_bounds {q : ℚ} (hlo : -(9223372036854775808 : ℚ) ≤ q)
    (hhi : q < (9223372036854775808 : ℚ)) :
    -(2 : Int) ^ 63 ≤ truncate q ∧ truncate q < (2 : Int) ^ 63 := by
  unfold truncate
  split
  · rename_i h0
    constructor
    · have : (0 : ℤ) ≤ ⌊q⌋ := Int.floor_nonneg.mpr h0
      omega
    · rw [Int.floor_lt]
      norm_num
      exact hhi
  · rename_i h0
    have hq : (0 : ℚ) ≤ -q := by linarith
    have h1 : (0 : ℤ) ≤ ⌊-q⌋ := Int.floor_nonneg.mpr hq
    have h2 : ⌊-q⌋ ≤ (9223372036854775808 : ℤ) := by
      rw [← Int.cast_le (R := ℚ)]
      calc ((⌊-q⌋ : ℤ) : ℚ) ≤ -q := Int.floor_le _
        _ ≤ ((9223372036854775808 : ℤ) : ℚ) := by push_cast; linarith
    constructor <;> omega

theorem compactText_Number_integer (n : ℤ) (hd : IsDouble (n : ℚ))
    (hlo : -(9223372036854775808 : ℚ) ≤ (n : ℚ)) (hhi : (n : ℚ) < (9223372036854775808 : ℚ)) :
    compactText (Number (.finite (n : ℚ))) = to_string_long_long n := by
  have hb := truncate_bounds hlo hhi
  rw [truncate_intCast] at hb
  have hcast : static_cast_long_long (.finite (n : ℚ)) = n := by
    unfold static_cast_long_long
    simp only [truncate_intCast]
    rw [if_pos hb]
  rw [compactText, hcast]
  unfold Double.ofInt
  rw [Double.ofRat_of_IsDouble hd]
  simp [Double.eq]

theorem compactText_Number_fraction (q : ℚ) (hden : q.den ≠ 1) :
    compactText (Number (.finite q)) = to_string_double (.finite q) := by
  rw [compactText]
  have : Double.eq (.finite q) (Double.ofInt (static_cast_long_long (.finite q))) = false := by
    cases h : Double.ofInt (static_cast_long_long (.finite q)) with
    | finite r =>
      have hr := Double.ofInt_finite_den _ r h
      simp only [Double.eq, decide_eq_false_iff_not]
      intro hqr
      rw [hqr] at hden
      exact hden hr
    | inf b => rfl
    | nan b => rfl
  rw [this]
  simp

theorem to_string_long_long_eq (n : ℤ) :
    to_string_long_long n
      = (if decide (n < 0) then ['-'] else []) ++ to_string_nat n.natAbs
          ++ (if ([] : string) = [] then [] else '.' :: []) := by
  unfold to_string_long_long
  by_cases h : n < 0
  · simp [h]
  · have : n.toNat = n.natAbs := by omega
    simp [h, this]

theorem ReadsAs_integer (n : ℤ) (hd : IsDouble (n : ℚ)) :
    ReadsAs (to_string_long_long n) (Number (.finite (n : ℚ))) := by
  rw [to_string_long_long_eq]
  apply ReadsAs_number_text _ _ _ (IntegerPart_to_string_nat _) (by simp)
  unfold stod
  rw [decimalTextValue_text _ _ _ (IntegerPart_to_string_nat _) (by simp)]
  simp only [List.append_nil, decimalValue_to_string_nat, List.length_nil, pow_zero,
    Nat.cast_one, div_one]
  have hval : (if decide (n < 0) = true then -((n.natAbs : ℕ) : ℚ) else ((n.natAbs : ℕ) : ℚ))
      = (n : ℚ) := by
    by_cases h : n < 0
    · have : ((n.natAbs : ℕ) : ℤ) = -n := by omega
      have h2 : ((n.natAbs : ℕ) : ℚ) = -(n : ℚ) := by
        rw [← Int.cast_natCast, this]
        push_cast
        rfl
      simp [h, h2]
    · have : ((n.natAbs : ℕ) : ℤ) = n := by omega
      have h2 : ((n.natAbs : ℕ) : ℚ) = (n : ℚ) := by
        rw [← Int.cast_natCast, this]
      simp [h, h2]
  rw [hval]
  exact stod_round_of_IsDouble hd

theorem sixDecimals_scaled {q : ℚ} (h : (q * 1000000).den = 1) :
    (((roundHalfEven (|q| * 1000000)).toNat : ℕ) : ℚ) = |q| * 1000000 := by
  have hm : (((q * 1000000).num : ℤ) : ℚ) = q * 1000000 := Rat.coe_int_num_of_den_eq_one h
  have habs : |q| * 1000000 = (((|(q * 1000000).num| : ℤ)) : ℚ) := by
    rw [Int.cast_abs, hm, abs_mul]
    norm_num
  rw [habs, roundHalfEven_intCast]
  have hnn : (0 : ℤ) ≤ |(q * 1000000).num| := abs_nonneg _
  rw [← Int.cast_natCast, Int.toNat_of_nonneg hnn]

theorem decimalValue_six (a b c d e f : Nat) (ha : a < 10) (hb : b < 10) (hc : c < 10)
    (hd : d < 10) (he : e < 10) (hf : f < 10) :
    decimalValue [digitChar a, digitChar b, digitChar c, digitChar d, digitChar e, digitChar f]
      = a * 100000 + b * 10000 + c * 1000 + d * 100 + e * 10 + f := by
  simp only [decimalValue, List.foldl_cons, List.foldl_nil, digitChar_toNat a ha,
    digitChar_toNat b hb, digitChar_toNat c hc, digitChar_toNat d hd, digitChar_toNat e he,
    digitChar_toNat f hf]
  omega

theorem to_string_double_shape (q : ℚ) (S : Nat)
    (hS : S = (roundHalfEven (|q| * 1000000)).toNat) :
    to_string_double (.finite q)
      = (if decide (q < 0) then ['-'] else []) ++ to_string_nat (S / 1000000)
        ++ (if [digitChar (S / 100000 % 10), digitChar (S / 10000 % 10),
              digitChar (S / 1000 % 10), digitChar (S / 100 % 10), digitChar (S / 10 % 10),
              digitChar (S % 10)] = [] then []
            else '.' :: [digitChar (S / 100000 % 10), digitChar (S / 10000 % 10),
              digitChar (S / 1000 % 10), digitChar (S / 100 % 10), digitChar (S / 10 % 10),
              digitChar (S % 10)]) := by
  subst hS
  unfold to_string_double
  simp

theorem ReadsAs_sixDecimals (q : ℚ) (hd : IsDouble q) (h6 : (q * 1000000).den = 1) :
    ReadsAs (to_string_double (.finite q)) (Number (.finite q)) := by
  have hS := sixDecimals_scaled h6
  rw [to_string_double_shape q _ rfl]
  generalize (roundHalfEven (|q| * 1000000)).toNat = S at hS ⊢
  have hfp : ∀ c ∈ [digitChar (S / 100000 % 10), digitChar (S / 10000 % 10),
      digitChar (S / 1000 % 10), digitChar (S / 100 % 10), digitChar (S / 10 % 10),
      digitChar (S % 10)], isDigit c = true := by
    intro c hc
    simp only [List.mem_cons, List.mem_singleton, List.not_mem_nil, or_false] at hc
    rcases hc with hc | hc | hc | hc | hc | hc <;> rw [hc] <;>
      exact isDigit_digitChar _ (Nat.mod_lt _ (by omega))
  apply ReadsAs_number_text _ _ _ (IntegerPart_to_string_nat _) hfp
  unfold stod
  rw [decimalTextValue_text _ _ _ (IntegerPart_to_string_nat _) hfp, decimalValue_append,
    decimalValue_to_string_nat,
    decimalValue_six _ _ _ _ _ _ (Nat.mod_lt _ (by omega)) (Nat.mod_lt _ (by omega))
      (Nat.mod_lt _ (by omega)) (Nat.mod_lt _ (by omega)) (Nat.mod_lt _ (by omega))
      (Nat.mod_lt _ (by omega))]
  have hsum : S / 1000000 * 10 ^ [digitChar (S / 100000 % 10), digitChar (S / 10000 % 10),
        digitChar (S / 1000 % 10), digitChar (S / 100 % 10), digitChar (S / 10 % 10),
        digitChar (S % 10)].length
      + (S / 100000 % 10 * 100000 + S / 10000 % 10 * 10000 + S / 1000 % 10 * 1000
        + S / 100 % 10 * 100 + S / 10 % 10 * 10 + S % 10) = S := by
    simp only [List.length_cons, List.length_nil]
    omega
  rw [hsum]
  have hval : (if decide (q < 0) = true
        then -((S : ℚ) / ((10 ^ [digitChar (S / 100000 % 10), digitChar (S / 10000 % 10),
          digitChar (S / 1000 % 10), digitChar (S / 100 % 10), digitChar (S / 10 % 10),
          digitChar (S % 10)].length : ℕ) : ℚ))
        else (S : ℚ) / ((10 ^ [digitChar (S / 100000 % 10), digitChar (S / 10000 % 10),
          digitChar (S / 1000 % 10), digitChar (S / 100 % 10), digitChar (S / 10 % 10),
          digitChar (S % 10)].length : ℕ) : ℚ)) = q := by
    simp only [List.length_cons, List.length_nil]
    rw [hS]
    by_cases h : q < 0
    · simp only [h, decide_True, if_true, abs_of_neg h]
      norm_num
      ring
    · simp only [h, decide_False, Bool.false_eq_true, if_false, abs_of_nonneg (not_lt.mp h)]
      norm_num
  rw [hval]
  exact stod_round_of_IsDouble hd

theorem compactText_Number_out_of_range (n : ℤ)
    (hr : ¬ (-(2 : Int) ^ 63 ≤ n ∧ n < (2 : Int) ^ 63)) :
    compactText (Number (.finite (n : ℚ))) = to_string_double (.finite (n : ℚ)) := by
  have hcast : static_cast_long_long (.finite (n : ℚ)) = -(2 : Int) ^ 63 := by
    unfold static_cast_long_long
    simp only [truncate_intCast]
    rw [if_neg hr]
  have hmin : Double.ofInt (-(2 : Int) ^ 63) = .finite (-9223372036854775808) := by
    unfold Double.ofInt
    have h1 : ((-(2 : Int) ^ 63 : ℤ) : ℚ) = -9223372036854775808 := by norm_num
    rw [h1]
    exact Double.ofRat_of_IsDouble (by decide!)
  have hne : (n : ℚ) ≠ -9223372036854775808 := by
    intro h
    have h2 : n = -9223372036854775808 := by exact_mod_cast h
    apply hr
    rw [h2]
    constructor <;> norm_num
  rw [compactText, hcast, hmin]
  simp [Double.eq, hne]

/-- The text the serializer writes for a number with at most six decimals is read back as
that number. -/
theorem ReadsAs_SixDecimalNumber (d : Double) (h : SixDecimalNumber d) :
    ReadsAs (compactText (Number d)) (Number d) := by
  cases d with
  | finite q =>
    obtain ⟨hd, h6⟩ := h
    by_cases hden : q.den = 1
    · have hq : ((q.num : ℤ) : ℚ) = q := Rat.coe_int_num_of_den_eq_one hden
      by_cases hr : -(2 : Int) ^ 63 ≤ q.num ∧ q.num < (2 : Int) ^ 63
      · have hlo : -(9223372036854775808 : ℚ) ≤ ((q.num : ℤ) : ℚ) := by
          have := hr.1
          exact_mod_cast this
        have hhi : ((q.num : ℤ) : ℚ) < (9223372036854775808 : ℚ) := by
          have := hr.2
          exact_mod_cast this
        rw [← hq] at hd ⊢
        rw [compactText_Number_integer _ hd hlo hhi]
        exact ReadsAs_integer _ hd
      · have := compactText_Number_out_of_range q.num hr
        rw [hq] at this
        rw [this]
        exact ReadsAs_sixDecimals q hd h6
    · rw [compactText_Number_fraction q hden]
      exact ReadsAs_sixDecimals q hd h6
  | inf b => exact absurd h id
  | nan b => exact absurd h id

theorem sixDecimal_digits (S : Nat) :
    ∀ c ∈ [digitChar (S / 100000 % 10), digitChar (S / 10000 % 10),
      digitChar (S / 1000 % 10), digitChar (S / 100 % 10), digitChar (S / 10 % 10),
      digitChar (S % 10)], isDigit c = true := by
  intro c hc
  simp only [List.mem_cons, List.mem_singleton, List.not_mem_nil, or_false] at hc
  rcases hc with hc | hc | hc | hc | hc | hc <;> rw [hc] <;>
    exact isDigit_digitChar _ (Nat.mod_lt _ (by omega))

/-- What `std::stod` makes of the text `std::to_string(double)` writes. -/
theorem stod_to_string_double (q : ℚ) :
    stod (to_string_double (.finite q)) = stod_round (sixDecimalValue q) := by
  rw [to_string_double_shape q _ rfl]
  unfold sixDecimalValue
  generalize (roundHalfEven (|q| * 1000000)).toNat = S
  unfold stod
  rw [decimalTextValue_text _ _ _ (IntegerPart_to_string_nat _) (sixDecimal_digits S),
    decimalValue_append, decimalValue_to_string_nat,
    decimalValue_six _ _ _ _ _ _ (Nat.mod_lt _ (by omega)) (Nat.mod_lt _ (by omega))
      (Nat.mod_lt _ (by omega)) (Nat.mod_lt _ (by omega)) (Nat.mod_lt _ (by omega))
      (Nat.mod_lt _ (by omega))]
  have hsum : S / 1000000 * 10 ^ [digitChar (S / 100000 % 10), digitChar (S / 10000 % 10),
        digitChar (S / 1000 % 10), digitChar (S / 100 % 10), digitChar (S / 10 % 10),
        digitChar (S % 10)].length
      + (S / 100000 % 10 * 100000 + S / 10000 % 10 * 10000 + S / 1000 % 10 * 1000
        + S / 100 % 10 * 100 + S / 10 % 10 * 10 + S % 10) = S := by
    simp only [List.length_cons, List.length_nil]
    omega
  rw [hsum]
  have hval : (if decide (q < 0) = true
        then -((S : ℚ) / ((10 ^ [digitChar (S / 100000 % 10), digitChar (S / 10000 % 10),
          digitChar (S / 1000 % 10), digitChar (S / 100 % 10), digitChar (S / 10 % 10),
          digitChar (S % 10)].length : ℕ) : ℚ))
        else (S : ℚ) / ((10 ^ [digitChar (S / 100000 % 10), digitChar (S / 10000 % 10),
          digitChar (S / 1000 % 10), digitChar (S / 100 % 10), digitChar (S / 10 % 10),
          digitChar (S % 10)].length : ℕ) : ℚ))
      = if q < 0 then -((S : ℚ) / 1000000) else (S : ℚ) / 1000000 := by
    simp only [List.length_cons, List.length_nil]
    by_cases h : q < 0
    · simp only [h, decide_True, if_true]
      norm_num
    · simp only [h, decide_False, Bool.false_eq_true, if_false]
      norm_num
  rw [hval]

theorem ReadsAs_to_string_double (q : ℚ) (d : Double)
    (h : stod_round (sixDecimalValue q) = .ok d) :
    ReadsAs (to_string_double (.finite q)) (Number d) := by
  have hs := stod_to_string_double q
  rw [h] at hs
  rw [to_string_double_shape q _ rfl] at hs ⊢
  exact ReadsAs_number_text _ _ _ (IntegerPart_to_string_nat _) (sixDecimal_digits _) d hs

theorem sixDecimalValue_of_den {q : ℚ} (h6 : (q * 1000000).den = 1) :
    sixDecimalValue q = q := by
  unfold sixDecimalValue
  rw [sixDecimals_scaled h6]
  by_cases h : q < 0
  · rw [if_pos h, abs_of_neg h]
    ring
  · rw [if_neg h, abs_of_nonneg (not_lt.mp h)]
    ring

theorem SixDecimalStable_of_SixDecimalNumber (d : Double) (h : SixDecimalNumber d) :
    SixDecimalStable d := by
  cases d with
  | finite q =>
    obtain ⟨hd, h6⟩ := h
    refine ⟨hd, ?_⟩
    rw [sixDecimalValue_of_den h6]
    exact stod_round_of_IsDouble hd
  | inf b => exact absurd h id
  | nan b => exact absurd h id

theorem SixDecimalStable_of_whole {q : ℚ} (hd : IsDouble q) (hden : q.den = 1) :
    SixDecimalStable (.finite q) := by
  refine SixDecimalStable_of_SixDecimalNumber _ ⟨hd, ?_⟩
  have hq : ((q.num : ℤ) : ℚ) = q := Rat.coe_int_num_of_den_eq_one hden
  rw [← hq]
  have : ((q.num : ℤ) : ℚ) * 1000000 = ((q.num * 1000000 : ℤ) : ℚ) := by push_cast; ring
  rw [this]
  exact Rat.den_intCast _

/-- The text the serializer writes for a number that survives the six-decimal rendering is
read back as that number. -/
theorem ReadsAs_SixDecimalStable (d : Double) (h : SixDecimalStable d) :
    ReadsAs (compactText (Number d)) (Number d) := by
  cases d with
  | finite q =>
    obtain ⟨hd, hst⟩ := h
    by_cases hden : q.den = 1
    · have hq : ((q.num : ℤ) : ℚ) = q := Rat.coe_int_num_of_den_eq_one hden
      by_cases hr : -(2 : Int) ^ 63 ≤ q.num ∧ q.num < (2 : Int) ^ 63
      · have hlo : -(9223372036854775808 : ℚ) ≤ ((q.num : ℤ) : ℚ) := by
          have := hr.1
          exact_mod_cast this
        have hhi : ((q.num : ℤ) : ℚ) < (9223372036854775808 : ℚ) := by
          have := hr.2
          exact_mod_cast this
        rw [← hq] at hd ⊢
        rw [compactText_Number_integer _ hd hlo hhi]
        exact ReadsAs_integer _ hd
      · have := compactText_Number_out_of_range q.num hr
        rw [hq] at this
        rw [this]
        exact ReadsAs_to_string_double q _ hst
    · rw [compactText_Number_fraction q hden]
      exact ReadsAs_to_string_double q _ hst
  | inf b => exact absurd h id
  | nan b => exact absurd h id

theorem compactElements_eq (xs : List TJsonNode) :
    compactElements xs = elementsText (xs.map compactElement) := by
  induction xs with
  | nil => rfl
  | cons x rest ih =>
    cases rest with
    | nil => simp [compactElements, elementsText, compactElement]
    | cons y ys =>
      rw [compactElements, ih]
      simp [elementsText, compactElement]

theorem compactMembers_eq (m : List (string × TJsonNode)) :
    compactMembers m = membersText (m.map compactMember) := by
  induction m with
  | nil => rfl
  | cons kv rest ih =>
    obtain ⟨k, v⟩ := kv
    cases rest with
    | nil => simp [compactMembers, membersText, compactMember, MemberText.text]
    | cons y ys =>
      rw [compactMembers, ih]
      simp [membersText, compactMember, MemberText.text]

theorem compactText_Array (xs : List TJsonNode) :
    compactText (Array xs) = arrayText (xs.map compactElement) := by
  rw [compactText, compactElements_eq, arrayText]

theorem compactText_Object (m : List (string × TJsonNode)) :
    compactText (Object m) = objectText (m.map compactMember) := by
  rw [compactText, compactMembers_eq, objectText]

theorem ElementsOver_iff (num : Double → Prop) (xs : List TJsonNode) :
    ElementsOver num xs ↔ ∀ x ∈ xs, DocumentOver num x := by
  induction xs with
  | nil => simp [ElementsOver]
  | cons x rest ih => simp [ElementsOver, ih]

theorem MembersOver_iff (num : Double → Prop) (m : List (string × TJsonNode)) :
    MembersOver num m ↔ ∀ kv ∈ m, IsAscii kv.1 ∧ DocumentOver num kv.2 := by
  induction m with
  | nil => simp [MembersOver]
  | cons kv rest ih =>
    obtain ⟨k, v⟩ := kv
    simp [MembersOver, ih, and_assoc]

theorem compactMember_WellFormed (kv : string × TJsonNode) (hk : IsAscii kv.1)
    (hv : ReadsAs (compactText kv.2) kv.2) : (compactMember kv).WellFormed :=
  ⟨(fun _ hc => nomatch hc), ReadsAsKey_quoted kv.1 hk, (fun _ hc => nomatch hc), hv,
    (fun _ hc => nomatch hc)⟩

theorem compactElement_WellFormed (x : TJsonNode) (hx : ReadsAs (compactText x) x) :
    (compactElement x).WellFormed :=
  ⟨hx, (fun _ hc => nomatch hc)⟩

/-- Parsing the compact rendering of a document with ASCII text, distinct keys and numbers
whose text is read back gives the document back. -/
theorem ReadsAs_compactText_of {num : Double → Prop}
    (hnum : ∀ d, num d → ReadsAs (compactText (Number d)) (Number d)) (v : TJsonNode) :
    DocumentOver num v → ReadsAs (compactText v) v := by
  induction v using induction_on with
  | hNull => intro _; exact ReadsAs_null
  | hBoolean b =>
    intro _
    cases b with
    | true => exact ReadsAs_true
    | false => exact ReadsAs_false
  | hNumber d => intro h; exact hnum d h
  | hString s => intro h; exact ReadsAs_of_ReadsAsKey (ReadsAsKey_quoted s h)
  | hArray xs ih =>
    intro h
    rw [DocumentOver, ElementsOver_iff] at h
    rw [compactText_Array]
    have := ReadsAs_arrayText (xs.map compactElement) (by
      intro t ht
      obtain ⟨x, hx, rfl⟩ := List.mem_map.mp ht
      exact compactElement_WellFormed x (ih x hx (h x hx)))
    simpa [compactElement, Function.comp_def] using this
  | hObject m ih =>
    intro h
    rw [DocumentOver, MembersOver_iff] at h
    obtain ⟨hm, hnodup⟩ := h
    rw [compactText_Object]
    have := ReadsAs_objectText (m.map compactMember) (by
      intro t ht
      obtain ⟨kv, hkv, rfl⟩ := List.mem_map.mp ht
      exact compactMember_WellFormed kv (hm kv hkv).1 (ih kv hkv (hm kv hkv).2))
    have hmap : (m.map compactMember).map (fun t => (t.key, t.value)) = m := by
      simp [compactMember, Function.comp_def]
    rw [hmap, emplaceAll_of_nodup m [] hnodup (by simp)] at this
    simpa using this

/-- Parsing the compact rendering of a document with ASCII text, numbers of at most six
decimals and distinct keys gives the document back. -/
theorem ReadsAs_compactText (v : TJsonNode) :
    DocumentOver SixDecimalNumber v → ReadsAs (compactText v) v :=
  ReadsAs_compactText_of ReadsAs_SixDecimalNumber v

/-! ## The rendering contains no NUL -/

theorem isDigit_ne_nul {c : Char} (h : isDigit c = true) : c ≠ Char.ofNat 0 := by
  intro hc
  rw [hc] at h
  revert h
  decide

theorem hexDigit_ne_nul : ∀ d, d < 16 → hexDigit d ≠ Char.ofNat 0 := by
  decide

theorem EscapeChar_no_nul (ch : Char) : ∀ c ∈ EscapeChar ch, c ≠ Char.ofNat 0 := by
  unfold EscapeChar
  by_cases h1 : ch = '"'
  · rw [if_pos h1]; decide
  rw [if_neg h1]
  by_cases h2 : ch = '\\'
  · rw [if_pos h2]; decide
  rw [if_neg h2]
  by_cases h3 : ch = Char.ofNat 8
  · rw [if_pos h3]; decide
  rw [if_neg h3]
  by_cases h4 : ch = Char.ofNat 12
  · rw [if_pos h4]; decide
  rw [if_neg h4]
  by_cases h5 : ch = '\n'
  · rw [if_pos h5]; decide
  rw [if_neg h5]
  by_cases h6 : ch = '\r'
  · rw [if_pos h6]; decide
  rw [if_neg h6]
  by_cases h7 : ch = '\t'
  · rw [if_pos h7]; decide
  rw [if_neg h7]
  by_cases h8 : ch.toNat % 256 < 32 ∨ 128 ≤ ch.toNat % 256
  · rw [if_pos h8]
    intro c hc
    simp only [List.mem_cons, List.mem_singleton, List.not_mem_nil, or_false] at hc
    rcases hc with hc | hc | hc | hc | hc | hc
    · rw [hc]; decide
    · rw [hc]; decide
    · rw [hc]; exact hexDigit_ne_nul _ (Nat.mod_lt _ (by omega))
    · rw [hc]; exact hexDigit_ne_nul _ (Nat.mod_lt _ (by omega))
    · rw [hc]; exact hexDigit_ne_nul _ (Nat.mod_lt _ (by omega))
    · rw [hc]; exact hexDigit_ne_nul _ (Nat.mod_lt _ (by omega))
  · rw [if_neg h8]
    intro c hc
    rw [List.mem_singleton] at hc
    rw [hc]
    intro h0
    rw [h0] at h8
    revert h8
    decide

theorem EscapeString_no_nul (s : string) : ∀ c ∈ EscapeString s, c ≠ Char.ofNat 0 := by
  induction s with
  | nil => intro c hc; cases hc
  | cons ch rest ih =>
    intro c hc
    rw [EscapeString] at hc
    rcases List.mem_append.mp hc with hc | hc
    · exact EscapeChar_no_nul ch c hc
    · exact ih c hc

theorem to_string_nat_no_nul (n : Nat) : ∀ c ∈ to_string_nat n, c ≠ Char.ofNat 0 :=
  fun c hc => isDigit_ne_nul (to_string_nat_digits n c hc)

theorem to_string_long_long_no_nul (n : ℤ) :
    ∀ c ∈ to_string_long_long n, c ≠ Char.ofNat 0 := by
  unfold to_string_long_long
  intro c hc
  by_cases h : n < 0
  · rw [if_pos h] at hc
    rcases List.mem_cons.mp hc with hc | hc
    · rw [hc]; decide
    · exact to_string_nat_no_nul _ c hc
  · rw [if_neg h] at hc
    exact to_string_nat_no_nul _ c hc

theorem sign_no_nul (b : Prop) [Decidable b] :
    ∀ c ∈ (if b then ['-'] else []), c ≠ Char.ofNat 0 := by
  intro c hc
  by_cases h : b
  · rw [if_pos h, List.mem_singleton] at hc
    rw [hc]; decide
  · rw [if_neg h] at hc
    cases hc

theorem to_string_double_no_nul (d : Double) : ∀ c ∈ to_string_double d, c ≠ Char.ofNat 0 := by
  intro c hc
  cases d with
  | finite q =>
    unfold to_string_double at hc
    simp only [List.mem_append, List.mem_cons, List.mem_singleton, List.not_mem_nil,
      or_false] at hc
    rcases hc with ((hc | hc) | hc) | hc
    · exact sign_no_nul _ c hc
    · exact to_string_nat_no_nul _ c hc
    · rw [hc]; decide
    · rcases hc with hc | hc | hc | hc | hc | hc <;> rw [hc] <;>
        exact isDigit_ne_nul (isDigit_digitChar _ (Nat.mod_lt _ (by omega)))
  | inf b =>
    unfold to_string_double at hc
    rcases List.mem_append.mp hc with hc | hc
    · exact sign_no_nul _ c hc
    · simp only [List.mem_cons, List.mem_singleton, List.not_mem_nil, or_false] at hc
      rcases hc with hc | hc | hc <;> rw [hc] <;> decide
  | nan b =>
    unfold to_string_double at hc
    rcases List.mem_append.mp hc with hc | hc
    · exact sign_no_nul _ c hc
    · simp only [List.mem_cons, List.mem_singleton, List.not_mem_nil, or_false] at hc
      rcases hc with hc | hc | hc <;> rw [hc] <;> decide

theorem compactElements_no_nul (xs : List TJsonNode)
    (h : ∀ x ∈ xs, ∀ c ∈ compactText x, c ≠ Char.ofNat 0) :
    ∀ c ∈ compactElements xs, c ≠ Char.ofNat 0 := by
  induction xs with
  | nil => intro c hc; cases hc
  | cons x rest ih =>
    intro c hc
    rw [compactElements] at hc
    simp only [List.mem_append] at hc
    rcases hc with (hc | hc) | hc
    · exact h x (List.mem_cons_self _ _) c hc
    · by_cases he : rest.isEmpty = true
      · rw [if_pos he] at hc; cases hc
      · rw [if_neg he, List.mem_singleton] at hc
        rw [hc]; decide
    · exact ih (fun y hy => h y (List.mem_cons_of_mem _ hy)) c hc

theorem compactMembers_no_nul (m : List (string × TJsonNode))
    (h : ∀ kv ∈ m, ∀ c ∈ compactText kv.2, c ≠ Char.ofNat 0) :
    ∀ c ∈ compactMembers m, c ≠ Char.ofNat 0 := by
  induction m with
  | nil => intro c hc; cases hc
  | cons kv rest ih =>
    obtain ⟨k, v⟩ := kv
    intro c hc
    rw [compactMembers] at hc
    simp only [List.mem_append, List.mem_singleton] at hc
    rcases hc with (((((hc | hc) | hc) | hc) | hc) | hc) | hc
    · rw [hc]; decide
    · exact EscapeString_no_nul k c hc
    · rw [hc]; decide
    · rw [hc]; decide
    · exact h (k, v) (List.mem_cons_self _ _) c hc
    · by_cases he : rest.isEmpty = true
      · rw [if_pos he] at hc; cases hc
      · rw [if_neg he, List.mem_singleton] at hc
        rw [hc]; decide
    · exact ih (fun y hy => h y (List.mem_cons_of_mem _ hy)) c hc

/-- The serializer never writes a NUL character. -/
theorem compactText_no_nul (v : TJsonNode) : ∀ c ∈ compactText v, c ≠ Char.ofNat 0 := by
  induction v using induction_on with
  | hNull => rw [compactText]; decide
  | hBoolean b => cases b <;> rw [compactText] <;> decide
  | hNumber d =>
    rw [compactText]
    by_cases h : Double.eq d (Double.ofInt (static_cast_long_long d)) = true
    · rw [if_pos h]; exact to_string_long_long_no_nul _
    · rw [if_neg h]; exact to_string_double_no_nul _
  | hString s =>
    rw [compactText]
    intro c hc
    simp only [List.mem_append, List.mem_singleton] at hc
    rcases hc with (hc | hc) | hc
    · rw [hc]; decide
    · exact EscapeString_no_nul s c hc
    · rw [hc]; decide
  | hArray xs ih =>
    rw [compactText]
    intro c hc
    simp only [List.mem_append, List.mem_singleton] at hc
    rcases hc with (hc | hc) | hc
    · rw [hc]; decide
    · exact compactElements_no_nul xs ih c hc
    · rw [hc]; decide
  | hObject m ih =>
    rw [compactText]
    intro c hc
    simp only [List.mem_append, List.mem_singleton] at hc
    rcases hc with (hc | hc) | hc
    · rw [hc]; decide
    · exact compactMembers_no_nul m ih c hc
    · rw [hc]; decide

theorem c_str_of_no_nul (s : string) (h : ∀ c ∈ s, c ≠ Char.ofNat 0) : c_str s = s := by
  unfold c_str
  rw [List.takeWhile_eq_self_iff]
  intro c hc
  simpa using h c hc

/-! ## Documents equal up to member order -/

theorem umap_find_of_mem_nodup {V : Type} (m : List (string × V))
    (hnodup : (m.map Prod.fst).Nodup) (k : string) (v : V) (h : (k, v) ∈ m) :
    umap_find m k = some v := by
  induction m with
  | nil => cases h
  | cons kv rest ih =>
    obtain ⟨k0, v0⟩ := kv
    simp only [List.map_cons, List.nodup_cons] at hnodup
    rcases List.mem_cons.mp h with h | h
    · injection h with h1 h2
      subst h1 h2
      simp [umap_find]
    · have hne : k0 ≠ k := by
        intro hc
        subst hc
        exact hnodup.1 (List.mem_map.mpr ⟨(k0, v), h, rfl⟩)
      rw [umap_find, if_neg hne]
      exact ih hnodup.2 h

theorem SameElements_refl (xs : List TJsonNode) (h : ∀ x ∈ xs, SameDocument x x) :
    SameElements xs xs := by
  induction xs with
  | nil => rfl
  | cons x rest ih =>
    exact ⟨x, rest, rfl, h x (List.mem_cons_self _ _),
      ih (fun y hy => h y (List.mem_cons_of_mem _ hy))⟩

theorem SameMembers_of_find (sub n : List (string × TJsonNode))
    (h : ∀ kv ∈ sub, umap_find n kv.1 = some kv.2 ∧ SameDocument kv.2 kv.2) :
    SameMembers sub n := by
  induction sub with
  | nil => trivial
  | cons kv rest ih =>
    obtain ⟨k, v⟩ := kv
    exact ⟨⟨v, (h (k, v) (List.mem_cons_self _ _)).1, (h (k, v) (List.mem_cons_self _ _)).2⟩,
      ih (fun y hy => h y (List.mem_cons_of_mem _ hy))⟩

/-- A document with distinct keys is the same document as itself. -/
theorem SameDocument_refl (num : Double → Prop) (v : TJsonNode) :
    DocumentOver num v → SameDocument v v := by
  induction v using induction_on with
  | hNull => intro _; rfl
  | hBoolean b => intro _; rfl
  | hNumber d => intro _; rfl
  | hString s => intro _; rfl
  | hArray xs ih =>
    intro h
    rw [DocumentOver, ElementsOver_iff] at h
    exact ⟨xs, rfl, SameElements_refl xs (fun x hx => ih x hx (h x hx))⟩
  | hObject m ih =>
    intro h
    rw [DocumentOver, MembersOver_iff] at h
    obtain ⟨hm, hnodup⟩ := h
    exact ⟨m, rfl, rfl, SameMembers_of_find m m (fun kv hkv =>
      ⟨umap_find_of_mem_nodup m hnodup kv.1 kv.2 hkv, ih kv hkv (hm kv hkv).2⟩)⟩

/-! ## Round trip -/

/-- A complete value text, alone in the input, is parsed to its value. -/
theorem Parse_of_ReadsAs {t : string} {v : TJsonNode} (h : ReadsAs t v) : Parse t = .ok v := by
  obtain ⟨fuel, hf⟩ := h [] (Or.inl rfl)
  rw [List.append_nil] at hf
  have hpeek := ParseValue_ok_peek hf
  have hne : peek (SkipWhitespace t) ≠ Char.ofNat 0 := by
    intro hc
    rw [hc] at hpeek
    revert hpeek
    decide
  have hf' : ParseValue ((SkipWhitespace t).length + 1) (SkipWhitespace t) = .ok (v, []) :=
    ParseValue_fuel_independent (by rw [ParseValue_SkipWhitespace]; exact hf)
  unfold Parse
  rw [if_neg hne, hf']
  simp [SkipWhitespace, peek]

theorem Parse_ToString_of_ReadsAs (v : TJsonNode) (h : ReadsAs (compactText v) v) :
    ToString v false 0 = .ok (compactText v)
      ∧ Parse_std_string (compactText v) = .ok v := by
  refine ⟨ToStringImpl_compact v 0, ?_⟩
  unfold Parse_std_string
  rw [c_str_of_no_nul _ (compactText_no_nul v)]
  exact Parse_of_ReadsAs h

/-- C1 (as stated, refuted): the number 2^-21 is an exactly representable `double`; it is
serialized as `0.000000`, which parses to the number 0, a different document. -/
theorem roundtrip_fails_for_small_double :
    DocumentOver RepresentableNumber (Number (.finite (1 / 2097152)))
    ∧ ¬ ∃ text v', ToString (Number (.finite (1 / 2097152))) false 0 = .ok text
        ∧ Parse_std_string text = .ok v'
        ∧ SameDocument v' (Number (.finite (1 / 2097152))) := by
  constructor
  · show IsDouble (1 / 2097152)
    decide!
  · rintro ⟨text, v', h1, h2, h3⟩
    have e1 : ToString (Number (.finite (1 / 2097152))) false 0
        = .ok ['0', '.', '0', '0', '0', '0', '0', '0'] := by decide!
    rw [e1] at h1
    injection h1 with h1
    subst h1
    have e2 : Parse_std_string ['0', '.', '0', '0', '0', '0', '0', '0']
        = .ok (Number (.finite 0)) := by decide!
    rw [e2] at h2
    injection h2 with h2
    subst h2
    have h4 : Number (.finite (1 / 2097152)) = Number (.finite 0) := h3
    revert h4
    decide!

/-- C2 (as stated, refuted): in `{"a":1,"a":2}` the key `a` is not mapped to 2. -/
theorem Parse_duplicate_key_not_last :
    ¬ ∃ m, Parse ['{', '"', 'a', '"', ':', '1', ',', '"', 'a', '"', ':', '2', '}'] = .ok (Object m)
        ∧ umap_find m ['a'] = some (Number (.finite 2)) := by
  rintro ⟨m, h1, h2⟩
  have e1 : Parse ['{', '"', 'a', '"', ':', '1', ',', '"', 'a', '"', ':', '2', '}']
      = .ok (Object [(['a'], Number (.finite 1))]) := by decide!
  rw [e1] at h1
  injection h1 with h1
  injection h1 with h1
  subst h1
  revert h2
  decide!

/-- C2 (amended): duplicate object keys are first-write-wins.  In every object text
`{ member , ... , member }` (whitespace allowed around the tokens, any key literal and
value text), `Parse` yields an Object in which a key maps to the value of its FIRST
occurrence, whatever follows it. -/
theorem Parse_duplicate_keys_first_wins (pre post : List MemberText) (t : MemberText)
    (hwf : ∀ u ∈ pre ++ t :: post, u.WellFormed) (hfirst : ∀ u ∈ pre, u.key ≠ t.key) :
    ∃ m, Parse (objectText (pre ++ t :: post)) = .ok (Object m)
      ∧ umap_find m t.key = some t.value := by
  refine ⟨_, Parse_of_ReadsAs (ReadsAs_objectText _ hwf), ?_⟩
  rw [umap_find_emplaceAll]
  simp only [umap_find, List.map_append, List.map_cons]
  apply umap_find_of_first
  intro hmem
  obtain ⟨kv, hkv, hk⟩ := List.mem_map.mp hmem
  obtain ⟨u, hu, rfl⟩ := List.mem_map.mp hkv
  exact hfirst u hu hk

/-- Witness for C2 (amended): in the text `{ "a" : 1 , "a":2}` the key `a` maps to 1. -/
theorem Parse_duplicate_keys_first_wins_witness :
    (∀ u ∈ ([] : List MemberText)
        ++ (⟨[' '], ['"', 'a', '"'], ['a'], [' '], [' ', '1'], Number (.finite 1), [' ']⟩
            : MemberText)
          :: [⟨[' '], ['"', 'a', '"'], ['a'], [], ['2'], Number (.finite 2), []⟩],
      u.WellFormed)
    ∧ objectText (([] : List MemberText)
        ++ (⟨[' '], ['"', 'a', '"'], ['a'], [' '], [' ', '1'], Number (.finite 1), [' ']⟩
            : MemberText)
          :: [⟨[' '], ['"', 'a', '"'], ['a'], [], ['2'], Number (.finite 2), []⟩])
      = ['{', ' ', '"', 'a', '"', ' ', ':', ' ', '1', ' ', ',', ' ', '"', 'a', '"', ':', '2', '}']
    ∧ ∃ m, Parse (objectText (([] : List MemberText)
        ++ (⟨[' '], ['"', 'a', '"'], ['a'], [' '], [' ', '1'], Number (.finite 1), [' ']⟩
            : MemberText)
          :: [⟨[' '], ['"', 'a', '"'], ['a'], [], ['2'], Number (.finite 2), []⟩]))
        = .ok (Object m)
      ∧ umap_find m ['a'] = some (Number (.finite 1)) :=
  have hkey : ReadsAsKey ['"', 'a', '"'] ['a'] := ReadsAsKey_quoted ['a'] (by decide)
  have h1 : ReadsAs ['1'] (Number (.finite 1)) := by
    have := ReadsAs_integer 1 (by decide!)
    simpa using this
  have h1' : ReadsAs [' ', '1'] (Number (.finite 1)) := by
    intro rest hr
    obtain ⟨fuel, hf⟩ := h1 rest hr
    refine ⟨fuel, ?_⟩
    rw [← ParseValue_SkipWhitespace]
    rw [← ParseValue_SkipWhitespace] at hf
    exact hf
  have h2 : ReadsAs ['2'] (Number (.finite 2)) := by
    have := ReadsAs_integer 2 (by decide!)
    simpa using this
  have hwf : ∀ u ∈ ([] : List MemberText)
      ++ (⟨[' '], ['"', 'a', '"'], ['a'], [' '], [' ', '1'], Number (.finite 1), [' ']⟩
          : MemberText)
        :: [⟨[' '], ['"', 'a', '"'], ['a'], [], ['2'], Number (.finite 2), []⟩],
      u.WellFormed := by
    intro u hu
    simp only [List.nil_append, List.mem_cons, List.mem_singleton, List.not_mem_nil,
      or_false] at hu
    rcases hu with hu | hu
    · subst hu
      exact ⟨by decide, hkey, by decide, h1', by decide⟩
    · subst hu
      exact ⟨by decide, hkey, by decide, h2, by decide⟩
  ⟨hwf, by decide, Parse_duplicate_keys_first_wins [] _ _ hwf (by intro u hu; cases hu)⟩

/-! ## Erasing -/

theorem umap_find_filter_self {V : Type} (m : List (string × V)) (key : string) :
    umap_find (m.filter (fun kv => decide (kv.1 ≠ key))) key = none := by
  induction m with
  | nil => rfl
  | cons kv rest ih =>
    obtain ⟨k, v⟩ := kv
    by_cases hk : k = key
    · rw [List.filter_cons_of_neg (by simpa using hk)]
      exact ih
    · rw [List.filter_cons_of_pos (by simpa using hk)]
      simp only [umap_find, if_neg hk]
      exact ih

theorem umap_find_filter_other {V : Type} (m : List (string × V)) (key k : string)
    (hk : k ≠ key) :
    umap_find (m.filter (fun kv => decide (kv.1 ≠ key))) k = umap_find m k := by
  induction m with
  | nil => rfl
  | cons kv rest ih =>
    obtain ⟨k', v⟩ := kv
    by_cases hk' : k' = key
    · have hne : ¬ k' = k := by
        intro h
        exact hk (h ▸ hk')
      rw [List.filter_cons_of_neg (by simpa using hk')]
      simp only [umap_find, if_neg hne]
      exact ih
    · rw [List.filter_cons_of_pos (by simpa using hk')]
      simp only [umap_find]
      rw [ih]

theorem filter_ne_of_not_mem {V : Type} (m : List (string × V)) (key : string)
    (h : key ∉ m.map Prod.fst) : m.filter (fun kv => decide (kv.1 ≠ key)) = m := by
  induction m with
  | nil => rfl
  | cons kv rest ih =>
    obtain ⟨k, v⟩ := kv
    simp only [List.map_cons, List.mem_cons, not_or] at h
    have hk : ¬ k = key := fun e => h.1 e.symm
    rw [List.filter_cons_of_pos (by simpa using hk), ih h.2]

theorem length_filter_ne_of_find {V : Type} (m : List (string × V)) (key : string) (w : V)
    (hm : (m.map Prod.fst).Nodup) (hf : umap_find m key = some w) :
    (m.filter (fun kv => decide (kv.1 ≠ key))).length + 1 = m.length := by
  induction m with
  | nil => cases hf
  | cons kv rest ih =>
    obtain ⟨k, v⟩ := kv
    simp only [List.map_cons, List.nodup_cons] at hm
    by_cases hk : k = key
    · subst hk
      rw [List.filter_cons_of_neg (by simp), filter_ne_of_not_mem rest k hm.1]
      rfl
    · simp only [umap_find, if_neg hk] at hf
      rw [List.filter_cons_of_pos (by simpa using hk)]
      simp only [List.length_cons]
      rw [ih hm.2 hf]

theorem nodup_filter_keys {V : Type} (m : List (string × V)) (key : string)
    (hm : (m.map Prod.fst).Nodup) :
    ((m.filter (fun kv => decide (kv.1 ≠ key))).map Prod.fst).Nodup :=
  (List.Sublist.map Prod.fst (List.filter_sublist m)).nodup hm

/-- C11: `erase(key)` on an Object (a mapping with distinct keys) returns whether the key
was a member before the call; afterwards the key is not a member, every other key maps to
what it mapped to before, and the size is one less when it returned true and the same when
it returned false.  On every node that is not an Object it fails with WrongKind and leaves
the node as it was. -/
theorem erase_key_removes_member (m : TObject) (key : string) (v : TJsonNode)
    (hm : (m.map Prod.fst).Nodup) :
    (∃ b m', erase_key (Object m) key = (.ok b, Object m')
      ∧ contains (Object m) key = .ok b
      ∧ contains (Object m') key = .ok false
      ∧ (∀ k, k ≠ key → umap_find m' k = umap_find m k)
      ∧ (m'.map Prod.fst).Nodup
      ∧ ∃ n n', size (Object m) = .ok n ∧ size (Object m') = .ok n'
          ∧ (if b = true then n' + 1 = n else n' = n))
    ∧ (match v with
        | Object _ => True
        | _ => ∃ e, erase_key v key = (.error e, v) ∧ e.kind = some EErrorKind.WrongKind) := by
  constructor
  · cases hf : umap_find m key with
    | none =>
      refine ⟨false, m, ?_, ?_, ?_, fun _ _ => rfl, hm, m.length, m.length, rfl, rfl, ?_⟩
      · simp [erase_key, umap_erase, hf]
      · simp [contains, hf]
      · simp [contains, hf]
      · simp
    | some w =>
      refine ⟨true, m.filter (fun kv => decide (kv.1 ≠ key)), ?_, ?_, ?_, ?_,
        nodup_filter_keys m key hm, m.length, _, rfl, rfl, ?_⟩
      · simp only [erase_key, umap_erase, hf]
        rfl
      · simp [contains, hf]
      · simp only [contains, umap_find_filter_self]
        rfl
      · intro k hk
        exact umap_find_filter_other m key k hk
      · rw [if_pos rfl]
        exact length_filter_ne_of_find m key w hm hf
  · cases v <;> simp [erase_key, TException.kind]

/-- Witness for C11: erasing `a` from `{"a": 1, "b": true}`. -/
theorem erase_key_removes_member_witness :
    (∃ b m', erase_key (Object [(['a'], Number (.finite 1)), (['b'], Boolean true)]) ['a']
        = (.ok b, Object m')
      ∧ contains (Object [(['a'], Number (.finite 1)), (['b'], Boolean true)]) ['a'] = .ok b
      ∧ contains (Object m') ['a'] = .ok false
      ∧ (∀ k, k ≠ ['a'] → umap_find m' k
          = umap_find [(['a'], Number (.finite 1)), (['b'], Boolean true)] k)
      ∧ (m'.map Prod.fst).Nodup
      ∧ ∃ n n', size (Object [(['a'], Number (.finite 1)), (['b'], Boolean true)]) = .ok n
          ∧ size (Object m') = .ok n' ∧ (if b = true then n' + 1 = n else n' = n))
    ∧ ∃ e, erase_key (Array []) ['a'] = (.error e, Array [])
        ∧ e.kind = some EErrorKind.WrongKind :=
  erase_key_removes_member [(['a'], Number (.finite 1)), (['b'], Boolean true)] ['a']
    (Array []) (by decide)

/-- C12: `erase(i)` on an Array with `i < size` leaves the elements in front of position
`i` followed by the elements behind it, in order (position `j < i` keeps its element,
position `j >= i` holds the former element `j + 1`), the size dropping by one; with
`i >= size` it fails with IndexOutOfRange and leaves the array unchanged; on every node
that is not an Array it fails with WrongKind and leaves the node unchanged. -/
theorem erase_idx_shifts_down (xs : TArray) (i : Nat) (v : TJsonNode) :
    (if i < xs.length then
        erase_idx (Array xs) i = (.ok (), Array (xs.take i ++ xs.drop (i + 1)))
        ∧ (xs.take i ++ xs.drop (i + 1)).length + 1 = xs.length
        ∧ ∀ j, (xs.take i ++ xs.drop (i + 1))[j]? = if j < i then xs[j]? else xs[j + 1]?
      else
        ∃ e, erase_idx (Array xs) i = (.error e, Array xs)
          ∧ e.kind = some EErrorKind.IndexOutOfRange)
    ∧ (match v with
        | Array _ => True
        | _ => ∃ e, erase_idx v i = (.error e, v) ∧ e.kind = some EErrorKind.WrongKind) := by
  constructor
  · by_cases h : i < xs.length
    · rw [if_pos h]
      refine ⟨?_, ?_, ?_⟩
      · simp only [erase_idx, if_neg (not_le.mpr h), List.eraseIdx_eq_take_drop_succ]
      · simp only [List.length_append, List.length_take, List.length_drop]
        omega
      · intro j
        rw [← List.eraseIdx_eq_take_drop_succ, List.getElem?_eraseIdx]
    · rw [if_neg h]
      refine ⟨.indexOutOfBounds i xs.length, ?_, rfl⟩
      simp only [erase_idx, if_pos (not_lt.mp h)]
  · cases v <;> simp [erase_idx, TException.kind]

/-! ## Container queries -/

/-- C13: `size()` returns the number of elements of an Array and the number of members of
an Object, and fails with WrongKind on Null and on every Boolean, Number and String. -/
theorem size_counts_or_WrongKind (xs : TArray) (m : TObject) (b : Bool) (d : Double)
    (s : string) :
    size (Array xs) = .ok xs.length
    ∧ size (Object m) = .ok m.length
    ∧ size Null = .error .notContainer
    ∧ size (Boolean b) = .error .notContainer
    ∧ size (Number d) = .error .notContainer
    ∧ size (String s) = .error .notContainer
    ∧ TException.notContainer.kind = some EErrorKind.WrongKind :=
  ⟨rfl, rfl, rfl, rfl, rfl, rfl, rfl⟩

/-- C14 (as stated, refuted): `empty()` on the Boolean `true` does not fail with
WrongKind. -/
theorem empty_Boolean_not_WrongKind :
    ¬ ∃ e, empty (Boolean true) = .error e ∧ e.kind = some EErrorKind.WrongKind := by
  rintro ⟨e, he, _⟩
  cases he

/-- C14 (amended): `empty()` never fails.  It returns true on Null, `size() == 0` on an
Array or Object, and false on every Boolean, Number and String. -/
theorem empty_total (xs : TArray) (m : TObject) (b : Bool) (d : Double) (s : string) :
    empty Null = .ok true
    ∧ (∃ n, size (Array xs) = .ok n ∧ empty (Array xs) = .ok (decide (n = 0)))
    ∧ (∃ n, size (Object m) = .ok n ∧ empty (Object m) = .ok (decide (n = 0)))
    ∧ empty (Boolean b) = .ok false
    ∧ empty (Number d) = .ok false
    ∧ empty (String s) = .ok false := by
  refine ⟨rfl, ⟨xs.length, rfl, ?_⟩, ⟨m.length, rfl, ?_⟩, rfl, rfl, rfl⟩
  · cases xs <;> simp [empty]
  · cases m <;> simp [empty]

/-- C15 (as stated, refuted): `clear()` on the Boolean `true` does not fail with WrongKind,
and it does not leave the node unchanged. -/
theorem clear_Boolean_not_WrongKind :
    (¬ ∃ e, (clear (Boolean true)).1 = .error e ∧ e.kind = some EErrorKind.WrongKind)
    ∧ (clear (Boolean true)).2 ≠ Boolean true := by
  constructor
  · rintro ⟨e, he, _⟩
    cases he
  · intro h
    cases h

/-- C15 (amended): `clear()` never fails.  On an Array it leaves an empty Array, on an
Object an empty Object, on Null it keeps Null, and every Boolean, Number and String node
becomes Null. -/
theorem clear_total (xs : TArray) (m : TObject) (b : Bool) (d : Double) (s : string) :
    clear (Array xs) = (.ok (), Array [])
    ∧ clear (Object m) = (.ok (), Object [])
    ∧ clear Null = (.ok (), Null)
    ∧ clear (Boolean b) = (.ok (), Null)
    ∧ clear (Number d) = (.ok (), Null)
    ∧ clear (String s) = (.ok (), Null) :=
  ⟨rfl, rfl, rfl, rfl, rfl, rfl⟩

/-! ## Truncation -/

theorem truncate_eq_floor_ceil (x : ℚ) : truncate x = if 0 ≤ x then ⌊x⌋ else ⌈x⌉ := by
  unfold truncate
  by_cases h : 0 ≤ x
  · rw [if_pos h, if_pos h]
  · rw [if_neg h, if_neg h, Int.floor_neg, neg_neg]

theorem truncate_range {x : ℚ} (lo hi : ℤ) (hlo : (lo : ℚ) ≤ x) (hhi : x ≤ (hi : ℚ))
    (hz : lo ≤ 0) (hz' : 0 ≤ hi) : lo ≤ truncate x ∧ truncate x ≤ hi := by
  unfold truncate
  by_cases h : 0 ≤ x
  · rw [if_pos h]
    constructor
    · exact le_trans hz (Int.floor_nonneg.mpr h)
    · exact Int.floor_le_iff.mpr (by
        have : x < (hi : ℚ) + 1 := by linarith
        exact_mod_cast this)
  · rw [if_neg h]
    have hx : x < 0 := not_le.mp h
    constructor
    · have h1 : ⌊-x⌋ ≤ -lo := by
        apply Int.floor_le_iff.mpr
        push_cast
        linarith
      omega
    · have h1 : 0 ≤ ⌊-x⌋ := Int.floor_nonneg.mpr (by linarith)
      omega

/-! ## Conversion to a sequence -/

theorem operator_vector_loop_ok {T : Type} (convert : TJsonNode → Except TException T)
    (xs : List TJsonNode) (acc : List T) (h : ∀ x ∈ xs, ∃ y, convert x = .ok y) :
    ∃ ys, operator_vector_loop convert xs acc = .ok (acc ++ ys)
      ∧ xs.map convert = ys.map Except.ok := by
  induction xs generalizing acc with
  | nil => exact ⟨[], by simp [operator_vector_loop], rfl⟩
  | cons x rest ih =>
    obtain ⟨y, hy⟩ := h x (List.mem_cons_self _ _)
    obtain ⟨ys, h1, h2⟩ := ih (acc ++ [y]) (fun z hz => h z (List.mem_cons_of_mem _ hz))
    refine ⟨y :: ys, ?_, ?_⟩
    · simp only [operator_vector_loop, hy, h1, List.append_assoc, List.singleton_append]
    · simp only [List.map_cons, hy, h2]

theorem operator_vector_loop_error {T : Type} (convert : TJsonNode → Except TException T)
    (xs : List TJsonNode) (acc : List T) (h : ∃ x ∈ xs, ∃ e, convert x = .error e) :
    ∃ x ∈ xs, ∃ e, convert x = .error e ∧ operator_vector_loop convert xs acc = .error e := by
  induction xs generalizing acc with
  | nil =>
    obtain ⟨x, hx, _⟩ := h
    cases hx
  | cons x rest ih =>
    cases hc : convert x with
    | error e =>
      exact ⟨x, List.mem_cons_self _ _, e, hc, by simp only [operator_vector_loop, hc]⟩
    | ok y =>
      have h' : ∃ z ∈ rest, ∃ e, convert z = .error e := by
        obtain ⟨z, hz, e, he⟩ := h
        rcases List.mem_cons.mp hz with rfl | hz'
        · rw [hc] at he
          cases he
        · exact ⟨z, hz', e, he⟩
      obtain ⟨z, hz, e, he, hl⟩ := ih (acc ++ [y]) h'
      exact ⟨z, List.mem_cons_of_mem _ hz, e, he, by simp only [operator_vector_loop, hc, hl]⟩

theorem operator_double_WrongKind (x : TJsonNode) (e : TException)
    (h : operator_double x = .error e) : e.kind = some EErrorKind.WrongKind := by
  cases x <;> simp only [operator_double] at h <;> cases h <;> rfl

theorem operator_vector_loop_error_elem {T : Type}
    (convert : TJsonNode → Except TException T) (xs : List TJsonNode) (acc : List T)
    (e : TException) (h : operator_vector_loop convert xs acc = .error e) :
    ∃ x ∈ xs, convert x = .error e := by
  induction xs generalizing acc with
  | nil => simp [operator_vector_loop] at h
  | cons x rest ih =>
    rw [operator_vector_loop] at h
    cases hc : convert x with
    | error e' =>
      rw [hc] at h
      injection h with h
      subst h
      exact ⟨x, List.mem_cons_self _ _, hc⟩
    | ok y =>
      rw [hc] at h
      obtain ⟨z, hz, he⟩ := ih _ h
      exact ⟨z, List.mem_cons_of_mem _ hz, he⟩

/-- The failures of the conversion to a sequence are WrongKind when those of the
conversion of the elements are (sequences of sequences). -/
theorem operator_vector_WrongKind {T : Type} (convert : TJsonNode → Except TException T)
    (hconvert : ∀ x e, convert x = .error e → e.kind = some EErrorKind.WrongKind)
    (x : TJsonNode) (e : TException) (h : operator_vector convert x = .error e) :
    e.kind = some EErrorKind.WrongKind := by
  cases x with
  | Array xs =>
    obtain ⟨z, _, hz⟩ := operator_vector_loop_error_elem convert xs [] e h
    exact hconvert z e hz
  | _ =>
    simp only [operator_vector] at h
    injection h with h
    subst h
    rfl

/-! ## Scalar conversions -/

/-- The failures of every scalar conversion are WrongKind. -/
theorem scalar_conversions_WrongKind (x : TJsonNode) (e : TException) :
    (operator_bool x = .error e → e.kind = some EErrorKind.WrongKind)
    ∧ (operator_int x = .error e → e.kind = some EErrorKind.WrongKind)
    ∧ (operator_long x = .error e → e.kind = some EErrorKind.WrongKind)
    ∧ (operator_long_long x = .error e → e.kind = some EErrorKind.WrongKind)
    ∧ (operator_unsigned_int x = .error e → e.kind = some EErrorKind.WrongKind)
    ∧ (operator_unsigned_long x = .error e → e.kind = some EErrorKind.WrongKind)
    ∧ (operator_unsigned_long_long x = .error e → e.kind = some EErrorKind.WrongKind)
    ∧ (operator_float x = .error e → e.kind = some EErrorKind.WrongKind)
    ∧ (operator_string x = .error e → e.kind = some EErrorKind.WrongKind) := by
  refine ⟨?_, ?_, ?_, ?_, ?_, ?_, ?_, ?_, ?_⟩ <;> intro h <;> cases x <;>
    first
    | (injection h with h; subst h; rfl)
    | cases h

/-- C16: the scalar conversions are kind-exact.  The boolean conversion returns the payload
of a Boolean, every numeric conversion succeeds on a Number, the text conversion returns
the text of a String; on every other kind each of them fails with WrongKind (so that
success holds exactly on the matching kind), e.g. the boolean conversion of a String
fails. -/
theorem scalar_conversions_kind_exact (v : TJsonNode) (s : string) :
    (match v with
      | Boolean b => operator_bool v = .ok b
      | _ => ∃ e, operator_bool v = .error e ∧ e.kind = some EErrorKind.WrongKind)
    ∧ (match v with
      | Number _ =>
        (∃ r, operator_int v = .ok r) ∧ (∃ r, operator_long v = .ok r)
        ∧ (∃ r, operator_long_long v = .ok r) ∧ (∃ r, operator_unsigned_int v = .ok r)
        ∧ (∃ r, operator_unsigned_long v = .ok r)
        ∧ (∃ r, operator_unsigned_long_long v = .ok r)
        ∧ (∃ r, operator_float v = .ok r) ∧ (∃ r, operator_double v = .ok r)
      | _ =>
        (∃ e, operator_int v = .error e ∧ e.kind = some EErrorKind.WrongKind)
        ∧ (∃ e, operator_long v = .error e ∧ e.kind = some EErrorKind.WrongKind)
        ∧ (∃ e, operator_long_long v = .error e ∧ e.kind = some EErrorKind.WrongKind)
        ∧ (∃ e, operator_unsigned_int v = .error e ∧ e.kind = some EErrorKind.WrongKind)
        ∧ (∃ e, operator_unsigned_long v = .error e ∧ e.kind = some EErrorKind.WrongKind)
        ∧ (∃ e, operator_unsigned_long_long v = .error e
            ∧ e.kind = some EErrorKind.WrongKind)
        ∧ (∃ e, operator_float v = .error e ∧ e.kind = some EErrorKind.WrongKind)
        ∧ (∃ e, operator_double v = .error e ∧ e.kind = some EErrorKind.WrongKind))
    ∧ (match v with
      | String t => operator_string v = .ok t
      | _ => ∃ e, operator_string v = .error e ∧ e.kind = some EErrorKind.WrongKind)
    ∧ ∃ e, operator_bool (String s) = .error e ∧ e.kind = some EErrorKind.WrongKind := by
  refine ⟨?_, ?_, ?_, ⟨.notBoolean, rfl, rfl⟩⟩
  · cases v <;> simp [operator_bool, TException.kind]
  · cases v <;>
      simp [operator_int, operator_long, operator_long_long, operator_unsigned_int,
        operator_unsigned_long, operator_unsigned_long_long, operator_float, operator_double,
        TException.kind]
  · cases v <;> simp [operator_string, TException.kind]

/-! ## Conversion to integers -/

theorem static_cast_long_long_of_range {x : ℚ} (hlo : -(9223372036854775808 : ℚ) ≤ x)
    (hhi : x ≤ 9223372036854775807) : static_cast_long_long (.finite x) = truncate x := by
  have hr := truncate_range (-9223372036854775808) 9223372036854775807
    (by push_cast; exact hlo) (by push_cast; exact hhi) (by norm_num) (by norm_num)
  simp only [static_cast_long_long]
  rw [if_pos]
  constructor
  · have := hr.1
    norm_num
    omega
  · have := hr.2
    norm_num
    omega

theorem static_cast_int_of_range {x : ℚ} (hlo : -(2147483648 : ℚ) ≤ x)
    (hhi : x ≤ 2147483647) : static_cast_int (.finite x) = truncate x := by
  have hr := truncate_range (-2147483648) 2147483647
    (by push_cast; exact hlo) (by push_cast; exact hhi) (by norm_num) (by norm_num)
  simp only [static_cast_int]
  rw [if_pos]
  constructor
  · have := hr.1
    norm_num
    omega
  · have := hr.2
    norm_num
    omega

theorem truncate_of_nonneg {x : ℚ} (h : 0 ≤ x) : truncate x = ⌊x⌋ := by
  rw [truncate_eq_floor_ceil, if_pos h]

theorem static_cast_unsigned_int_of_range {x : ℚ} (hlo : 0 ≤ x) (hhi : x ≤ 4294967295) :
    static_cast_unsigned_int (.finite x) = ⌊x⌋.toNat := by
  have hf0 : 0 ≤ ⌊x⌋ := Int.floor_nonneg.mpr hlo
  have hf1 : ⌊x⌋ ≤ 4294967295 := by
    have h := (truncate_range 0 4294967295 (by push_cast; exact hlo)
      (by push_cast; exact hhi) le_rfl (by norm_num)).2
    rwa [truncate_of_nonneg hlo] at h
  unfold static_cast_unsigned_int
  rw [static_cast_long_long_of_range (by linarith) (by linarith), truncate_of_nonneg hlo]
  congr 1
  omega

theorem static_cast_unsigned_long_long_of_range {x : ℚ} (hlo : 0 ≤ x)
    (hhi : x ≤ 18446744073709551615) :
    static_cast_unsigned_long_long (.finite x) = ⌊x⌋.toNat := by
  have hf0 : 0 ≤ ⌊x⌋ := Int.floor_nonneg.mpr hlo
  simp only [static_cast_unsigned_long_long]
  by_cases h63 : x < 9223372036854775808
  · rw [if_pos h63]
    have hf1 : ⌊x⌋ < 9223372036854775808 := by
      apply Int.floor_lt.mpr
      push_cast
      exact h63
    have hcast : static_cast_long_long (.finite x) = ⌊x⌋ := by
      simp only [static_cast_long_long, truncate_of_nonneg hlo]
      rw [if_pos]
      constructor
      · norm_num
        omega
      · norm_num
        omega
    rw [hcast]
    congr 1
    omega
  · rw [if_neg h63, if_pos (by linarith), truncate_of_nonneg hlo]

/-- C17: integer conversion truncates toward zero.  For a Number of value `x` within the
range of the target type, the conversion to `int`, `long`, `long long`, `unsigned int`,
`unsigned long` and `unsigned long long` returns `x` without its fractional part: the
floor of a non-negative `x`, the ceiling of a negative one. -/
theorem integer_conversions_truncate (x : ℚ) :
    (-(2147483648 : ℚ) ≤ x ∧ x ≤ 2147483647 →
      operator_int (Number (.finite x)) = .ok (if 0 ≤ x then ⌊x⌋ else ⌈x⌉))
    ∧ (-(9223372036854775808 : ℚ) ≤ x ∧ x ≤ 9223372036854775807 →
      operator_long (Number (.finite x)) = .ok (if 0 ≤ x then ⌊x⌋ else ⌈x⌉))
    ∧ (-(9223372036854775808 : ℚ) ≤ x ∧ x ≤ 9223372036854775807 →
      operator_long_long (Number (.finite x)) = .ok (if 0 ≤ x then ⌊x⌋ else ⌈x⌉))
    ∧ (0 ≤ x ∧ x ≤ 4294967295 →
      operator_unsigned_int (Number (.finite x)) = .ok ⌊x⌋.toNat)
    ∧ (0 ≤ x ∧ x ≤ 18446744073709551615 →
      operator_unsigned_long (Number (.finite x)) = .ok ⌊x⌋.toNat)
    ∧ (0 ≤ x ∧ x ≤ 18446744073709551615 →
      operator_unsigned_long_long (Number (.finite x)) = .ok ⌊x⌋.toNat) := by
  refine ⟨?_, ?_, ?_, ?_, ?_, ?_⟩
  · rintro ⟨hlo, hhi⟩
    simp only [operator_int]
    rw [static_cast_int_of_range hlo hhi, truncate_eq_floor_ceil]
  · rintro ⟨hlo, hhi⟩
    simp only [operator_long, static_cast_long]
    rw [static_cast_long_long_of_range hlo hhi, truncate_eq_floor_ceil]
  · rintro ⟨hlo, hhi⟩
    simp only [operator_long_long]
    rw [static_cast_long_long_of_range hlo hhi, truncate_eq_floor_ceil]
  · rintro ⟨hlo, hhi⟩
    simp only [operator_unsigned_int]
    rw [static_cast_unsigned_int_of_range hlo hhi]
  · rintro ⟨hlo, hhi⟩
    simp only [operator_unsigned_long, static_cast_unsigned_long]
    rw [static_cast_unsigned_long_long_of_range hlo hhi]
  · rintro ⟨hlo, hhi⟩
    simp only [operator_unsigned_long_long]
    rw [static_cast_unsigned_long_long_of_range hlo hhi]

/-- Witness for C17: the `double` nearest to -3.7 converts to the `int` -3, and the
`double` nearest to 3.7 converts to the `unsigned int` 3. -/
theorem integer_conversions_truncate_witness :
    operator_int (Number (.finite (-(4165829655317709 / 1125899906842624)))) = .ok (-3)
    ∧ operator_unsigned_int (Number (.finite (4165829655317709 / 1125899906842624)))
        = .ok 3 := by
  constructor
  · have h := (integer_conversions_truncate (-(4165829655317709 / 1125899906842624))).1
      (by norm_num)
    rw [h, if_neg (by norm_num)]
    congr 1
    rw [Int.ceil_eq_iff]
    norm_num
  · have h := (integer_conversions_truncate (4165829655317709 / 1125899906842624)).2.2.2.1
      (by norm_num)
    rw [h]
    congr 1
    have : ⌊(4165829655317709 / 1125899906842624 : ℚ)⌋ = 3 := by
      rw [Int.floor_eq_iff]
      norm_num
    rw [this]
    rfl

/-! ## The sequence conversion, element by element -/

/-- C18: the conversion to a sequence of `Type`, for a conversion to `Type` whose failures
are WrongKind (as those of every conversion of the class are).  On an Array all of whose
elements convert it returns a sequence of the same length whose entries are the
conversions of the elements, in order; on an Array one of whose elements fails to convert,
and on every node that is not an Array, it fails with WrongKind. -/
theorem operator_vector_elementwise {T : Type} (convert : TJsonNode → Except TException T)
    (hconvert : ∀ x e, convert x = .error e → e.kind = some EErrorKind.WrongKind)
    (v : TJsonNode) :
    match v with
    | Array xs =>
      ((∀ x ∈ xs, ∃ y, convert x = .ok y) →
        ∃ ys, operator_vector convert v = .ok ys ∧ ys.length = xs.length
          ∧ xs.map convert = ys.map Except.ok)
      ∧ ((∃ x ∈ xs, ∃ e, convert x = .error e) →
        ∃ e, operator_vector convert v = .error e ∧ e.kind = some EErrorKind.WrongKind)
    | _ => ∃ e, operator_vector convert v = .error e ∧ e.kind = some EErrorKind.WrongKind := by
  cases v with
  | Array xs =>
    constructor
    · intro h
      obtain ⟨ys, h1, h2⟩ := operator_vector_loop_ok convert xs [] h
      refine ⟨ys, by simpa [operator_vector] using h1, ?_, h2⟩
      have := congrArg List.length h2
      simpa using this.symm
    · intro h
      obtain ⟨x, _, e, he, hl⟩ := operator_vector_loop_error convert xs [] h
      exact ⟨e, by simpa [operator_vector] using hl, hconvert x e he⟩
  | _ => exact ⟨.notArray, rfl, rfl⟩

/-- Witness for C18: `[1.5, 2]` converts to the sequence of `double` 1.5, 2, and
`[1, "a", 2]` fails with WrongKind. -/
theorem operator_vector_elementwise_witness :
    (∃ ys, operator_vector operator_double (Array [Number (.finite (3 / 2)),
          Number (.finite 2)]) = .ok ys
        ∧ ys.length = [Number (.finite (3 / 2)), Number (.finite 2)].length
        ∧ [Number (.finite (3 / 2)), Number (.finite 2)].map operator_double
            = ys.map Except.ok)
    ∧ ∃ e, operator_vector operator_double
          (Array [Number (.finite 1), String ['a'], Number (.finite 2)]) = .error e
        ∧ e.kind = some EErrorKind.WrongKind :=
  ⟨(operator_vector_elementwise operator_double operator_double_WrongKind
      (Array [Number (.finite (3 / 2)), Number (.finite 2)])).1
      (by
        intro x hx
        simp only [List.mem_cons, List.mem_singleton, List.not_mem_nil, or_false] at hx
        rcases hx with rfl | rfl <;> exact ⟨_, rfl⟩),
    (operator_vector_elementwise operator_double operator_double_WrongKind
      (Array [Number (.finite 1), String ['a'], Number (.finite 2)])).2
      ⟨String ['a'], by simp, .notNumber, rfl⟩⟩

/-! ## Move -/

theorem Clear_eq_Null (v : TJsonNode) : Clear v = Null := by
  cases v <;> rfl

theorem umap_find_map_same (m : List (string × TJsonNode)) (k : string) (old new : TJsonNode)
    (h : umap_find m k = some old) :
    umap_find (m.map (fun kv => if kv.1 = k then (kv.1, new) else kv)) k = some new := by
  induction m with
  | nil => cases h
  | cons kv rest ih =>
    obtain ⟨k1, v1⟩ := kv
    by_cases hk : k1 = k
    · have e : (if ((k1, v1) : string × TJsonNode).1 = k then (((k1, v1) : string × TJsonNode).1, new)
          else (k1, v1)) = (k1, new) := if_pos hk
      rw [List.map_cons, e, umap_find, if_pos hk]
    · simp only [umap_find, if_neg hk] at h
      have e : (if ((k1, v1) : string × TJsonNode).1 = k then (((k1, v1) : string × TJsonNode).1, new)
          else (k1, v1)) = (k1, v1) := if_neg hk
      rw [List.map_cons, e, umap_find, if_neg hk]
      exact ih h

theorem umap_find_map_ne (m : List (string × TJsonNode)) (k k2 : string) (new : TJsonNode)
    (h : k ≠ k2) :
    umap_find (m.map (fun kv => if kv.1 = k then (kv.1, new) else kv)) k2
      = umap_find m k2 := by
  induction m with
  | nil => rfl
  | cons kv rest ih =>
    obtain ⟨k1, v1⟩ := kv
    by_cases hk : k1 = k
    · have hk2 : ¬ k1 = k2 := fun h2 => h (hk.symm.trans h2)
      have e : (if ((k1, v1) : string × TJsonNode).1 = k then (((k1, v1) : string × TJsonNode).1, new)
          else (k1, v1)) = (k1, new) := if_pos hk
      rw [List.map_cons, e, umap_find, umap_find, if_neg hk2, if_neg hk2]
      exact ih
    · have e : (if ((k1, v1) : string × TJsonNode).1 = k then (((k1, v1) : string × TJsonNode).1, new)
          else (k1, v1)) = (k1, v1) := if_neg hk
      rw [List.map_cons, e, umap_find, umap_find, ih]

theorem part_setPart_same {v : TJsonNode} {s : TStep} {old : TJsonNode} (new : TJsonNode)
    (h : part v s = some old) : part (setPart v s new) s = some new := by
  cases v <;> cases s <;> simp only [part] at h <;> try cases h
  · rename_i value i
    simp only [setPart, part]
    have hi : i < value.length := by
      by_contra hc
      rw [List.getElem?_eq_none (by omega)] at h
      cases h
    simp [hi]
  · rename_i value k
    simp only [setPart, part]
    exact umap_find_map_same value k old new h

theorem part_setPart_ne (v : TJsonNode) {s t : TStep} (new : TJsonNode) (h : s ≠ t) :
    part (setPart v s new) t = part v t := by
  cases v <;> cases s <;> cases t <;> simp only [setPart, part]
  · rename_i value i j
    have hij : i ≠ j := fun hc => h (by rw [hc])
    simp [List.getElem?_set, hij]
  · rename_i value k k2
    have hk : k ≠ k2 := fun hc => h (by rw [hc])
    exact umap_find_map_ne value k k2 new hk

theorem partAt_append (v : TJsonNode) (p q : List TStep) :
    partAt v (p ++ q) = (partAt v p).bind (fun c => partAt c q) := by
  induction p generalizing v with
  | nil => rfl
  | cons s rest ih =>
    simp only [List.cons_append, partAt]
    cases part v s with
    | none => rfl
    | some c => exact ih c

theorem setPartAt_exists {v : TJsonNode} {p : List TStep} {x : TJsonNode} (c : TJsonNode)
    (h : partAt v p = some x) : ∃ r, setPartAt v p c = some r := by
  induction p generalizing v with
  | nil => exact ⟨c, rfl⟩
  | cons s rest ih =>
    simp only [partAt] at h
    cases hs : part v s with
    | none => rw [hs] at h; cases h
    | some old =>
      rw [hs] at h
      obtain ⟨r, hr⟩ := ih h
      exact ⟨setPart v s r, by simp only [setPartAt, hs, hr]⟩

theorem partAt_setPartAt_same {v : TJsonNode} {p : List TStep} {c r : TJsonNode}
    (h : setPartAt v p c = some r) : partAt r p = some c := by
  induction p generalizing v r with
  | nil =>
    simp only [setPartAt] at h
    injection h with h
    rw [← h]
    rfl
  | cons s rest ih =>
    simp only [setPartAt] at h
    cases hs : part v s with
    | none => rw [hs] at h; cases h
    | some old =>
      rw [hs] at h
      simp only at h
      cases hn : setPartAt old rest c with
      | none => rw [hn] at h; cases h
      | some new =>
        rw [hn] at h
        injection h with h
        rw [← h]
        simp only [partAt, part_setPart_same new hs]
        exact ih hn

theorem partAt_setPartAt_apart {v : TJsonNode} {p q : List TStep} {c r : TJsonNode}
    (h : setPartAt v p c = some r) (h1 : ¬ p <+: q) (h2 : ¬ q <+: p) :
    partAt r q = partAt v q := by
  induction p generalizing v r q with
  | nil => exact absurd (List.nil_prefix) h1
  | cons s rest ih =>
    cases q with
    | nil => exact absurd (List.nil_prefix) h2
    | cons t qrest =>
      simp only [setPartAt] at h
      cases hs : part v s with
      | none => rw [hs] at h; cases h
      | some old =>
        rw [hs] at h
        simp only at h
        cases hn : setPartAt old rest c with
        | none => rw [hn] at h; cases h
        | some new =>
          rw [hn] at h
          injection h with h
          rw [← h]
          by_cases hst : s = t
          · subst hst
            simp only [partAt, part_setPart_same new hs, hs]
            refine ih hn ?_ ?_
            · intro hp
              exact h1 ((List.prefix_cons_inj s).mpr hp)
            · intro hp
              exact h2 ((List.prefix_cons_inj s).mpr hp)
          · simp only [partAt, part_setPart_ne v new hst]

theorem read_write_same {mem mem1 : Memory} {p : TPlace} {c : TJsonNode}
    (h : mem.write p c = some mem1) : mem1.read p = some c := by
  unfold Memory.write at h
  cases hv : mem[p.address]? with
  | none => rw [hv] at h; cases h
  | some v =>
    rw [hv] at h
    simp only at h
    cases hr : setPartAt v p.path c with
    | none => rw [hr] at h; cases h
    | some r =>
      rw [hr] at h
      injection h with h
      have hlt : p.address < mem.length := by
        by_contra hc
        rw [List.getElem?_eq_none (by omega)] at hv
        cases hv
      rw [← h]
      unfold Memory.read
      simp only [List.getElem?_set, hlt, if_true]
      exact partAt_setPartAt_same hr

theorem read_write_apart {mem mem1 : Memory} {p q : TPlace} {c : TJsonNode}
    (h : mem.write p c = some mem1) (hpq : p.Apart q) : mem1.read q = mem.read q := by
  unfold Memory.write at h
  cases hv : mem[p.address]? with
  | none => rw [hv] at h; cases h
  | some v =>
    rw [hv] at h
    simp only at h
    cases hr : setPartAt v p.path c with
    | none => rw [hr] at h; cases h
    | some r =>
      rw [hr] at h
      injection h with h
      have hlt : p.address < mem.length := by
        by_contra hc
        rw [List.getElem?_eq_none (by omega)] at hv
        cases hv
      rw [← h]
      unfold Memory.read
      by_cases ha : p.address = q.address
      · rcases hpq with hpq | hpq
        · exact absurd ha hpq
        · rw [← ha, hv]
          simp only [List.getElem?_set, hlt, if_true]
          exact partAt_setPartAt_apart hr hpq.1 hpq.2
      · simp only [List.getElem?_set, ha, if_false]

theorem write_exists {mem : Memory} {p : TPlace} {x : TJsonNode} (c : TJsonNode)
    (h : mem.read p = some x) : ∃ mem1, mem.write p c = some mem1 := by
  unfold Memory.read at h
  unfold Memory.write
  cases hv : mem[p.address]? with
  | none => rw [hv] at h; cases h
  | some v =>
    rw [hv] at h
    obtain ⟨r, hr⟩ := setPartAt_exists c h
    exact ⟨mem.set p.address r, by simp only [hr]⟩

theorem write_length {mem mem1 : Memory} {p : TPlace} {c : TJsonNode}
    (h : mem.write p c = some mem1) : mem1.length = mem.length ∧ p.address < mem.length := by
  unfold Memory.write at h
  cases hv : mem[p.address]? with
  | none => rw [hv] at h; cases h
  | some v =>
    rw [hv] at h
    simp only at h
    cases hr : setPartAt v p.path c with
    | none => rw [hr] at h; cases h
    | some r =>
      rw [hr] at h
      injection h with h
      have hlt : p.address < mem.length := by
        by_contra hc
        rw [List.getElem?_eq_none (by omega)] at hv
        cases hv
      rw [← h]
      exact ⟨List.length_set _ _ _, hlt⟩

theorem Apart_symm {p q : TPlace} (h : p.Apart q) : q.Apart p := by
  rcases h with h | h
  · exact Or.inl (fun hc => h hc.symm)
  · exact Or.inr ⟨h.2, h.1⟩

theorem read_write_inside {mem mem1 : Memory} {p q : TPlace}
    (h : mem.write p Null = some mem1) (hq : q.Inside p) : mem1.read q = none := by
  obtain ⟨ha, s, rest, hpath⟩ := hq
  have h1 := read_write_same h
  unfold Memory.read at h1 ⊢
  rw [ha]
  cases hv : mem1[p.address]? with
  | none => rfl
  | some v =>
    rw [hv] at h1
    simp only at h1 ⊢
    rw [hpath, partAt_append, h1]
    rfl

theorem read_of_Inside {mem : Memory} {p q : TPlace} {x : TJsonNode}
    (h : mem.read q = some x) (hq : q.Inside p) : ∃ y, mem.read p = some y := by
  obtain ⟨ha, s, rest, hpath⟩ := hq
  unfold Memory.read at h ⊢
  rw [ha] at h
  cases hv : mem[p.address]? with
  | none => rw [hv] at h; cases h
  | some v =>
    rw [hv] at h
    simp only at h ⊢
    rw [hpath, partAt_append] at h
    cases hp : partAt v p.path with
    | none => rw [hp] at h; cases h
    | some y => exact ⟨y, rfl⟩

theorem ne_of_Inside {p q : TPlace} (hq : q.Inside p) : q ≠ p := by
  obtain ⟨_, s, rest, hpath⟩ := hq
  intro hc
  rw [hc] at hpath
  have := congrArg List.length hpath
  simp at this

theorem ne_of_Apart {p q : TPlace} (h : p.Apart q) : p ≠ q := by
  intro hc
  rcases h with h | h
  · exact h (by rw [hc])
  · exact h.1 (by rw [hc])

theorem read_append {mem : Memory} {q : TPlace} (v : TJsonNode)
    (h : q.address < mem.length) : Memory.read (mem ++ [v]) q = mem.read q := by
  unfold Memory.read
  rw [List.getElem?_append_left h]

theorem read_append_new (mem : Memory) (v : TJsonNode) :
    Memory.read (mem ++ [v]) ⟨mem.length, []⟩ = some v := by
  unfold Memory.read
  simp [partAt]

/-- C19 (as stated, refuted): `d = std::move(d[0])` for the Array `d = [true]`.  The
destination `d` and the source `d[0]` are distinct objects, and the source holds `true`.
`Clear()` deletes the array of `d`, and with it the source, before `other.Type_` is read:
the assignment does not leave the destination with the former value of the source. -/
theorem move_assign_from_own_element :
    (⟨0, []⟩ : TPlace) ≠ ⟨0, [.index 0]⟩
    ∧ Memory.read [Array [Boolean true]] ⟨0, [.index 0]⟩ = some (Boolean true)
    ∧ operator_assign_move [Array [Boolean true]] ⟨0, []⟩ ⟨0, [.index 0]⟩ = none
    ∧ ¬ ∃ mem1, operator_assign_move [Array [Boolean true]] ⟨0, []⟩ ⟨0, [.index 0]⟩
          = some mem1
        ∧ mem1.read ⟨0, []⟩ = some (Boolean true) := by
  have h : operator_assign_move [Array [Boolean true]] ⟨0, []⟩ ⟨0, [.index 0]⟩ = none := by
    decide
  refine ⟨by decide, by decide, h, ?_⟩
  rintro ⟨mem1, h1, _⟩
  rw [h] at h1
  cases h1

/-- C19 (amended): move leaves the source Null.  For a source object holding `s`: after
move construction the new object holds `s`, the source is Null and the objects apart from
the source are unchanged; after move assignment to a destination that is apart from the
source (neither the source itself, nor a part of it, nor an object the source is a part
of) the destination holds `s`, the source is Null and the objects apart from both are
unchanged; move assignment of an object to itself changes nothing.  Move assignment to an
object from a part of itself reads the source after `Clear()` has destroyed it, and move
assignment to a part of the source leaves the source Null and no destination. -/
theorem move_leaves_source_Null (mem : Memory) (this other : TPlace) (s d : TJsonNode)
    (hs : mem.read other = some s) (hd : mem.read this = some d) :
    (∃ mem1, move_construct mem other = some mem1
      ∧ mem1.read ⟨mem.length, []⟩ = some s
      ∧ mem1.read other = some Null
      ∧ ∀ q, other.Apart q → q.address < mem.length → mem1.read q = mem.read q)
    ∧ (this.Apart other → ∃ mem1, operator_assign_move mem this other = some mem1
      ∧ mem1.read this = some s
      ∧ mem1.read other = some Null
      ∧ ∀ q, this.Apart q → other.Apart q → mem1.read q = mem.read q)
    ∧ operator_assign_move mem this this = some mem
    ∧ (other.Inside this → operator_assign_move mem this other = none)
    ∧ (this.Inside other → ∃ mem1, operator_assign_move mem this other = some mem1
      ∧ mem1.read other = some Null
      ∧ mem1.read this = none) := by
  refine ⟨?_, ?_, ?_, ?_, ?_⟩
  · obtain ⟨mem1, h1⟩ := write_exists Null hs
    obtain ⟨hl, hlt⟩ := write_length h1
    refine ⟨mem1 ++ [s], ?_, ?_, ?_, ?_⟩
    · unfold move_construct
      rw [hs]
      simp only
      rw [h1]
    · rw [← hl]
      exact read_append_new mem1 s
    · rw [read_append s (by rw [hl]; exact hlt)]
      exact read_write_same h1
    · intro q hq hlt2
      rw [read_append s (by rw [hl]; exact hlt2)]
      exact read_write_apart h1 hq
  · intro hap
    obtain ⟨mem1, h1⟩ := write_exists (Clear d) hd
    have r1 : mem1.read other = some s := by
      rw [read_write_apart h1 hap]
      exact hs
    obtain ⟨mem2, h2⟩ := write_exists s (read_write_same h1)
    have r2 : mem2.read other = some s := by
      rw [read_write_apart h2 hap]
      exact r1
    obtain ⟨mem3, h3⟩ := write_exists Null r2
    refine ⟨mem3, ?_, ?_, ?_, ?_⟩
    · unfold operator_assign_move
      rw [if_pos (ne_of_Apart hap), hd]
      simp only
      rw [h1]
      simp only
      rw [r1]
      simp only
      rw [h2]
      exact h3
    · rw [read_write_apart h3 (Apart_symm hap)]
      exact read_write_same h2
    · exact read_write_same h3
    · intro q hq1 hq2
      rw [read_write_apart h3 hq2, read_write_apart h2 hq1, read_write_apart h1 hq1]
  · unfold operator_assign_move
    rw [if_neg (fun h => h rfl)]
  · intro hin
    obtain ⟨mem1, h1⟩ := write_exists (Clear d) hd
    rw [Clear_eq_Null] at h1
    have r1 : mem1.read other = none := read_write_inside h1 hin
    unfold operator_assign_move
    rw [if_pos (fun h => ne_of_Inside hin h.symm), hd]
    simp only
    rw [Clear_eq_Null, h1]
    simp only
    rw [r1]
  · intro hin
    obtain ⟨mem1, h1⟩ := write_exists (Clear d) hd
    obtain ⟨v, r1⟩ := read_of_Inside (read_write_same h1) hin
    obtain ⟨mem2, h2⟩ := write_exists v (read_write_same h1)
    obtain ⟨w, r2⟩ := read_of_Inside (read_write_same h2) hin
    obtain ⟨mem3, h3⟩ := write_exists Null r2
    refine ⟨mem3, ?_, read_write_same h3, read_write_inside h3 hin⟩
    unfold operator_assign_move
    rw [if_pos (ne_of_Inside hin), hd]
    simp only
    rw [h1]
    simp only
    rw [r1]
    simp only
    rw [h2]
    exact h3

/-- Witness for C19 (amended): in a state with the String `x` at address 0 and the Array
`[true, [1]]` at address 1, the Array is moved into a new object and into the object at
address 0, and its element `[1]` is moved into its element `true`. -/
theorem move_leaves_source_Null_witness :
    Memory.read [String ['x'], Array [Boolean true, Array [Number (.finite 1)]]] ⟨1, []⟩
      = some (Array [Boolean true, Array [Number (.finite 1)]])
    ∧ Memory.read [String ['x'], Array [Boolean true, Array [Number (.finite 1)]]] ⟨0, []⟩
      = some (String ['x'])
    ∧ TPlace.Apart ⟨0, []⟩ ⟨1, []⟩
    ∧ TPlace.Apart ⟨1, [.index 0]⟩ ⟨1, [.index 1]⟩
    ∧ (∃ mem1, move_construct
          [String ['x'], Array [Boolean true, Array [Number (.finite 1)]]] ⟨1, []⟩ = some mem1
        ∧ mem1.read ⟨2, []⟩ = some (Array [Boolean true, Array [Number (.finite 1)]])
        ∧ mem1.read ⟨1, []⟩ = some Null)
    ∧ (∃ mem1, operator_assign_move
          [String ['x'], Array [Boolean true, Array [Number (.finite 1)]]] ⟨0, []⟩ ⟨1, []⟩
          = some mem1
        ∧ mem1.read ⟨0, []⟩ = some (Array [Boolean true, Array [Number (.finite 1)]])
        ∧ mem1.read ⟨1, []⟩ = some Null)
    ∧ (∃ mem1, operator_assign_move
          [String ['x'], Array [Boolean true, Array [Number (.finite 1)]]]
          ⟨1, [.index 0]⟩ ⟨1, [.index 1]⟩ = some mem1
        ∧ mem1.read ⟨1, [.index 0]⟩ = some (Array [Number (.finite 1)])
        ∧ mem1.read ⟨1, [.index 1]⟩ = some Null) :=
  have h1 := move_leaves_source_Null
    [String ['x'], Array [Boolean true, Array [Number (.finite 1)]]] ⟨0, []⟩ ⟨1, []⟩
    (Array [Boolean true, Array [Number (.finite 1)]]) (String ['x']) rfl rfl
  have h2 := move_leaves_source_Null
    [String ['x'], Array [Boolean true, Array [Number (.finite 1)]]]
    ⟨1, [.index 0]⟩ ⟨1, [.index 1]⟩ (Array [Number (.finite 1)]) (Boolean true) rfl rfl
  ⟨rfl, rfl, Or.inl (by decide), Or.inr ⟨by decide, by decide⟩,
   match h1.1 with
    | ⟨m, a, b, c, _⟩ => ⟨m, a, b, c⟩,
   match h1.2.1 (Or.inl (by decide)) with
    | ⟨m, a, b, c, _⟩ => ⟨m, a, b, c⟩,
   match h2.2.1 (Or.inr ⟨by decide, by decide⟩) with
    | ⟨m, a, b, c, _⟩ => ⟨m, a, b, c⟩⟩

/-! ## Scanning for a trailing comma -/

theorem cons_peek_tail {p : string} (h : peek p ≠ Char.ofNat 0) : p = peek p :: p.tail := by
  cases p with
  | nil => exact absurd rfl h
  | cons c rest => rfl

theorem scan_code_cons {c : Char} (h1 : c ≠ '"') (h2 : c ≠ ',') (rest : string) :
    hasTrailingComma .code (c :: rest) = hasTrailingComma .code rest := by
  rw [hasTrailingComma, if_neg h1, if_neg h2]

theorem scan_code_tail {p : string} {c : Char} (h : peek p = c)
    (hc : c ≠ Char.ofNat 0 ∧ c ≠ '"' ∧ c ≠ ',') :
    hasTrailingComma .code p = hasTrailingComma .code p.tail := by
  have hp := cons_peek_tail (p := p) (by rw [h]; exact hc.1)
  rw [h] at hp
  rw [hp]
  exact scan_code_cons hc.2.1 hc.2.2 _

theorem scan_code_append (pre rest : string) (h : ∀ c ∈ pre, c ≠ '"' ∧ c ≠ ',') :
    hasTrailingComma .code (pre ++ rest) = hasTrailingComma .code rest := by
  induction pre with
  | nil => rfl
  | cons c pre ih =>
    rw [List.cons_append, scan_code_cons (h c (List.mem_cons_self _ _)).1
      (h c (List.mem_cons_self _ _)).2]
    exact ih (fun d hd => h d (List.mem_cons_of_mem _ hd))

theorem scan_code_SkipWhitespace (p : string) :
    hasTrailingComma .code (SkipWhitespace p) = hasTrailingComma .code p := by
  induction p with
  | nil => rfl
  | cons c rest ih =>
    unfold SkipWhitespace
    by_cases h : c = ' ' ∨ c = '\t' ∨ c = '\n' ∨ c = '\r'
    · rw [if_pos h, ih]
      refine (scan_code_cons ?_ ?_ rest).symm
      · rcases h with h | h | h | h <;> rw [h] <;> decide
      · rcases h with h | h | h | h <;> rw [h] <;> decide
    · rw [if_neg h]

theorem isDigit_plain {c : Char} (h : isDigit c = true) :
    c ≠ Char.ofNat 0 ∧ c ≠ '"' ∧ c ≠ ',' := by
  simp only [isDigit, decide_eq_true_eq] at h
  refine ⟨?_, ?_, ?_⟩ <;> intro hc <;> rw [hc] at h <;> revert h <;> decide

theorem scan_code_dropWhile_digits (p : string) :
    hasTrailingComma .code (p.dropWhile isDigit) = hasTrailingComma .code p := by
  induction p with
  | nil => rfl
  | cons c rest ih =>
    by_cases h : isDigit c = true
    · rw [List.dropWhile_cons_of_pos h, ih]
      exact (scan_code_cons (isDigit_plain h).2.1 (isDigit_plain h).2.2 rest).symm
    · rw [List.dropWhile_cons_of_neg h]

theorem scan_text_tail {p : string} {c : Char} (h : peek p = c)
    (hc : c ≠ Char.ofNat 0 ∧ c ≠ '\\' ∧ c ≠ '"') :
    hasTrailingComma .text p = hasTrailingComma .text p.tail := by
  have hp := cons_peek_tail (p := p) (by rw [h]; exact hc.1)
  rw [h] at hp
  rw [hp, hasTrailingComma, if_neg hc.2.1, if_neg hc.2.2]
  rfl

theorem scan_text_quote {p : string} (h : peek p = '"') :
    hasTrailingComma .text p = hasTrailingComma .code p.tail := by
  have hp := cons_peek_tail (p := p) (by rw [h]; decide)
  rw [h] at hp
  rw [hp, hasTrailingComma, if_neg (by decide), if_pos rfl]
  rfl

theorem scan_text_escape {p : string} {c : Char} (h : peek p = '\\') (h1 : peek p.tail = c)
    (hc : c ≠ Char.ofNat 0) :
    hasTrailingComma .text p = hasTrailingComma .text p.tail.tail := by
  have hp := cons_peek_tail (p := p) (by rw [h]; decide)
  have hq := cons_peek_tail (p := p.tail) (by rw [h1]; exact hc)
  rw [h] at hp
  rw [hp, hasTrailingComma, if_pos rfl]
  simp only [List.tail_cons]
  rw [hq, hasTrailingComma]
  rfl

theorem hexValue_plain {c : Char} {d : Nat} (h : hexValue c = some d) :
    c ≠ Char.ofNat 0 ∧ c ≠ '\\' ∧ c ≠ '"' := by
  refine ⟨?_, ?_, ?_⟩
  · intro hc
    have h0 : hexValue (Char.ofNat 0) = none := by decide
    rw [hc, h0] at h
    cases h
  · intro hc
    have h0 : hexValue '\\' = none := by decide
    rw [hc, h0] at h
    cases h
  · intro hc
    have h0 : hexValue '"' = none := by decide
    rw [hc, h0] at h
    cases h

theorem ParseString_codepoint_scan {p r : string} {cp : Nat}
    (h : ParseString_codepoint p = .ok (cp, r)) :
    hasTrailingComma .text p = hasTrailingComma .text r := by
  unfold ParseString_codepoint at h
  cases h1 : hexValue (peek p) with
  | none => rw [h1] at h; cases h
  | some d1 =>
    rw [h1] at h
    simp only at h
    cases h2 : hexValue (peek p.tail) with
    | none => rw [h2] at h; cases h
    | some d2 =>
      rw [h2] at h
      simp only at h
      cases h3 : hexValue (peek p.tail.tail) with
      | none => rw [h3] at h; cases h
      | some d3 =>
        rw [h3] at h
        simp only at h
        cases h4 : hexValue (peek p.tail.tail.tail) with
        | none => rw [h4] at h; cases h
        | some d4 =>
          rw [h4] at h
          simp only at h
          injection h with h
          injection h with ha hb
          subst hb
          rw [scan_text_tail rfl (hexValue_plain h1), scan_text_tail rfl (hexValue_plain h2),
            scan_text_tail rfl (hexValue_plain h3), scan_text_tail rfl (hexValue_plain h4)]

/-! ## What a successful parse passes over -/

theorem ParseString_loop_scan (fuel : Nat) (p acc s r : string)
    (h : ParseString_loop fuel p acc = .ok (s, r)) :
    hasTrailingComma .text p = hasTrailingComma .code r := by
  induction fuel generalizing p acc with
  | zero => simp [ParseString_loop] at h
  | succ fuel ih =>
    rw [ParseString_loop] at h
    by_cases h1 : peek p = '"'
    · rw [if_pos h1] at h
      injection h with h
      injection h with ha hb
      subst hb
      exact scan_text_quote h1
    rw [if_neg h1] at h
    by_cases h2 : peek p = Char.ofNat 0
    · rw [if_pos h2] at h
      cases h
    rw [if_neg h2] at h
    by_cases h3 : peek p = '\\'
    · rw [if_pos h3] at h
      by_cases e1 : peek p.tail = '"'
      · rw [if_pos e1] at h
        rw [scan_text_escape h3 e1 (by decide)]
        exact ih _ _ h
      rw [if_neg e1] at h
      by_cases e2 : peek p.tail = '\\'
      · rw [if_pos e2] at h
        rw [scan_text_escape h3 e2 (by decide)]
        exact ih _ _ h
      rw [if_neg e2] at h
      by_cases e3 : peek p.tail = '/'
      · rw [if_pos e3] at h
        rw [scan_text_escape h3 e3 (by decide)]
        exact ih _ _ h
      rw [if_neg e3] at h
      by_cases e4 : peek p.tail = 'b'
      · rw [if_pos e4] at h
        rw [scan_text_escape h3 e4 (by decide)]
        exact ih _ _ h
      rw [if_neg e4] at h
      by_cases e5 : peek p.tail = 'f'
      · rw [if_pos e5] at h
        rw [scan_text_escape h3 e5 (by decide)]
        exact ih _ _ h
      rw [if_neg e5] at h
      by_cases e6 : peek p.tail = 'n'
      · rw [if_pos e6] at h
        rw [scan_text_escape h3 e6 (by decide)]
        exact ih _ _ h
      rw [if_neg e6] at h
      by_cases e7 : peek p.tail = 'r'
      · rw [if_pos e7] at h
        rw [scan_text_escape h3 e7 (by decide)]
        exact ih _ _ h
      rw [if_neg e7] at h
      by_cases e8 : peek p.tail = 't'
      · rw [if_pos e8] at h
        rw [scan_text_escape h3 e8 (by decide)]
        exact ih _ _ h
      rw [if_neg e8] at h
      by_cases e9 : peek p.tail = 'u'
      · rw [if_pos e9] at h
        rw [scan_text_escape h3 e9 (by decide)]
        cases hcp : ParseString_codepoint p.tail.tail with
        | error e => rw [hcp] at h; cases h
        | ok res =>
          obtain ⟨cp, p1⟩ := res
          rw [hcp] at h
          rw [ParseString_codepoint_scan hcp]
          by_cases hlt : cp < 128
          · simp only [hlt, if_true] at h
            exact ih _ _ h
          · simp only [hlt, if_false] at h
            exact ih _ _ h
      · rw [if_neg e9] at h
        cases h
    · rw [if_neg h3] at h
      rw [scan_text_tail rfl ⟨h2, h3, h1⟩]
      exact ih _ _ h

theorem ParseString_scan {p r : string} {v : TJsonNode}
    (h : ParseString p = .ok (v, r)) :
    hasTrailingComma .code p = hasTrailingComma .code r := by
  unfold ParseString at h
  by_cases h1 : peek p ≠ '"'
  · rw [if_pos h1] at h
    cases h
  rw [if_neg h1] at h
  have h1' : peek p = '"' := by simpa using h1
  cases hl : ParseString_loop (p.tail.length + 1) p.tail [] with
  | error e => rw [hl] at h; cases h
  | ok res =>
    obtain ⟨s, p1⟩ := res
    rw [hl] at h
    injection h with h
    injection h with ha hb
    subst hb
    have hp := cons_peek_tail (p := p) (by rw [h1']; decide)
    rw [h1'] at hp
    rw [hp, hasTrailingComma, if_pos rfl]
    exact ParseString_loop_scan _ _ _ _ _ hl

theorem ParseLiteral_scan {p lit r : string} {v w : TJsonNode}
    (hlit : ∀ c ∈ lit, c ≠ '"' ∧ c ≠ ',')
    (h : ParseLiteral p lit v = .ok (w, r)) :
    hasTrailingComma .code p = hasTrailingComma .code r := by
  unfold ParseLiteral at h
  by_cases h1 : p.take lit.length = lit
  · rw [if_pos h1] at h
    injection h with h
    injection h with ha hb
    subst hb
    have hp : p = lit ++ p.drop lit.length := by
      conv_lhs => rw [← List.take_append_drop lit.length p, h1]
    conv_lhs => rw [hp]
    exact scan_code_append _ _ hlit
  · rw [if_neg h1] at h
    cases h

theorem ParseNumber_integer_scan {p r : string}
    (h : ParseNumber_integer p = .ok r) :
    hasTrailingComma .code p = hasTrailingComma .code r := by
  unfold ParseNumber_integer at h
  by_cases h1 : peek p = '0'
  · rw [if_pos h1] at h
    injection h with h
    subst h
    exact scan_code_tail h1 (by decide)
  rw [if_neg h1] at h
  by_cases h2 : 49 ≤ (peek p).toNat ∧ (peek p).toNat ≤ 57
  · rw [if_pos h2] at h
    injection h with h
    subst h
    exact (scan_code_dropWhile_digits p).symm
  · rw [if_neg h2] at h
    cases h

theorem ParseNumber_fraction_scan {p r : string}
    (h : ParseNumber_fraction p = .ok r) :
    hasTrailingComma .code p = hasTrailingComma .code r := by
  unfold ParseNumber_fraction at h
  by_cases h1 : peek p = '.'
  · rw [if_pos h1] at h
    by_cases h2 : isDigit (peek p.tail) = true
    · rw [if_pos h2] at h
      injection h with h
      subst h
      rw [scan_code_dropWhile_digits]
      exact scan_code_tail h1 (by decide)
    · rw [if_neg h2] at h
      cases h
  · rw [if_neg h1] at h
    injection h with h
    subst h
    rfl

theorem ParseNumber_exponent_scan {p r : string}
    (h : ParseNumber_exponent p = .ok r) :
    hasTrailingComma .code p = hasTrailingComma .code r := by
  unfold ParseNumber_exponent at h
  by_cases h1 : peek p = 'e' ∨ peek p = 'E'
  · rw [if_pos h1] at h
    have s1 : hasTrailingComma .code p = hasTrailingComma .code p.tail := by
      rcases h1 with h1 | h1
      · exact scan_code_tail h1 (by decide)
      · exact scan_code_tail h1 (by decide)
    by_cases h2 : peek p.tail = '+' ∨ peek p.tail = '-'
    · rw [if_pos h2] at h
      have s2 : hasTrailingComma .code p.tail = hasTrailingComma .code p.tail.tail := by
        rcases h2 with h2 | h2
        · exact scan_code_tail h2 (by decide)
        · exact scan_code_tail h2 (by decide)
      by_cases h3 : isDigit (peek p.tail.tail) = true
      · rw [if_pos h3] at h
        injection h with h
        subst h
        rw [scan_code_dropWhile_digits, s1, s2]
      · rw [if_neg h3] at h
        cases h
    · rw [if_neg h2] at h
      by_cases h3 : isDigit (peek p.tail) = true
      · rw [if_pos h3] at h
        injection h with h
        subst h
        rw [scan_code_dropWhile_digits, s1]
      · rw [if_neg h3] at h
        cases h
  · rw [if_neg h1] at h
    injection h with h
    subst h
    rfl

theorem ParseNumber_scan {p r : string} {v : TJsonNode}
    (h : ParseNumber p = .ok (v, r)) :
    hasTrailingComma .code p = hasTrailingComma .code r := by
  unfold ParseNumber at h
  cases h1 : ParseNumber_integer (if peek p = '-' then p.tail else p) with
  | error e => rw [h1] at h; cases h
  | ok p1 =>
    rw [h1] at h
    simp only at h
    cases h2 : ParseNumber_fraction p1 with
    | error e => rw [h2] at h; cases h
    | ok p2 =>
      rw [h2] at h
      simp only at h
      cases h3 : ParseNumber_exponent p2 with
      | error e => rw [h3] at h; cases h
      | ok p3 =>
        rw [h3] at h
        simp only at h
        cases h4 : stod (p.take (p.length - p3.length)) with
        | error e => simp [h4] at h
        | ok d =>
          rw [h4] at h
          injection h with h
          injection h with ha hb
          subst hb
          have hs : hasTrailingComma .code p
              = hasTrailingComma .code (if peek p = '-' then p.tail else p) := by
            by_cases hm : peek p = '-'
            · rw [if_pos hm]
              exact scan_code_tail hm (by decide)
            · rw [if_neg hm]
          rw [hs, ParseNumber_integer_scan h1, ParseNumber_fraction_scan h2,
            ParseNumber_exponent_scan h3]

theorem ParseArray_loop_ok_first {pv : string → Except TException (TJsonNode × string)}
    {fuel : Nat} {p : string} {acc : List TJsonNode} {res : TJsonNode × string}
    (h : ParseArray_loop pv fuel p acc = .ok res) : ∃ res1, pv p = .ok res1 := by
  cases fuel with
  | zero => simp [ParseArray_loop] at h
  | succ fuel =>
    rw [ParseArray_loop] at h
    cases hv : pv p with
    | error e => rw [hv] at h; cases h
    | ok res1 => exact ⟨res1, rfl⟩

theorem ParseObject_loop_ok_first {pv : string → Except TException (TJsonNode × string)}
    {fuel : Nat} {p : string} {acc : List (string × TJsonNode)} {res : TJsonNode × string}
    (h : ParseObject_loop pv fuel p acc = .ok res) : peek (SkipWhitespace p) = '"' := by
  cases fuel with
  | zero => simp [ParseObject_loop] at h
  | succ fuel =>
    rw [ParseObject_loop] at h
    by_cases c0 : peek (SkipWhitespace p) ≠ '"'
    · rw [if_pos c0] at h
      cases h
    · simpa using c0

theorem scan_code_comma {q : string} (h : peek q = ',') :
    hasTrailingComma .code q = (closesNext q.tail || hasTrailingComma .code q.tail) := by
  have hp := cons_peek_tail (p := q) (by rw [h]; decide)
  rw [h] at hp
  conv_lhs => rw [hp]
  rw [hasTrailingComma, if_neg (by decide), if_pos rfl]

theorem ParseArray_loop_scan {pv : string → Except TException (TJsonNode × string)}
    (hpv : ∀ p v r, pv p = .ok (v, r) →
      hasTrailingComma .code p = hasTrailingComma .code r)
    (hstart : ∀ p res, pv p = .ok res →
      peek (SkipWhitespace p) ≠ ']' ∧ peek (SkipWhitespace p) ≠ '}')
    (fuel : Nat) (p : string) (acc : List TJsonNode) (v : TJsonNode)
    (r : string) (h : ParseArray_loop pv fuel p acc = .ok (v, r)) :
    hasTrailingComma .code p = hasTrailingComma .code r := by
  induction fuel generalizing p acc with
  | zero => simp [ParseArray_loop] at h
  | succ fuel ih =>
    rw [ParseArray_loop] at h
    cases hv : pv p with
    | error e => rw [hv] at h; cases h
    | ok res =>
      obtain ⟨x, p1⟩ := res
      rw [hv] at h
      simp only at h
      rw [hpv _ _ _ hv, ← scan_code_SkipWhitespace p1]
      by_cases c1 : peek (SkipWhitespace p1) = ']'
      · rw [if_pos c1] at h
        injection h with h
        injection h with ha hb
        subst hb
        exact scan_code_tail c1 (by decide)
      rw [if_neg c1] at h
      by_cases c2 : peek (SkipWhitespace p1) ≠ ','
      · rw [if_pos c2] at h
        cases h
      rw [if_neg c2] at h
      have c2' : peek (SkipWhitespace p1) = ',' := by simpa using c2
      obtain ⟨res1, hfirst⟩ := ParseArray_loop_ok_first h
      have hne := hstart _ _ hfirst
      rw [SkipWhitespace_idem] at hne
      have hcl : closesNext (SkipWhitespace p1).tail = false := by
        simp only [closesNext, decide_eq_false_iff_not, not_or]
        exact hne
      rw [scan_code_comma c2', hcl, Bool.false_or, ← scan_code_SkipWhitespace]
      exact ih _ _ h

theorem ParseArray_scan {pv : string → Except TException (TJsonNode × string)}
    (hpv : ∀ p v r, pv p = .ok (v, r) →
      hasTrailingComma .code p = hasTrailingComma .code r)
    (hstart : ∀ p res, pv p = .ok res →
      peek (SkipWhitespace p) ≠ ']' ∧ peek (SkipWhitespace p) ≠ '}')
    {p r : string} {v : TJsonNode}
    (h : ParseArray pv p = .ok (v, r)) :
    hasTrailingComma .code p = hasTrailingComma .code r := by
  unfold ParseArray at h
  by_cases c0 : peek p ≠ '['
  · rw [if_pos c0] at h
    cases h
  rw [if_neg c0] at h
  have c0' : peek p = '[' := by simpa using c0
  rw [scan_code_tail c0' (by decide), ← scan_code_SkipWhitespace]
  by_cases c1 : peek (SkipWhitespace p.tail) = ']'
  · rw [if_pos c1] at h
    injection h with h
    injection h with ha hb
    subst hb
    exact scan_code_tail c1 (by decide)
  rw [if_neg c1] at h
  exact ParseArray_loop_scan hpv hstart _ _ _ _ _ h

theorem ParseObject_loop_scan {pv : string → Except TException (TJsonNode × string)}
    (hpv : ∀ p v r, pv p = .ok (v, r) →
      hasTrailingComma .code p = hasTrailingComma .code r)
    (fuel : Nat) (p : string) (acc : List (string × TJsonNode))
    (v : TJsonNode) (r : string) (h : ParseObject_loop pv fuel p acc = .ok (v, r)) :
    hasTrailingComma .code p = hasTrailingComma .code r := by
  induction fuel generalizing p acc with
  | zero => simp [ParseObject_loop] at h
  | succ fuel ih =>
    rw [ParseObject_loop] at h
    by_cases c0 : peek (SkipWhitespace p) ≠ '"'
    · rw [if_pos c0] at h
      cases h
    rw [if_neg c0] at h
    cases hk : ParseString (SkipWhitespace p) with
    | error e => rw [hk] at h; cases h
    | ok res =>
      obtain ⟨keyNode, p1⟩ := res
      rw [hk] at h
      simp only at h
      cases hs : operator_string keyNode with
      | error e => rw [hs] at h; cases h
      | ok key =>
        rw [hs] at h
        simp only at h
        by_cases c1 : peek (SkipWhitespace p1) ≠ ':'
        · rw [if_pos c1] at h
          cases h
        rw [if_neg c1] at h
        have c1' : peek (SkipWhitespace p1) = ':' := by simpa using c1
        cases hv : pv (SkipWhitespace p1).tail with
        | error e => rw [hv] at h; cases h
        | ok res2 =>
          obtain ⟨x, p2⟩ := res2
          rw [hv] at h
          simp only at h
          rw [← scan_code_SkipWhitespace p, ParseString_scan hk, ← scan_code_SkipWhitespace p1,
            scan_code_tail c1' (by decide), hpv _ _ _ hv, ← scan_code_SkipWhitespace p2]
          by_cases c2 : peek (SkipWhitespace p2) = '}'
          · rw [if_pos c2] at h
            injection h with h
            injection h with ha hb
            subst hb
            exact scan_code_tail c2 (by decide)
          rw [if_neg c2] at h
          by_cases c3 : peek (SkipWhitespace p2) ≠ ','
          · rw [if_pos c3] at h
            cases h
          rw [if_neg c3] at h
          have c3' : peek (SkipWhitespace p2) = ',' := by simpa using c3
          have hq := ParseObject_loop_ok_first h
          have hcl : closesNext (SkipWhitespace p2).tail = false := by
            simp only [closesNext, decide_eq_false_iff_not, not_or]
            rw [hq]
            decide
          rw [scan_code_comma c3', hcl, Bool.false_or]
          exact ih _ _ h

theorem ParseObject_scan {pv : string → Except TException (TJsonNode × string)}
    (hpv : ∀ p v r, pv p = .ok (v, r) →
      hasTrailingComma .code p = hasTrailingComma .code r)
    {p r : string} {v : TJsonNode}
    (h : ParseObject pv p = .ok (v, r)) :
    hasTrailingComma .code p = hasTrailingComma .code r := by
  unfold ParseObject at h
  by_cases c0 : peek p ≠ '{'
  · rw [if_pos c0] at h
    cases h
  rw [if_neg c0] at h
  have c0' : peek p = '{' := by simpa using c0
  rw [scan_code_tail c0' (by decide), ← scan_code_SkipWhitespace]
  by_cases c1 : peek (SkipWhitespace p.tail) = '}'
  · rw [if_pos c1] at h
    injection h with h
    injection h with ha hb
    subst hb
    exact scan_code_tail c1 (by decide)
  rw [if_neg c1] at h
  exact ParseObject_loop_scan hpv _ _ _ _ _ h

theorem ParseValue_scan (fuel : Nat) (p : string) (v : TJsonNode) (r : string)
    (h : ParseValue fuel p = .ok (v, r)) :
    hasTrailingComma .code p = hasTrailingComma .code r := by
  induction fuel generalizing p v r with
  | zero => simp [ParseValue] at h
  | succ fuel ih =>
    rw [ParseValue] at h
    rw [← scan_code_SkipWhitespace p]
    by_cases c1 : peek (SkipWhitespace p) = 'n'
    · rw [if_pos c1] at h
      exact ParseLiteral_scan (by decide) h
    rw [if_neg c1] at h
    by_cases c2 : peek (SkipWhitespace p) = 't'
    · rw [if_pos c2] at h
      exact ParseLiteral_scan (by decide) h
    rw [if_neg c2] at h
    by_cases c3 : peek (SkipWhitespace p) = 'f'
    · rw [if_pos c3] at h
      exact ParseLiteral_scan (by decide) h
    rw [if_neg c3] at h
    by_cases c4 : peek (SkipWhitespace p) = '"'
    · rw [if_pos c4] at h
      exact ParseString_scan h
    rw [if_neg c4] at h
    by_cases c5 : peek (SkipWhitespace p) = '['
    · rw [if_pos c5] at h
      exact ParseArray_scan ih (fun q res hq => ParseValue_ok_peek_ne hq) h
    rw [if_neg c5] at h
    by_cases c6 : peek (SkipWhitespace p) = '{'
    · rw [if_pos c6] at h
      exact ParseObject_scan ih h
    rw [if_neg c6] at h
    by_cases c7 : peek (SkipWhitespace p) = '-' ∨ isDigit (peek (SkipWhitespace p)) = true
    · rw [if_pos c7] at h
      exact ParseNumber_scan h
    · rw [if_neg c7] at h
      cases h

theorem hasTrailingComma_whitespace (w : string) (hw : ∀ c ∈ w, isWhitespace c = true) :
    hasTrailingComma .code w = false := by
  rw [← scan_code_SkipWhitespace, (SkipWhitespace_eq_nil_iff w).mpr hw]
  rfl

/-- A text that `Parse` accepts has no trailing comma. -/
theorem Parse_ok_no_trailing_comma (json : string) (hnul : ∀ c ∈ json, c ≠ Char.ofNat 0)
    (v : TJsonNode) (h : Parse json = .ok v) : hasTrailingComma .code json = false := by
  obtain ⟨fuel, rest, hv, hws⟩ := (Parse_ok_iff json hnul v).mp h
  rw [← scan_code_SkipWhitespace, ParseValue_scan _ _ _ _ hv]
  exact hasTrailingComma_whitespace rest hws

/-! ## The failures of the parser -/

theorem ParseString_codepoint_error {p : string} {e : TException}
    (h : ParseString_codepoint p = .error e) : e = .invalidUnicodeEscape := by
  unfold ParseString_codepoint at h
  cases h1 : hexValue (peek p) with
  | none => rw [h1] at h; injection h with h; exact h.symm
  | some d1 =>
    rw [h1] at h
    simp only at h
    cases h2 : hexValue (peek p.tail) with
    | none => rw [h2] at h; injection h with h; exact h.symm
    | some d2 =>
      rw [h2] at h
      simp only at h
      cases h3 : hexValue (peek p.tail.tail) with
      | none => rw [h3] at h; injection h with h; exact h.symm
      | some d3 =>
        rw [h3] at h
        simp only at h
        cases h4 : hexValue (peek p.tail.tail.tail) with
        | none => rw [h4] at h; injection h with h; exact h.symm
        | some d4 => rw [h4] at h; cases h

theorem ParseString_loop_error (fuel : Nat) (p acc : string) (e : TException)
    (h : ParseString_loop fuel p acc = .error e) :
    e.kind = some EErrorKind.ParseError ∨ e = .outOfFuel := by
  induction fuel generalizing p acc with
  | zero =>
    rw [ParseString_loop] at h
    injection h with h
    exact Or.inr h.symm
  | succ fuel ih =>
    rw [ParseString_loop] at h
    by_cases h1 : peek p = '"'
    · rw [if_pos h1] at h
      cases h
    rw [if_neg h1] at h
    by_cases h2 : peek p = Char.ofNat 0
    · rw [if_pos h2] at h
      injection h with h
      subst h
      exact Or.inl rfl
    rw [if_neg h2] at h
    by_cases h3 : peek p = '\\'
    · rw [if_pos h3] at h
      by_cases e1 : peek p.tail = '"'
      · rw [if_pos e1] at h
        exact ih _ _ h
      rw [if_neg e1] at h
      by_cases e2 : peek p.tail = '\\'
      · rw [if_pos e2] at h
        exact ih _ _ h
      rw [if_neg e2] at h
      by_cases e3 : peek p.tail = '/'
      · rw [if_pos e3] at h
        exact ih _ _ h
      rw [if_neg e3] at h
      by_cases e4 : peek p.tail = 'b'
      · rw [if_pos e4] at h
        exact ih _ _ h
      rw [if_neg e4] at h
      by_cases e5 : peek p.tail = 'f'
      · rw [if_pos e5] at h
        exact ih _ _ h
      rw [if_neg e5] at h
      by_cases e6 : peek p.tail = 'n'
      · rw [if_pos e6] at h
        exact ih _ _ h
      rw [if_neg e6] at h
      by_cases e7 : peek p.tail = 'r'
      · rw [if_pos e7] at h
        exact ih _ _ h
      rw [if_neg e7] at h
      by_cases e8 : peek p.tail = 't'
      · rw [if_pos e8] at h
        exact ih _ _ h
      rw [if_neg e8] at h
      by_cases e9 : peek p.tail = 'u'
      · rw [if_pos e9] at h
        cases hcp : ParseString_codepoint p.tail.tail with
        | error e' =>
          rw [hcp] at h
          injection h with h
          subst h
          rw [ParseString_codepoint_error hcp]
          exact Or.inl rfl
        | ok res =>
          obtain ⟨cp, p1⟩ := res
          rw [hcp] at h
          by_cases hlt : cp < 128
          · simp only [hlt, if_true] at h
            exact ih _ _ h
          · simp only [hlt, if_false] at h
            exact ih _ _ h
      · rw [if_neg e9] at h
        injection h with h
        subst h
        exact Or.inl rfl
    · rw [if_neg h3] at h
      exact ih _ _ h

theorem ParseString_error {p : string} {e : TException} (h : ParseString p = .error e) :
    e.kind = some EErrorKind.ParseError := by
  have hne : e ≠ .outOfFuel := by
    intro hcon
    rw [hcon] at h
    exact ParseString_no_fuel_error p h
  unfold ParseString at h
  by_cases h1 : peek p ≠ '"'
  · rw [if_pos h1] at h
    injection h with h
    subst h
    rfl
  rw [if_neg h1] at h
  cases hl : ParseString_loop (p.tail.length + 1) p.tail [] with
  | error e' =>
    rw [hl] at h
    injection h with h
    subst h
    rcases ParseString_loop_error _ _ _ _ hl with hk | hk
    · exact hk
    · exact absurd hk hne
  | ok res =>
    obtain ⟨s, p1⟩ := res
    rw [hl] at h
    cases h

theorem ParseString_ok_String {p r : string} {v : TJsonNode}
    (h : ParseString p = .ok (v, r)) : ∃ s, v = String s := by
  unfold ParseString at h
  by_cases h1 : peek p ≠ '"'
  · rw [if_pos h1] at h
    cases h
  rw [if_neg h1] at h
  cases hl : ParseString_loop (p.tail.length + 1) p.tail [] with
  | error e' => rw [hl] at h; cases h
  | ok res =>
    obtain ⟨s, p1⟩ := res
    rw [hl] at h
    injection h with h
    injection h with ha hb
    exact ⟨s, ha.symm⟩

theorem ParseLiteral_error {p lit : string} {v : TJsonNode} {e : TException}
    (h : ParseLiteral p lit v = .error e) : e.kind = some EErrorKind.ParseError := by
  unfold ParseLiteral at h
  by_cases h1 : p.take lit.length = lit
  · rw [if_pos h1] at h
    cases h
  · rw [if_neg h1] at h
    injection h with h
    subst h
    rfl

theorem ParseNumber_integer_error {p : string} {e : TException}
    (h : ParseNumber_integer p = .error e) : e.kind = some EErrorKind.ParseError := by
  unfold ParseNumber_integer at h
  by_cases c1 : peek p = '0'
  · rw [if_pos c1] at h; cases h
  rw [if_neg c1] at h
  by_cases c2 : 49 ≤ (peek p).toNat ∧ (peek p).toNat ≤ 57
  · rw [if_pos c2] at h; cases h
  · rw [if_neg c2] at h
    injection h with h
    subst h
    rfl

theorem ParseNumber_fraction_error {p : string} {e : TException}
    (h : ParseNumber_fraction p = .error e) : e.kind = some EErrorKind.ParseError := by
  unfold ParseNumber_fraction at h
  by_cases c1 : peek p = '.'
  · rw [if_pos c1] at h
    by_cases c2 : isDigit (peek p.tail) = true
    · rw [if_pos c2] at h; cases h
    · rw [if_neg c2] at h
      injection h with h
      subst h
      rfl
  · rw [if_neg c1] at h; cases h

theorem ParseNumber_exponent_error {p : string} {e : TException}
    (h : ParseNumber_exponent p = .error e) : e.kind = some EErrorKind.ParseError := by
  unfold ParseNumber_exponent at h
  by_cases c1 : peek p = 'e' ∨ peek p = 'E'
  · rw [if_pos c1] at h
    by_cases c2 : peek p.tail = '+' ∨ peek p.tail = '-'
    · rw [if_pos c2] at h
      by_cases c3 : isDigit (peek p.tail.tail) = true
      · rw [if_pos c3] at h; cases h
      · rw [if_neg c3] at h
        injection h with h
        subst h
        rfl
    · rw [if_neg c2] at h
      by_cases c3 : isDigit (peek p.tail) = true
      · rw [if_pos c3] at h; cases h
      · rw [if_neg c3] at h
        injection h with h
        subst h
        rfl
  · rw [if_neg c1] at h; cases h

theorem stod_round_error {q : ℚ} {e : TException} (h : stod_round q = .error e) :
    e = .stdOutOfRange := by
  unfold stod_round at h
  cases hd : Double.ofRat q with
  | finite r =>
    rw [hd] at h
    simp only at h
    by_cases c : roundToPrecision |q| < pow2 (-1022) ∧ r ≠ q
    · rw [if_pos c] at h
      injection h with h
      exact h.symm
    · rw [if_neg c] at h
      cases h
  | inf b =>
    rw [hd] at h
    injection h with h
    exact h.symm
  | nan b =>
    rw [hd] at h
    injection h with h
    exact h.symm

theorem decimalMagnitude_digit (d : Char) (u : string) (hd : isDigit d = true) :
    ∃ m, decimalMagnitude (d :: u) = some m := by
  unfold decimalMagnitude
  have hne : ¬ ((d :: u).takeWhile isDigit = []
      ∧ decimalFraction ((d :: u).dropWhile isDigit) = []) := by
    rintro ⟨h1, _⟩
    rw [List.takeWhile_cons_of_pos hd] at h1
    cases h1
  rw [if_neg hne]
  by_cases c : (decimalExponent (decimalAfterFraction ((d :: u).dropWhile isDigit))).1 = true
  · rw [if_pos c]
    exact ⟨_, rfl⟩
  · rw [if_neg c]
    exact ⟨_, rfl⟩

theorem decimalTextValue_digit (d : Char) (u : string) (hd : isDigit d = true) :
    ∃ x, decimalTextValue (d :: u) = some x := by
  unfold decimalTextValue
  have hm : ¬ (d :: u).headD (Char.ofNat 0) = '-' := by
    simp only [List.headD_cons]
    intro hc
    rw [hc] at hd
    revert hd
    decide
  rw [if_neg hm]
  exact decimalMagnitude_digit d u hd

theorem decimalTextValue_minus_digit (d : Char) (u : string) (hd : isDigit d = true) :
    ∃ x, decimalTextValue ('-' :: d :: u) = some x := by
  unfold decimalTextValue
  rw [if_pos (by simp)]
  obtain ⟨m, hm⟩ := decimalMagnitude_digit d u hd
  simp only [List.tail_cons, hm]
  exact ⟨_, rfl⟩

/-- After the integer part the cursor stands behind a digit. -/
theorem ParseNumber_integer_digit {p r : string} (h : ParseNumber_integer p = .ok r) :
    ∃ d t, p = d :: t ∧ isDigit d = true ∧ r <:+ t := by
  unfold ParseNumber_integer at h
  by_cases h1 : peek p = '0'
  · rw [if_pos h1] at h
    injection h with h
    subst h
    have hp := cons_peek_tail (p := p) (by rw [h1]; decide)
    rw [h1] at hp
    exact ⟨'0', p.tail, hp, by decide, List.suffix_refl _⟩
  rw [if_neg h1] at h
  by_cases h2 : 49 ≤ (peek p).toNat ∧ (peek p).toNat ≤ 57
  · rw [if_pos h2] at h
    injection h with h
    subst h
    cases p with
    | nil => simp [peek] at h2
    | cons c rest =>
      have hd : isDigit c = true := by
        simp only [peek, List.headD_cons] at h2
        simp only [isDigit, decide_eq_true_eq]
        omega
      refine ⟨c, rest, rfl, hd, ?_⟩
      rw [List.dropWhile_cons_of_pos hd]
      exact dropWhile_suffix _ _
  · rw [if_neg h2] at h
    cases h

theorem ParseNumber_error {p : string} {e : TException} (h : ParseNumber p = .error e) :
    RaisedByParse e := by
  unfold ParseNumber at h
  cases h1 : ParseNumber_integer (if peek p = '-' then p.tail else p) with
  | error e' =>
    rw [h1] at h
    injection h with h
    subst h
    exact Or.inl (ParseNumber_integer_error h1)
  | ok p1 =>
    rw [h1] at h
    simp only at h
    cases h2 : ParseNumber_fraction p1 with
    | error e' =>
      rw [h2] at h
      injection h with h
      subst h
      exact Or.inl (ParseNumber_fraction_error h2)
    | ok p2 =>
      rw [h2] at h
      simp only at h
      cases h3 : ParseNumber_exponent p2 with
      | error e' =>
        rw [h3] at h
        injection h with h
        subst h
        exact Or.inl (ParseNumber_exponent_error h3)
      | ok p3 =>
        rw [h3] at h
        simp only at h
        cases h4 : stod (p.take (p.length - p3.length)) with
        | ok d => rw [h4] at h; cases h
        | error e' =>
          rw [h4] at h
          injection h with h
          subst h
          right
          obtain ⟨d, t, hp, hd, hr⟩ := ParseNumber_integer_digit h1
          have hlen : p3.length ≤ t.length :=
            (((ParseNumber_exponent_suffix h3).trans (ParseNumber_fraction_suffix h2)).trans
              hr).length_le
          have hval : ∃ x, decimalTextValue (p.take (p.length - p3.length)) = some x := by
            by_cases hm : peek p = '-'
            · rw [if_pos hm] at hp
              have hp0 := cons_peek_tail (p := p) (by rw [hm]; decide)
              rw [hm, hp] at hp0
              rw [hp0]
              obtain ⟨k, hk⟩ : ∃ k, ('-' :: d :: t).length - p3.length = k + 2 :=
                ⟨t.length - p3.length, by simp only [List.length_cons]; omega⟩
              rw [hk, List.take_succ_cons, List.take_succ_cons]
              exact decimalTextValue_minus_digit d _ hd
            · rw [if_neg hm] at hp
              rw [hp]
              obtain ⟨k, hk⟩ : ∃ k, (d :: t).length - p3.length = k + 1 :=
                ⟨t.length - p3.length, by simp only [List.length_cons]; omega⟩
              rw [hk, List.take_succ_cons]
              exact decimalTextValue_digit d _ hd
          obtain ⟨x, hx⟩ := hval
          unfold stod at h4
          rw [hx] at h4
          exact stod_round_error h4

theorem ParseArray_loop_error {pv : string → Except TException (TJsonNode × string)}
    (hpv : ∀ p e, pv p = .error e → RaisedByParse e ∨ e = .outOfFuel)
    (fuel : Nat) (p : string) (acc : List TJsonNode) (e : TException)
    (h : ParseArray_loop pv fuel p acc = .error e) : RaisedByParse e ∨ e = .outOfFuel := by
  induction fuel generalizing p acc with
  | zero =>
    rw [ParseArray_loop] at h
    injection h with h
    exact Or.inr h.symm
  | succ fuel ih =>
    rw [ParseArray_loop] at h
    cases hv : pv p with
    | error e' =>
      rw [hv] at h
      injection h with h
      subst h
      exact hpv _ _ hv
    | ok res =>
      obtain ⟨x, p1⟩ := res
      rw [hv] at h
      simp only at h
      by_cases c1 : peek (SkipWhitespace p1) = ']'
      · rw [if_pos c1] at h
        cases h
      rw [if_neg c1] at h
      by_cases c2 : peek (SkipWhitespace p1) ≠ ','
      · rw [if_pos c2] at h
        injection h with h
        subst h
        exact Or.inl (Or.inl rfl)
      rw [if_neg c2] at h
      exact ih _ _ h

theorem ParseArray_error {pv : string → Except TException (TJsonNode × string)}
    (hpv : ∀ p e, pv p = .error e → RaisedByParse e ∨ e = .outOfFuel)
    {p : string} {e : TException}
    (h : ParseArray pv p = .error e) : RaisedByParse e ∨ e = .outOfFuel := by
  unfold ParseArray at h
  by_cases c0 : peek p ≠ '['
  · rw [if_pos c0] at h
    injection h with h
    subst h
    exact Or.inl (Or.inl rfl)
  rw [if_neg c0] at h
  by_cases c1 : peek (SkipWhitespace p.tail) = ']'
  · rw [if_pos c1] at h
    cases h
  rw [if_neg c1] at h
  exact ParseArray_loop_error hpv _ _ _ _ h

theorem ParseObject_loop_error {pv : string → Except TException (TJsonNode × string)}
    (hpv : ∀ p e, pv p = .error e → RaisedByParse e ∨ e = .outOfFuel)
    (fuel : Nat) (p : string) (acc : List (string × TJsonNode)) (e : TException)
    (h : ParseObject_loop pv fuel p acc = .error e) : RaisedByParse e ∨ e = .outOfFuel := by
  induction fuel generalizing p acc with
  | zero =>
    rw [ParseObject_loop] at h
    injection h with h
    exact Or.inr h.symm
  | succ fuel ih =>
    rw [ParseObject_loop] at h
    by_cases c0 : peek (SkipWhitespace p) ≠ '"'
    · rw [if_pos c0] at h
      injection h with h
      subst h
      exact Or.inl (Or.inl rfl)
    rw [if_neg c0] at h
    cases hk : ParseString (SkipWhitespace p) with
    | error e' =>
      rw [hk] at h
      injection h with h
      subst h
      exact Or.inl (Or.inl (ParseString_error hk))
    | ok res =>
      obtain ⟨keyNode, p1⟩ := res
      rw [hk] at h
      simp only at h
      obtain ⟨key, hkey⟩ := ParseString_ok_String hk
      subst hkey
      simp only [operator_string] at h
      by_cases c1 : peek (SkipWhitespace p1) ≠ ':'
      · rw [if_pos c1] at h
        injection h with h
        subst h
        exact Or.inl (Or.inl rfl)
      rw [if_neg c1] at h
      cases hv : pv (SkipWhitespace p1).tail with
      | error e' =>
        rw [hv] at h
        injection h with h
        subst h
        exact hpv _ _ hv
      | ok res2 =>
        obtain ⟨x, p2⟩ := res2
        rw [hv] at h
        simp only at h
        by_cases c2 : peek (SkipWhitespace p2) = '}'
        · rw [if_pos c2] at h
          cases h
        rw [if_neg c2] at h
        by_cases c3 : peek (SkipWhitespace p2) ≠ ','
        · rw [if_pos c3] at h
          injection h with h
          subst h
          exact Or.inl (Or.inl rfl)
        rw [if_neg c3] at h
        exact ih _ _ h

theorem ParseObject_error {pv : string → Except TException (TJsonNode × string)}
    (hpv : ∀ p e, pv p = .error e → RaisedByParse e ∨ e = .outOfFuel)
    {p : string} {e : TException}
    (h : ParseObject pv p = .error e) : RaisedByParse e ∨ e = .outOfFuel := by
  unfold ParseObject at h
  by_cases c0 : peek p ≠ '{'
  · rw [if_pos c0] at h
    injection h with h
    subst h
    exact Or.inl (Or.inl rfl)
  rw [if_neg c0] at h
  by_cases c1 : peek (SkipWhitespace p.tail) = '}'
  · rw [if_pos c1] at h
    cases h
  rw [if_neg c1] at h
  exact ParseObject_loop_error hpv _ _ _ _ h

theorem ParseValue_error (fuel : Nat) (p : string) (e : TException)
    (h : ParseValue fuel p = .error e) : RaisedByParse e ∨ e = .outOfFuel := by
  induction fuel generalizing p e with
  | zero =>
    rw [ParseValue] at h
    injection h with h
    exact Or.inr h.symm
  | succ fuel ih =>
    rw [ParseValue] at h
    by_cases c1 : peek (SkipWhitespace p) = 'n'
    · rw [if_pos c1] at h
      exact Or.inl (Or.inl (ParseLiteral_error h))
    rw [if_neg c1] at h
    by_cases c2 : peek (SkipWhitespace p) = 't'
    · rw [if_pos c2] at h
      exact Or.inl (Or.inl (ParseLiteral_error h))
    rw [if_neg c2] at h
    by_cases c3 : peek (SkipWhitespace p) = 'f'
    · rw [if_pos c3] at h
      exact Or.inl (Or.inl (ParseLiteral_error h))
    rw [if_neg c3] at h
    by_cases c4 : peek (SkipWhitespace p) = '"'
    · rw [if_pos c4] at h
      exact Or.inl (Or.inl (ParseString_error h))
    rw [if_neg c4] at h
    by_cases c5 : peek (SkipWhitespace p) = '['
    · rw [if_pos c5] at h
      exact ParseArray_error ih h
    rw [if_neg c5] at h
    by_cases c6 : peek (SkipWhitespace p) = '{'
    · rw [if_pos c6] at h
      exact ParseObject_error ih h
    rw [if_neg c6] at h
    by_cases c7 : peek (SkipWhitespace p) = '-' ∨ isDigit (peek (SkipWhitespace p)) = true
    · rw [if_pos c7] at h
      exact Or.inl (ParseNumber_error h)
    · rw [if_neg c7] at h
      injection h with h
      subst h
      exact Or.inl (Or.inl rfl)

/-! ## Trailing commas -/

/-- Whatever `Parse` raises is an error of kind ParseError or the `std::out_of_range` of
`std::stod`. -/
theorem Parse_error {json : string} {e : TException} (h : Parse json = .error e) :
    RaisedByParse e := by
  unfold Parse at h
  by_cases c0 : peek (SkipWhitespace json) = Char.ofNat 0
  · rw [if_pos c0] at h
    injection h with h
    subst h
    exact Or.inl rfl
  rw [if_neg c0] at h
  cases hv : ParseValue ((SkipWhitespace json).length + 1) (SkipWhitespace json) with
  | error e' =>
    rw [hv] at h
    injection h with h
    subst h
    rcases ParseValue_error _ _ _ hv with hk | hk
    · exact hk
    · rw [hk] at hv
      exact absurd hv (ParseValue_no_fuel_error _ _ (by omega))
  | ok res =>
    obtain ⟨w, rest⟩ := res
    rw [hv] at h
    simp only at h
    by_cases c1 : peek (SkipWhitespace rest) ≠ Char.ofNat 0
    · rw [if_pos c1] at h
      injection h with h
      subst h
      exact Or.inl rfl
    · rw [if_neg c1] at h
      cases h

theorem Parse_trailing_comma_not_ok (json : string) (hnul : ∀ c ∈ json, c ≠ Char.ofNat 0)
    (h : hasTrailingComma .code json = true) : ∃ e, Parse json = .error e := by
  cases hp : Parse json with
  | error e => exact ⟨e, rfl⟩
  | ok v =>
    rw [Parse_ok_no_trailing_comma json hnul v hp] at h
    cases h

/-- C20 (as stated, refuted): the text `[1e999,]` has a `,` inside an array that is
followed by `]`, and `Parse` does not fail with ParseError on it (the `std::out_of_range`
of `std::stod` escapes). -/
theorem Parse_trailing_comma_not_ParseError :
    hasTrailingComma .code ['[', '1', 'e', '9', '9', '9', ',', ']'] = true
    ∧ ¬ ∃ e, Parse ['[', '1', 'e', '9', '9', '9', ',', ']'] = .error e
        ∧ e.kind = some EErrorKind.ParseError := by
  have hp : Parse ['[', '1', 'e', '9', '9', '9', ',', ']'] = .error .stdOutOfRange := by
    decide!
  refine ⟨by decide, ?_⟩
  rintro ⟨e, he, hk⟩
  rw [hp] at he
  injection he with he
  subst he
  cases hk

/-! ## The pretty rendering -/

theorem std_string_fill_nat (d : Nat) :
    std_string_fill ((d : Int) * 2) ' ' = .ok (indentation d) := by
  unfold std_string_fill indentation
  rw [if_neg (by omega)]
  congr 2
  omega

theorem std_string_fill_succ (d : Nat) :
    std_string_fill (((d : Int) + 1) * 2) ' ' = .ok (indentation (d + 1)) := by
  have := std_string_fill_nat (d + 1)
  rwa [Nat.cast_add, Nat.cast_one] at this

theorem ToStringImpl_elements_pretty (xs : List TJsonNode) (d : Nat)
    (h : ∀ x ∈ xs, ∀ j : Nat, ToStringImpl x true j = .ok (prettyText j x)) :
    ToStringImpl_elements xs true d (indentation (d + 1)) = .ok (prettyElements (d + 1) xs) := by
  induction xs with
  | nil => simp [ToStringImpl_elements, prettyElements]
  | cons x rest ih =>
    have hx := h x (List.mem_cons_self _ _) (d + 1)
    rw [Nat.cast_add, Nat.cast_one] at hx
    rw [ToStringImpl_elements, hx, ih (fun y hy => h y (List.mem_cons_of_mem _ hy))]
    simp [prettyElements]

theorem ToStringImpl_members_pretty (m : List (string × TJsonNode)) (d : Nat)
    (h : ∀ kv ∈ m, ∀ j : Nat, ToStringImpl kv.2 true j = .ok (prettyText j kv.2)) :
    ToStringImpl_members m true d (indentation (d + 1)) = .ok (prettyMembers (d + 1) m) := by
  induction m with
  | nil => simp [ToStringImpl_members, prettyMembers]
  | cons kv rest ih =>
    obtain ⟨k, v⟩ := kv
    have hx := h (k, v) (List.mem_cons_self _ _) (d + 1)
    rw [Nat.cast_add, Nat.cast_one] at hx
    rw [ToStringImpl_members, hx, ih (fun y hy => h y (List.mem_cons_of_mem _ hy))]
    simp [prettyMembers]

/-- With `pretty = true` and a non-negative indent the serializer does not fail and
produces the pretty layout. -/
theorem ToStringImpl_pretty (v : TJsonNode) :
    ∀ d : Nat, ToStringImpl v true d = .ok (prettyText d v) := by
  induction v using induction_on with
  | hNull =>
    intro d
    simp [ToStringImpl, prettyText, std_string_fill_nat, std_string_fill_succ]
  | hBoolean b =>
    intro d
    simp [ToStringImpl, prettyText, std_string_fill_nat, std_string_fill_succ]
  | hNumber x =>
    intro d
    simp only [ToStringImpl, prettyText, std_string_fill_nat, std_string_fill_succ, if_true]
    by_cases h : Double.eq x (Double.ofInt (static_cast_long_long x)) = true
    · simp [h]
    · simp [h]
  | hString s =>
    intro d
    simp [ToStringImpl, prettyText, std_string_fill_nat, std_string_fill_succ]
  | hArray xs ih =>
    intro d
    cases xs with
    | nil => simp [ToStringImpl, prettyText, std_string_fill_nat, std_string_fill_succ]
    | cons x rest =>
      simp only [ToStringImpl, std_string_fill_nat, std_string_fill_succ, if_true]
      simp [ToStringImpl_elements_pretty (x :: rest) d ih, prettyText]
  | hObject m ih =>
    intro d
    cases m with
    | nil => simp [ToStringImpl, prettyText, std_string_fill_nat, std_string_fill_succ]
    | cons kv rest =>
      simp only [ToStringImpl, std_string_fill_nat, std_string_fill_succ, if_true]
      simp [ToStringImpl_members_pretty (kv :: rest) d ih, prettyText]

theorem ToString_ok_of_nonneg (v : TJsonNode) (pretty : Bool) (indent : Int)
    (h : pretty = true → 0 ≤ indent) :
    ToString v pretty indent
      = .ok (if pretty then prettyText indent.toNat v else compactText v) := by
  unfold ToString
  cases pretty with
  | false => simp [ToStringImpl_compact]
  | true =>
    have hi : indent = (indent.toNat : Int) := (Int.toNat_of_nonneg (h rfl)).symm
    conv_lhs => rw [hi]
    rw [ToStringImpl_pretty]
    simp

/-- C26 (as stated, refuted): `ToString(pretty = true, baseIndent = -1)` of Null does not
return a text (`std::string(-2, ' ')` throws `std::length_error`). -/
theorem ToString_negative_indent_fails :
    ¬ ∃ text, ToString Null true (-1) = .ok text := by
  rintro ⟨text, h⟩
  have h1 : ToString Null true (-1) = .error .stdLengthError := by decide
  rw [h1] at h
  cases h

/-- C29: the pretty layout.  `ToString(pretty = true, baseIndent = 0)` returns the text in
which every element and member at nesting depth `d >= 1` stands on a line of its own
behind exactly `2 * d` spaces, the closing bracket of a non-empty container at depth `d`
stands on a line of its own behind exactly `2 * d` spaces, a newline follows the opening
bracket of a non-empty container, and `: ` separates a key from its value (`prettyText`);
the same holds from any base indent `d`. -/
theorem ToString_pretty_layout (v : TJsonNode) (d : Nat) :
    ToString v true 0 = .ok (prettyText 0 v)
    ∧ ToString v true d = .ok (prettyText d v) := by
  constructor
  · exact ToStringImpl_pretty v 0
  · exact ToStringImpl_pretty v d

/-! ## Rendering of numbers -/

theorem prettyText_Number (d : Nat) (x : Double) :
    prettyText d (Number x) = compactText (Number x) := by
  simp [prettyText, compactText]

theorem to_string_double_has_point (q : ℚ) : '.' ∈ to_string_double (.finite q) := by
  simp [to_string_double]

/-- C28 (as stated, refuted): the Number holding NaN, whose value is not a whole number,
is rendered as `nan`, a text without a decimal point. -/
theorem ToString_NaN_no_point :
    ¬ ∃ text, ToString (Number (.nan false)) false 0 = .ok text ∧ '.' ∈ text := by
  rintro ⟨text, h, hp⟩
  have h1 : ToString (Number (.nan false)) false 0 = .ok ['n', 'a', 'n'] := by decide
  rw [h1] at h
  injection h with h
  subst h
  revert hp
  decide

/-- C28 (amended): integer versus fractional rendering.  A Number whose value is the
signed 64-bit integer `n` is rendered as the decimal literal of `n`: an optional `-`
followed by decimal digits only (no decimal point, no exponent) whose value is `|n|`.  A
Number whose value is finite and not a whole number is rendered as a text containing a
decimal point. -/
theorem ToString_Number_integer_or_fraction (pretty : Bool) (indent : Int)
    (h : pretty = true → 0 ≤ indent) :
    (∀ n : ℤ, IsDouble (n : ℚ) → -(2 : ℤ) ^ 63 ≤ n → n < (2 : ℤ) ^ 63 →
      ToString (Number (.finite (n : ℚ))) pretty indent = .ok (to_string_long_long n)
      ∧ to_string_long_long n = (if n < 0 then ['-'] else []) ++ to_string_nat n.natAbs
      ∧ (∀ c ∈ to_string_nat n.natAbs, isDigit c = true)
      ∧ decimalValue (to_string_nat n.natAbs) = n.natAbs)
    ∧ (∀ q : ℚ, q.den ≠ 1 →
      ∃ text, ToString (Number (.finite q)) pretty indent = .ok text ∧ '.' ∈ text) := by
  have htext : ∀ x : Double, ToString (Number x) pretty indent = .ok (compactText (Number x)) := by
    intro x
    rw [ToString_ok_of_nonneg _ _ _ h]
    cases pretty
    · rfl
    · simp only [if_true, prettyText_Number]
  constructor
  · intro n hd hlo hhi
    refine ⟨?_, ?_, to_string_nat_digits _, decimalValue_to_string_nat _⟩
    · rw [htext, compactText_Number_integer n hd (by exact_mod_cast hlo) (by exact_mod_cast hhi)]
    · have := to_string_long_long_eq n
      simpa using this
  · intro q hq
    refine ⟨_, htext _, ?_⟩
    rw [compactText_Number_fraction q hq]
    exact to_string_double_has_point q

/-- Witness for C28 (amended): `Number(3.0)` is rendered as `3` and `Number(3.5)` as a text
with a decimal point, in pretty mode with base indent 2. -/
theorem ToString_Number_integer_or_fraction_witness :
    ToString (Number (.finite ((3 : ℤ) : ℚ))) true 2 = .ok ['3']
    ∧ ∃ text, ToString (Number (.finite (7 / 2))) true 2 = .ok text ∧ '.' ∈ text :=
  have h := ToString_Number_integer_or_fraction true 2 (by decide)
  ⟨(h.1 3 (by decide!) (by decide) (by decide)).1, h.2 (7 / 2) (by decide!)⟩

/-! ## Bytes from 0x80 on -/

/-- C30: on the byte 0xE9 `EscapeString` does not copy the byte: it writes the six
characters `\u00e9`, and so does `ToString` of the String holding that byte. -/
theorem EscapeString_escapes_high_byte :
    EscapeString [Char.ofNat 233] = ['\\', 'u', '0', '0', 'e', '9']
    ∧ ToString (String [Char.ofNat 233]) false 0
        = .ok ['"', '\\', 'u', '0', '0', 'e', '9', '"'] := by
  constructor <;> decide

/-! ## Unicode escapes -/

theorem ParseString_codepoint_of_hexValue {h1 h2 h3 h4 : Char} {d1 d2 d3 d4 : Nat}
    (e1 : hexValue h1 = some d1) (e2 : hexValue h2 = some d2) (e3 : hexValue h3 = some d3)
    (e4 : hexValue h4 = some d4) (rest : string) :
    ParseString_codepoint (h1 :: h2 :: h3 :: h4 :: rest)
      = .ok (((d1 * 16 + d2) * 16 + d3) * 16 + d4, rest) := by
  unfold ParseString_codepoint
  simp only [peek, List.headD_cons, List.tail_cons, e1, e2, e3, e4]

/-- One iteration of the loop of `ParseString` over `\uXXXX`. -/
theorem ParseString_loop_unicode {h1 h2 h3 h4 : Char} {d1 d2 d3 d4 : Nat}
    (e1 : hexValue h1 = some d1) (e2 : hexValue h2 = some d2) (e3 : hexValue h3 = some d3)
    (e4 : hexValue h4 = some d4) (fuel : Nat) (rest acc : string) :
    ParseString_loop (fuel + 1) ('\\' :: 'u' :: h1 :: h2 :: h3 :: h4 :: rest) acc
      = ParseString_loop fuel rest
          (acc ++ [if ((d1 * 16 + d2) * 16 + d3) * 16 + d4 < 128
            then Char.ofNat (((d1 * 16 + d2) * 16 + d3) * 16 + d4) else '?']) := by
  rw [ParseString_loop]
  simp only [peek, List.headD_cons, List.tail_cons]
  rw [if_neg (by decide), if_neg (by decide), if_pos trivial, if_neg (by decide),
    if_neg (by decide), if_neg (by decide), if_neg (by decide), if_neg (by decide),
    if_neg (by decide), if_neg (by decide), if_neg (by decide), if_pos trivial,
    ParseString_codepoint_of_hexValue e1 e2 e3 e4]
  simp only
  by_cases hlt : ((d1 * 16 + d2) * 16 + d3) * 16 + d4 < 128
  · rw [if_pos hlt, if_pos hlt]
  · rw [if_neg hlt, if_neg hlt]

theorem ParseString_loop_unicode_between {h1 h2 h3 h4 : Char} {d1 d2 d3 d4 : Nat}
    (e1 : hexValue h1 = some d1) (e2 : hexValue h2 = some d2) (e3 : hexValue h3 = some d3)
    (e4 : hexValue h4 = some d4) (s1 s2 : string) (hs1 : IsAscii s1) (hs2 : IsAscii s2)
    (fuel : Nat) (hf : s1.length + 1 + s2.length < fuel) (rest acc : string) :
    ParseString_loop fuel
        (EscapeString s1 ++ ('\\' :: 'u' :: h1 :: h2 :: h3 :: h4 ::
          (EscapeString s2 ++ '"' :: rest))) acc
      = .ok (acc ++ s1
          ++ [if ((d1 * 16 + d2) * 16 + d3) * 16 + d4 < 128
            then Char.ofNat (((d1 * 16 + d2) * 16 + d3) * 16 + d4) else '?'] ++ s2, rest) := by
  induction s1 generalizing fuel acc with
  | nil =>
    cases fuel with
    | zero => simp at hf
    | succ fuel =>
      rw [EscapeString, List.nil_append, ParseString_loop_unicode e1 e2 e3 e4,
        ParseString_loop_EscapeString s2 hs2 fuel
          (by simp only [List.length_nil] at hf; omega)]
      simp
  | cons c s ih =>
    cases fuel with
    | zero => simp at hf
    | succ fuel =>
      rw [EscapeString, List.append_assoc,
        ParseString_loop_EscapeChar c (hs1 c (List.mem_cons_self _ _)),
        ih (fun d hd => hs1 d (List.mem_cons_of_mem _ hd)) fuel
          (by simp only [List.length_cons] at hf; omega)]
      simp

/-- C24: unicode escapes.  For four hexadecimal digits `XXXX` (upper or lower case) with
code `n`, the string parser, wherever it meets `\uXXXX`, appends exactly one character to
the text read so far and goes on behind the escape: the character with code `n` when
`n < 128`, the placeholder `?` otherwise.  So a string literal with the escape between
(the escaped forms of) the ASCII texts `s1` and `s2` parses to `s1`, that one character,
`s2`; and the surrogate pair `\ud83d\ude00` parses to two placeholders. -/
theorem unicode_escape_one_character (h1 h2 h3 h4 : Char) (d1 d2 d3 d4 : Nat)
    (e1 : hexValue h1 = some d1) (e2 : hexValue h2 = some d2) (e3 : hexValue h3 = some d3)
    (e4 : hexValue h4 = some d4) (s1 s2 : string) (hs1 : IsAscii s1) (hs2 : IsAscii s2) :
    (∀ fuel rest acc,
      ParseString_loop (fuel + 1) ('\\' :: 'u' :: h1 :: h2 :: h3 :: h4 :: rest) acc
        = ParseString_loop fuel rest
            (acc ++ [if ((d1 * 16 + d2) * 16 + d3) * 16 + d4 < 128
              then Char.ofNat (((d1 * 16 + d2) * 16 + d3) * 16 + d4) else '?']))
    ∧ Parse (['"'] ++ EscapeString s1 ++ ['\\', 'u', h1, h2, h3, h4] ++ EscapeString s2 ++ ['"'])
        = .ok (String (s1
            ++ [if ((d1 * 16 + d2) * 16 + d3) * 16 + d4 < 128
              then Char.ofNat (((d1 * 16 + d2) * 16 + d3) * 16 + d4) else '?'] ++ s2))
    ∧ Parse ['"', '\\', 'u', 'd', '8', '3', 'd', '\\', 'u', 'd', 'e', '0', '0', '"']
        = .ok (String ['?', '?']) := by
  refine ⟨fun fuel rest acc => ParseString_loop_unicode e1 e2 e3 e4 fuel rest acc, ?_, by decide⟩
  apply Parse_of_ReadsAs
  apply ReadsAs_of_ReadsAsKey
  intro rest
  unfold ParseString
  have htext : ['"'] ++ EscapeString s1 ++ ['\\', 'u', h1, h2, h3, h4] ++ EscapeString s2
        ++ ['"'] ++ rest
      = '"' :: (EscapeString s1 ++ ('\\' :: 'u' :: h1 :: h2 :: h3 :: h4 ::
          (EscapeString s2 ++ '"' :: rest))) := by simp
  rw [htext]
  simp only [peek, List.headD_cons, List.tail_cons, ne_eq, not_true_eq_false, if_false]
  rw [ParseString_loop_unicode_between e1 e2 e3 e4 s1 s2 hs1 hs2 _
    (by
      have := EscapeString_length s1
      have := EscapeString_length s2
      simp only [List.length_append, List.length_cons]
      omega)]
  simp

/-- Witness for C24: in `"a\u00E9b"` the escape contributes the placeholder, in `"\u0041"`
the letter `A`. -/
theorem unicode_escape_one_character_witness :
    Parse ['"', 'a', '\\', 'u', '0', '0', 'E', '9', 'b', '"'] = .ok (String ['a', '?', 'b'])
    ∧ Parse ['"', '\\', 'u', '0', '0', '4', '1', '"'] = .ok (String ['A']) :=
  ⟨(unicode_escape_one_character '0' '0' 'E' '9' 0 0 14 9
      (by decide) (by decide) (by decide) (by decide) ['a'] ['b'] (by decide) (by decide)).2.1,
   (unicode_escape_one_character '0' '0' '4' '1' 0 0 4 1
      (by decide) (by decide) (by decide) (by decide) [] [] (by decide) (by decide)).2.1⟩

/-! ## The scan of a number, part by part -/

theorem peek_dropWhile_digits (p : string) : isDigit (peek (p.dropWhile isDigit)) = false := by
  induction p with
  | nil => decide
  | cons c rest ih =>
    by_cases h : isDigit c = true
    · rw [List.dropWhile_cons_of_pos h]
      exact ih
    · rw [List.dropWhile_cons_of_neg h]
      simpa [peek] using h

theorem takeWhile_digits_all (p : string) : ∀ c ∈ p.takeWhile isDigit, isDigit c = true := by
  intro c hc
  exact (List.mem_takeWhile_imp hc)

/-- What the scan of the integer part has passed over. -/
theorem ParseNumber_integer_parts {p r : string} (h : ParseNumber_integer p = .ok r) :
    ∃ ip, p = ip ++ r ∧ IntegerPart ip ∧ (ip = ['0'] ∨ isDigit (peek r) = false) := by
  unfold ParseNumber_integer at h
  by_cases h1 : peek p = '0'
  · rw [if_pos h1] at h
    injection h with h
    subst h
    have hp := cons_peek_tail (p := p) (by rw [h1]; decide)
    rw [h1] at hp
    exact ⟨['0'], hp, Or.inl rfl, Or.inl rfl⟩
  rw [if_neg h1] at h
  by_cases h2 : 49 ≤ (peek p).toNat ∧ (peek p).toNat ≤ 57
  · rw [if_pos h2] at h
    injection h with h
    subst h
    cases p with
    | nil => simp [peek] at h2
    | cons c rest =>
      simp only [peek, List.headD_cons] at h2
      have hd : isDigit c = true := by
        simp only [isDigit, decide_eq_true_eq]
        omega
      rw [List.dropWhile_cons_of_pos hd]
      refine ⟨c :: rest.takeWhile isDigit, ?_, Or.inr ⟨c, _, rfl, h2, takeWhile_digits_all rest⟩,
        Or.inr (peek_dropWhile_digits rest)⟩
      rw [List.cons_append, List.takeWhile_append_dropWhile]
  · rw [if_neg h2] at h
    cases h

/-- The scan of the integer part passes over an integer part that is `0` or is followed by
something that is not a digit. -/
theorem ParseNumber_integer_of_parts {ip : string} (hip : IntegerPart ip) (y : string)
    (hy : ip = ['0'] ∨ isDigit (peek y) = false) : ParseNumber_integer (ip ++ y) = .ok y := by
  rcases hy with h0 | hy
  · subst h0
    unfold ParseNumber_integer
    simp [peek]
  · exact ParseNumber_integer_text hip y hy

/-- What the scan of the fractional part has passed over. -/
theorem ParseNumber_fraction_parts {p r : string} (h : ParseNumber_fraction p = .ok r) :
    ∃ frac, p = frac ++ r ∧ FractionPart frac
      ∧ ((frac = [] ∧ peek r ≠ '.') ∨ (frac ≠ [] ∧ isDigit (peek r) = false)) := by
  unfold ParseNumber_fraction at h
  by_cases h1 : peek p = '.'
  · rw [if_pos h1] at h
    by_cases h2 : isDigit (peek p.tail) = true
    · rw [if_pos h2] at h
      injection h with h
      subst h
      have hp := cons_peek_tail (p := p) (by rw [h1]; decide)
      rw [h1] at hp
      have hne : p.tail.takeWhile isDigit ≠ [] := by
        cases hq : p.tail with
        | nil =>
          rw [hq] at h2
          revert h2
          decide
        | cons c rest =>
          rw [hq] at h2
          simp only [peek, List.headD_cons] at h2
          rw [List.takeWhile_cons_of_pos h2]
          simp
      refine ⟨'.' :: p.tail.takeWhile isDigit, ?_,
        Or.inr ⟨_, rfl, hne, takeWhile_digits_all _⟩,
        Or.inr ⟨by simp, peek_dropWhile_digits _⟩⟩
      rw [List.cons_append, List.takeWhile_append_dropWhile]
      exact hp
    · rw [if_neg h2] at h
      cases h
  · rw [if_neg h1] at h
    injection h with h
    subst h
    exact ⟨[], rfl, Or.inl rfl, Or.inl ⟨rfl, h1⟩⟩

/-- The scan of the fractional part passes over a fractional part that is followed by
something that cannot continue it. -/
theorem ParseNumber_fraction_of_parts {frac : string} (hfrac : FractionPart frac) (y : string)
    (hy : (frac = [] ∧ peek y ≠ '.') ∨ (frac ≠ [] ∧ isDigit (peek y) = false)) :
    ParseNumber_fraction (frac ++ y) = .ok y := by
  unfold ParseNumber_fraction
  rcases hfrac with h0 | ⟨fp, hf, hne, hd⟩
  · subst h0
    rcases hy with ⟨_, hy⟩ | ⟨hcon, _⟩
    · rw [List.nil_append, if_neg hy]
    · exact absurd rfl hcon
  · subst hf
    rcases hy with ⟨hcon, _⟩ | ⟨_, hy⟩
    · cases hcon
    · simp only [List.cons_append, peek, List.headD_cons, List.tail_cons, if_true]
      have hpd : isDigit ((fp ++ y).headD (Char.ofNat 0)) = true := by
        cases fp with
        | nil => exact absurd rfl hne
        | cons c r => exact hd c (List.mem_cons_self _ _)
      rw [if_pos hpd, dropWhile_digits_append fp y hd hy]

/-- What the scan of the exponent has passed over. -/
theorem ParseNumber_exponent_parts {p r : string} (h : ParseNumber_exponent p = .ok r) :
    ∃ ex, p = ex ++ r ∧ ExponentPart ex
      ∧ ((ex = [] ∧ peek r ≠ 'e' ∧ peek r ≠ 'E') ∨ (ex ≠ [] ∧ isDigit (peek r) = false)) := by
  unfold ParseNumber_exponent at h
  by_cases h1 : peek p = 'e' ∨ peek p = 'E'
  · rw [if_pos h1] at h
    have hp : p = peek p :: p.tail :=
      cons_peek_tail (by rcases h1 with h1 | h1 <;> rw [h1] <;> decide)
    by_cases h2 : peek p.tail = '+' ∨ peek p.tail = '-'
    · rw [if_pos h2] at h
      have hq : p.tail = peek p.tail :: p.tail.tail :=
        cons_peek_tail (by rcases h2 with h2 | h2 <;> rw [h2] <;> decide)
      by_cases h3 : isDigit (peek p.tail.tail) = true
      · rw [if_pos h3] at h
        injection h with h
        subst h
        have hne : p.tail.tail.takeWhile isDigit ≠ [] := by
          cases hq2 : p.tail.tail with
          | nil =>
            rw [hq2] at h3
            revert h3
            decide
          | cons c rest =>
            rw [hq2] at h3
            simp only [peek, List.headD_cons] at h3
            rw [List.takeWhile_cons_of_pos h3]
            simp
        refine ⟨peek p :: ([peek p.tail] ++ p.tail.tail.takeWhile isDigit), ?_,
          Or.inr ⟨peek p, [peek p.tail], _, rfl, h1, ?_, hne, takeWhile_digits_all _⟩,
          Or.inr ⟨by simp, peek_dropWhile_digits _⟩⟩
        · rw [List.cons_append, List.append_assoc, List.takeWhile_append_dropWhile,
            List.singleton_append, ← hq, ← hp]
        · rcases h2 with h2 | h2
          · exact Or.inr (Or.inl (by rw [h2]))
          · exact Or.inr (Or.inr (by rw [h2]))
      · rw [if_neg h3] at h
        cases h
    · rw [if_neg h2] at h
      by_cases h3 : isDigit (peek p.tail) = true
      · rw [if_pos h3] at h
        injection h with h
        subst h
        have hne : p.tail.takeWhile isDigit ≠ [] := by
          cases hq2 : p.tail with
          | nil =>
            rw [hq2] at h3
            revert h3
            decide
          | cons c rest =>
            rw [hq2] at h3
            simp only [peek, List.headD_cons] at h3
            rw [List.takeWhile_cons_of_pos h3]
            simp
        refine ⟨peek p :: ([] ++ p.tail.takeWhile isDigit), ?_,
          Or.inr ⟨peek p, [], _, rfl, h1, Or.inl rfl, hne, takeWhile_digits_all _⟩,
          Or.inr ⟨by simp, peek_dropWhile_digits _⟩⟩
        rw [List.nil_append, List.cons_append, List.takeWhile_append_dropWhile, ← hp]
      · rw [if_neg h3] at h
        cases h
  · rw [if_neg h1] at h
    injection h with h
    subst h
    exact ⟨[], rfl, Or.inl rfl, Or.inl ⟨rfl, fun hc => h1 (Or.inl hc), fun hc => h1 (Or.inr hc)⟩⟩

/-- The scan of the exponent passes over an exponent part that is followed by something that
cannot continue it. -/
theorem ParseNumber_exponent_of_parts {ex : string} (hex : ExponentPart ex) (y : string)
    (hy : (ex = [] ∧ peek y ≠ 'e' ∧ peek y ≠ 'E') ∨ (ex ≠ [] ∧ isDigit (peek y) = false)) :
    ParseNumber_exponent (ex ++ y) = .ok y := by
  unfold ParseNumber_exponent
  rcases hex with h0 | ⟨m, sg, ep, he, hm, hsg, hne, hd⟩
  · subst h0
    rcases hy with ⟨_, hy1, hy2⟩ | ⟨hcon, _⟩
    · rw [List.nil_append, if_neg (by rintro (h | h); exact hy1 h; exact hy2 h)]
    · exact absurd rfl hcon
  · subst he
    rcases hy with ⟨hcon, _⟩ | ⟨_, hy⟩
    · cases hcon
    · have hpd : isDigit ((ep ++ y).headD (Char.ofNat 0)) = true := by
        cases ep with
        | nil => exact absurd rfl hne
        | cons c r => exact hd c (List.mem_cons_self _ _)
      have hnsign : ¬ ((ep ++ y).headD (Char.ofNat 0) = '+'
          ∨ (ep ++ y).headD (Char.ofNat 0) = '-') := by
        rintro (h | h) <;> rw [h] at hpd <;> revert hpd <;> decide
      rcases hsg with hs | hs | hs
      · subst hs
        simp only [List.cons_append, List.nil_append, peek, List.headD_cons, List.tail_cons]
        rw [if_pos hm, if_neg hnsign, if_pos hpd, dropWhile_digits_append ep y hd hy]
      · subst hs
        simp only [List.cons_append, List.nil_append, List.singleton_append, peek,
          List.headD_cons, List.tail_cons, true_or, if_true]
        rw [if_pos hm, if_pos hpd, dropWhile_digits_append ep y hd hy]
      · subst hs
        simp only [List.cons_append, List.nil_append, List.singleton_append, peek,
          List.headD_cons, List.tail_cons, or_true, if_true]
        rw [if_pos hm, if_pos hpd, dropWhile_digits_append ep y hd hy]

/-- The scan of `ParseNumber` over a number text followed by something that lets every part
end where it does: the text handed to `std::stod` is exactly the number text. -/
theorem ParseNumber_of_parts {sign ip frac ex : string} (hs : sign = [] ∨ sign = ['-'])
    (hip : IntegerPart ip) (hfrac : FractionPart frac) (hex : ExponentPart ex) (y : string)
    (hy : StopsNumber ip frac ex y) :
    ParseNumber (sign ++ ip ++ frac ++ ex ++ y)
      = match stod (sign ++ ip ++ frac ++ ex) with
        | .error e => .error e
        | .ok value => .ok (Number value, y) := by
  obtain ⟨hy1, hy2, hy3⟩ := hy
  have hstart : (if peek (sign ++ ip ++ frac ++ ex ++ y) = '-'
      then (sign ++ ip ++ frac ++ ex ++ y).tail else sign ++ ip ++ frac ++ ex ++ y)
      = ip ++ (frac ++ (ex ++ y)) := by
    rcases hs with h | h
    · subst h
      have hd := hip.peek_digit (frac ++ (ex ++ y))
      have hne : peek (ip ++ (frac ++ (ex ++ y))) ≠ '-' := by
        intro hc
        rw [hc] at hd
        revert hd
        decide
      simp only [List.nil_append, List.append_assoc]
      rw [if_neg hne]
    · subst h
      simp [peek]
  have htake : (sign ++ ip ++ frac ++ ex ++ y).take
      ((sign ++ ip ++ frac ++ ex ++ y).length - y.length) = sign ++ ip ++ frac ++ ex := by
    rw [List.length_append, Nat.add_sub_cancel, List.take_left']
    rfl
  unfold ParseNumber
  rw [hstart, ParseNumber_integer_of_parts hip _ hy1]
  simp only
  rw [ParseNumber_fraction_of_parts hfrac _ hy2]
  simp only
  rw [ParseNumber_exponent_of_parts hex _ hy3]
  simp only
  rw [htake]

/-- What a successful `ParseNumber` has passed over: a number text, followed by something
that lets every part end where it does; the value is what `std::stod` makes of the number
text. -/
theorem ParseNumber_parts {p r : string} {v : TJsonNode} (h : ParseNumber p = .ok (v, r)) :
    ∃ sign ip frac ex d, p = sign ++ ip ++ frac ++ ex ++ r ∧ (sign = [] ∨ sign = ['-'])
      ∧ IntegerPart ip ∧ FractionPart frac ∧ ExponentPart ex ∧ StopsNumber ip frac ex r
      ∧ stod (sign ++ ip ++ frac ++ ex) = .ok d ∧ v = Number d := by
  unfold ParseNumber at h
  cases h1 : ParseNumber_integer (if peek p = '-' then p.tail else p) with
  | error e => rw [h1] at h; cases h
  | ok p1 =>
    rw [h1] at h
    simp only at h
    cases h2 : ParseNumber_fraction p1 with
    | error e => rw [h2] at h; cases h
    | ok p2 =>
      rw [h2] at h
      simp only at h
      cases h3 : ParseNumber_exponent p2 with
      | error e => rw [h3] at h; cases h
      | ok p3 =>
        rw [h3] at h
        simp only at h
        cases h4 : stod (p.take (p.length - p3.length)) with
        | error e => simp [h4] at h
        | ok d =>
          rw [h4] at h
          injection h with h
          injection h with ha hb
          subst hb
          obtain ⟨ip, e1, hip, s1⟩ := ParseNumber_integer_parts h1
          obtain ⟨frac, e2, hfrac, s2⟩ := ParseNumber_fraction_parts h2
          obtain ⟨ex, e3, hex, s3⟩ := ParseNumber_exponent_parts h3
          have hp : ∃ sign, (sign = [] ∨ sign = ['-']) ∧ p = sign ++ ip ++ frac ++ ex ++ p3 := by
            by_cases hm : peek p = '-'
            · rw [if_pos hm] at e1
              have hp0 := cons_peek_tail (p := p) (by rw [hm]; decide)
              rw [hm] at hp0
              refine ⟨['-'], Or.inr rfl, ?_⟩
              rw [hp0, e1, e2, e3]
              simp
            · rw [if_neg hm] at e1
              refine ⟨[], Or.inl rfl, ?_⟩
              rw [e1, e2, e3]
              simp
          obtain ⟨sign, hs, hp⟩ := hp
          have htake : p.take (p.length - p3.length) = sign ++ ip ++ frac ++ ex := by
            conv_lhs => rw [hp]
            rw [List.length_append, Nat.add_sub_cancel, List.take_left']
            rfl
          rw [htake] at h4
          refine ⟨sign, ip, frac, ex, d, hp, hs, hip, hfrac, hex, ⟨?_, ?_, s3⟩, h4, ha.symm⟩
          · rw [← e3, ← e2]
            exact s1
          · rw [← e3]
            exact s2

/-- Whether the scan stops behind the parts of a number text depends on the next
character only. -/
theorem StopsNumber_of_peek {ip frac ex x y : string} (h : StopsNumber ip frac ex x)
    (hy : peek y = peek x ∨ NumberEnd y) : StopsNumber ip frac ex y := by
  obtain ⟨h1, h2, h3⟩ := h
  have hpeek : ∀ a : string, a ≠ [] → ∀ z, peek (a ++ z) = peek (a ++ x) := by
    intro a ha z
    cases a with
    | nil => exact absurd rfl ha
    | cons c a => rfl
  rcases hy with hy | ⟨n1, n2, n3, n4⟩
  · have hex : peek (ex ++ y) = peek (ex ++ x) := by
      by_cases he : ex = []
      · subst he
        simpa using hy
      · exact hpeek ex he y
    have hfrac : peek (frac ++ (ex ++ y)) = peek (frac ++ (ex ++ x)) := by
      by_cases hf : frac = []
      · subst hf
        simpa using hex
      · rw [hpeek frac hf (ex ++ y), hpeek frac hf (ex ++ x)]
    refine ⟨?_, ?_, ?_⟩
    · rw [hfrac]; exact h1
    · rw [hex]; exact h2
    · rw [hy]; exact h3
  · have hex : ex = [] → peek (ex ++ y) = peek y := by
      intro he
      subst he
      rfl
    refine ⟨?_, ?_, ?_⟩
    · rcases h1 with h1 | h1
      · exact Or.inl h1
      · right
        by_cases hf : frac = []
        · subst hf
          by_cases he : ex = []
          · subst he
            simpa using n1
          · rw [List.nil_append, hpeek ex he y]
            simpa using h1
        · rw [hpeek frac hf (ex ++ y)]
          rw [hpeek frac hf (ex ++ x)] at h1
          exact h1
    · rcases h2 with ⟨hf, h2⟩ | ⟨hf, h2⟩
      · left
        refine ⟨hf, ?_⟩
        by_cases he : ex = []
        · rw [hex he]
          exact n2
        · rw [hpeek ex he y]
          exact h2
      · right
        refine ⟨hf, ?_⟩
        by_cases he : ex = []
        · rw [hex he]
          exact n1
        · rw [hpeek ex he y]
          exact h2
    · rcases h3 with ⟨he, _⟩ | ⟨he, _⟩
      · exact Or.inl ⟨he, n3, n4⟩
      · exact Or.inr ⟨he, n1⟩

/-! ## The number grammar -/

theorem isDigit_not_ws {c : Char} (h : isDigit c = true) : isWhitespace c = false := by
  cases hcon : isWhitespace c with
  | false => rfl
  | true =>
    have hw : c = ' ' ∨ c = '\t' ∨ c = '\n' ∨ c = '\r' := by
      simpa [isWhitespace] using hcon
    rcases hw with hw | hw | hw | hw <;> rw [hw] at h <;> revert h <;> decide

theorem number_alphabet_not_ws {c : Char}
    (h : isDigit c = true ∨ c = '-' ∨ c = '+' ∨ c = '.' ∨ c = 'e' ∨ c = 'E') :
    isWhitespace c = false ∧ c ≠ Char.ofNat 0 := by
  rcases h with h | h | h | h | h | h
  · exact ⟨isDigit_not_ws h, isDigit_ne_nul h⟩
  all_goals subst h; exact ⟨by decide, by decide⟩

theorem IsNumberAlphabet.no_nul {s : string} (hs : IsNumberAlphabet s) :
    ∀ c ∈ s, c ≠ Char.ofNat 0 :=
  fun c hc => (number_alphabet_not_ws (hs c hc)).2

theorem IsNumberAlphabet.of_suffix {r s : string} (hs : IsNumberAlphabet s) (h : r <:+ s) :
    IsNumberAlphabet r :=
  fun c hc => hs c (h.subset hc)

theorem IsNumberAlphabet.SkipWhitespace {s : string} (hs : IsNumberAlphabet s) :
    SkipWhitespace s = s := by
  cases s with
  | nil => rfl
  | cons c rest =>
    exact SkipWhitespace_cons_of_not_ws (number_alphabet_not_ws (hs c (List.mem_cons_self _ _))).1 _

theorem IsNumberAlphabet.peek_eq_nul {s : string} (hs : IsNumberAlphabet s) :
    peek s = Char.ofNat 0 ↔ s = [] :=
  peek_eq_nul_iff hs.no_nul

/-- `Parse` on a text over the number alphabet that starts with `-` or a digit: the result
of `ParseNumber`, provided nothing is left over. -/
theorem Parse_number_text (s : string) (hs : IsNumberAlphabet s)
    (hp : peek s = '-' ∨ isDigit (peek s) = true) :
    Parse s = match ParseNumber s with
      | .error e => .error e
      | .ok (v, r) => if r = [] then .ok v else .error .trailingCharacters := by
  have hne : peek s ≠ Char.ofNat 0 := by
    rcases hp with hp | hp
    · rw [hp]; decide
    · exact isDigit_ne_nul hp
  unfold Parse
  rw [hs.SkipWhitespace, if_neg hne, ParseValue_number s hp]
  cases hn : ParseNumber s with
  | error e => rfl
  | ok res =>
    obtain ⟨v, r⟩ := res
    have hr : IsNumberAlphabet r := hs.of_suffix (ParseNumber_advanced hn).1
    simp only
    rw [hr.SkipWhitespace]
    by_cases h0 : r = []
    · rw [if_pos h0, if_neg (by rw [h0]; simp [peek])]
    · rw [if_neg h0, if_pos (fun hc => h0 (hr.peek_eq_nul.mp hc))]

/-- `Parse` on a text over the number alphabet that does not start with `-` or a digit. -/
theorem Parse_number_alphabet_other (s : string) (hs : IsNumberAlphabet s)
    (hp : ¬ (peek s = '-' ∨ isDigit (peek s) = true)) :
    ∃ e, Parse s = .error e ∧ e.kind = some EErrorKind.ParseError := by
  cases s with
  | nil => exact ⟨.emptyJson, by decide, rfl⟩
  | cons c rest =>
    have hc := hs c (List.mem_cons_self _ _)
    simp only [peek, List.headD_cons] at hp
    have hne : ∀ d : Char, isDigit d = true ∨ d = '-' → c ≠ d := by
      rintro d hd rfl
      exact hp (hd.symm)
    refine ⟨.unexpectedCharacter c, ?_, rfl⟩
    have hcases : c = '+' ∨ c = '.' ∨ c = 'e' ∨ c = 'E' := by
      rcases hc with h | h | h | h | h | h
      · exact absurd (Or.inr h) hp
      · exact absurd (Or.inl h) hp
      · exact Or.inl h
      · exact Or.inr (Or.inl h)
      · exact Or.inr (Or.inr (Or.inl h))
      · exact Or.inr (Or.inr (Or.inr h))
    have hsk := IsNumberAlphabet.SkipWhitespace hs
    unfold Parse
    rw [hsk]
    rcases hcases with h | h | h | h <;> subst h <;>
      simp [peek, ParseValue, hsk, isDigit]

theorem MatchesNumberGrammar.peek {s : string} (h : MatchesNumberGrammar s) :
    peek s = '-' ∨ isDigit (peek s) = true := by
  obtain ⟨sign, ip, frac, ex, hs, hsign, hip, _, _⟩ := h
  subst hs
  rcases hsign with h | h
  · subst h
    right
    have := hip.peek_digit (frac ++ ex)
    simpa using this
  · subst h
    left
    rfl

theorem StopsNumber_nil {ip frac ex : string} (hfrac : FractionPart frac)
    (hex : ExponentPart ex) : StopsNumber ip frac ex [] := by
  have hpe : isDigit (peek ex) = false ∧ peek ex ≠ '.' := by
    rcases hex with h | ⟨m, sg, ep, h, hm, _⟩
    · subst h
      exact ⟨by decide, by decide⟩
    · subst h
      rcases hm with hm | hm <;> subst hm <;>
        simp only [peek, List.headD_cons] <;> exact ⟨by decide, by decide⟩
  refine ⟨Or.inr ?_, ?_, ?_⟩
  · rcases hfrac with h | ⟨fp, h, _⟩
    · subst h
      simpa using hpe.1
    · subst h
      simp only [List.cons_append, peek, List.headD_cons]
      decide
  · by_cases hf : frac = []
    · exact Or.inl ⟨hf, by simpa using hpe.2⟩
    · exact Or.inr ⟨hf, by simpa using hpe.1⟩
  · by_cases he : ex = []
    · exact Or.inl ⟨he, by decide, by decide⟩
    · exact Or.inr ⟨he, by decide⟩

/-- `ParseNumber` accepts all of a text exactly when the text matches the number grammar
and `std::stod` converts it. -/
theorem ParseNumber_whole_iff (s : string) (v : TJsonNode) :
    ParseNumber s = .ok (v, []) ↔
      MatchesNumberGrammar s ∧ ∃ d, stod s = .ok d ∧ v = Number d := by
  constructor
  · intro h
    obtain ⟨sign, ip, frac, ex, d, hp, hsign, hip, hfrac, hex, _, hd, hv⟩ := ParseNumber_parts h
    rw [List.append_nil] at hp
    exact ⟨⟨sign, ip, frac, ex, hp, hsign, hip, hfrac, hex⟩, d, by rw [hp]; exact hd, hv⟩
  · rintro ⟨⟨sign, ip, frac, ex, hp, hsign, hip, hfrac, hex⟩, d, hd, hv⟩
    have := ParseNumber_of_parts hsign hip hfrac hex [] (StopsNumber_nil hfrac hex)
    rw [List.append_nil, ← hp, hd] at this
    rw [this, hv]

theorem ParseNumber_skip_sign {sign ip : string} (hs : sign = [] ∨ sign = ['-'])
    (hip : IntegerPart ip) (y : string) :
    (if peek (sign ++ ip ++ y) = '-' then (sign ++ ip ++ y).tail else sign ++ ip ++ y)
      = ip ++ y := by
  rcases hs with h | h
  · subst h
    have hd := hip.peek_digit y
    have hne : peek (ip ++ y) ≠ '-' := by
      intro hc
      rw [hc] at hd
      revert hd
      decide
    simp only [List.nil_append]
    rw [if_neg hne]
  · subst h
    simp [peek]

theorem ParseNumber_error_of_fraction {sign ip y : string} {e : TException}
    (hs : sign = [] ∨ sign = ['-']) (hip : IntegerPart ip)
    (hy : ip = ['0'] ∨ isDigit (peek y) = false) (h : ParseNumber_fraction y = .error e) :
    ParseNumber (sign ++ ip ++ y) = .error e := by
  unfold ParseNumber
  rw [ParseNumber_skip_sign hs hip y, ParseNumber_integer_of_parts hip y hy]
  simp only
  rw [h]

theorem ParseNumber_error_of_exponent {sign ip frac y : string} {e : TException}
    (hs : sign = [] ∨ sign = ['-']) (hip : IntegerPart ip) (hfrac : FractionPart frac)
    (hy1 : ip = ['0'] ∨ isDigit (peek (frac ++ y)) = false)
    (hy2 : (frac = [] ∧ peek y ≠ '.') ∨ (frac ≠ [] ∧ isDigit (peek y) = false))
    (h : ParseNumber_exponent y = .error e) :
    ParseNumber (sign ++ ip ++ frac ++ y) = .error e := by
  unfold ParseNumber
  rw [List.append_assoc (sign ++ ip) frac y, ParseNumber_skip_sign hs hip (frac ++ y),
    ParseNumber_integer_of_parts hip _ hy1]
  simp only
  rw [ParseNumber_fraction_of_parts hfrac y hy2]
  simp only
  rw [h]

/-- C22 (as stated, refuted): the text `1e999` is made of the characters of the number
alphabet and matches the number grammar, and `Parse` does not succeed on it. -/
theorem Parse_number_grammar_not_sufficient :
    IsNumberAlphabet ['1', 'e', '9', '9', '9'] ∧ MatchesNumberGrammar ['1', 'e', '9', '9', '9']
    ∧ ¬ ∃ v, Parse ['1', 'e', '9', '9', '9'] = .ok v := by
  refine ⟨by unfold IsNumberAlphabet; decide, ?_, ?_⟩
  · exact ⟨[], ['1'], [], ['e', '9', '9', '9'], rfl, Or.inl rfl,
      Or.inr ⟨'1', [], rfl, by decide, by simp⟩, Or.inl rfl,
      Or.inr ⟨'e', [], ['9', '9', '9'], rfl, Or.inl rfl, Or.inl rfl, by simp, by decide⟩⟩
  · rintro ⟨v, h⟩
    have h1 : Parse ['1', 'e', '9', '9', '9'] = .error .stdOutOfRange := by decide!
    rw [h1] at h
    cases h

/-- `Parse` on a text over the number alphabet succeeds exactly when the text matches the
number grammar and `std::stod` converts it. -/
theorem Parse_number_iff (s : string) (hs : IsNumberAlphabet s) (v : TJsonNode) :
    Parse s = .ok v ↔ MatchesNumberGrammar s ∧ ∃ d, stod s = .ok d ∧ v = Number d := by
  by_cases hp : peek s = '-' ∨ isDigit (peek s) = true
  · rw [Parse_number_text s hs hp, ← ParseNumber_whole_iff]
    cases hn : ParseNumber s with
    | error e => simp
    | ok res =>
      obtain ⟨w, r⟩ := res
      simp only
      by_cases h0 : r = []
      · subst h0
        simp
      · rw [if_neg h0]
        constructor
        · intro h; cases h
        · intro h
          injection h with h
          injection h with _ h
          exact absurd h h0
  · obtain ⟨e, he, _⟩ := Parse_number_alphabet_other s hs hp
    constructor
    · intro h
      rw [he] at h
      cases h
    · rintro ⟨hm, _⟩
      exact absurd hm.peek hp

/-- C22 (amended): the number grammar.  For a text `s` made only of the characters `0`-`9`,
`-`, `+`, `.`, `e`, `E`: `Parse(s)` succeeds exactly when `s` matches
`-?(0|[1-9][0-9]*)(.[0-9]+)?([eE][+-]?[0-9]+)?` and `std::stod` converts `s` (its value is
in the range of `double`), and then yields the Number of that value.  A leading zero
followed by another digit, a `-` not followed by a digit, a `.` behind the integer part
not followed by a digit, and an exponent marker not followed by a digit are rejected with
ParseError.  `std::stod` does not convert `1e999` (overflow) nor
`2.2250738585072012e-308` (an inexact value below the smallest normal `double`): on both
`std::out_of_range` escapes from `Parse`. -/
theorem Parse_number_grammar (s : string) (hs : IsNumberAlphabet s) :
    (∀ v, Parse s = .ok v ↔ MatchesNumberGrammar s ∧ ∃ d, stod s = .ok d ∧ v = Number d)
    ∧ (∀ sign d rest, (sign = [] ∨ sign = ['-']) → isDigit d = true →
        s = sign ++ '0' :: d :: rest →
        ∃ e, Parse s = .error e ∧ e.kind = some EErrorKind.ParseError)
    ∧ (∀ rest, s = '-' :: rest → isDigit (peek rest) = false →
        ∃ e, Parse s = .error e ∧ e.kind = some EErrorKind.ParseError)
    ∧ (∀ sign ip rest, (sign = [] ∨ sign = ['-']) → IntegerPart ip →
        s = sign ++ ip ++ '.' :: rest → isDigit (peek rest) = false →
        ∃ e, Parse s = .error e ∧ e.kind = some EErrorKind.ParseError)
    ∧ (∀ sign ip frac m sg rest, (sign = [] ∨ sign = ['-']) → IntegerPart ip →
        FractionPart frac → (m = 'e' ∨ m = 'E') →
        ((sg = [] ∧ peek rest ≠ '+' ∧ peek rest ≠ '-') ∨ sg = ['+'] ∨ sg = ['-']) →
        s = sign ++ ip ++ frac ++ m :: (sg ++ rest) → isDigit (peek rest) = false →
        ∃ e, Parse s = .error e ∧ e.kind = some EErrorKind.ParseError)
    ∧ (stod ['1', 'e', '9', '9', '9'] = .error .stdOutOfRange
      ∧ Parse ['1', 'e', '9', '9', '9'] = .error .stdOutOfRange)
    ∧ (stod ['2', '.', '2', '2', '5', '0', '7', '3', '8', '5', '8', '5', '0', '7', '2', '0', '1', '2',
        'e', '-', '3', '0', '8'] = .error .stdOutOfRange
      ∧ Parse ['2', '.', '2', '2', '5', '0', '7', '3', '8', '5', '8', '5', '0', '7', '2', '0', '1', '2',
        'e', '-', '3', '0', '8'] = .error .stdOutOfRange) := by
  refine ⟨?_, ?_, ?_, ?_, ?_, ⟨by decide!, by decide!⟩, ⟨by decide!, by decide!⟩⟩
  · exact Parse_number_iff s hs
  · intro sign d rest hsign hd hs'
    have hp : peek s = '-' ∨ isDigit (peek s) = true := by
      rw [hs']
      rcases hsign with h | h <;> subst h
      · right
        simp only [List.nil_append, peek, List.headD_cons]
        decide
      · left; rfl
    have hstop : StopsNumber ['0'] [] [] (d :: rest) := by
      have hdot : d ≠ '.' ∧ d ≠ 'e' ∧ d ≠ 'E' := by
        refine ⟨?_, ?_, ?_⟩ <;> rintro rfl <;> revert hd <;> decide
      exact ⟨Or.inl rfl, Or.inl ⟨rfl, by simpa [peek] using hdot.1⟩,
        Or.inl ⟨rfl, by simpa [peek] using hdot.2.1, by simpa [peek] using hdot.2.2⟩⟩
    have hpn := ParseNumber_of_parts hsign (Or.inl rfl) (Or.inl rfl) (Or.inl rfl) (d :: rest) hstop
    have hstod : ∃ x, stod (sign ++ ['0'] ++ [] ++ []) = .ok x := by
      rcases hsign with h | h <;> subst h
      · exact ⟨.finite 0, by decide!⟩
      · exact ⟨.finite 0, by decide!⟩
    obtain ⟨x, hx⟩ := hstod
    rw [hx] at hpn
    have hs'' : s = sign ++ ['0'] ++ [] ++ [] ++ d :: rest := by
      rw [hs']
      simp
    refine ⟨.trailingCharacters, ?_, rfl⟩
    rw [Parse_number_text s hs hp, hs'', hpn]
    simp
  · intro rest hs' hd
    have hp : peek s = '-' ∨ isDigit (peek s) = true := by
      rw [hs']
      left
      rfl
    refine ⟨.invalidNumberFormat, ?_, rfl⟩
    rw [Parse_number_text s hs hp, hs']
    have hn : ParseNumber ('-' :: rest) = .error .invalidNumberFormat := by
      unfold ParseNumber ParseNumber_integer
      simp only [peek, List.headD_cons, List.tail_cons, if_true]
      have h0 : ¬ rest.headD (Char.ofNat 0) = '0' := by
        intro hc
        unfold peek at hd
        rw [hc] at hd
        revert hd
        decide
      have h1 : ¬ (49 ≤ (rest.headD (Char.ofNat 0)).toNat
          ∧ (rest.headD (Char.ofNat 0)).toNat ≤ 57) := by
        intro hc
        simp only [isDigit, peek, decide_eq_false_iff_not] at hd
        omega
      rw [if_neg h0, if_neg h1]
    rw [hn]
  · intro sign ip rest hsign hip hs' hd
    have hp : peek s = '-' ∨ isDigit (peek s) = true := by
      rw [hs']
      rcases hsign with h | h <;> subst h
      · right
        have := hip.peek_digit ('.' :: rest)
        simpa using this
      · left; rfl
    refine ⟨.expectedDigitAfterPoint, ?_, rfl⟩
    rw [Parse_number_text s hs hp, hs',
      ParseNumber_error_of_fraction hsign hip
        (Or.inr (by simp only [peek, List.headD_cons]; decide))
        (show ParseNumber_fraction ('.' :: rest) = .error .expectedDigitAfterPoint by
          unfold ParseNumber_fraction
          simp only [peek, List.headD_cons, List.tail_cons, if_true]
          unfold peek at hd
          rw [if_neg (by rw [hd]; simp)])]
  · intro sign ip frac m sg rest hsign hip hfrac hm hsg hs' hd
    have hp : peek s = '-' ∨ isDigit (peek s) = true := by
      rw [hs']
      rcases hsign with h | h <;> subst h
      · right
        have := hip.peek_digit (frac ++ m :: (sg ++ rest))
        simpa using this
      · left; rfl
    have hmd : isDigit m = false ∧ m ≠ '.' := by
      rcases hm with h | h <;> subst h <;> exact ⟨by decide, by decide⟩
    have hy1 : ip = ['0'] ∨ isDigit (peek (frac ++ m :: (sg ++ rest))) = false := by
      right
      rcases hfrac with h | ⟨fp, h, _⟩
      · subst h
        simpa [peek] using hmd.1
      · subst h
        simp only [List.cons_append, peek, List.headD_cons]
        decide
    have hy2 : (frac = [] ∧ peek (m :: (sg ++ rest)) ≠ '.')
        ∨ (frac ≠ [] ∧ isDigit (peek (m :: (sg ++ rest))) = false) := by
      by_cases hf : frac = []
      · exact Or.inl ⟨hf, by simpa [peek] using hmd.2⟩
      · exact Or.inr ⟨hf, by simpa [peek] using hmd.1⟩
    have hex : ParseNumber_exponent (m :: (sg ++ rest)) = .error .expectedDigitInExponent := by
      unfold ParseNumber_exponent
      unfold peek at hd
      simp only [peek, List.headD_cons, List.tail_cons]
      rw [if_pos hm]
      rcases hsg with ⟨h, h1, h2⟩ | h | h
      · subst h
        unfold peek at h1 h2
        simp only [List.nil_append]
        rw [if_neg (by rintro (hc | hc); exact h1 hc; exact h2 hc), if_neg (by rw [hd]; simp)]
      · subst h
        simp only [List.singleton_append, List.headD_cons, List.tail_cons, true_or, if_true]
        rw [if_neg (by rw [hd]; simp)]
      · subst h
        simp only [List.singleton_append, List.headD_cons, List.tail_cons, or_true, if_true]
        rw [if_neg (by rw [hd]; simp)]
    refine ⟨.expectedDigitInExponent, ?_, rfl⟩
    rw [Parse_number_text s hs hp, hs',
      ParseNumber_error_of_exponent hsign hip hfrac hy1 hy2 hex]

/-- Witness for C22 (amended): `2.5` is over the number alphabet, matches the grammar and
is converted, so it parses to the Number 2.5; `01` is rejected with ParseError. -/
theorem Parse_number_grammar_witness :
    Parse ['2', '.', '5'] = .ok (Number (.finite (5 / 2)))
    ∧ ∃ e, Parse ['0', '1'] = .error e ∧ e.kind = some EErrorKind.ParseError :=
  ⟨((Parse_number_grammar ['2', '.', '5'] (by unfold IsNumberAlphabet; decide)).1
      (Number (.finite (5 / 2)))).mpr
      ⟨⟨[], ['2'], ['.', '5'], [], rfl, Or.inl rfl, Or.inr ⟨'2', [], rfl, by decide, by simp⟩,
          Or.inr ⟨['5'], rfl, by simp, by decide⟩, Or.inl rfl⟩,
        .finite (5 / 2), by decide!, rfl⟩,
    (Parse_number_grammar ['0', '1'] (by unfold IsNumberAlphabet; decide)).2.1
      [] '1' [] (Or.inl rfl) (by decide) rfl⟩

/-! ## Scanning for a malformed string literal -/

theorem ms_code_cons {c : Char} (h1 : c ≠ '"') (rest : string) :
    hasMalformedString .code (c :: rest) = hasMalformedString .code rest := by
  rw [hasMalformedString, if_neg h1]

theorem ms_code_tail {p : string} {c : Char} (h : peek p = c)
    (hc : c ≠ Char.ofNat 0 ∧ c ≠ '"') :
    hasMalformedString .code p = hasMalformedString .code p.tail := by
  have hp := cons_peek_tail (p := p) (by rw [h]; exact hc.1)
  rw [h] at hp
  rw [hp]
  exact ms_code_cons hc.2 _

theorem ms_code_append (pre rest : string) (h : ∀ c ∈ pre, c ≠ '"') :
    hasMalformedString .code (pre ++ rest) = hasMalformedString .code rest := by
  induction pre with
  | nil => rfl
  | cons c pre ih =>
    rw [List.cons_append, ms_code_cons (h c (List.mem_cons_self _ _))]
    exact ih (fun d hd => h d (List.mem_cons_of_mem _ hd))

theorem ms_code_SkipWhitespace (p : string) :
    hasMalformedString .code (SkipWhitespace p) = hasMalformedString .code p := by
  induction p with
  | nil => rfl
  | cons c rest ih =>
    unfold SkipWhitespace
    by_cases h : c = ' ' ∨ c = '\t' ∨ c = '\n' ∨ c = '\r'
    · rw [if_pos h, ih]
      refine (ms_code_cons ?_ rest).symm
      rcases h with h | h | h | h <;> rw [h] <;> decide
    · rw [if_neg h]

theorem ms_code_dropWhile_digits (p : string) :
    hasMalformedString .code (p.dropWhile isDigit) = hasMalformedString .code p := by
  induction p with
  | nil => rfl
  | cons c rest ih =>
    by_cases h : isDigit c = true
    · rw [List.dropWhile_cons_of_pos h, ih]
      exact (ms_code_cons (isDigit_plain h).2.1 rest).symm
    · rw [List.dropWhile_cons_of_neg h]

theorem ms_text_tail {p : string} {c : Char} (h : peek p = c)
    (hc : c ≠ Char.ofNat 0 ∧ c ≠ '\\' ∧ c ≠ '"') :
    hasMalformedString .text p = hasMalformedString .text p.tail := by
  have hp := cons_peek_tail (p := p) (by rw [h]; exact hc.1)
  rw [h] at hp
  rw [hp, hasMalformedString, if_neg hc.2.1, if_neg hc.2.2]
  rfl

theorem ms_text_quote {p : string} (h : peek p = '"') :
    hasMalformedString .text p = hasMalformedString .code p.tail := by
  have hp := cons_peek_tail (p := p) (by rw [h]; decide)
  rw [h] at hp
  rw [hp, hasMalformedString, if_neg (by decide), if_pos rfl]
  rfl

theorem ms_text_escape {p : string} {c : Char} (h : peek p = '\\') (h1 : peek p.tail = c)
    (hc : c = '"' ∨ c = '\\' ∨ c = '/' ∨ c = 'b' ∨ c = 'f' ∨ c = 'n' ∨ c = 'r' ∨ c = 't') :
    hasMalformedString .text p = hasMalformedString .text p.tail.tail := by
  have hc0 : c ≠ Char.ofNat 0 ∧ c ≠ 'u' := by
    rcases hc with h | h | h | h | h | h | h | h <;> subst h <;> exact ⟨by decide, by decide⟩
  have hp := cons_peek_tail (p := p) (by rw [h]; decide)
  have hq := cons_peek_tail (p := p.tail) (by rw [h1]; exact hc0.1)
  rw [h] at hp
  rw [h1] at hq
  rw [hp, hasMalformedString, if_pos rfl]
  simp only [List.tail_cons]
  rw [hq, hasMalformedString, if_neg hc0.2, if_pos hc]
  rfl

theorem ParseString_codepoint_fourHexDigits {p r : string} {cp : Nat}
    (h : ParseString_codepoint p = .ok (cp, r)) :
    fourHexDigits p = true ∧ hasMalformedString .text p = hasMalformedString .text r := by
  unfold ParseString_codepoint at h
  cases h1 : hexValue (peek p) with
  | none => rw [h1] at h; cases h
  | some d1 =>
    rw [h1] at h
    simp only at h
    cases h2 : hexValue (peek p.tail) with
    | none => rw [h2] at h; cases h
    | some d2 =>
      rw [h2] at h
      simp only at h
      cases h3 : hexValue (peek p.tail.tail) with
      | none => rw [h3] at h; cases h
      | some d3 =>
        rw [h3] at h
        simp only at h
        cases h4 : hexValue (peek p.tail.tail.tail) with
        | none => rw [h4] at h; cases h
        | some d4 =>
          rw [h4] at h
          simp only at h
          injection h with h
          injection h with ha hb
          subst hb
          refine ⟨by simp [fourHexDigits, h1, h2, h3, h4], ?_⟩
          rw [ms_text_tail rfl (hexValue_plain h1), ms_text_tail rfl (hexValue_plain h2),
            ms_text_tail rfl (hexValue_plain h3), ms_text_tail rfl (hexValue_plain h4)]

theorem ms_text_unicode {p r : string} {cp : Nat} (h : peek p = '\\')
    (h1 : peek p.tail = 'u') (hcp : ParseString_codepoint p.tail.tail = .ok (cp, r)) :
    hasMalformedString .text p = hasMalformedString .text r := by
  have hp := cons_peek_tail (p := p) (by rw [h]; decide)
  have hq := cons_peek_tail (p := p.tail) (by rw [h1]; decide)
  rw [h] at hp
  rw [h1] at hq
  obtain ⟨h4, hs⟩ := ParseString_codepoint_fourHexDigits hcp
  rw [hp, hasMalformedString, if_pos rfl, hq, hasMalformedString, if_pos rfl, if_pos h4]
  exact hs

theorem ParseString_loop_ms (fuel : Nat) (p acc s r : string)
    (h : ParseString_loop fuel p acc = .ok (s, r)) :
    hasMalformedString .text p = hasMalformedString .code r := by
  induction fuel generalizing p acc with
  | zero => simp [ParseString_loop] at h
  | succ fuel ih =>
    rw [ParseString_loop] at h
    by_cases h1 : peek p = '"'
    · rw [if_pos h1] at h
      injection h with h
      injection h with ha hb
      subst hb
      exact ms_text_quote h1
    rw [if_neg h1] at h
    by_cases h2 : peek p = Char.ofNat 0
    · rw [if_pos h2] at h
      cases h
    rw [if_neg h2] at h
    by_cases h3 : peek p = '\\'
    · rw [if_pos h3] at h
      by_cases e1 : peek p.tail = '"'
      · rw [if_pos e1] at h
        rw [ms_text_escape h3 e1 (by decide)]
        exact ih _ _ h
      rw [if_neg e1] at h
      by_cases e2 : peek p.tail = '\\'
      · rw [if_pos e2] at h
        rw [ms_text_escape h3 e2 (by decide)]
        exact ih _ _ h
      rw [if_neg e2] at h
      by_cases e3 : peek p.tail = '/'
      · rw [if_pos e3] at h
        rw [ms_text_escape h3 e3 (by decide)]
        exact ih _ _ h
      rw [if_neg e3] at h
      by_cases e4 : peek p.tail = 'b'
      · rw [if_pos e4] at h
        rw [ms_text_escape h3 e4 (by decide)]
        exact ih _ _ h
      rw [if_neg e4] at h
      by_cases e5 : peek p.tail = 'f'
      · rw [if_pos e5] at h
        rw [ms_text_escape h3 e5 (by decide)]
        exact ih _ _ h
      rw [if_neg e5] at h
      by_cases e6 : peek p.tail = 'n'
      · rw [if_pos e6] at h
        rw [ms_text_escape h3 e6 (by decide)]
        exact ih _ _ h
      rw [if_neg e6] at h
      by_cases e7 : peek p.tail = 'r'
      · rw [if_pos e7] at h
        rw [ms_text_escape h3 e7 (by decide)]
        exact ih _ _ h
      rw [if_neg e7] at h
      by_cases e8 : peek p.tail = 't'
      · rw [if_pos e8] at h
        rw [ms_text_escape h3 e8 (by decide)]
        exact ih _ _ h
      rw [if_neg e8] at h
      by_cases e9 : peek p.tail = 'u'
      · rw [if_pos e9] at h
        cases hcp : ParseString_codepoint p.tail.tail with
        | error e => rw [hcp] at h; cases h
        | ok res =>
          obtain ⟨cp, p1⟩ := res
          rw [hcp] at h
          rw [ms_text_unicode h3 e9 hcp]
          by_cases hlt : cp < 128
          · simp only [hlt, if_true] at h
            exact ih _ _ h
          · simp only [hlt, if_false] at h
            exact ih _ _ h
      · rw [if_neg e9] at h
        cases h
    · rw [if_neg h3] at h
      rw [ms_text_tail rfl ⟨h2, h3, h1⟩]
      exact ih _ _ h

theorem ParseString_ms {p r : string} {v : TJsonNode}
    (h : ParseString p = .ok (v, r)) :
    hasMalformedString .code p = hasMalformedString .code r := by
  unfold ParseString at h
  by_cases h1 : peek p ≠ '"'
  · rw [if_pos h1] at h
    cases h
  rw [if_neg h1] at h
  have h1' : peek p = '"' := by simpa using h1
  cases hl : ParseString_loop (p.tail.length + 1) p.tail [] with
  | error e => rw [hl] at h; cases h
  | ok res =>
    obtain ⟨s, p1⟩ := res
    rw [hl] at h
    injection h with h
    injection h with ha hb
    subst hb
    have hp := cons_peek_tail (p := p) (by rw [h1']; decide)
    rw [h1'] at hp
    rw [hp, hasMalformedString, if_pos rfl]
    exact ParseString_loop_ms _ _ _ _ _ hl

theorem ParseLiteral_ms {p lit r : string} {v w : TJsonNode}
    (hlit : ∀ c ∈ lit, c ≠ '"')
    (h : ParseLiteral p lit v = .ok (w, r)) :
    hasMalformedString .code p = hasMalformedString .code r := by
  unfold ParseLiteral at h
  by_cases h1 : p.take lit.length = lit
  · rw [if_pos h1] at h
    injection h with h
    injection h with ha hb
    subst hb
    have hp : p = lit ++ p.drop lit.length := by
      conv_lhs => rw [← List.take_append_drop lit.length p, h1]
    conv_lhs => rw [hp]
    exact ms_code_append _ _ hlit
  · rw [if_neg h1] at h
    cases h

theorem ParseNumber_integer_ms {p r : string}
    (h : ParseNumber_integer p = .ok r) :
    hasMalformedString .code p = hasMalformedString .code r := by
  unfold ParseNumber_integer at h
  by_cases h1 : peek p = '0'
  · rw [if_pos h1] at h
    injection h with h
    subst h
    exact ms_code_tail h1 (by decide)
  rw [if_neg h1] at h
  by_cases h2 : 49 ≤ (peek p).toNat ∧ (peek p).toNat ≤ 57
  · rw [if_pos h2] at h
    injection h with h
    subst h
    exact (ms_code_dropWhile_digits p).symm
  · rw [if_neg h2] at h
    cases h

theorem ParseNumber_fraction_ms {p r : string}
    (h : ParseNumber_fraction p = .ok r) :
    hasMalformedString .code p = hasMalformedString .code r := by
  unfold ParseNumber_fraction at h
  by_cases h1 : peek p = '.'
  · rw [if_pos h1] at h
    by_cases h2 : isDigit (peek p.tail) = true
    · rw [if_pos h2] at h
      injection h with h
      subst h
      rw [ms_code_dropWhile_digits]
      exact ms_code_tail h1 (by decide)
    · rw [if_neg h2] at h
      cases h
  · rw [if_neg h1] at h
    injection h with h
    subst h
    rfl

theorem ParseNumber_exponent_ms {p r : string}
    (h : ParseNumber_exponent p = .ok r) :
    hasMalformedString .code p = hasMalformedString .code r := by
  unfold ParseNumber_exponent at h
  by_cases h1 : peek p = 'e' ∨ peek p = 'E'
  · rw [if_pos h1] at h
    have s1 : hasMalformedString .code p = hasMalformedString .code p.tail := by
      rcases h1 with h1 | h1
      · exact ms_code_tail h1 (by decide)
      · exact ms_code_tail h1 (by decide)
    by_cases h2 : peek p.tail = '+' ∨ peek p.tail = '-'
    · rw [if_pos h2] at h
      have s2 : hasMalformedString .code p.tail = hasMalformedString .code p.tail.tail := by
        rcases h2 with h2 | h2
        · exact ms_code_tail h2 (by decide)
        · exact ms_code_tail h2 (by decide)
      by_cases h3 : isDigit (peek p.tail.tail) = true
      · rw [if_pos h3] at h
        injection h with h
        subst h
        rw [ms_code_dropWhile_digits, s1, s2]
      · rw [if_neg h3] at h
        cases h
    · rw [if_neg h2] at h
      by_cases h3 : isDigit (peek p.tail) = true
      · rw [if_pos h3] at h
        injection h with h
        subst h
        rw [ms_code_dropWhile_digits, s1]
      · rw [if_neg h3] at h
        cases h
  · rw [if_neg h1] at h
    injection h with h
    subst h
    rfl

theorem ParseNumber_ms {p r : string} {v : TJsonNode}
    (h : ParseNumber p = .ok (v, r)) :
    hasMalformedString .code p = hasMalformedString .code r := by
  unfold ParseNumber at h
  cases h1 : ParseNumber_integer (if peek p = '-' then p.tail else p) with
  | error e => rw [h1] at h; cases h
  | ok p1 =>
    rw [h1] at h
    simp only at h
    cases h2 : ParseNumber_fraction p1 with
    | error e => rw [h2] at h; cases h
    | ok p2 =>
      rw [h2] at h
      simp only at h
      cases h3 : ParseNumber_exponent p2 with
      | error e => rw [h3] at h; cases h
      | ok p3 =>
        rw [h3] at h
        simp only at h
        cases h4 : stod (p.take (p.length - p3.length)) with
        | error e => simp [h4] at h
        | ok d =>
          rw [h4] at h
          injection h with h
          injection h with ha hb
          subst hb
          have hs : hasMalformedString .code p
              = hasMalformedString .code (if peek p = '-' then p.tail else p) := by
            by_cases hm : peek p = '-'
            · rw [if_pos hm]
              exact ms_code_tail hm (by decide)
            · rw [if_neg hm]
          rw [hs, ParseNumber_integer_ms h1, ParseNumber_fraction_ms h2,
            ParseNumber_exponent_ms h3]

theorem ParseArray_loop_ms {pv : string → Except TException (TJsonNode × string)}
    (hpv : ∀ p v r, pv p = .ok (v, r) →
      hasMalformedString .code p = hasMalformedString .code r)
    (fuel : Nat) (p : string) (acc : List TJsonNode) (v : TJsonNode)
    (r : string) (h : ParseArray_loop pv fuel p acc = .ok (v, r)) :
    hasMalformedString .code p = hasMalformedString .code r := by
  induction fuel generalizing p acc with
  | zero => simp [ParseArray_loop] at h
  | succ fuel ih =>
    rw [ParseArray_loop] at h
    cases hv : pv p with
    | error e => rw [hv] at h; cases h
    | ok res =>
      obtain ⟨x, p1⟩ := res
      rw [hv] at h
      simp only at h
      rw [hpv _ _ _ hv, ← ms_code_SkipWhitespace p1]
      by_cases c1 : peek (SkipWhitespace p1) = ']'
      · rw [if_pos c1] at h
        injection h with h
        injection h with ha hb
        subst hb
        exact ms_code_tail c1 (by decide)
      rw [if_neg c1] at h
      by_cases c2 : peek (SkipWhitespace p1) ≠ ','
      · rw [if_pos c2] at h
        cases h
      rw [if_neg c2] at h
      have c2' : peek (SkipWhitespace p1) = ',' := by simpa using c2
      rw [ms_code_tail c2' (by decide), ← ms_code_SkipWhitespace]
      exact ih _ _ h

theorem ParseArray_ms {pv : string → Except TException (TJsonNode × string)}
    (hpv : ∀ p v r, pv p = .ok (v, r) →
      hasMalformedString .code p = hasMalformedString .code r)
    {p r : string} {v : TJsonNode}
    (h : ParseArray pv p = .ok (v, r)) :
    hasMalformedString .code p = hasMalformedString .code r := by
  unfold ParseArray at h
  by_cases c0 : peek p ≠ '['
  · rw [if_pos c0] at h
    cases h
  rw [if_neg c0] at h
  have c0' : peek p = '[' := by simpa using c0
  rw [ms_code_tail c0' (by decide), ← ms_code_SkipWhitespace]
  by_cases c1 : peek (SkipWhitespace p.tail) = ']'
  · rw [if_pos c1] at h
    injection h with h
    injection h with ha hb
    subst hb
    exact ms_code_tail c1 (by decide)
  rw [if_neg c1] at h
  exact ParseArray_loop_ms hpv _ _ _ _ _ h

theorem ParseObject_loop_ms {pv : string → Except TException (TJsonNode × string)}
    (hpv : ∀ p v r, pv p = .ok (v, r) →
      hasMalformedString .code p = hasMalformedString .code r)
    (fuel : Nat) (p : string) (acc : List (string × TJsonNode))
    (v : TJsonNode) (r : string) (h : ParseObject_loop pv fuel p acc = .ok (v, r)) :
    hasMalformedString .code p = hasMalformedString .code r := by
  induction fuel generalizing p acc with
  | zero => simp [ParseObject_loop] at h
  | succ fuel ih =>
    rw [ParseObject_loop] at h
    by_cases c0 : peek (SkipWhitespace p) ≠ '"'
    · rw [if_pos c0] at h
      cases h
    rw [if_neg c0] at h
    cases hk : ParseString (SkipWhitespace p) with
    | error e => rw [hk] at h; cases h
    | ok res =>
      obtain ⟨keyNode, p1⟩ := res
      rw [hk] at h
      simp only at h
      cases hs : operator_string keyNode with
      | error e => rw [hs] at h; cases h
      | ok key =>
        rw [hs] at h
        simp only at h
        by_cases c1 : peek (SkipWhitespace p1) ≠ ':'
        · rw [if_pos c1] at h
          cases h
        rw [if_neg c1] at h
        have c1' : peek (SkipWhitespace p1) = ':' := by simpa using c1
        cases hv : pv (SkipWhitespace p1).tail with
        | error e => rw [hv] at h; cases h
        | ok res2 =>
          obtain ⟨x, p2⟩ := res2
          rw [hv] at h
          simp only at h
          rw [← ms_code_SkipWhitespace p, ParseString_ms hk, ← ms_code_SkipWhitespace p1,
            ms_code_tail c1' (by decide), hpv _ _ _ hv, ← ms_code_SkipWhitespace p2]
          by_cases c2 : peek (SkipWhitespace p2) = '}'
          · rw [if_pos c2] at h
            injection h with h
            injection h with ha hb
            subst hb
            exact ms_code_tail c2 (by decide)
          rw [if_neg c2] at h
          by_cases c3 : peek (SkipWhitespace p2) ≠ ','
          · rw [if_pos c3] at h
            cases h
          rw [if_neg c3] at h
          have c3' : peek (SkipWhitespace p2) = ',' := by simpa using c3
          rw [ms_code_tail c3' (by decide)]
          exact ih _ _ h

theorem ParseObject_ms {pv : string → Except TException (TJsonNode × string)}
    (hpv : ∀ p v r, pv p = .ok (v, r) →
      hasMalformedString .code p = hasMalformedString .code r)
    {p r : string} {v : TJsonNode}
    (h : ParseObject pv p = .ok (v, r)) :
    hasMalformedString .code p = hasMalformedString .code r := by
  unfold ParseObject at h
  by_cases c0 : peek p ≠ '{'
  · rw [if_pos c0] at h
    cases h
  rw [if_neg c0] at h
  have c0' : peek p = '{' := by simpa using c0
  rw [ms_code_tail c0' (by decide), ← ms_code_SkipWhitespace]
  by_cases c1 : peek (SkipWhitespace p.tail) = '}'
  · rw [if_pos c1] at h
    injection h with h
    injection h with ha hb
    subst hb
    exact ms_code_tail c1 (by decide)
  rw [if_neg c1] at h
  exact ParseObject_loop_ms hpv _ _ _ _ _ h

theorem ParseValue_ms (fuel : Nat) (p : string) (v : TJsonNode) (r : string)
    (h : ParseValue fuel p = .ok (v, r)) :
    hasMalformedString .code p = hasMalformedString .code r := by
  induction fuel generalizing p v r with
  | zero => simp [ParseValue] at h
  | succ fuel ih =>
    rw [ParseValue] at h
    rw [← ms_code_SkipWhitespace p]
    by_cases c1 : peek (SkipWhitespace p) = 'n'
    · rw [if_pos c1] at h
      exact ParseLiteral_ms (by decide) h
    rw [if_neg c1] at h
    by_cases c2 : peek (SkipWhitespace p) = 't'
    · rw [if_pos c2] at h
      exact ParseLiteral_ms (by decide) h
    rw [if_neg c2] at h
    by_cases c3 : peek (SkipWhitespace p) = 'f'
    · rw [if_pos c3] at h
      exact ParseLiteral_ms (by decide) h
    rw [if_neg c3] at h
    by_cases c4 : peek (SkipWhitespace p) = '"'
    · rw [if_pos c4] at h
      exact ParseString_ms h
    rw [if_neg c4] at h
    by_cases c5 : peek (SkipWhitespace p) = '['
    · rw [if_pos c5] at h
      exact ParseArray_ms ih h
    rw [if_neg c5] at h
    by_cases c6 : peek (SkipWhitespace p) = '{'
    · rw [if_pos c6] at h
      exact ParseObject_ms ih h
    rw [if_neg c6] at h
    by_cases c7 : peek (SkipWhitespace p) = '-' ∨ isDigit (peek (SkipWhitespace p)) = true
    · rw [if_pos c7] at h
      exact ParseNumber_ms h
    · rw [if_neg c7] at h
      cases h

theorem hasMalformedString_whitespace (w : string) (hw : ∀ c ∈ w, isWhitespace c = true) :
    hasMalformedString .code w = false := by
  rw [← ms_code_SkipWhitespace, (SkipWhitespace_eq_nil_iff w).mpr hw]
  rfl

/-- A text that `Parse` accepts has no malformed string literal. -/
theorem Parse_ok_no_malformed_string (json : string) (hnul : ∀ c ∈ json, c ≠ Char.ofNat 0)
    (v : TJsonNode) (h : Parse json = .ok v) : hasMalformedString .code json = false := by
  obtain ⟨fuel, rest, hv, hws⟩ := (Parse_ok_iff json hnul v).mp h
  rw [← ms_code_SkipWhitespace, ParseValue_ms _ _ _ _ hv]
  exact hasMalformedString_whitespace rest hws

theorem Parse_malformed_string_not_ok (json : string) (hnul : ∀ c ∈ json, c ≠ Char.ofNat 0)
    (h : hasMalformedString .code json = true) : ∃ e, Parse json = .error e := by
  cases hp : Parse json with
  | error e => exact ⟨e, rfl⟩
  | ok v =>
    rw [Parse_ok_no_malformed_string json hnul v hp] at h
    cases h

/-- C25 (as stated, refuted): in the text `[1e999,"abc]` the string literal has no closing
`"` before the end of the input, and `Parse` does not fail with ParseError on it (the
`std::out_of_range` of `std::stod` escapes). -/
theorem Parse_malformed_string_not_ParseError :
    hasMalformedString .code ['[', '1', 'e', '9', '9', '9', ',', '"', 'a', 'b', 'c', ']'] = true
    ∧ ¬ ∃ e, Parse ['[', '1', 'e', '9', '9', '9', ',', '"', 'a', 'b', 'c', ']'] = .error e
        ∧ e.kind = some EErrorKind.ParseError := by
  have hp : Parse ['[', '1', 'e', '9', '9', '9', ',', '"', 'a', 'b', 'c', ']']
      = .error .stdOutOfRange := by
    decide!
  refine ⟨by decide, ?_⟩
  rintro ⟨e, he, hk⟩
  rw [hp] at he
  injection he with he
  subst he
  cases hk

/-! ## Scanning for a malformed object member -/

theorem mm_value_cons {c : Char}
    (h : c ≠ '"' ∧ c ≠ '{' ∧ c ≠ '[' ∧ c ≠ '}' ∧ c ≠ ']' ∧ c ≠ ',')
    (stack : List Bool) (rest : string) :
    hasMalformedMember stack .value (c :: rest) = hasMalformedMember stack .value rest := by
  obtain ⟨h1, h2, h3, h4, h5, h6⟩ := h
  have h45 : ¬ (c = '}' ∨ c = ']') := fun hc => hc.elim h4 h5
  rw [hasMalformedMember, if_neg h1, if_neg h2, if_neg h3, if_neg h45, if_neg h6]

theorem mm_value_tail {p : string} {c : Char} (h : peek p = c)
    (hc : c ≠ Char.ofNat 0 ∧ c ≠ '"' ∧ c ≠ '{' ∧ c ≠ '[' ∧ c ≠ '}' ∧ c ≠ ']' ∧ c ≠ ',')
    (stack : List Bool) :
    hasMalformedMember stack .value p = hasMalformedMember stack .value p.tail := by
  have hp := cons_peek_tail (p := p) (by rw [h]; exact hc.1)
  rw [h] at hp
  rw [hp]
  exact mm_value_cons hc.2 _ _

theorem mm_value_append (pre rest : string)
    (h : ∀ c ∈ pre, c ≠ '"' ∧ c ≠ '{' ∧ c ≠ '[' ∧ c ≠ '}' ∧ c ≠ ']' ∧ c ≠ ',')
    (stack : List Bool) :
    hasMalformedMember stack .value (pre ++ rest) = hasMalformedMember stack .value rest := by
  induction pre with
  | nil => rfl
  | cons c pre ih =>
    rw [List.cons_append, mm_value_cons (h c (List.mem_cons_self _ _))]
    exact ih (fun d hd => h d (List.mem_cons_of_mem _ hd))

theorem mm_value_SkipWhitespace (stack : List Bool) (p : string) :
    hasMalformedMember stack .value (SkipWhitespace p) = hasMalformedMember stack .value p := by
  induction p with
  | nil => rfl
  | cons c rest ih =>
    unfold SkipWhitespace
    by_cases h : c = ' ' ∨ c = '\t' ∨ c = '\n' ∨ c = '\r'
    · rw [if_pos h, ih]
      refine (mm_value_cons ?_ stack rest).symm
      rcases h with h | h | h | h <;> rw [h] <;> decide
    · rw [if_neg h]

theorem isDigit_member_plain {c : Char} (h : isDigit c = true) :
    c ≠ '"' ∧ c ≠ '{' ∧ c ≠ '[' ∧ c ≠ '}' ∧ c ≠ ']' ∧ c ≠ ',' := by
  simp only [isDigit, decide_eq_true_eq] at h
  refine ⟨?_, ?_, ?_, ?_, ?_, ?_⟩ <;> intro hc <;> rw [hc] at h <;> revert h <;> decide

theorem mm_value_dropWhile_digits (stack : List Bool) (p : string) :
    hasMalformedMember stack .value (p.dropWhile isDigit)
      = hasMalformedMember stack .value p := by
  induction p with
  | nil => rfl
  | cons c rest ih =>
    by_cases h : isDigit c = true
    · rw [List.dropWhile_cons_of_pos h, ih]
      exact (mm_value_cons (isDigit_member_plain h) stack rest).symm
    · rw [List.dropWhile_cons_of_neg h]

theorem isWhitespace_of_or {c : Char} (h : c = ' ' ∨ c = '\t' ∨ c = '\n' ∨ c = '\r') :
    isWhitespace c = true := by
  simp only [isWhitespace, decide_eq_true_eq]
  exact h

theorem mm_key_SkipWhitespace {k : EMemberScan} (hk : k = .firstKey ∨ k = .nextKey)
    (stack : List Bool) (p : string) :
    hasMalformedMember stack k (SkipWhitespace p) = hasMalformedMember stack k p := by
  induction p with
  | nil => rfl
  | cons c rest ih =>
    unfold SkipWhitespace
    by_cases h : c = ' ' ∨ c = '\t' ∨ c = '\n' ∨ c = '\r'
    · rw [if_pos h, ih]
      rcases hk with hk | hk <;> subst hk
      · conv_rhs => rw [hasMalformedMember]
        rw [if_pos (isWhitespace_of_or h)]
      · conv_rhs => rw [hasMalformedMember]
        rw [if_pos (isWhitespace_of_or h)]
    · rw [if_neg h]

theorem mm_colon_SkipWhitespace (stack : List Bool) (p : string) :
    hasMalformedMember stack .colon (SkipWhitespace p) = hasMalformedMember stack .colon p := by
  induction p with
  | nil => rfl
  | cons c rest ih =>
    unfold SkipWhitespace
    by_cases h : c = ' ' ∨ c = '\t' ∨ c = '\n' ∨ c = '\r'
    · rw [if_pos h, ih]
      conv_rhs => rw [hasMalformedMember]
      rw [if_pos (isWhitespace_of_or h)]
    · rw [if_neg h]

theorem mm_value_quote {p : string} (h : peek p = '"') (stack : List Bool) :
    hasMalformedMember stack .value p = hasMalformedMember stack .text p.tail := by
  have hp := cons_peek_tail (p := p) (by rw [h]; decide)
  rw [h] at hp
  rw [hp, hasMalformedMember, if_pos rfl]
  rfl

theorem mm_key_quote {k : EMemberScan} (hk : k = .firstKey ∨ k = .nextKey) {p : string}
    (h : peek p = '"') (stack : List Bool) :
    hasMalformedMember stack k p = hasMalformedMember stack .key p.tail := by
  have hp := cons_peek_tail (p := p) (by rw [h]; decide)
  rw [h] at hp
  have hw : ¬ isWhitespace '"' = true := by decide
  rcases hk with hk | hk <;> subst hk
  · rw [hp, hasMalformedMember, if_neg hw, if_pos rfl]
    rfl
  · rw [hp, hasMalformedMember, if_neg hw, if_pos rfl]
    rfl

theorem mm_value_open_object {p : string} (h : peek p = '{') (stack : List Bool) :
    hasMalformedMember stack .value p
      = hasMalformedMember (true :: stack) .firstKey p.tail := by
  have hp := cons_peek_tail (p := p) (by rw [h]; decide)
  rw [h] at hp
  rw [hp, hasMalformedMember, if_neg (by decide), if_pos rfl]
  rfl

theorem mm_value_open_array {p : string} (h : peek p = '[') (stack : List Bool) :
    hasMalformedMember stack .value p
      = hasMalformedMember (false :: stack) .value p.tail := by
  have hp := cons_peek_tail (p := p) (by rw [h]; decide)
  rw [h] at hp
  rw [hp, hasMalformedMember, if_neg (by decide), if_neg (by decide), if_pos rfl]
  rfl

theorem mm_value_close {p : string} (h : peek p = '}' ∨ peek p = ']') (b : Bool)
    (stack : List Bool) :
    hasMalformedMember (b :: stack) .value p = hasMalformedMember stack .value p.tail := by
  rcases h with h | h
  · have hp := cons_peek_tail (p := p) (by rw [h]; decide)
    rw [h] at hp
    rw [hp, hasMalformedMember, if_neg (by decide), if_neg (by decide), if_neg (by decide),
      if_pos (Or.inl rfl)]
    rfl
  · have hp := cons_peek_tail (p := p) (by rw [h]; decide)
    rw [h] at hp
    rw [hp, hasMalformedMember, if_neg (by decide), if_neg (by decide), if_neg (by decide),
      if_pos (Or.inr rfl)]
    rfl

theorem mm_firstKey_close {p : string} (h : peek p = '}') (b : Bool) (stack : List Bool) :
    hasMalformedMember (b :: stack) .firstKey p = hasMalformedMember stack .value p.tail := by
  have hp := cons_peek_tail (p := p) (by rw [h]; decide)
  rw [h] at hp
  have hw : ¬ isWhitespace '}' = true := by decide
  rw [hp, hasMalformedMember, if_neg hw, if_neg (by decide), if_pos rfl]
  rfl

theorem mm_value_comma_array {p : string} (h : peek p = ',') (stack : List Bool) :
    hasMalformedMember (false :: stack) .value p
      = hasMalformedMember (false :: stack) .value p.tail := by
  have hp := cons_peek_tail (p := p) (by rw [h]; decide)
  rw [h] at hp
  have h45 : ¬ (',' = '}' ∨ ',' = ']') := by decide
  rw [hp, hasMalformedMember, if_neg (by decide), if_neg (by decide), if_neg (by decide),
    if_neg h45, if_pos rfl]
  rfl

theorem mm_value_comma_object {p : string} (h : peek p = ',') (stack : List Bool) :
    hasMalformedMember (true :: stack) .value p
      = hasMalformedMember (true :: stack) .nextKey p.tail := by
  have hp := cons_peek_tail (p := p) (by rw [h]; decide)
  rw [h] at hp
  have h45 : ¬ (',' = '}' ∨ ',' = ']') := by decide
  rw [hp, hasMalformedMember, if_neg (by decide), if_neg (by decide), if_neg (by decide),
    if_neg h45, if_pos rfl]
  rfl

theorem mm_colon_step {p : string} (h : peek p = ':') (hv : valueMissing p.tail = false)
    (stack : List Bool) :
    hasMalformedMember stack .colon p = hasMalformedMember stack .value p.tail := by
  have hp := cons_peek_tail (p := p) (by rw [h]; decide)
  rw [h] at hp
  have hw : ¬ isWhitespace ':' = true := by decide
  rw [hp, hasMalformedMember, if_neg hw, if_pos rfl]
  simp only [List.tail_cons] at hv ⊢
  rw [hv, Bool.false_or]

theorem mm_string_tail {f : List Bool → EMemberScan → string → Bool}
    {sIn sEsc sOut : EMemberScan}
    (hin : ∀ stack c rest, f stack sIn (c :: rest) =
      if c = '\\' then f stack sEsc rest
      else if c = '"' then f stack sOut rest
      else f stack sIn rest)
    {p : string} {c : Char} (h : peek p = c)
    (hc : c ≠ Char.ofNat 0 ∧ c ≠ '\\' ∧ c ≠ '"') (stack : List Bool) :
    f stack sIn p = f stack sIn p.tail := by
  have hp := cons_peek_tail (p := p) (by rw [h]; exact hc.1)
  rw [h] at hp
  rw [hp, hin, if_neg hc.2.1, if_neg hc.2.2]
  rfl

theorem mm_string_quote {f : List Bool → EMemberScan → string → Bool}
    {sIn sEsc sOut : EMemberScan}
    (hin : ∀ stack c rest, f stack sIn (c :: rest) =
      if c = '\\' then f stack sEsc rest
      else if c = '"' then f stack sOut rest
      else f stack sIn rest)
    {p : string} (h : peek p = '"') (stack : List Bool) :
    f stack sIn p = f stack sOut p.tail := by
  have hp := cons_peek_tail (p := p) (by rw [h]; decide)
  rw [h] at hp
  rw [hp, hin, if_neg (by decide), if_pos rfl]
  rfl

theorem mm_string_escape {f : List Bool → EMemberScan → string → Bool}
    {sIn sEsc sOut : EMemberScan}
    (hin : ∀ stack c rest, f stack sIn (c :: rest) =
      if c = '\\' then f stack sEsc rest
      else if c = '"' then f stack sOut rest
      else f stack sIn rest)
    (hesc : ∀ stack c rest,
      f stack sEsc (c :: rest) = f stack sIn rest)
    {p : string} {c : Char} (h : peek p = '\\') (h1 : peek p.tail = c)
    (hc : c ≠ Char.ofNat 0) (stack : List Bool) :
    f stack sIn p = f stack sIn p.tail.tail := by
  have hp := cons_peek_tail (p := p) (by rw [h]; decide)
  have hq := cons_peek_tail (p := p.tail) (by rw [h1]; exact hc)
  rw [h] at hp
  rw [h1] at hq
  generalize p.tail.tail = t at hq ⊢
  generalize p.tail = q at hp hq
  subst hq
  subst hp
  rw [hin, if_pos rfl, hesc]

theorem ParseString_codepoint_mm {f : List Bool → EMemberScan → string → Bool}
    {sIn sEsc sOut : EMemberScan}
    (hin : ∀ stack c rest, f stack sIn (c :: rest) =
      if c = '\\' then f stack sEsc rest
      else if c = '"' then f stack sOut rest
      else f stack sIn rest)
    {p r : string} {cp : Nat}
    (h : ParseString_codepoint p = .ok (cp, r)) (stack : List Bool) :
    f stack sIn p = f stack sIn r := by
  unfold ParseString_codepoint at h
  cases h1 : hexValue (peek p) with
  | none => rw [h1] at h; cases h
  | some d1 =>
    rw [h1] at h
    simp only at h
    cases h2 : hexValue (peek p.tail) with
    | none => rw [h2] at h; cases h
    | some d2 =>
      rw [h2] at h
      simp only at h
      cases h3 : hexValue (peek p.tail.tail) with
      | none => rw [h3] at h; cases h
      | some d3 =>
        rw [h3] at h
        simp only at h
        cases h4 : hexValue (peek p.tail.tail.tail) with
        | none => rw [h4] at h; cases h
        | some d4 =>
          rw [h4] at h
          simp only at h
          injection h with h
          injection h with ha hb
          subst hb
          rw [mm_string_tail hin rfl (hexValue_plain h1),
            mm_string_tail hin rfl (hexValue_plain h2),
            mm_string_tail hin rfl (hexValue_plain h3),
            mm_string_tail hin rfl (hexValue_plain h4)]

theorem ParseString_loop_mm {f : List Bool → EMemberScan → string → Bool}
    {sIn sEsc sOut : EMemberScan}
    (hin : ∀ stack c rest, f stack sIn (c :: rest) =
      if c = '\\' then f stack sEsc rest
      else if c = '"' then f stack sOut rest
      else f stack sIn rest)
    (hesc : ∀ stack c rest,
      f stack sEsc (c :: rest) = f stack sIn rest)
    (stack : List Bool) (fuel : Nat) (p acc s r : string)
    (h : ParseString_loop fuel p acc = .ok (s, r)) :
    f stack sIn p = f stack sOut r := by
  induction fuel generalizing p acc with
  | zero => simp [ParseString_loop] at h
  | succ fuel ih =>
    rw [ParseString_loop] at h
    by_cases h1 : peek p = '"'
    · rw [if_pos h1] at h
      injection h with h
      injection h with ha hb
      subst hb
      exact mm_string_quote hin h1 stack
    rw [if_neg h1] at h
    by_cases h2 : peek p = Char.ofNat 0
    · rw [if_pos h2] at h
      cases h
    rw [if_neg h2] at h
    by_cases h3 : peek p = '\\'
    · rw [if_pos h3] at h
      by_cases e1 : peek p.tail = '"'
      · rw [if_pos e1] at h
        rw [mm_string_escape hin hesc h3 e1 (by decide)]
        exact ih _ _ h
      rw [if_neg e1] at h
      by_cases e2 : peek p.tail = '\\'
      · rw [if_pos e2] at h
        rw [mm_string_escape hin hesc h3 e2 (by decide)]
        exact ih _ _ h
      rw [if_neg e2] at h
      by_cases e3 : peek p.tail = '/'
      · rw [if_pos e3] at h
        rw [mm_string_escape hin hesc h3 e3 (by decide)]
        exact ih _ _ h
      rw [if_neg e3] at h
      by_cases e4 : peek p.tail = 'b'
      · rw [if_pos e4] at h
        rw [mm_string_escape hin hesc h3 e4 (by decide)]
        exact ih _ _ h
      rw [if_neg e4] at h
      by_cases e5 : peek p.tail = 'f'
      · rw [if_pos e5] at h
        rw [mm_string_escape hin hesc h3 e5 (by decide)]
        exact ih _ _ h
      rw [if_neg e5] at h
      by_cases e6 : peek p.tail = 'n'
      · rw [if_pos e6] at h
        rw [mm_string_escape hin hesc h3 e6 (by decide)]
        exact ih _ _ h
      rw [if_neg e6] at h
      by_cases e7 : peek p.tail = 'r'
      · rw [if_pos e7] at h
        rw [mm_string_escape hin hesc h3 e7 (by decide)]
        exact ih _ _ h
      rw [if_neg e7] at h
      by_cases e8 : peek p.tail = 't'
      · rw [if_pos e8] at h
        rw [mm_string_escape hin hesc h3 e8 (by decide)]
        exact ih _ _ h
      rw [if_neg e8] at h
      by_cases e9 : peek p.tail = 'u'
      · rw [if_pos e9] at h
        cases hcp : ParseString_codepoint p.tail.tail with
        | error e => rw [hcp] at h; cases h
        | ok res =>
          obtain ⟨cp, p1⟩ := res
          rw [hcp] at h
          rw [mm_string_escape hin hesc h3 e9 (by decide), ParseString_codepoint_mm hin hcp]
          by_cases hlt : cp < 128
          · simp only [hlt, if_true] at h
            exact ih _ _ h
          · simp only [hlt, if_false] at h
            exact ih _ _ h
      · rw [if_neg e9] at h
        cases h
    · rw [if_neg h3] at h
      rw [mm_string_tail hin rfl ⟨h2, h3, h1⟩]
      exact ih _ _ h

theorem mm_text_step (stack : List Bool) (c : Char) (rest : string) :
    hasMalformedMember stack .text (c :: rest) =
      if c = '\\' then hasMalformedMember stack .textEscape rest
      else if c = '"' then hasMalformedMember stack .value rest
      else hasMalformedMember stack .text rest := by
  rw [hasMalformedMember]

theorem mm_textEscape_step (stack : List Bool) (c : Char) (rest : string) :
    hasMalformedMember stack .textEscape (c :: rest) = hasMalformedMember stack .text rest := by
  rw [hasMalformedMember]

theorem mm_key_step (stack : List Bool) (c : Char) (rest : string) :
    hasMalformedMember stack .key (c :: rest) =
      if c = '\\' then hasMalformedMember stack .keyEscape rest
      else if c = '"' then hasMalformedMember stack .colon rest
      else hasMalformedMember stack .key rest := by
  rw [hasMalformedMember]

theorem mm_keyEscape_step (stack : List Bool) (c : Char) (rest : string) :
    hasMalformedMember stack .keyEscape (c :: rest) = hasMalformedMember stack .key rest := by
  rw [hasMalformedMember]

theorem ParseString_mm {p r : string} {v : TJsonNode}
    (h : ParseString p = .ok (v, r)) (stack : List Bool) :
    hasMalformedMember stack .value p = hasMalformedMember stack .value r := by
  unfold ParseString at h
  by_cases h1 : peek p ≠ '"'
  · rw [if_pos h1] at h
    cases h
  rw [if_neg h1] at h
  have h1' : peek p = '"' := by simpa using h1
  cases hl : ParseString_loop (p.tail.length + 1) p.tail [] with
  | error e => rw [hl] at h; cases h
  | ok res =>
    obtain ⟨s, p1⟩ := res
    rw [hl] at h
    injection h with h
    injection h with ha hb
    subst hb
    rw [mm_value_quote h1']
    exact ParseString_loop_mm mm_text_step mm_textEscape_step stack _ _ _ _ _ hl

theorem ParseString_mm_key {k : EMemberScan} (hk : k = .firstKey ∨ k = .nextKey)
    {p r : string} {v : TJsonNode}
    (h : ParseString p = .ok (v, r)) (stack : List Bool) :
    hasMalformedMember stack k p = hasMalformedMember stack .colon r := by
  unfold ParseString at h
  by_cases h1 : peek p ≠ '"'
  · rw [if_pos h1] at h
    cases h
  rw [if_neg h1] at h
  have h1' : peek p = '"' := by simpa using h1
  cases hl : ParseString_loop (p.tail.length + 1) p.tail [] with
  | error e => rw [hl] at h; cases h
  | ok res =>
    obtain ⟨s, p1⟩ := res
    rw [hl] at h
    injection h with h
    injection h with ha hb
    subst hb
    rw [mm_key_quote hk h1']
    exact ParseString_loop_mm mm_key_step mm_keyEscape_step stack _ _ _ _ _ hl

theorem ParseLiteral_mm {p lit r : string} {v w : TJsonNode}
    (hlit : ∀ c ∈ lit, c ≠ '"' ∧ c ≠ '{' ∧ c ≠ '[' ∧ c ≠ '}' ∧ c ≠ ']' ∧ c ≠ ',')
    (h : ParseLiteral p lit v = .ok (w, r)) (stack : List Bool) :
    hasMalformedMember stack .value p = hasMalformedMember stack .value r := by
  unfold ParseLiteral at h
  by_cases h1 : p.take lit.length = lit
  · rw [if_pos h1] at h
    injection h with h
    injection h with ha hb
    subst hb
    have hp : p = lit ++ p.drop lit.length := by
      conv_lhs => rw [← List.take_append_drop lit.length p, h1]
    conv_lhs => rw [hp]
    exact mm_value_append _ _ hlit stack
  · rw [if_neg h1] at h
    cases h

theorem ParseNumber_integer_mm {p r : string}
    (h : ParseNumber_integer p = .ok r) (stack : List Bool) :
    hasMalformedMember stack .value p = hasMalformedMember stack .value r := by
  unfold ParseNumber_integer at h
  by_cases h1 : peek p = '0'
  · rw [if_pos h1] at h
    injection h with h
    subst h
    exact mm_value_tail h1 (by decide) stack
  rw [if_neg h1] at h
  by_cases h2 : 49 ≤ (peek p).toNat ∧ (peek p).toNat ≤ 57
  · rw [if_pos h2] at h
    injection h with h
    subst h
    exact (mm_value_dropWhile_digits stack p).symm
  · rw [if_neg h2] at h
    cases h

theorem ParseNumber_fraction_mm {p r : string}
    (h : ParseNumber_fraction p = .ok r) (stack : List Bool) :
    hasMalformedMember stack .value p = hasMalformedMember stack .value r := by
  unfold ParseNumber_fraction at h
  by_cases h1 : peek p = '.'
  · rw [if_pos h1] at h
    by_cases h2 : isDigit (peek p.tail) = true
    · rw [if_pos h2] at h
      injection h with h
      subst h
      rw [mm_value_dropWhile_digits]
      exact mm_value_tail h1 (by decide) stack
    · rw [if_neg h2] at h
      cases h
  · rw [if_neg h1] at h
    injection h with h
    subst h
    rfl

theorem ParseNumber_exponent_mm {p r : string}
    (h : ParseNumber_exponent p = .ok r) (stack : List Bool) :
    hasMalformedMember stack .value p = hasMalformedMember stack .value r := by
  unfold ParseNumber_exponent at h
  by_cases h1 : peek p = 'e' ∨ peek p = 'E'
  · rw [if_pos h1] at h
    have s1 : hasMalformedMember stack .value p = hasMalformedMember stack .value p.tail := by
      rcases h1 with h1 | h1
      · exact mm_value_tail h1 (by decide) stack
      · exact mm_value_tail h1 (by decide) stack
    by_cases h2 : peek p.tail = '+' ∨ peek p.tail = '-'
    · rw [if_pos h2] at h
      have s2 : hasMalformedMember stack .value p.tail
          = hasMalformedMember stack .value p.tail.tail := by
        rcases h2 with h2 | h2
        · exact mm_value_tail h2 (by decide) stack
        · exact mm_value_tail h2 (by decide) stack
      by_cases h3 : isDigit (peek p.tail.tail) = true
      · rw [if_pos h3] at h
        injection h with h
        subst h
        rw [mm_value_dropWhile_digits, s1, s2]
      · rw [if_neg h3] at h
        cases h
    · rw [if_neg h2] at h
      by_cases h3 : isDigit (peek p.tail) = true
      · rw [if_pos h3] at h
        injection h with h
        subst h
        rw [mm_value_dropWhile_digits, s1]
      · rw [if_neg h3] at h
        cases h
  · rw [if_neg h1] at h
    injection h with h
    subst h
    rfl

theorem ParseNumber_mm {p r : string} {v : TJsonNode}
    (h : ParseNumber p = .ok (v, r)) (stack : List Bool) :
    hasMalformedMember stack .value p = hasMalformedMember stack .value r := by
  unfold ParseNumber at h
  cases h1 : ParseNumber_integer (if peek p = '-' then p.tail else p) with
  | error e => rw [h1] at h; cases h
  | ok p1 =>
    rw [h1] at h
    simp only at h
    cases h2 : ParseNumber_fraction p1 with
    | error e => rw [h2] at h; cases h
    | ok p2 =>
      rw [h2] at h
      simp only at h
      cases h3 : ParseNumber_exponent p2 with
      | error e => rw [h3] at h; cases h
      | ok p3 =>
        rw [h3] at h
        simp only at h
        cases h4 : stod (p.take (p.length - p3.length)) with
        | error e => simp [h4] at h
        | ok d =>
          rw [h4] at h
          injection h with h
          injection h with ha hb
          subst hb
          have hs : hasMalformedMember stack .value p
              = hasMalformedMember stack .value (if peek p = '-' then p.tail else p) := by
            by_cases hm : peek p = '-'
            · rw [if_pos hm]
              exact mm_value_tail hm (by decide) stack
            · rw [if_neg hm]
          rw [hs, ParseNumber_integer_mm h1, ParseNumber_fraction_mm h2,
            ParseNumber_exponent_mm h3]

theorem ParseArray_loop_mm {pv : string → Except TException (TJsonNode × string)}
    (hpv : ∀ p v r stack, pv p = .ok (v, r) →
      hasMalformedMember stack .value p = hasMalformedMember stack .value r)
    (stack : List Bool) (fuel : Nat) (p : string) (acc : List TJsonNode) (v : TJsonNode)
    (r : string) (h : ParseArray_loop pv fuel p acc = .ok (v, r)) :
    hasMalformedMember (false :: stack) .value p = hasMalformedMember stack .value r := by
  induction fuel generalizing p acc with
  | zero => simp [ParseArray_loop] at h
  | succ fuel ih =>
    rw [ParseArray_loop] at h
    cases hv : pv p with
    | error e => rw [hv] at h; cases h
    | ok res =>
      obtain ⟨x, p1⟩ := res
      rw [hv] at h
      simp only at h
      rw [hpv _ _ _ _ hv, ← mm_value_SkipWhitespace _ p1]
      by_cases c1 : peek (SkipWhitespace p1) = ']'
      · rw [if_pos c1] at h
        injection h with h
        injection h with ha hb
        subst hb
        exact mm_value_close (Or.inr c1) false stack
      rw [if_neg c1] at h
      by_cases c2 : peek (SkipWhitespace p1) ≠ ','
      · rw [if_pos c2] at h
        cases h
      rw [if_neg c2] at h
      have c2' : peek (SkipWhitespace p1) = ',' := by simpa using c2
      rw [mm_value_comma_array c2', ← mm_value_SkipWhitespace]
      exact ih _ _ h

theorem ParseArray_mm {pv : string → Except TException (TJsonNode × string)}
    (hpv : ∀ p v r stack, pv p = .ok (v, r) →
      hasMalformedMember stack .value p = hasMalformedMember stack .value r)
    {p r : string} {v : TJsonNode}
    (h : ParseArray pv p = .ok (v, r)) (stack : List Bool) :
    hasMalformedMember stack .value p = hasMalformedMember stack .value r := by
  unfold ParseArray at h
  by_cases c0 : peek p ≠ '['
  · rw [if_pos c0] at h
    cases h
  rw [if_neg c0] at h
  have c0' : peek p = '[' := by simpa using c0
  rw [mm_value_open_array c0', ← mm_value_SkipWhitespace]
  by_cases c1 : peek (SkipWhitespace p.tail) = ']'
  · rw [if_pos c1] at h
    injection h with h
    injection h with ha hb
    subst hb
    exact mm_value_close (Or.inr c1) false stack
  rw [if_neg c1] at h
  exact ParseArray_loop_mm hpv stack _ _ _ _ _ h

theorem ParseObject_loop_mm {pv : string → Except TException (TJsonNode × string)}
    (hpv : ∀ p v r stack, pv p = .ok (v, r) →
      hasMalformedMember stack .value p = hasMalformedMember stack .value r)
    (hstart : ∀ p res, pv p = .ok res →
      peek (SkipWhitespace p) ≠ '}' ∧ peek (SkipWhitespace p) ≠ ',')
    (stack : List Bool) {k : EMemberScan} (hk : k = .firstKey ∨ k = .nextKey)
    (fuel : Nat) (p : string) (acc : List (string × TJsonNode))
    (v : TJsonNode) (r : string) (h : ParseObject_loop pv fuel p acc = .ok (v, r)) :
    hasMalformedMember (true :: stack) k p = hasMalformedMember stack .value r := by
  induction fuel generalizing p acc k with
  | zero => simp [ParseObject_loop] at h
  | succ fuel ih =>
    rw [ParseObject_loop] at h
    by_cases c0 : peek (SkipWhitespace p) ≠ '"'
    · rw [if_pos c0] at h
      cases h
    rw [if_neg c0] at h
    cases hkey : ParseString (SkipWhitespace p) with
    | error e => rw [hkey] at h; cases h
    | ok res =>
      obtain ⟨keyNode, p1⟩ := res
      rw [hkey] at h
      simp only at h
      cases hs : operator_string keyNode with
      | error e => rw [hs] at h; cases h
      | ok key =>
        rw [hs] at h
        simp only at h
        by_cases c1 : peek (SkipWhitespace p1) ≠ ':'
        · rw [if_pos c1] at h
          cases h
        rw [if_neg c1] at h
        have c1' : peek (SkipWhitespace p1) = ':' := by simpa using c1
        cases hv : pv (SkipWhitespace p1).tail with
        | error e => rw [hv] at h; cases h
        | ok res2 =>
          obtain ⟨x, p2⟩ := res2
          rw [hv] at h
          simp only at h
          have hvm : valueMissing (SkipWhitespace p1).tail = false := by
            obtain ⟨n1, n2⟩ := hstart _ _ hv
            simp only [valueMissing, decide_eq_false_iff_not, not_or]
            exact ⟨n1, n2⟩
          rw [← mm_key_SkipWhitespace hk _ p, ParseString_mm_key hk hkey,
            ← mm_colon_SkipWhitespace _ p1, mm_colon_step c1' hvm, hpv _ _ _ _ hv,
            ← mm_value_SkipWhitespace _ p2]
          by_cases c2 : peek (SkipWhitespace p2) = '}'
          · rw [if_pos c2] at h
            injection h with h
            injection h with ha hb
            subst hb
            exact mm_value_close (Or.inl c2) true stack
          rw [if_neg c2] at h
          by_cases c3 : peek (SkipWhitespace p2) ≠ ','
          · rw [if_pos c3] at h
            cases h
          rw [if_neg c3] at h
          have c3' : peek (SkipWhitespace p2) = ',' := by simpa using c3
          rw [mm_value_comma_object c3']
          exact ih (Or.inr rfl) _ _ h

theorem ParseObject_mm {pv : string → Except TException (TJsonNode × string)}
    (hpv : ∀ p v r stack, pv p = .ok (v, r) →
      hasMalformedMember stack .value p = hasMalformedMember stack .value r)
    (hstart : ∀ p res, pv p = .ok res →
      peek (SkipWhitespace p) ≠ '}' ∧ peek (SkipWhitespace p) ≠ ',')
    {p r : string} {v : TJsonNode}
    (h : ParseObject pv p = .ok (v, r)) (stack : List Bool) :
    hasMalformedMember stack .value p = hasMalformedMember stack .value r := by
  unfold ParseObject at h
  by_cases c0 : peek p ≠ '{'
  · rw [if_pos c0] at h
    cases h
  rw [if_neg c0] at h
  have c0' : peek p = '{' := by simpa using c0
  rw [mm_value_open_object c0', ← mm_key_SkipWhitespace (Or.inl rfl)]
  by_cases c1 : peek (SkipWhitespace p.tail) = '}'
  · rw [if_pos c1] at h
    injection h with h
    injection h with ha hb
    subst hb
    exact mm_firstKey_close c1 true stack
  rw [if_neg c1] at h
  exact ParseObject_loop_mm hpv hstart stack (Or.inl rfl) _ _ _ _ _ h

theorem ParseValue_ok_peek_member {fuel : Nat} {p : string} {res : TJsonNode × string}
    (h : ParseValue fuel p = .ok res) :
    peek (SkipWhitespace p) ≠ '}' ∧ peek (SkipWhitespace p) ≠ ',' := by
  have := ParseValue_ok_peek h
  constructor
  · intro hc
    rw [hc] at this
    revert this
    decide
  · intro hc
    rw [hc] at this
    revert this
    decide

theorem ParseValue_mm (fuel : Nat) (p : string) (v : TJsonNode) (r : string)
    (stack : List Bool) (h : ParseValue fuel p = .ok (v, r)) :
    hasMalformedMember stack .value p = hasMalformedMember stack .value r := by
  induction fuel generalizing p v r stack with
  | zero => simp [ParseValue] at h
  | succ fuel ih =>
    rw [ParseValue] at h
    rw [← mm_value_SkipWhitespace _ p]
    by_cases c1 : peek (SkipWhitespace p) = 'n'
    · rw [if_pos c1] at h
      exact ParseLiteral_mm (by decide) h stack
    rw [if_neg c1] at h
    by_cases c2 : peek (SkipWhitespace p) = 't'
    · rw [if_pos c2] at h
      exact ParseLiteral_mm (by decide) h stack
    rw [if_neg c2] at h
    by_cases c3 : peek (SkipWhitespace p) = 'f'
    · rw [if_pos c3] at h
      exact ParseLiteral_mm (by decide) h stack
    rw [if_neg c3] at h
    by_cases c4 : peek (SkipWhitespace p) = '"'
    · rw [if_pos c4] at h
      exact ParseString_mm h stack
    rw [if_neg c4] at h
    by_cases c5 : peek (SkipWhitespace p) = '['
    · rw [if_pos c5] at h
      exact ParseArray_mm (fun p v r stack hp => ih p v r stack hp) h stack
    rw [if_neg c5] at h
    by_cases c6 : peek (SkipWhitespace p) = '{'
    · rw [if_pos c6] at h
      exact ParseObject_mm (fun p v r stack hp => ih p v r stack hp)
        (fun p res hp => ParseValue_ok_peek_member hp) h stack
    rw [if_neg c6] at h
    by_cases c7 : peek (SkipWhitespace p) = '-' ∨ isDigit (peek (SkipWhitespace p)) = true
    · rw [if_pos c7] at h
      exact ParseNumber_mm h stack
    · rw [if_neg c7] at h
      cases h

theorem hasMalformedMember_whitespace (w : string) (hw : ∀ c ∈ w, isWhitespace c = true)
    (stack : List Bool) : hasMalformedMember stack .value w = false := by
  rw [← mm_value_SkipWhitespace, (SkipWhitespace_eq_nil_iff w).mpr hw]
  rfl

/-- A text that `Parse` accepts has no malformed object member. -/
theorem Parse_ok_no_malformed_member (json : string) (hnul : ∀ c ∈ json, c ≠ Char.ofNat 0)
    (v : TJsonNode) (h : Parse json = .ok v) : hasMalformedMember [] .value json = false := by
  obtain ⟨fuel, rest, hv, hws⟩ := (Parse_ok_iff json hnul v).mp h
  rw [← mm_value_SkipWhitespace, ParseValue_mm _ _ _ _ _ hv]
  exact hasMalformedMember_whitespace rest hws []

theorem Parse_malformed_member_not_ok (json : string) (hnul : ∀ c ∈ json, c ≠ Char.ofNat 0)
    (h : hasMalformedMember [] .value json = true) : ∃ e, Parse json = .error e := by
  cases hp : Parse json with
  | error e => exact ⟨e, rfl⟩
  | ok v =>
    rw [Parse_ok_no_malformed_member json hnul v hp] at h
    cases h

/-- C21 (as stated, refuted): in the object text `{"x":1e999,"a":}` the `:` behind the key
`a` is followed by `}`, and `Parse` does not fail with ParseError on it (the
`std::out_of_range` of `std::stod` escapes). -/
theorem Parse_malformed_member_not_ParseError :
    hasMalformedMember [] .value
        ['{', '"', 'x', '"', ':', '1', 'e', '9', '9', '9', ',', '"', 'a', '"', ':', '}'] = true
    ∧ ¬ ∃ e, Parse
          ['{', '"', 'x', '"', ':', '1', 'e', '9', '9', '9', ',', '"', 'a', '"', ':', '}']
          = .error e
        ∧ e.kind = some EErrorKind.ParseError := by
  have hp : Parse
      ['{', '"', 'x', '"', ':', '1', 'e', '9', '9', '9', ',', '"', 'a', '"', ':', '}']
      = .error .stdOutOfRange := by
    decide!
  refine ⟨by decide, ?_⟩
  rintro ⟨e, he, hk⟩
  rw [hp] at he
  injection he with he
  subst he
  cases hk

/-! ## Inserting whitespace -/

theorem scanState_append (s : EScanState) (x y : string) :
    scanState s (x ++ y) = scanState (scanState s x) y := by
  induction x generalizing s with
  | nil => cases s <;> rfl
  | cons c x ih =>
    cases s with
    | code =>
      rw [List.cons_append, scanState, scanState]
      by_cases h : c = '"'
      · rw [if_pos h, if_pos h]; exact ih _
      · rw [if_neg h, if_neg h]; exact ih _
    | text =>
      rw [List.cons_append, scanState, scanState]
      by_cases h : c = '\\'
      · rw [if_pos h, if_pos h]; exact ih _
      · rw [if_neg h, if_neg h]
        by_cases h2 : c = '"'
        · rw [if_pos h2, if_pos h2]; exact ih _
        · rw [if_neg h2, if_neg h2]; exact ih _
    | escape =>
      rw [List.cons_append, scanState, scanState]
      exact ih _

theorem scanState_code_cons {c : Char} (h : c ≠ '"') (x : string) :
    scanState .code (c :: x) = scanState .code x := by
  rw [scanState, if_neg h]

theorem scanState_code_of_plain (x : string) (h : ∀ c ∈ x, c ≠ '"') :
    scanState .code x = .code := by
  induction x with
  | nil => rfl
  | cons c x ih =>
    rw [scanState_code_cons (h c (List.mem_cons_self _ _))]
    exact ih (fun d hd => h d (List.mem_cons_of_mem _ hd))

theorem scanState_text_cons {c : Char} (h1 : c ≠ '\\') (h2 : c ≠ '"') (x : string) :
    scanState .text (c :: x) = scanState .text x := by
  rw [scanState, if_neg h1, if_neg h2]

theorem isStructural_ne_quote {c : Char} (h : isStructural c = true) : c ≠ '"' := by
  intro hc
  rw [hc] at h
  revert h
  decide

theorem isStructural_not_ws {c : Char} (h : isWhitespace c = true) :
    isStructural c = false := by
  simp only [isWhitespace, decide_eq_true_eq] at h
  rcases h with h | h | h | h <;> rw [h] <;> decide

theorem Boundary.advance {c x b : string} (h : Boundary (c ++ x) b)
    (hc : scanState .code c = .code) : Boundary x b := by
  rcases h with hb | ⟨hs, hl⟩
  · exact Or.inl hb
  · refine Or.inr ⟨?_, ?_⟩
    · rw [scanState_append, hc] at hs
      exact hs
    · by_cases hx : x = []
      · exact Or.inl hx
      · rcases hl with h1 | ⟨l, h2, h3⟩ | h3
        · exact absurd (List.append_eq_nil.mp h1).2 hx
        · rw [List.getLast?_append_of_ne_nil _ hx] at h2
          exact Or.inr (Or.inl ⟨l, h2, h3⟩)
        · exact Or.inr (Or.inr h3)

theorem Boundary.not_straddle {a b : string} (h : Boundary a b) (ha : a ≠ [])
    (hl : ∀ c, a.getLast? = some c → isStructural c = false) (hb : b ≠ [])
    (hp : isStructural (peek b) = false) : False := by
  rcases h with h | ⟨_, h | ⟨l, h2, h3⟩ | h⟩
  · exact hb h
  · exact ha h
  · rw [hl l h2] at h3
    cases h3
  · rw [hp] at h
    cases h

theorem Boundary_of_InsertionPoint {a b : string} (h : InsertionPoint a b) :
    Boundary a b := by
  rcases h with h | h | ⟨a0, c, h1, h2, h3⟩ | ⟨c, b0, h1, h2, h3⟩
  · subst h
    exact Or.inr ⟨rfl, Or.inl rfl⟩
  · exact Or.inl h
  · subst h1
    refine Or.inr ⟨?_, Or.inr (Or.inl ⟨c, by simp, h2⟩)⟩
    rw [scanState_append, h3, scanState_code_cons (isStructural_ne_quote h2)]
    rfl
  · subst h1
    exact Or.inr ⟨h3, Or.inr (Or.inr h2)⟩

/-- A token without structural characters and quotes that is read from a cursor strictly in
front of the place ends in front of the place. -/
theorem token_within {tok r a b : string} (htok : ∀ c ∈ tok, isStructural c = false)
    (heq : tok ++ r = a ++ b) (ha : a ≠ []) (hB : Boundary a b) :
    ∃ x, a = tok ++ x ∧ r = x ++ b := by
  rcases List.append_eq_append_iff.mp heq with ⟨m, h1, h2⟩ | ⟨m, h1, h2⟩
  · exact ⟨m, h1, h2⟩
  · cases m with
    | nil =>
      refine ⟨[], ?_, ?_⟩
      · rw [h1, List.append_nil, List.append_nil]
      · rw [h2]; rfl
    | cons c m =>
      exfalso
      refine hB.not_straddle ha ?_ ?_ ?_
      · intro l hl
        exact htok l (by rw [h1]; exact List.mem_append_left _ (List.mem_of_mem_getLast? hl))
      · rw [h2]; exact List.cons_ne_nil _ _
      · rw [h2]
        exact htok c (by rw [h1]; exact List.mem_append_right _ (List.mem_cons_self _ _))

theorem Inserted.of_consumed (w : string) {a b c x : string} (hB : Boundary a b)
    (ha : a = c ++ x) (hc : scanState .code c = .code) :
    Inserted w b (x ++ b) (x ++ (w ++ b)) := by
  subst ha
  exact Or.inr ⟨x, rfl, rfl, hB.advance hc⟩

theorem InsertedInside.inserted {w b p p1 : string} (h : InsertedInside w b p p1) :
    Inserted w b p p1 := by
  rcases h with h | ⟨a, _, h1, h2, h3⟩
  · exact Or.inl h
  · exact Or.inr ⟨a, h1, h2, h3⟩

theorem InsertedInside.peek_eq {w b p p1 : string} (h : InsertedInside w b p p1) :
    peek p1 = peek p := by
  rcases h with h | ⟨a, ha, h1, h2, _⟩
  · rw [h]
  · cases a with
    | nil => exact absurd rfl ha
    | cons c a => rw [h1, h2]; rfl

theorem Inserted.length_le {w b p p1 : string} (h : Inserted w b p p1) :
    p.length ≤ p1.length := by
  rcases h with h | ⟨a, h1, h2, _⟩
  · rw [h]
  · rw [h1, h2]
    simp only [List.length_append]
    omega

theorem InsertedInside.tail {w b p p1 : string} (h : InsertedInside w b p p1)
    (hq : peek p ≠ '"') : Inserted w b p.tail p1.tail := by
  rcases h with h | ⟨a, ha, h1, h2, hB⟩
  · rw [h]; exact Or.inl rfl
  · cases a with
    | nil => exact absurd rfl ha
    | cons c a =>
      subst h1 h2
      have hc : c ≠ '"' := hq
      refine Or.inr ⟨a, rfl, rfl, ?_⟩
      have hB' : Boundary ([c] ++ a) b := hB
      exact hB'.advance (by rw [scanState_code_cons hc]; rfl)

theorem Inserted.skipWhitespace {w b p p1 : string} (hw : ∀ c ∈ w, isWhitespace c = true)
    (h : Inserted w b p p1) :
    InsertedInside w b (SkipWhitespace p) (SkipWhitespace p1) := by
  rcases h with h | ⟨a, h1, h2, hB⟩
  · rw [h]; exact Or.inl rfl
  · subst h1 h2
    induction a with
    | nil =>
      left
      rw [List.nil_append, List.nil_append, SkipWhitespace_append_ws hw]
    | cons c a ih =>
      by_cases hc : c = ' ' ∨ c = '\t' ∨ c = '\n' ∨ c = '\r'
      · rw [List.cons_append, List.cons_append, TJsonNode.SkipWhitespace, if_pos hc,
          TJsonNode.SkipWhitespace, if_pos hc]
        have hB' : Boundary ([c] ++ a) b := hB
        refine ih (hB'.advance ?_)
        rw [scanState_code_cons]
        · rfl
        · rcases hc with h | h | h | h <;> rw [h] <;> decide
      · rw [List.cons_append, List.cons_append, TJsonNode.SkipWhitespace, if_neg hc,
          TJsonNode.SkipWhitespace, if_neg hc]
        exact Or.inr ⟨c :: a, List.cons_ne_nil _ _, rfl, rfl, hB⟩

theorem isDigit_token {c : Char} (h : isDigit c = true) :
    c ≠ '"' ∧ isStructural c = false ∧ isWhitespace c = false := by
  simp only [isDigit, decide_eq_true_eq] at h
  refine ⟨?_, ?_, ?_⟩
  · intro hc; rw [hc] at h; revert h; decide
  · cases hs : isStructural c with
    | false => rfl
    | true =>
      simp only [isStructural, decide_eq_true_eq] at hs
      rcases hs with hs | hs | hs | hs | hs | hs <;> rw [hs] at h <;> revert h <;> decide
  · cases hs : isWhitespace c with
    | false => rfl
    | true =>
      simp only [isWhitespace, decide_eq_true_eq] at hs
      rcases hs with hs | hs | hs | hs <;> rw [hs] at h <;> revert h <;> decide

theorem number_token_plain {sign ip frac ex : string} (hs : sign = [] ∨ sign = ['-'])
    (hip : IntegerPart ip) (hfrac : FractionPart frac) (hex : ExponentPart ex) :
    ∀ c ∈ sign ++ ip ++ frac ++ ex, c ≠ '"' ∧ isStructural c = false := by
  intro c hc
  have hd : ∀ d : Char, isDigit d = true → d ≠ '"' ∧ isStructural d = false :=
    fun d h => ⟨(isDigit_token h).1, (isDigit_token h).2.1⟩
  simp only [List.mem_append] at hc
  rcases hc with ((hc | hc) | hc) | hc
  · rcases hs with h | h
    · subst h; cases hc
    · subst h
      simp only [List.mem_singleton] at hc
      subst hc
      exact ⟨by decide, by decide⟩
  · exact hd c (hip.digits c hc)
  · rcases hfrac with h | ⟨fp, h, _, hfp⟩
    · subst h; cases hc
    · subst h
      rcases List.mem_cons.mp hc with hc | hc
      · subst hc
        exact ⟨by decide, by decide⟩
      · exact hd c (hfp c hc)
  · rcases hex with h | ⟨m, sg, ep, h, hm, hsg, _, hep⟩
    · subst h; cases hc
    · subst h
      rcases List.mem_cons.mp hc with hc | hc
      · subst hc
        rcases hm with hm | hm <;> subst hm <;> exact ⟨by decide, by decide⟩
      · rcases List.mem_append.mp hc with hc | hc
        · rcases hsg with h | h | h
          · subst h; cases hc
          · subst h
            simp only [List.mem_singleton] at hc
            subst hc
            exact ⟨by decide, by decide⟩
          · subst h
            simp only [List.mem_singleton] at hc
            subst hc
            exact ⟨by decide, by decide⟩
        · exact hd c (hep c hc)

theorem ParseLiteral_inserted {w b p p1 lit r : string} {v v0 : TJsonNode}
    (hlit : ∀ c ∈ lit, c ≠ '"' ∧ isStructural c = false)
    (h : ParseLiteral p lit v = .ok (v0, r)) (hi : InsertedInside w b p p1) :
    ∃ r1, ParseLiteral p1 lit v = .ok (v0, r1) ∧ Inserted w b r r1 := by
  rcases hi with hi | ⟨a, ha, h1, h2, hB⟩
  · subst hi
    exact ⟨r, h, Or.inl rfl⟩
  · unfold ParseLiteral at h
    by_cases ht : p.take lit.length = lit
    · rw [if_pos ht] at h
      injection h with h
      injection h with hv hr
      have hp : lit ++ r = a ++ b := by
        rw [← h1]
        conv_rhs => rw [← List.take_append_drop lit.length p, ht, hr]
      obtain ⟨x, hax, hrx⟩ := token_within (fun c hc => (hlit c hc).2) hp ha hB
      refine ⟨x ++ (w ++ b), ?_, ?_⟩
      · unfold ParseLiteral
        have hp1 : p1 = lit ++ (x ++ (w ++ b)) := by
          rw [h2, hax, List.append_assoc]
        rw [hp1, List.take_left, if_pos rfl, List.drop_left, hv]
      · rw [hrx]
        exact Inserted.of_consumed w hB hax
          (scanState_code_of_plain lit (fun c hc => (hlit c hc).1))
    · rw [if_neg ht] at h
      cases h

theorem ParseNumber_inserted {w b p p1 r : string} {v : TJsonNode}
    (hw : ∀ c ∈ w, isWhitespace c = true)
    (h : ParseNumber p = .ok (v, r)) (hi : InsertedInside w b p p1) :
    ∃ r1, ParseNumber p1 = .ok (v, r1) ∧ Inserted w b r r1 := by
  rcases hi with hi | ⟨a, ha, h1, h2, hB⟩
  · subst hi
    exact ⟨r, h, Or.inl rfl⟩
  · obtain ⟨sign, ip, frac, ex, d, hp, hsign, hip, hfrac, hex, hstop, hd, hv⟩ :=
      ParseNumber_parts h
    have htok := number_token_plain hsign hip hfrac hex
    have hp' : (sign ++ ip ++ frac ++ ex) ++ r = a ++ b := by rw [← hp, h1]
    obtain ⟨x, hax, hrx⟩ := token_within (fun c hc => (htok c hc).2) hp' ha hB
    refine ⟨x ++ (w ++ b), ?_, ?_⟩
    · have hstop' : StopsNumber ip frac ex (x ++ (w ++ b)) := by
        rw [hrx] at hstop
        refine StopsNumber_of_peek hstop ?_
        cases x with
        | cons c x => exact Or.inl rfl
        | nil =>
          cases w with
          | nil => exact Or.inl rfl
          | cons c w =>
            right
            have hc : c = ' ' ∨ c = '\t' ∨ c = '\n' ∨ c = '\r' := by
              simpa [isWhitespace] using hw c (List.mem_cons_self _ _)
            simp only [List.nil_append, List.cons_append]
            unfold NumberEnd
            simp only [peek, List.headD_cons]
            rcases hc with hc | hc | hc | hc <;> rw [hc] <;> decide
      have hp1 : p1 = sign ++ ip ++ frac ++ ex ++ (x ++ (w ++ b)) := by
        rw [h2, hax, List.append_assoc]
      have hres := ParseNumber_of_parts hsign hip hfrac hex _ hstop'
      rw [hd] at hres
      rw [hp1, hres, hv]
    · rw [hrx]
      exact Inserted.of_consumed w hB hax
        (scanState_code_of_plain _ (fun c hc => (htok c hc).1))

theorem ParseString_loop_quote (fuel : Nat) {p : string} (acc : string) (h : peek p = '"') :
    ParseString_loop (fuel + 1) p acc = .ok (acc, p.tail) := by
  rw [ParseString_loop, if_pos h]

theorem ParseString_loop_plain (fuel : Nat) {p : string} (acc : string) (h1 : peek p ≠ '"')
    (h2 : peek p ≠ Char.ofNat 0) (h3 : peek p ≠ '\\') :
    ParseString_loop (fuel + 1) p acc = ParseString_loop fuel p.tail (acc ++ [peek p]) := by
  rw [ParseString_loop, if_neg h1, if_neg h2, if_neg h3]

theorem ParseString_loop_simple_escape {e : Char}
    (he : e = '"' ∨ e = '\\' ∨ e = '/' ∨ e = 'b' ∨ e = 'f' ∨ e = 'n' ∨ e = 'r' ∨ e = 't') :
    ∃ u : Char, ∀ (fuel : Nat) (p acc : string), peek p = '\\' → peek p.tail = e →
      ParseString_loop (fuel + 1) p acc = ParseString_loop fuel p.tail.tail (acc ++ [u]) := by
  have hq : ∀ p : string, peek p = '\\' → peek p ≠ '"' ∧ peek p ≠ Char.ofNat 0 := by
    intro p hp
    rw [hp]
    exact ⟨by decide, by decide⟩
  rcases he with he | he | he | he | he | he | he | he <;> subst he
  · refine ⟨'"', fun fuel p acc hp h => ?_⟩
    rw [ParseString_loop, if_neg (hq p hp).1, if_neg (hq p hp).2, if_pos hp, if_pos h]
  · refine ⟨'\\', fun fuel p acc hp h => ?_⟩
    rw [ParseString_loop, if_neg (hq p hp).1, if_neg (hq p hp).2, if_pos hp,
      if_neg (by rw [h]; decide), if_pos h]
  · refine ⟨'/', fun fuel p acc hp h => ?_⟩
    rw [ParseString_loop, if_neg (hq p hp).1, if_neg (hq p hp).2, if_pos hp,
      if_neg (by rw [h]; decide), if_neg (by rw [h]; decide), if_pos h]
  · refine ⟨Char.ofNat 8, fun fuel p acc hp h => ?_⟩
    rw [ParseString_loop, if_neg (hq p hp).1, if_neg (hq p hp).2, if_pos hp,
      if_neg (by rw [h]; decide), if_neg (by rw [h]; decide), if_neg (by rw [h]; decide),
      if_pos h]
  · refine ⟨Char.ofNat 12, fun fuel p acc hp h => ?_⟩
    rw [ParseString_loop, if_neg (hq p hp).1, if_neg (hq p hp).2, if_pos hp,
      if_neg (by rw [h]; decide), if_neg (by rw [h]; decide), if_neg (by rw [h]; decide),
      if_neg (by rw [h]; decide), if_pos h]
  · refine ⟨'\n', fun fuel p acc hp h => ?_⟩
    rw [ParseString_loop, if_neg (hq p hp).1, if_neg (hq p hp).2, if_pos hp,
      if_neg (by rw [h]; decide), if_neg (by rw [h]; decide), if_neg (by rw [h]; decide),
      if_neg (by rw [h]; decide), if_neg (by rw [h]; decide), if_pos h]
  · refine ⟨'\r', fun fuel p acc hp h => ?_⟩
    rw [ParseString_loop, if_neg (hq p hp).1, if_neg (hq p hp).2, if_pos hp,
      if_neg (by rw [h]; decide), if_neg (by rw [h]; decide), if_neg (by rw [h]; decide),
      if_neg (by rw [h]; decide), if_neg (by rw [h]; decide), if_neg (by rw [h]; decide),
      if_pos h]
  · refine ⟨'\t', fun fuel p acc hp h => ?_⟩
    rw [ParseString_loop, if_neg (hq p hp).1, if_neg (hq p hp).2, if_pos hp,
      if_neg (by rw [h]; decide), if_neg (by rw [h]; decide), if_neg (by rw [h]; decide),
      if_neg (by rw [h]; decide), if_neg (by rw [h]; decide), if_neg (by rw [h]; decide),
      if_neg (by rw [h]; decide), if_pos h]

theorem ParseString_loop_escape_bad (fuel : Nat) (p acc : string)
    (hp : peek p = '\\')
    (he : ¬ (peek p.tail = '"' ∨ peek p.tail = '\\' ∨ peek p.tail = '/' ∨ peek p.tail = 'b'
      ∨ peek p.tail = 'f' ∨ peek p.tail = 'n' ∨ peek p.tail = 'r' ∨ peek p.tail = 't'))
    (hu : peek p.tail ≠ 'u') :
    ParseString_loop (fuel + 1) p acc = .error (.invalidEscape (peek p.tail)) := by
  simp only [not_or] at he
  obtain ⟨e1, e2, e3, e4, e5, e6, e7, e8⟩ := he
  rw [ParseString_loop, if_neg (by rw [hp]; decide), if_neg (by rw [hp]; decide), if_pos hp,
    if_neg e1, if_neg e2, if_neg e3, if_neg e4, if_neg e5, if_neg e6, if_neg e7, if_neg e8,
    if_neg hu]

theorem ParseString_loop_escape_u_error (fuel : Nat) (p acc : string)
    (hp : peek p = '\\') (hu : peek p.tail = 'u') {er : TException}
    (hcp : ParseString_codepoint p.tail.tail = .error er) :
    ParseString_loop (fuel + 1) p acc = .error er := by
  rw [ParseString_loop, if_neg (by rw [hp]; decide), if_neg (by rw [hp]; decide), if_pos hp,
    if_neg (by rw [hu]; decide), if_neg (by rw [hu]; decide), if_neg (by rw [hu]; decide),
    if_neg (by rw [hu]; decide), if_neg (by rw [hu]; decide), if_neg (by rw [hu]; decide),
    if_neg (by rw [hu]; decide), if_neg (by rw [hu]; decide), if_pos hu]
  simp only [hcp]

theorem ParseString_loop_escape_u (fuel : Nat) (p acc : string)
    (hp : peek p = '\\') (hu : peek p.tail = 'u') {cp : Nat} {p1 : string}
    (hcp : ParseString_codepoint p.tail.tail = .ok (cp, p1)) :
    ParseString_loop (fuel + 1) p acc
      = if cp < 128 then ParseString_loop fuel p1 (acc ++ [Char.ofNat cp])
        else ParseString_loop fuel p1 (acc ++ ['?']) := by
  rw [ParseString_loop, if_neg (by rw [hp]; decide), if_neg (by rw [hp]; decide), if_pos hp,
    if_neg (by rw [hu]; decide), if_neg (by rw [hu]; decide), if_neg (by rw [hu]; decide),
    if_neg (by rw [hu]; decide), if_neg (by rw [hu]; decide), if_neg (by rw [hu]; decide),
    if_neg (by rw [hu]; decide), if_neg (by rw [hu]; decide), if_pos hu]
  simp only [hcp]

theorem hex_inside {b x : string} {d : Nat} (hx : b = [] ∨ scanState .text x = .code)
    (h : hexValue (peek (x ++ b)) = some d) :
    ∃ c x1, x = c :: x1 ∧ hexValue c = some d ∧ (b = [] ∨ scanState .text x1 = .code) := by
  cases x with
  | nil =>
    exfalso
    rcases hx with hb | hs
    · subst hb
      have h0 : hexValue (peek ([] ++ ([] : string))) = none := by decide
      rw [h0] at h
      cases h
    · exact absurd hs (by decide)
  | cons c x1 =>
    have hc : hexValue c = some d := h
    refine ⟨c, x1, rfl, hc, hx.imp id (fun hs => ?_)⟩
    rw [scanState_text_cons (hexValue_plain hc).2.1 (hexValue_plain hc).2.2] at hs
    exact hs

theorem ParseString_codepoint_local {b x r : string} {cp : Nat}
    (hx : b = [] ∨ scanState .text x = .code)
    (h : ParseString_codepoint (x ++ b) = .ok (cp, r)) :
    ∃ c x1, x = c ++ x1 ∧ r = x1 ++ b ∧ scanState .text c = .text
      ∧ (b = [] ∨ scanState .text x1 = .code)
      ∧ ∀ y, ParseString_codepoint (x ++ y) = .ok (cp, x1 ++ y) := by
  unfold ParseString_codepoint at h
  cases h1 : hexValue (peek (x ++ b)) with
  | none => rw [h1] at h; cases h
  | some d1 =>
    rw [h1] at h
    simp only at h
    obtain ⟨c1, x1, rfl, e1, hx1⟩ := hex_inside hx h1
    cases h2 : hexValue (peek (x1 ++ b)) with
    | none =>
      have h2' : hexValue (peek ((c1 :: x1) ++ b).tail) = none := h2
      rw [h2'] at h; cases h
    | some d2 =>
      have h2' : hexValue (peek ((c1 :: x1) ++ b).tail) = some d2 := h2
      rw [h2'] at h
      simp only at h
      obtain ⟨c2, x2, rfl, e2, hx2⟩ := hex_inside hx1 h2
      cases h3 : hexValue (peek (x2 ++ b)) with
      | none =>
        have h3' : hexValue (peek ((c1 :: c2 :: x2) ++ b).tail.tail) = none := h3
        rw [h3'] at h; cases h
      | some d3 =>
        have h3' : hexValue (peek ((c1 :: c2 :: x2) ++ b).tail.tail) = some d3 := h3
        rw [h3'] at h
        simp only at h
        obtain ⟨c3, x3, rfl, e3, hx3⟩ := hex_inside hx2 h3
        cases h4 : hexValue (peek (x3 ++ b)) with
        | none =>
          have h4' : hexValue (peek ((c1 :: c2 :: c3 :: x3) ++ b).tail.tail.tail) = none := h4
          rw [h4'] at h; cases h
        | some d4 =>
          have h4' : hexValue (peek ((c1 :: c2 :: c3 :: x3) ++ b).tail.tail.tail) = some d4 :=
            h4
          rw [h4'] at h
          simp only at h
          obtain ⟨c4, x4, rfl, e4, hx4⟩ := hex_inside hx3 h4
          injection h with h
          injection h with ha hb
          refine ⟨[c1, c2, c3, c4], x4, rfl, hb.symm, ?_, hx4, ?_⟩
          · rw [scanState_text_cons (hexValue_plain e1).2.1 (hexValue_plain e1).2.2,
              scanState_text_cons (hexValue_plain e2).2.1 (hexValue_plain e2).2.2,
              scanState_text_cons (hexValue_plain e3).2.1 (hexValue_plain e3).2.2,
              scanState_text_cons (hexValue_plain e4).2.1 (hexValue_plain e4).2.2]
            rfl
          · intro y
            rw [← ha]
            exact ParseString_codepoint_of_hexValue e1 e2 e3 e4 (x4 ++ y)

theorem ParseString_loop_local {b : string} (fuel : Nat) (x acc s r : string)
    (hx : b = [] ∨ scanState .text x = .code)
    (h : ParseString_loop fuel (x ++ b) acc = .ok (s, r)) :
    ∃ c x1, x = c ++ x1 ∧ r = x1 ++ b ∧ scanState .text c = .code
      ∧ ∀ y fuel1, fuel ≤ fuel1 → ParseString_loop fuel1 (x ++ y) acc = .ok (s, x1 ++ y) := by
  induction fuel generalizing x acc with
  | zero => simp [ParseString_loop] at h
  | succ fuel ih =>
    cases x with
    | nil =>
      exfalso
      rcases hx with hb | hs
      · subst hb
        rw [ParseString_loop, if_neg (by decide), if_pos (by decide)] at h
        cases h
      · exact absurd hs (by decide)
    | cons c0 x1 =>
      by_cases h1 : c0 = '"'
      · rw [ParseString_loop_quote fuel acc (show peek ((c0 :: x1) ++ b) = '"' from h1)] at h
        injection h with h
        injection h with hs hr
        refine ⟨[c0], x1, rfl, hr.symm, ?_, ?_⟩
        · subst h1
          rfl
        · intro y fuel1 hf
          obtain ⟨k, rfl⟩ : ∃ k, fuel1 = k + 1 := ⟨fuel1 - 1, by omega⟩
          rw [ParseString_loop_quote k acc (show peek ((c0 :: x1) ++ y) = '"' from h1), hs]
          rfl
      by_cases h2 : c0 = Char.ofNat 0
      · rw [ParseString_loop, if_neg (show ¬ peek ((c0 :: x1) ++ b) = '"' from h1),
          if_pos (show peek ((c0 :: x1) ++ b) = Char.ofNat 0 from h2)] at h
        cases h
      by_cases h3 : c0 = '\\'
      · subst h3
        cases x1 with
        | nil =>
          exfalso
          rcases hx with hb | hs
          · subst hb
            rw [ParseString_loop_escape_bad fuel (['\\'] ++ []) acc (by decide) (by decide)
              (by decide)] at h
            cases h
          · exact absurd hs (by decide)
        | cons e x2 =>
          have hx2 : b = [] ∨ scanState .text x2 = .code := by
            refine hx.imp id (fun hs => ?_)
            rw [scanState, if_pos rfl, scanState] at hs
            exact hs
          have hstate : ∀ c : string,
              scanState .text ('\\' :: e :: c) = scanState .text c := by
            intro c
            rw [scanState, if_pos rfl, scanState]
          by_cases he : e = '"' ∨ e = '\\' ∨ e = '/' ∨ e = 'b' ∨ e = 'f' ∨ e = 'n' ∨ e = 'r'
              ∨ e = 't'
          · obtain ⟨u, hu⟩ := ParseString_loop_simple_escape he
            rw [hu fuel (('\\' :: e :: x2) ++ b) acc rfl rfl] at h
            obtain ⟨c, x3, hc1, hc2, hc3, hc4⟩ := ih x2 _ hx2 h
            refine ⟨'\\' :: e :: c, x3, by rw [hc1]; rfl, hc2, ?_, ?_⟩
            · rw [hstate]
              exact hc3
            · intro y fuel1 hf
              obtain ⟨k, rfl⟩ : ∃ k, fuel1 = k + 1 := ⟨fuel1 - 1, by omega⟩
              rw [hu k (('\\' :: e :: x2) ++ y) acc rfl rfl]
              exact hc4 y k (by omega)
          · by_cases heu : e = 'u'
            · cases hcp : ParseString_codepoint (x2 ++ b) with
              | error er =>
                rw [ParseString_loop_escape_u_error fuel (('\\' :: e :: x2) ++ b) acc rfl heu
                  hcp] at h
                cases h
              | ok res =>
                obtain ⟨cp, p1⟩ := res
                rw [ParseString_loop_escape_u fuel (('\\' :: e :: x2) ++ b) acc rfl heu hcp] at h
                obtain ⟨c4, x3, hd1, hd2, hd3, hx3, hd4⟩ := ParseString_codepoint_local hx2 hcp
                subst hd2
                have key : ∀ acc1, ParseString_loop fuel (x3 ++ b) acc1 = .ok (s, r) →
                    ∃ c x4, x3 = c ++ x4 ∧ r = x4 ++ b ∧ scanState .text c = .code
                      ∧ ∀ y k, fuel ≤ k → ParseString_loop k (x3 ++ y) acc1
                        = .ok (s, x4 ++ y) :=
                  fun acc1 h0 => ih x3 acc1 hx3 h0
                have hstep : ∀ (k : Nat) (y : string),
                    ParseString_loop (k + 1) (('\\' :: e :: x2) ++ y) acc
                      = if cp < 128 then ParseString_loop k (x3 ++ y) (acc ++ [Char.ofNat cp])
                        else ParseString_loop k (x3 ++ y) (acc ++ ['?']) :=
                  fun k y =>
                    ParseString_loop_escape_u k (('\\' :: e :: x2) ++ y) acc rfl heu (hd4 y)
                by_cases hlt : cp < 128
                · rw [if_pos hlt] at h
                  obtain ⟨c, x4, hc1, hc2, hc3, hc4⟩ := key _ h
                  refine ⟨'\\' :: e :: (c4 ++ c), x4, ?_, hc2, ?_, ?_⟩
                  · rw [hd1, hc1]
                    simp only [List.cons_append, List.append_assoc]
                  · rw [hstate, scanState_append, hd3]
                    exact hc3
                  · intro y fuel1 hf
                    obtain ⟨k, rfl⟩ : ∃ k, fuel1 = k + 1 := ⟨fuel1 - 1, by omega⟩
                    rw [hstep, if_pos hlt]
                    exact hc4 y k (by omega)
                · rw [if_neg hlt] at h
                  obtain ⟨c, x4, hc1, hc2, hc3, hc4⟩ := key _ h
                  refine ⟨'\\' :: e :: (c4 ++ c), x4, ?_, hc2, ?_, ?_⟩
                  · rw [hd1, hc1]
                    simp only [List.cons_append, List.append_assoc]
                  · rw [hstate, scanState_append, hd3]
                    exact hc3
                  · intro y fuel1 hf
                    obtain ⟨k, rfl⟩ : ∃ k, fuel1 = k + 1 := ⟨fuel1 - 1, by omega⟩
                    rw [hstep, if_neg hlt]
                    exact hc4 y k (by omega)
            · rw [ParseString_loop_escape_bad fuel (('\\' :: e :: x2) ++ b) acc rfl he heu] at h
              cases h
      · have hx1 : b = [] ∨ scanState .text x1 = .code := by
          refine hx.imp id (fun hs => ?_)
          rw [scanState_text_cons h3 h1] at hs
          exact hs
        rw [ParseString_loop_plain fuel acc (show ¬ peek ((c0 :: x1) ++ b) = '"' from h1)
          (show ¬ peek ((c0 :: x1) ++ b) = Char.ofNat 0 from h2)
          (show ¬ peek ((c0 :: x1) ++ b) = '\\' from h3)] at h
        obtain ⟨c, x3, hc1, hc2, hc3, hc4⟩ := ih x1 _ hx1 h
        refine ⟨c0 :: c, x3, by rw [hc1]; rfl, hc2, ?_, ?_⟩
        · rw [scanState_text_cons h3 h1]
          exact hc3
        · intro y fuel1 hf
          obtain ⟨k, rfl⟩ : ∃ k, fuel1 = k + 1 := ⟨fuel1 - 1, by omega⟩
          rw [ParseString_loop_plain k acc (show ¬ peek ((c0 :: x1) ++ y) = '"' from h1)
            (show ¬ peek ((c0 :: x1) ++ y) = Char.ofNat 0 from h2)
            (show ¬ peek ((c0 :: x1) ++ y) = '\\' from h3)]
          exact hc4 y k (by omega)

theorem ParseString_inserted {w b p p1 r : string} {v : TJsonNode}
    (h : ParseString p = .ok (v, r)) (hi : InsertedInside w b p p1) :
    ∃ r1, ParseString p1 = .ok (v, r1) ∧ Inserted w b r r1 := by
  rcases hi with hi | ⟨a, ha, h1, h2, hB⟩
  · subst hi
    exact ⟨r, h, Or.inl rfl⟩
  · cases a with
    | nil => exact absurd rfl ha
    | cons c0 x0 =>
      subst h1 h2
      unfold ParseString at h
      by_cases hq : peek ((c0 :: x0) ++ b) ≠ '"'
      · rw [if_pos hq] at h
        cases h
      rw [if_neg hq] at h
      have hc0 : c0 = '"' := by
        have : peek ((c0 :: x0) ++ b) = '"' := by simpa using hq
        exact this
      subst hc0
      cases hl : ParseString_loop (x0 ++ b).length.succ (x0 ++ b) [] with
      | error e =>
        have hl' : ParseString_loop ((('"' :: x0) ++ b).tail.length + 1)
            (('"' :: x0) ++ b).tail [] = .error e := hl
        rw [hl'] at h
        cases h
      | ok res =>
        obtain ⟨s, r0⟩ := res
        have hl' : ParseString_loop ((('"' :: x0) ++ b).tail.length + 1)
            (('"' :: x0) ++ b).tail [] = .ok (s, r0) := hl
        rw [hl'] at h
        injection h with h
        injection h with hv hr
        subst hr
        have hx : b = [] ∨ scanState .text x0 = .code := by
          rcases hB with hb | ⟨hs, _⟩
          · exact Or.inl hb
          · right
            rw [scanState, if_pos rfl] at hs
            exact hs
        obtain ⟨c, x1, hc1, hc2, hc3, hc4⟩ := ParseString_loop_local _ x0 [] s r0 hx hl
        refine ⟨x1 ++ (w ++ b), ?_, ?_⟩
        · unfold ParseString
          rw [if_neg (show ¬ peek (('"' :: x0) ++ (w ++ b)) ≠ '"' from hq)]
          have hl1 : ParseString_loop ((('"' :: x0) ++ (w ++ b)).tail.length + 1)
              (('"' :: x0) ++ (w ++ b)).tail [] = .ok (s, x1 ++ (w ++ b)) := by
            refine hc4 (w ++ b) _ ?_
            simp only [List.cons_append, List.tail_cons, List.length_append, Nat.succ_eq_add_one]
            omega
          rw [hl1, ← hv]
        · rw [hc2]
          refine Inserted.of_consumed w hB (c := '"' :: c) (by rw [hc1]; rfl) ?_
          rw [scanState, if_pos rfl]
          exact hc3

theorem ParseArray_loop_fuel_mono {pv : string → Except TException (TJsonNode × string)}
    (fuel : Nat) (p : string) (acc : List TJsonNode) (res : TJsonNode × string)
    (h : ParseArray_loop pv fuel p acc = .ok res) (fuel1 : Nat) (hf : fuel ≤ fuel1) :
    ParseArray_loop pv fuel1 p acc = .ok res := by
  induction fuel generalizing p acc fuel1 with
  | zero => simp [ParseArray_loop] at h
  | succ fuel ih =>
    obtain ⟨k, rfl⟩ : ∃ k, fuel1 = k + 1 := ⟨fuel1 - 1, by omega⟩
    rw [ParseArray_loop] at h ⊢
    cases hv : pv p with
    | error e => rw [hv] at h; cases h
    | ok res1 =>
      obtain ⟨x, q⟩ := res1
      rw [hv] at h
      simp only at h ⊢
      by_cases c1 : peek (SkipWhitespace q) = ']'
      · rw [if_pos c1] at h ⊢
        exact h
      rw [if_neg c1] at h ⊢
      by_cases c2 : peek (SkipWhitespace q) ≠ ','
      · rw [if_pos c2] at h
        cases h
      rw [if_neg c2] at h ⊢
      exact ih _ _ h k (by omega)

theorem ParseObject_loop_fuel_mono {pv : string → Except TException (TJsonNode × string)}
    (fuel : Nat) (p : string) (acc : List (string × TJsonNode)) (res : TJsonNode × string)
    (h : ParseObject_loop pv fuel p acc = .ok res) (fuel1 : Nat) (hf : fuel ≤ fuel1) :
    ParseObject_loop pv fuel1 p acc = .ok res := by
  induction fuel generalizing p acc fuel1 with
  | zero => simp [ParseObject_loop] at h
  | succ fuel ih =>
    obtain ⟨k, rfl⟩ : ∃ k, fuel1 = k + 1 := ⟨fuel1 - 1, by omega⟩
    rw [ParseObject_loop] at h ⊢
    by_cases c0 : peek (SkipWhitespace p) ≠ '"'
    · rw [if_pos c0] at h
      cases h
    rw [if_neg c0] at h ⊢
    cases hk : ParseString (SkipWhitespace p) with
    | error e => rw [hk] at h; cases h
    | ok res1 =>
      obtain ⟨keyNode, p1⟩ := res1
      rw [hk] at h
      simp only at h ⊢
      cases hs : operator_string keyNode with
      | error e => rw [hs] at h; cases h
      | ok key =>
        rw [hs] at h
        simp only at h ⊢
        by_cases c1 : peek (SkipWhitespace p1) ≠ ':'
        · rw [if_pos c1] at h
          cases h
        rw [if_neg c1] at h ⊢
        cases hv : pv (SkipWhitespace p1).tail with
        | error e => rw [hv] at h; cases h
        | ok res2 =>
          obtain ⟨x, p2⟩ := res2
          rw [hv] at h
          simp only at h ⊢
          by_cases c2 : peek (SkipWhitespace p2) = '}'
          · rw [if_pos c2] at h ⊢
            exact h
          rw [if_neg c2] at h ⊢
          by_cases c3 : peek (SkipWhitespace p2) ≠ ','
          · rw [if_pos c3] at h
            cases h
          rw [if_neg c3] at h ⊢
          exact ih _ _ h k (by omega)

theorem ParseArray_loop_inserted {w b : string} (hw : ∀ c ∈ w, isWhitespace c = true)
    {pv : string → Except TException (TJsonNode × string)}
    (hpv : ∀ p p1 v r, pv p = .ok (v, r) → Inserted w b p p1 →
      ∃ r1, pv p1 = .ok (v, r1) ∧ Inserted w b r r1)
    (fuel : Nat) (p p1 : string) (acc : List TJsonNode) (v : TJsonNode) (r : string)
    (h : ParseArray_loop pv fuel p acc = .ok (v, r)) (hi : Inserted w b p p1) :
    ∃ r1, ParseArray_loop pv fuel p1 acc = .ok (v, r1) ∧ Inserted w b r r1 := by
  induction fuel generalizing p p1 acc with
  | zero => simp [ParseArray_loop] at h
  | succ fuel ih =>
    rw [ParseArray_loop] at h ⊢
    cases hv : pv p with
    | error e => rw [hv] at h; cases h
    | ok res =>
      obtain ⟨x, q⟩ := res
      rw [hv] at h
      simp only at h
      obtain ⟨q1, hv1, hq⟩ := hpv _ _ _ _ hv hi
      rw [hv1]
      simp only
      have hs := hq.skipWhitespace hw
      rw [hs.peek_eq]
      by_cases c1 : peek (SkipWhitespace q) = ']'
      · rw [if_pos c1] at h ⊢
        injection h with h
        injection h with ha hb
        subst hb
        exact ⟨_, by rw [ha], hs.tail (by rw [c1]; decide)⟩
      rw [if_neg c1] at h ⊢
      by_cases c2 : peek (SkipWhitespace q) ≠ ','
      · rw [if_pos c2] at h
        cases h
      rw [if_neg c2] at h ⊢
      have c2' : peek (SkipWhitespace q) = ',' := by simpa using c2
      exact ih _ _ _ h
        ((hs.tail (by rw [c2']; decide)).skipWhitespace hw).inserted

theorem ParseArray_inserted {w b : string} (hw : ∀ c ∈ w, isWhitespace c = true)
    {pv : string → Except TException (TJsonNode × string)}
    (hpv : ∀ p p1 v r, pv p = .ok (v, r) → Inserted w b p p1 →
      ∃ r1, pv p1 = .ok (v, r1) ∧ Inserted w b r r1)
    {p p1 r : string} {v : TJsonNode}
    (h : ParseArray pv p = .ok (v, r)) (hi : InsertedInside w b p p1) :
    ∃ r1, ParseArray pv p1 = .ok (v, r1) ∧ Inserted w b r r1 := by
  unfold ParseArray at h ⊢
  rw [hi.peek_eq]
  by_cases c0 : peek p ≠ '['
  · rw [if_pos c0] at h
    cases h
  rw [if_neg c0] at h ⊢
  have c0' : peek p = '[' := by simpa using c0
  have hs := (hi.tail (by rw [c0']; decide)).skipWhitespace hw
  rw [hs.peek_eq]
  by_cases c1 : peek (SkipWhitespace p.tail) = ']'
  · rw [if_pos c1] at h ⊢
    injection h with h
    injection h with ha hb
    subst hb
    exact ⟨_, by rw [ha], hs.tail (by rw [c1]; decide)⟩
  rw [if_neg c1] at h ⊢
  obtain ⟨r1, h1, hr⟩ := ParseArray_loop_inserted hw hpv _ _ _ _ _ _ h hs.inserted
  exact ⟨r1, ParseArray_loop_fuel_mono _ _ _ _ h1 _
    (Nat.succ_le_succ hs.inserted.length_le), hr⟩

theorem ParseObject_loop_inserted {w b : string} (hw : ∀ c ∈ w, isWhitespace c = true)
    {pv : string → Except TException (TJsonNode × string)}
    (hpv : ∀ p p1 v r, pv p = .ok (v, r) → Inserted w b p p1 →
      ∃ r1, pv p1 = .ok (v, r1) ∧ Inserted w b r r1)
    (fuel : Nat) (p p1 : string) (acc : List (string × TJsonNode)) (v : TJsonNode)
    (r : string) (h : ParseObject_loop pv fuel p acc = .ok (v, r))
    (hi : Inserted w b p p1) :
    ∃ r1, ParseObject_loop pv fuel p1 acc = .ok (v, r1) ∧ Inserted w b r r1 := by
  induction fuel generalizing p p1 acc with
  | zero => simp [ParseObject_loop] at h
  | succ fuel ih =>
    rw [ParseObject_loop] at h ⊢
    have hs0 := hi.skipWhitespace hw
    rw [hs0.peek_eq]
    by_cases c0 : peek (SkipWhitespace p) ≠ '"'
    · rw [if_pos c0] at h
      cases h
    rw [if_neg c0] at h ⊢
    cases hk : ParseString (SkipWhitespace p) with
    | error e => rw [hk] at h; cases h
    | ok res =>
      obtain ⟨keyNode, q⟩ := res
      rw [hk] at h
      simp only at h
      obtain ⟨q1, hk1, hq⟩ := ParseString_inserted hk hs0
      rw [hk1]
      simp only
      cases hs : operator_string keyNode with
      | error e => rw [hs] at h; cases h
      | ok key =>
        rw [hs] at h
        simp only at h ⊢
        have hs1 := hq.skipWhitespace hw
        rw [hs1.peek_eq]
        by_cases c1 : peek (SkipWhitespace q) ≠ ':'
        · rw [if_pos c1] at h
          cases h
        rw [if_neg c1] at h ⊢
        have c1' : peek (SkipWhitespace q) = ':' := by simpa using c1
        cases hv : pv (SkipWhitespace q).tail with
        | error e => rw [hv] at h; cases h
        | ok res2 =>
          obtain ⟨x, p2⟩ := res2
          rw [hv] at h
          simp only at h
          obtain ⟨p3, hv1, hp3⟩ := hpv _ _ _ _ hv (hs1.tail (by rw [c1']; decide))
          rw [hv1]
          simp only
          have hs2 := hp3.skipWhitespace hw
          rw [hs2.peek_eq]
          by_cases c2 : peek (SkipWhitespace p2) = '}'
          · rw [if_pos c2] at h ⊢
            injection h with h
            injection h with ha hb
            subst hb
            exact ⟨_, by rw [ha], hs2.tail (by rw [c2]; decide)⟩
          rw [if_neg c2] at h ⊢
          by_cases c3 : peek (SkipWhitespace p2) ≠ ','
          · rw [if_pos c3] at h
            cases h
          rw [if_neg c3] at h ⊢
          have c3' : peek (SkipWhitespace p2) = ',' := by simpa using c3
          exact ih _ _ _ h (hs2.tail (by rw [c3']; decide))

theorem ParseObject_inserted {w b : string} (hw : ∀ c ∈ w, isWhitespace c = true)
    {pv : string → Except TException (TJsonNode × string)}
    (hpv : ∀ p p1 v r, pv p = .ok (v, r) → Inserted w b p p1 →
      ∃ r1, pv p1 = .ok (v, r1) ∧ Inserted w b r r1)
    {p p1 r : string} {v : TJsonNode}
    (h : ParseObject pv p = .ok (v, r)) (hi : InsertedInside w b p p1) :
    ∃ r1, ParseObject pv p1 = .ok (v, r1) ∧ Inserted w b r r1 := by
  unfold ParseObject at h ⊢
  rw [hi.peek_eq]
  by_cases c0 : peek p ≠ '{'
  · rw [if_pos c0] at h
    cases h
  rw [if_neg c0] at h ⊢
  have c0' : peek p = '{' := by simpa using c0
  have hs := (hi.tail (by rw [c0']; decide)).skipWhitespace hw
  rw [hs.peek_eq]
  by_cases c1 : peek (SkipWhitespace p.tail) = '}'
  · rw [if_pos c1] at h ⊢
    injection h with h
    injection h with ha hb
    subst hb
    exact ⟨_, by rw [ha], hs.tail (by rw [c1]; decide)⟩
  rw [if_neg c1] at h ⊢
  obtain ⟨r1, h1, hr⟩ := ParseObject_loop_inserted hw hpv _ _ _ _ _ _ h hs.inserted
  exact ⟨r1, ParseObject_loop_fuel_mono _ _ _ _ h1 _
    (Nat.succ_le_succ hs.inserted.length_le), hr⟩

theorem ParseValue_inserted {w b : string} (hw : ∀ c ∈ w, isWhitespace c = true)
    (fuel : Nat) (p p1 : string) (v : TJsonNode) (r : string)
    (h : ParseValue fuel p = .ok (v, r)) (hi : Inserted w b p p1) :
    ∃ r1, ParseValue fuel p1 = .ok (v, r1) ∧ Inserted w b r r1 := by
  induction fuel generalizing p p1 v r with
  | zero => simp [ParseValue] at h
  | succ fuel ih =>
    rw [ParseValue] at h ⊢
    have hs := hi.skipWhitespace hw
    rw [hs.peek_eq]
    by_cases c1 : peek (SkipWhitespace p) = 'n'
    · rw [if_pos c1] at h ⊢
      exact ParseLiteral_inserted (by decide) h hs
    rw [if_neg c1] at h ⊢
    by_cases c2 : peek (SkipWhitespace p) = 't'
    · rw [if_pos c2] at h ⊢
      exact ParseLiteral_inserted (by decide) h hs
    rw [if_neg c2] at h ⊢
    by_cases c3 : peek (SkipWhitespace p) = 'f'
    · rw [if_pos c3] at h ⊢
      exact ParseLiteral_inserted (by decide) h hs
    rw [if_neg c3] at h ⊢
    by_cases c4 : peek (SkipWhitespace p) = '"'
    · rw [if_pos c4] at h ⊢
      exact ParseString_inserted h hs
    rw [if_neg c4] at h ⊢
    by_cases c5 : peek (SkipWhitespace p) = '['
    · rw [if_pos c5] at h ⊢
      exact ParseArray_inserted hw (fun p p1 v r hp hq => ih p p1 v r hp hq) h hs
    rw [if_neg c5] at h ⊢
    by_cases c6 : peek (SkipWhitespace p) = '{'
    · rw [if_pos c6] at h ⊢
      exact ParseObject_inserted hw (fun p p1 v r hp hq => ih p p1 v r hp hq) h hs
    rw [if_neg c6] at h ⊢
    by_cases c7 : peek (SkipWhitespace p) = '-' ∨ isDigit (peek (SkipWhitespace p)) = true
    · rw [if_pos c7] at h ⊢
      exact ParseNumber_inserted hw h hs
    · rw [if_neg c7] at h
      cases h

theorem Parse_inserted {w a b : string} {v : TJsonNode}
    (hw : ∀ c ∈ w, isWhitespace c = true) (hp : InsertionPoint a b)
    (h : Parse (a ++ b) = .ok v) : Parse (a ++ (w ++ b)) = .ok v := by
  have hi : Inserted w b (a ++ b) (a ++ (w ++ b)) :=
    Or.inr ⟨a, rfl, rfl, Boundary_of_InsertionPoint hp⟩
  have hs := hi.skipWhitespace hw
  unfold Parse at h ⊢
  rw [hs.peek_eq]
  by_cases c0 : peek (SkipWhitespace (a ++ b)) = Char.ofNat 0
  · rw [if_pos c0] at h
    cases h
  rw [if_neg c0] at h ⊢
  cases hv : ParseValue ((SkipWhitespace (a ++ b)).length + 1) (SkipWhitespace (a ++ b)) with
  | error e => rw [hv] at h; cases h
  | ok res =>
    obtain ⟨v0, r⟩ := res
    rw [hv] at h
    simp only at h
    obtain ⟨r1, hv1, hr⟩ := ParseValue_inserted hw _ _ _ _ _ hv hs.inserted
    have hv2 := ParseValue_of_fuel_gt hv1 ((SkipWhitespace (a ++ (w ++ b))).length + 1)
      (Nat.lt_succ_self _)
    rw [hv2]
    simp only
    rw [(hr.skipWhitespace hw).peek_eq]
    by_cases c1 : peek (SkipWhitespace r) ≠ Char.ofNat 0
    · rw [if_pos c1] at h
      cases h
    rw [if_neg c1] at h ⊢
    exact h

theorem c_str_append (a x : string) :
    c_str (a ++ x) = if ∀ c ∈ a, c ≠ Char.ofNat 0 then a ++ c_str x else c_str a := by
  induction a with
  | nil => simp
  | cons c a ih =>
    by_cases hc : c = Char.ofNat 0
    · subst hc
      rw [if_neg (by simp)]
      simp [c_str]
    · have e1 : c_str ((c :: a) ++ x) = c :: c_str (a ++ x) := by
        simp [c_str, hc]
      have e2 : c_str (c :: a) = c :: c_str a := by
        simp [c_str, hc]
      rw [e1, ih, e2]
      by_cases ha : ∀ d ∈ a, d ≠ Char.ofNat 0
      · rw [if_pos ha, if_pos]
        · rfl
        · intro d hd
          rcases List.mem_cons.mp hd with hd | hd
          · rw [hd]; exact hc
          · exact ha d hd
      · rw [if_neg ha, if_neg]
        intro hall
        exact ha (fun d hd => hall d (List.mem_cons_of_mem _ hd))

theorem isWhitespace_ne_nul {w : string} (hw : ∀ c ∈ w, isWhitespace c = true) :
    ∀ c ∈ w, c ≠ Char.ofNat 0 := by
  intro c hc h0
  have := hw c hc
  rw [h0] at this
  revert this
  decide

theorem InsertionPoint_c_str {a b : string} (hp : InsertionPoint a b) :
    InsertionPoint a (c_str b) := by
  rcases hp with h | h | h | ⟨c, b0, h1, h2, h3⟩
  · exact Or.inl h
  · subst h
    exact Or.inr (Or.inl rfl)
  · exact Or.inr (Or.inr (Or.inl h))
  · subst h1
    have hc : c ≠ Char.ofNat 0 := by
      intro h0
      rw [h0] at h2
      revert h2
      decide
    refine Or.inr (Or.inr (Or.inr ⟨c, c_str b0, ?_, h2, h3⟩))
    simp [c_str, hc]

theorem Parse_std_string_inserted {w a b : string} {v : TJsonNode}
    (hw : ∀ c ∈ w, isWhitespace c = true) (hp : InsertionPoint a b)
    (h : Parse_std_string (a ++ b) = .ok v) : Parse_std_string (a ++ (w ++ b)) = .ok v := by
  unfold Parse_std_string at h ⊢
  rw [c_str_append] at h ⊢
  by_cases ha : ∀ c ∈ a, c ≠ Char.ofNat 0
  · rw [if_pos ha] at h ⊢
    rw [c_str_append, if_pos (isWhitespace_ne_nul hw)]
    exact Parse_inserted hw (InsertionPoint_c_str hp) h
  · rw [if_neg ha] at h ⊢
    exact h

/-- C23: whitespace insensitivity.  For a text `a ++ b` and a place between `a` and `b`
that is the start of the text, its end, or immediately behind or in front of a structural
token (`[`, `]`, `{`, `}`, `,`, `:`) outside the string literals, and for every sequence
`w` of space, tab, CR and LF characters: when `Parse` accepts `a ++ b` with the document
`v`, it accepts the text with `w` inserted at the place, with the same document `v`.
This holds of `Parse(const char*)` and of `Parse(const std::string&)`. -/
theorem Parse_whitespace_insensitive (a b w : string) (v : TJsonNode)
    (hw : ∀ c ∈ w, isWhitespace c = true) (hp : InsertionPoint a b) :
    (Parse (a ++ b) = .ok v → Parse (a ++ w ++ b) = .ok v)
    ∧ (Parse_std_string (a ++ b) = .ok v → Parse_std_string (a ++ w ++ b) = .ok v) := by
  rw [List.append_assoc]
  exact ⟨Parse_inserted hw hp, Parse_std_string_inserted hw hp⟩

/-- Witness for C23: `Parse` reads `[1,{"a":"x y"}]` and the same text with a space and a
line feed behind the `,` of the array, with a tab in front of the `:`, and with a carriage
return at the end, as the same document. -/
theorem Parse_whitespace_insensitive_witness :
    ∃ v, Parse ['[', '1', ',', '{', '"', 'a', '"', ':', '"', 'x', ' ', 'y', '"', '}', ']']
        = .ok v
      ∧ Parse (['[', '1', ','] ++ [' ', '\n']
          ++ ['{', '"', 'a', '"', ':', '"', 'x', ' ', 'y', '"', '}', ']']) = .ok v
      ∧ Parse (['[', '1', ',', '{', '"', 'a', '"'] ++ ['\t']
          ++ [':', '"', 'x', ' ', 'y', '"', '}', ']']) = .ok v
      ∧ Parse (['[', '1', ',', '{', '"', 'a', '"', ':', '"', 'x', ' ', 'y', '"', '}', ']']
          ++ ['\r'] ++ []) = .ok v :=
  ⟨Array [Number (.finite 1), Object [(['a'], String ['x', ' ', 'y'])]], by decide!,
    (Parse_whitespace_insensitive ['[', '1', ',']
      ['{', '"', 'a', '"', ':', '"', 'x', ' ', 'y', '"', '}', ']'] [' ', '\n'] _
      (by decide)
      (Or.inr (Or.inr (Or.inl ⟨['[', '1'], ',', rfl, by decide, by decide⟩)))).1 (by decide!),
    (Parse_whitespace_insensitive ['[', '1', ',', '{', '"', 'a', '"']
      [':', '"', 'x', ' ', 'y', '"', '}', ']'] ['\t'] _
      (by decide)
      (Or.inr (Or.inr (Or.inr ⟨':', _, rfl, by decide, by decide⟩)))).1 (by decide!),
    (Parse_whitespace_insensitive
      ['[', '1', ',', '{', '"', 'a', '"', ':', '"', 'x', ' ', 'y', '"', '}', ']'] []
      ['\r'] _ (by decide) (Or.inr (Or.inl rfl))).1 (by decide!)⟩

end TJsonNode

/-! ## Whole numbers up to `2^53` -/

theorem log2Nat_le (fuel n j : Nat) (h : n < 2 ^ (j + 1)) : log2Nat fuel n ≤ j := by
  induction fuel generalizing n j with
  | zero => simp [log2Nat]
  | succ fuel ih =>
    rw [log2Nat]
    by_cases h2 : n < 2
    · rw [if_pos h2]; exact Nat.zero_le _
    · rw [if_neg h2]
      cases j with
      | zero => simp at h; omega
      | succ j =>
        have : n / 2 < 2 ^ (j + 1) := by
          apply Nat.div_lt_of_lt_mul
          rw [pow_succ] at h
          omega
        have := ih (n / 2) j this
        omega

theorem pow2_of_nonneg (e : Int) (h : 0 ≤ e) : pow2 e = ((2 ^ e.toNat : ℕ) : ℚ) := by
  unfold pow2
  rw [if_pos h]

theorem pow2_of_nonpos (e : Int) (h : e ≤ 0) : pow2 e = 1 / ((2 ^ (-e).toNat : ℕ) : ℚ) := by
  unfold pow2
  by_cases h0 : 0 ≤ e
  · have : e = 0 := le_antisymm h h0
    subst this
    simp
  · rw [if_neg h0]

theorem flog2_natCast_le (m : Nat) (hm : m ≤ 2 ^ 53) :
    flog2 (m : ℚ) ≤ 53 ∧ -1 ≤ flog2 (m : ℚ) ∧ (flog2 (m : ℚ) = 53 → m = 2 ^ 53) := by
  have hL : log2Nat m m ≤ 53 := log2Nat_le m m 53 (by
    have : (2:ℕ) ^ 53 < 2 ^ (53 + 1) := by norm_num
    omega)
  have h1 : log2Nat 1 1 = 0 := by decide
  unfold flog2
  simp only [Rat.num_natCast, Int.natAbs_ofNat, Rat.den_natCast, h1, Nat.cast_zero, sub_zero]
  by_cases hc : pow2 (log2Nat m m : Int) ≤ (m : ℚ)
  · rw [if_pos hc]
    refine ⟨by exact_mod_cast hL, by omega, ?_⟩
    intro h53
    have h53' : log2Nat m m = 53 := by exact_mod_cast h53
    rw [h53', pow2_of_nonneg _ (by norm_num)] at hc
    have : (2 ^ 53 : ℕ) ≤ m := by
      have e : ((53 : ℕ) : Int).toNat = 53 := rfl
      rw [e] at hc
      exact_mod_cast hc
    omega
  · rw [if_neg hc]
    refine ⟨by omega, by omega, ?_⟩
    intro h53
    omega

theorem IsDouble_intCast (n : ℤ) (h : n.natAbs ≤ 2 ^ 53) : IsDouble (n : ℚ) := by
  by_cases h0 : n = 0
  · left
    rw [h0]
    rfl
  right
  have habs : |(n : ℚ)| = ((n.natAbs : ℕ) : ℚ) := by
    rw [← Int.cast_abs, Int.abs_eq_natAbs]
    rfl
  rw [habs]
  obtain ⟨f1, f2, f3⟩ := flog2_natCast_le n.natAbs h
  constructor
  · unfold ulp
    rw [max_eq_left (by omega)]
    by_cases hk : flog2 ((n.natAbs : ℕ) : ℚ) - 52 ≤ 0
    · rw [pow2_of_nonpos _ hk, div_div_eq_mul_div, div_one]
      have : ((n.natAbs : ℕ) : ℚ) * ((2 ^ (-(flog2 ((n.natAbs : ℕ) : ℚ) - 52)).toNat : ℕ) : ℚ)
          = ((n.natAbs * 2 ^ (-(flog2 ((n.natAbs : ℕ) : ℚ) - 52)).toNat : ℕ) : ℚ) := by
        push_cast
        rfl
      rw [this]
      exact Rat.den_natCast _
    · have hf : flog2 ((n.natAbs : ℕ) : ℚ) = 53 := by omega
      have hm := f3 hf
      rw [hf, hm]
      decide!
  · have : ((n.natAbs : ℕ) : ℚ) ≤ ((2 ^ 53 : ℕ) : ℚ) := by exact_mod_cast h
    refine lt_of_le_of_lt this ?_
    rw [pow2_of_nonneg _ (by norm_num)]
    have e : ((1024 : Int)).toNat = 1024 := rfl
    rw [e]
    norm_num

namespace TJsonNode

/-! ## Escaping of ASCII text -/

theorem EscapeString_cons (c : Char) (s : string) :
    EscapeString (c :: s) = EscapeString [c] ++ EscapeString s := by
  simp [EscapeString]

theorem EscapeString_singleton (c : Char) : EscapeString [c] = EscapeChar c := by
  simp [EscapeString]

theorem EscapeString_append (s t : string) :
    EscapeString (s ++ t) = EscapeString s ++ EscapeString t := by
  induction s with
  | nil => rfl
  | cons c s ih => simp [EscapeString, ih]

theorem hexDigit_printable : ∀ d, d < 16 → 32 ≤ (hexDigit d).toNat ∧ hexDigit d ≠ '"'
    ∧ hexDigit d ≠ '\\' := by
  decide

/-- What `EscapeChar` writes: a two-character escape, a `\u` escape with four hexadecimal
digits, or the character itself when it needs no escape. -/
theorem EscapeChar_shape (c : Char) :
    (∃ x, EscapeChar c = ['\\', x] ∧ 32 ≤ x.toNat ∧ (x = '"' → c = '"'))
    ∨ (∃ a b d e, EscapeChar c = ['\\', 'u', hexDigit a, hexDigit b, hexDigit d, hexDigit e]
        ∧ a < 16 ∧ b < 16 ∧ d < 16 ∧ e < 16)
    ∨ (EscapeChar c = [c] ∧ c ≠ '"' ∧ c ≠ '\\' ∧ 32 ≤ c.toNat) := by
  unfold EscapeChar
  by_cases h1 : c = '"'
  · rw [if_pos h1]
    exact Or.inl ⟨'"', rfl, by decide, fun _ => h1⟩
  rw [if_neg h1]
  by_cases h2 : c = '\\'
  · rw [if_pos h2]
    exact Or.inl ⟨'\\', rfl, by decide, fun h => absurd h (by decide)⟩
  rw [if_neg h2]
  by_cases h3 : c = Char.ofNat 8
  · rw [if_pos h3]
    exact Or.inl ⟨'b', rfl, by decide, fun h => absurd h (by decide)⟩
  rw [if_neg h3]
  by_cases h4 : c = Char.ofNat 12
  · rw [if_pos h4]
    exact Or.inl ⟨'f', rfl, by decide, fun h => absurd h (by decide)⟩
  rw [if_neg h4]
  by_cases h5 : c = '\n'
  · rw [if_pos h5]
    exact Or.inl ⟨'n', rfl, by decide, fun h => absurd h (by decide)⟩
  rw [if_neg h5]
  by_cases h6 : c = '\r'
  · rw [if_pos h6]
    exact Or.inl ⟨'r', rfl, by decide, fun h => absurd h (by decide)⟩
  rw [if_neg h6]
  by_cases h7 : c = '\t'
  · rw [if_pos h7]
    exact Or.inl ⟨'t', rfl, by decide, fun h => absurd h (by decide)⟩
  rw [if_neg h7]
  by_cases h8 : c.toNat % 256 < 32 ∨ 128 ≤ c.toNat % 256
  · rw [if_pos h8]
    exact Or.inr (Or.inl ⟨_, _, _, _, rfl, Nat.mod_lt _ (by decide), Nat.mod_lt _ (by decide),
      Nat.mod_lt _ (by decide), Nat.mod_lt _ (by decide)⟩)
  · rw [if_neg h8]
    refine Or.inr (Or.inr ⟨rfl, h1, h2, ?_⟩)
    omega

theorem EscapeChar_printable (c : Char) : ∀ x ∈ EscapeChar c, 32 ≤ x.toNat := by
  intro x hx
  rcases EscapeChar_shape c with ⟨y, h, hy, _⟩ | ⟨a, b, d, e, h, ha, hb, hd, he⟩ | ⟨h, _, _, hc⟩
  · rw [h] at hx
    simp only [List.mem_cons, List.mem_singleton, List.not_mem_nil, or_false] at hx
    rcases hx with hx | hx
    · rw [hx]; decide
    · rw [hx]; exact hy
  · rw [h] at hx
    simp only [List.mem_cons, List.mem_singleton, List.not_mem_nil, or_false] at hx
    rcases hx with hx | hx | hx | hx | hx | hx
    · rw [hx]; decide
    · rw [hx]; decide
    · rw [hx]; exact (hexDigit_printable a ha).1
    · rw [hx]; exact (hexDigit_printable b hb).1
    · rw [hx]; exact (hexDigit_printable d hd).1
    · rw [hx]; exact (hexDigit_printable e he).1
  · rw [h] at hx
    simp only [List.mem_singleton] at hx
    rw [hx]; exact hc

theorem EscapeString_printable (s : string) : ∀ x ∈ EscapeString s, 32 ≤ x.toNat := by
  induction s with
  | nil => intro x hx; cases hx
  | cons c s ih =>
    intro x hx
    rw [EscapeString] at hx
    rcases List.mem_append.mp hx with hx | hx
    · exact EscapeChar_printable c x hx
    · exact ih x hx

/-- A `"` written by `EscapeChar` is the second character of `\"`. -/
theorem EscapeChar_quote (c : Char) (pre post : string)
    (h : EscapeChar c = pre ++ '"' :: post) : pre = ['\\'] := by
  rcases EscapeChar_shape c with ⟨y, hy, _, _⟩ | ⟨a, b, d, e, hh, ha, hb, hd, he⟩
    | ⟨hh, hq, _, _⟩
  · rw [hy] at h
    cases pre with
    | nil =>
      injection h with h1 _
      exact absurd h1 (by decide)
    | cons p0 pre =>
      injection h with h1 h2
      cases pre with
      | nil => rw [h1]
      | cons p1 pre =>
        injection h2 with _ h3
        cases pre <;> cases h3
  · exfalso
    have hmem : '"' ∈ EscapeChar c := by rw [h]; simp
    rw [hh] at hmem
    simp only [List.mem_cons, List.mem_singleton, List.not_mem_nil, or_false] at hmem
    rcases hmem with hm | hm | hm | hm | hm | hm
    · revert hm; decide
    · revert hm; decide
    · exact (hexDigit_printable a ha).2.1 hm.symm
    · exact (hexDigit_printable b hb).2.1 hm.symm
    · exact (hexDigit_printable d hd).2.1 hm.symm
    · exact (hexDigit_printable e he).2.1 hm.symm
  · exfalso
    have hmem : '"' ∈ EscapeChar c := by rw [h]; simp
    rw [hh] at hmem
    simp only [List.mem_singleton] at hmem
    exact hq hmem.symm

theorem EscapeString_quote (s : string) (pre post : string)
    (h : EscapeString s = pre ++ '"' :: post) : ∃ pre0, pre = pre0 ++ ['\\'] := by
  induction s generalizing pre with
  | nil =>
    rw [EscapeString] at h
    cases pre <;> cases h
  | cons c s ih =>
    rw [EscapeString] at h
    rcases List.append_eq_append_iff.mp h with ⟨m, h1, h2⟩ | ⟨m, h1, h2⟩
    · obtain ⟨pre0, hp⟩ := ih m h2
      exact ⟨EscapeChar c ++ pre0, by rw [h1, hp, List.append_assoc]⟩
    · cases m with
      | nil =>
        rw [List.nil_append] at h2
        obtain ⟨pre0, hp⟩ := ih [] h2.symm
        cases pre0 <;> cases hp
      | cons x m =>
        injection h2 with hx _
        rw [← hx] at h1
        exact ⟨[], by rw [EscapeChar_quote c pre m h1]; rfl⟩

/-- C31: escaping of ASCII text.  `EscapeString` works byte by byte (the output for a
string is the concatenation of the outputs for its bytes) and, for a byte in 0..127,
writes `\"` for `"`, `\\` for `\`, `\b` `\f` `\n` `\r` `\t` for the five named controls,
`\u00XX` with the two hexadecimal digits of the byte for every other byte below 0x20, and
the byte itself otherwise (`/` and 0x7f included).  Hence, for every string `s` of bytes in
0..127, the output has no character below 0x20, and every `"` in it stands directly behind
a backslash. -/
theorem EscapeString_ascii :
    EscapeString [] = []
    ∧ (∀ c s, EscapeString (c :: s) = EscapeString [c] ++ EscapeString s)
    ∧ EscapeString ['"'] = ['\\', '"']
    ∧ EscapeString ['\\'] = ['\\', '\\']
    ∧ EscapeString [Char.ofNat 8] = ['\\', 'b']
    ∧ EscapeString [Char.ofNat 12] = ['\\', 'f']
    ∧ EscapeString ['\n'] = ['\\', 'n']
    ∧ EscapeString ['\r'] = ['\\', 'r']
    ∧ EscapeString ['\t'] = ['\\', 't']
    ∧ (∀ c : Char, c.toNat < 32 → c ≠ Char.ofNat 8 → c ≠ Char.ofNat 12 → c ≠ '\n' →
        c ≠ '\r' → c ≠ '\t' →
        EscapeString [c] = ['\\', 'u', '0', '0', hexDigit (c.toNat / 16), hexDigit (c.toNat % 16)])
    ∧ (∀ c : Char, 32 ≤ c.toNat → c.toNat < 128 → c ≠ '"' → c ≠ '\\' → EscapeString [c] = [c])
    ∧ EscapeString ['/'] = ['/']
    ∧ EscapeString [Char.ofNat 127] = [Char.ofNat 127]
    ∧ (∀ s, IsAscii s →
        (∀ x ∈ EscapeString s, 32 ≤ x.toNat)
        ∧ ∀ pre post, EscapeString s = pre ++ '"' :: post → ∃ pre0, pre = pre0 ++ ['\\']) := by
  refine ⟨rfl, EscapeString_cons, by decide, by decide, by decide, by decide, by decide,
    by decide, by decide, ?_, ?_, by decide, by decide, ?_⟩
  · intro c hc h3 h4 h5 h6 h7
    have h1 : c ≠ '"' := by
      intro h; rw [h] at hc; revert hc; decide
    have h2 : c ≠ '\\' := by
      intro h; rw [h] at hc; revert hc; decide
    have hmod : c.toNat % 256 = c.toNat := Nat.mod_eq_of_lt (by omega)
    rw [EscapeString_singleton, EscapeChar, if_neg h1, if_neg h2, if_neg h3, if_neg h4, if_neg h5,
      if_neg h6, if_neg h7, if_pos (Or.inl (by rw [hmod]; exact hc)), hmod]
    have e1 : c.toNat / 4096 % 16 = 0 := by omega
    have e2 : c.toNat / 256 % 16 = 0 := by omega
    have e3 : c.toNat / 16 % 16 = c.toNat / 16 := by omega
    rw [e1, e2, e3]
    rfl
  · intro c hlo hhi h1 h2
    have h3 : c ≠ Char.ofNat 8 := by
      intro h; rw [h] at hlo; revert hlo; decide
    have h4 : c ≠ Char.ofNat 12 := by
      intro h; rw [h] at hlo; revert hlo; decide
    have h5 : c ≠ '\n' := by
      intro h; rw [h] at hlo; revert hlo; decide
    have h6 : c ≠ '\r' := by
      intro h; rw [h] at hlo; revert hlo; decide
    have h7 : c ≠ '\t' := by
      intro h; rw [h] at hlo; revert hlo; decide
    have hmod : c.toNat % 256 = c.toNat := Nat.mod_eq_of_lt (by omega)
    rw [EscapeString_singleton, EscapeChar, if_neg h1, if_neg h2, if_neg h3, if_neg h4, if_neg h5,
      if_neg h6, if_neg h7, if_neg (by rw [hmod]; omega)]
  · intro s _
    exact ⟨EscapeString_printable s, EscapeString_quote s⟩

theorem DocumentOver_mono {P Q : Double → Prop} (hPQ : ∀ d, P d → Q d) (v : TJsonNode) :
    DocumentOver P v → DocumentOver Q v := by
  induction v using induction_on with
  | hNull => intro _; trivial
  | hBoolean b => intro _; trivial
  | hNumber d => intro h; exact hPQ d h
  | hString s => intro h; exact h
  | hArray xs ih =>
    intro h
    rw [DocumentOver, ElementsOver_iff] at h ⊢
    exact fun x hx => ih x hx (h x hx)
  | hObject m ih =>
    intro h
    rw [DocumentOver, MembersOver_iff] at h ⊢
    exact ⟨fun kv hkv => ⟨(h.1 kv hkv).1, ih kv hkv (h.1 kv hkv).2⟩, h.2⟩

theorem SixDecimalNumber_of_WholeNumber53 (d : Double) (h : WholeNumber53 d) :
    SixDecimalNumber d := by
  cases d with
  | finite q =>
    obtain ⟨hden, habs⟩ := h
    have hq : ((q.num : ℤ) : ℚ) = q := Rat.coe_int_num_of_den_eq_one hden
    have hn : q.num.natAbs ≤ 2 ^ 53 := by
      have h1 : |((q.num : ℤ) : ℚ)| ≤ 2 ^ 53 := by rw [hq]; exact habs
      rw [← Int.cast_abs, Int.abs_eq_natAbs] at h1
      have h2 : ((q.num.natAbs : ℕ) : ℚ) ≤ ((2 ^ 53 : ℕ) : ℚ) := by
        push_cast
        exact_mod_cast h1
      exact_mod_cast h2
    refine ⟨?_, ?_⟩
    · rw [← hq]
      exact IsDouble_intCast q.num hn
    · rw [← hq]
      have : ((q.num : ℤ) : ℚ) * 1000000 = ((q.num * 1000000 : ℤ) : ℚ) := by push_cast; rfl
      rw [this]
      exact Rat.den_intCast _
  | inf b => exact h.elim
  | nan b => exact h.elim

/-- C32: the integer-only round trip.  For every document whose strings and keys consist
of bytes in 0..127 (control characters included), whose numbers are whole numbers of
magnitude at most `2^53` and whose objects have pairwise distinct keys, in whatever order
the members are iterated, `Parse(ToString(v, pretty = false))` succeeds and yields a
document equal to `v` up to the order of object members. -/
theorem roundtrip_whole_numbers (v : TJsonNode) (hv : DocumentOver WholeNumber53 v) :
    ∃ text v', ToString v false 0 = .ok text ∧ Parse_std_string text = .ok v'
      ∧ Parse text = .ok v' ∧ SameDocument v' v := by
  have h6 := DocumentOver_mono SixDecimalNumber_of_WholeNumber53 v hv
  have hr := ReadsAs_compactText v h6
  obtain ⟨h1, h2⟩ := Parse_ToString_of_ReadsAs v hr
  exact ⟨compactText v, v, h1, h2, Parse_of_ReadsAs hr, SameDocument_refl _ v hv⟩

/-- Witness for C32: the document `{"k\n": [-9007199254740992, 0, true, null, "a\u0000b"]}`
(the key holds a line feed, the string a NUL byte) survives the round trip. -/
theorem roundtrip_whole_numbers_witness :
    ∃ text v', ToString (Object [(['k', '\n'], Array [Number (.finite (-9007199254740992)),
          Number (.finite 0), Boolean true, Null, String ['a', Char.ofNat 0, 'b']])]) false 0
        = .ok text
      ∧ Parse_std_string text = .ok v' ∧ Parse text = .ok v'
      ∧ SameDocument v' (Object [(['k', '\n'], Array [Number (.finite (-9007199254740992)),
          Number (.finite 0), Boolean true, Null, String ['a', Char.ofNat 0, 'b']])]) :=
  roundtrip_whole_numbers _ (by
    simp only [DocumentOver, MembersOver, ElementsOver, WholeNumber53]
    refine ⟨⟨by decide, ⟨⟨by decide!, by decide!⟩, ⟨by decide!, by decide!⟩, trivial, trivial,
      by decide, trivial⟩, trivial⟩, by decide⟩)

/-! ## Termination of the parser -/

/-- One iteration of the loop of `ParseString` ends the loop (with a result or a failure)
or goes on at a cursor strictly behind the one it started at. -/
theorem ParseString_loop_step (p acc : string) :
    (∃ res, ∀ k, ParseString_loop (k + 1) p acc = res)
    ∨ ∃ q acc1, Advanced q p
        ∧ ∀ k, ParseString_loop (k + 1) p acc = ParseString_loop k q acc1 := by
  by_cases h1 : peek p = '"'
  · exact Or.inl ⟨_, fun k => ParseString_loop_quote k acc h1⟩
  by_cases h2 : peek p = Char.ofNat 0
  · refine Or.inl ⟨.error .unterminatedString, fun k => ?_⟩
    rw [ParseString_loop, if_neg h1, if_pos h2]
  by_cases h3 : peek p = '\\'
  · have a1 : Advanced p.tail p := Advanced_tail h2
    by_cases he : peek p.tail = '"' ∨ peek p.tail = '\\' ∨ peek p.tail = '/'
        ∨ peek p.tail = 'b' ∨ peek p.tail = 'f' ∨ peek p.tail = 'n' ∨ peek p.tail = 'r'
        ∨ peek p.tail = 't'
    · obtain ⟨u, hu⟩ := ParseString_loop_simple_escape he
      have hne : peek p.tail ≠ Char.ofNat 0 := by
        rcases he with h | h | h | h | h | h | h | h <;> rw [h] <;> decide
      exact Or.inr ⟨p.tail.tail, acc ++ [u], (Advanced_tail hne).trans a1,
        fun k => hu k p acc h3 rfl⟩
    by_cases hu : peek p.tail = 'u'
    · cases hcp : ParseString_codepoint p.tail.tail with
      | error er =>
        exact Or.inl ⟨.error er, fun k => ParseString_loop_escape_u_error k p acc h3 hu hcp⟩
      | ok res =>
        obtain ⟨cp, p1⟩ := res
        have hs := ParseString_codepoint_suffix hcp
        have a2 : Advanced p.tail.tail p.tail := Advanced_tail (by rw [hu]; decide)
        by_cases hlt : cp < 128
        · refine Or.inr ⟨p1, acc ++ [Char.ofNat cp], (a2.trans a1).of_suffix_left hs,
            fun k => ?_⟩
          rw [ParseString_loop_escape_u k p acc h3 hu hcp, if_pos hlt]
        · refine Or.inr ⟨p1, acc ++ ['?'], (a2.trans a1).of_suffix_left hs, fun k => ?_⟩
          rw [ParseString_loop_escape_u k p acc h3 hu hcp, if_neg hlt]
    · exact Or.inl ⟨_, fun k => ParseString_loop_escape_bad k p acc h3 he hu⟩
  · exact Or.inr ⟨p.tail, acc ++ [peek p], Advanced_tail h2,
      fun k => ParseString_loop_plain k acc h1 h2 h3⟩

/-- One iteration of the loop of `ParseArray` ends the loop or goes on at a cursor strictly
behind the one it started at. -/
theorem ParseArray_loop_step {pv : string → Except TException (TJsonNode × string)}
    (hpv : Consuming pv) (p : string) (acc : List TJsonNode) :
    (∃ res, ∀ k, ParseArray_loop pv (k + 1) p acc = res)
    ∨ ∃ q acc1, Advanced q p
        ∧ ∀ k, ParseArray_loop pv (k + 1) p acc = ParseArray_loop pv k q acc1 := by
  cases hv : pv p with
  | error e =>
    refine Or.inl ⟨.error e, fun k => ?_⟩
    rw [ParseArray_loop, hv]
  | ok res =>
    obtain ⟨x, p1⟩ := res
    have a1 : Advanced p1 p := hpv p x p1 hv
    by_cases c1 : peek (SkipWhitespace p1) = ']'
    · refine Or.inl ⟨.ok (Array (acc ++ [x]), (SkipWhitespace p1).tail), fun k => ?_⟩
      rw [ParseArray_loop, hv]
      simp only
      rw [if_pos c1]
    by_cases c2 : peek (SkipWhitespace p1) ≠ ','
    · refine Or.inl ⟨.error .expectedCommaOrBracket, fun k => ?_⟩
      rw [ParseArray_loop, hv]
      simp only
      rw [if_neg c1, if_pos c2]
    · refine Or.inr ⟨SkipWhitespace (SkipWhitespace p1).tail, acc ++ [x], ?_, fun k => ?_⟩
      · exact a1.of_suffix_left ((SkipWhitespace_suffix _).trans
          ((tail_suffix _).trans (SkipWhitespace_suffix _)))
      · rw [ParseArray_loop, hv]
        simp only
        rw [if_neg c1, if_neg c2]

/-- One iteration of the loop of `ParseObject` ends the loop or goes on at a cursor strictly
behind the one it started at. -/
theorem ParseObject_loop_step {pv : string → Except TException (TJsonNode × string)}
    (hpv : Consuming pv) (p : string) (acc : List (string × TJsonNode)) :
    (∃ res, ∀ k, ParseObject_loop pv (k + 1) p acc = res)
    ∨ ∃ q acc1, Advanced q p
        ∧ ∀ k, ParseObject_loop pv (k + 1) p acc = ParseObject_loop pv k q acc1 := by
  by_cases c0 : peek (SkipWhitespace p) ≠ '"'
  · refine Or.inl ⟨.error .expectedKeyQuote, fun k => ?_⟩
    rw [ParseObject_loop, if_pos c0]
  cases hk : ParseString (SkipWhitespace p) with
  | error e =>
    refine Or.inl ⟨.error e, fun k => ?_⟩
    rw [ParseObject_loop, if_neg c0, hk]
  | ok res =>
    obtain ⟨keyNode, p1⟩ := res
    have a1 : Advanced p1 p := (ParseString_advanced hk).of_suffix_right (SkipWhitespace_suffix p)
    cases hs : operator_string keyNode with
    | error e =>
      refine Or.inl ⟨.error e, fun k => ?_⟩
      rw [ParseObject_loop, if_neg c0, hk]
      simp only [hs]
    | ok key =>
      by_cases c1 : peek (SkipWhitespace p1) ≠ ':'
      · refine Or.inl ⟨.error .expectedColon, fun k => ?_⟩
        rw [ParseObject_loop, if_neg c0, hk]
        simp only [hs]
        rw [if_pos c1]
      cases hv : pv (SkipWhitespace p1).tail with
      | error e =>
        refine Or.inl ⟨.error e, fun k => ?_⟩
        rw [ParseObject_loop, if_neg c0, hk]
        simp only [hs]
        rw [if_neg c1, hv]
      | ok res2 =>
        obtain ⟨x, p2⟩ := res2
        have a2 : Advanced p2 p :=
          ((hpv _ x p2 hv).of_suffix_right
            ((tail_suffix _).trans (SkipWhitespace_suffix _))).trans a1
        by_cases c2 : peek (SkipWhitespace p2) = '}'
        · refine Or.inl ⟨.ok (Object (umap_emplace acc key x).1, (SkipWhitespace p2).tail),
            fun k => ?_⟩
          rw [ParseObject_loop, if_neg c0, hk]
          simp only [hs]
          rw [if_neg c1, hv]
          simp only
          rw [if_pos c2]
        by_cases c3 : peek (SkipWhitespace p2) ≠ ','
        · refine Or.inl ⟨.error .expectedCommaOrBrace, fun k => ?_⟩
          rw [ParseObject_loop, if_neg c0, hk]
          simp only [hs]
          rw [if_neg c1, hv]
          simp only
          rw [if_neg c2, if_pos c3]
        · refine Or.inr ⟨(SkipWhitespace p2).tail, (umap_emplace acc key x).1, ?_, fun k => ?_⟩
          · exact a2.of_suffix_left ((tail_suffix _).trans (SkipWhitespace_suffix _))
          · rw [ParseObject_loop, if_neg c0, hk]
            simp only [hs]
            rw [if_neg c1, hv]
            simp only
            rw [if_neg c2, if_neg c3]

theorem Parse_no_fuel_error (json : string) : Parse json ≠ .error .outOfFuel := by
  unfold Parse
  by_cases c0 : peek (SkipWhitespace json) = Char.ofNat 0
  · rw [if_pos c0]
    intro h
    cases h
  rw [if_neg c0]
  have hne := ParseValue_no_fuel_error ((SkipWhitespace json).length + 1) (SkipWhitespace json)
    (Nat.lt_succ_self _)
  cases hv : ParseValue ((SkipWhitespace json).length + 1) (SkipWhitespace json) with
  | error e =>
    simp only
    intro h
    injection h with h
    rw [hv, h] at hne
    exact hne rfl
  | ok res =>
    obtain ⟨v, r⟩ := res
    simp only
    by_cases c1 : peek (SkipWhitespace r) ≠ Char.ofNat 0
    · rw [if_pos c1]
      intro h
      cases h
    · rw [if_neg c1]
      intro h
      cases h

/-- C35: `Parse` terminates on every finite input.  Every successful call of `ParseValue`,
`ParseString`, `ParseNumber`, `ParseLiteral` (for the three literals), `ParseArray` and
`ParseObject` leaves the cursor at least one character behind where it started; every
iteration of the loops of `ParseString`, `ParseArray` and `ParseObject` either ends the
loop (with a result or a failure) or goes on at a cursor at least one character further;
so a recursion budget above the length of the remaining input is never exhausted, a larger
budget gives the same result, and `Parse` (which passes such a budget) always returns a
document or raises an exception of the code. -/
theorem Parse_terminates (n : Nat) (p : string) :
    (∀ v r, ParseValue n p = .ok (v, r) → Advanced r p)
    ∧ (∀ v r, ParseString p = .ok (v, r) → Advanced r p)
    ∧ (∀ v r, ParseNumber p = .ok (v, r) → Advanced r p)
    ∧ (∀ v r, ParseLiteral p ['n', 'u', 'l', 'l'] Null = .ok (v, r) → Advanced r p)
    ∧ (∀ v r, ParseLiteral p ['t', 'r', 'u', 'e'] (Boolean true) = .ok (v, r) → Advanced r p)
    ∧ (∀ v r, ParseLiteral p ['f', 'a', 'l', 's', 'e'] (Boolean false) = .ok (v, r) →
        Advanced r p)
    ∧ (∀ v r, ParseArray (ParseValue n) p = .ok (v, r) → Advanced r p)
    ∧ (∀ v r, ParseObject (ParseValue n) p = .ok (v, r) → Advanced r p)
    ∧ (∀ acc, (∃ res, ∀ k, ParseString_loop (k + 1) p acc = res)
        ∨ ∃ q acc1, Advanced q p
          ∧ ∀ k, ParseString_loop (k + 1) p acc = ParseString_loop k q acc1)
    ∧ (∀ acc, (∃ res, ∀ k, ParseArray_loop (ParseValue n) (k + 1) p acc = res)
        ∨ ∃ q acc1, Advanced q p
          ∧ ∀ k, ParseArray_loop (ParseValue n) (k + 1) p acc
              = ParseArray_loop (ParseValue n) k q acc1)
    ∧ (∀ acc, (∃ res, ∀ k, ParseObject_loop (ParseValue n) (k + 1) p acc = res)
        ∨ ∃ q acc1, Advanced q p
          ∧ ∀ k, ParseObject_loop (ParseValue n) (k + 1) p acc
              = ParseObject_loop (ParseValue n) k q acc1)
    ∧ (p.length < n → ParseValue n p ≠ .error .outOfFuel
        ∧ ∀ m, n ≤ m → ParseValue m p = ParseValue n p)
    ∧ Parse p ≠ .error .outOfFuel := by
  refine ⟨fun v r h => ParseValue_consuming n p v r h, fun v r h => ParseString_advanced h,
    fun v r h => ParseNumber_advanced h,
    fun v r h => ParseLiteral_advanced (by simp) h,
    fun v r h => ParseLiteral_advanced (by simp) h,
    fun v r h => ParseLiteral_advanced (by simp) h,
    fun v r h => ParseArray_advanced (ParseValue_consuming n) h,
    fun v r h => ParseObject_advanced (ParseValue_consuming n) h,
    fun acc => ParseString_loop_step p acc,
    fun acc => ParseArray_loop_step (ParseValue_consuming n) p acc,
    fun acc => ParseObject_loop_step (ParseValue_consuming n) p acc,
    fun hf => ⟨ParseValue_no_fuel_error n p hf,
      fun m hm => ParseValue_extends hm p (ParseValue_no_fuel_error n p hf)⟩,
    Parse_no_fuel_error p⟩

/-! ## Keyed insertion -/

/-- C36: `insert` and `emplace` never overwrite.  On an Object in which the key `k` is
present (mapped to `old`) both report `inserted = false` and leave the Object as it is, so
`k` still maps to `old` and the size is unchanged.  On an Object in which `k` is absent
both report `inserted = true` and leave an Object in which `k` maps to `x`, every other key
maps to what it mapped to before, and the size has grown by one. -/
theorem insert_emplace_never_overwrite (m : TObject) (k : string) (x : TJsonNode) :
    (∀ old, umap_find m k = some old →
      insert (Object m) k x = (.ok false, Object m)
      ∧ emplace (Object m) k x = (.ok false, Object m)
      ∧ at_key (insert (Object m) k x).2 k = (.ok old, Object m)
      ∧ size (insert (Object m) k x).2 = size (Object m))
    ∧ (umap_find m k = none →
      ∃ m1, insert (Object m) k x = (.ok true, Object m1)
        ∧ emplace (Object m) k x = (.ok true, Object m1)
        ∧ umap_find m1 k = some x
        ∧ (∀ key, key ≠ k → umap_find m1 key = umap_find m key)
        ∧ m1.length = m.length + 1
        ∧ (∀ kv ∈ m, kv ∈ m1)) := by
  constructor
  · intro old h
    have he : umap_emplace m k x = (m, false) := by
      unfold umap_emplace
      rw [h]
    refine ⟨?_, ?_, ?_, ?_⟩
    · simp only [insert, he]
    · simp only [emplace, he]
    · simp only [insert, he, at_key, h]
    · simp only [insert, he]
  · intro h
    have he : umap_emplace m k x = (m ++ [(k, x)], true) := by
      unfold umap_emplace
      rw [h]
    refine ⟨m ++ [(k, x)], ?_, ?_, ?_, ?_, ?_, ?_⟩
    · simp only [insert, he]
    · simp only [emplace, he]
    · rw [umap_find_append, h]
      simp
    · intro key hne
      rw [umap_find_append]
      cases hk : umap_find m key with
      | some w => rfl
      | none =>
        simp only
        rw [if_neg (fun hc => hne hc.symm)]
    · simp
    · intro kv hkv
      exact List.mem_append_left _ hkv

/-! ## Raw characters in string literals -/

theorem ParseString_loop_raw (s : string) (h0 : ∀ c ∈ s, c ≠ Char.ofNat 0)
    (hq : ∀ c ∈ s, c ≠ '"' ∧ c ≠ '\\') (fuel : Nat) (rest acc : string)
    (hf : s.length < fuel) :
    ParseString_loop fuel (s ++ '"' :: rest) acc = .ok (acc ++ s, rest) := by
  induction s generalizing fuel acc with
  | nil =>
    obtain ⟨k, rfl⟩ : ∃ k, fuel = k + 1 := ⟨fuel - 1, by simp at hf; omega⟩
    rw [List.nil_append, ParseString_loop_quote k acc (show peek ('"' :: rest) = '"' from rfl),
      List.append_nil]
    rfl
  | cons c s ih =>
    obtain ⟨k, rfl⟩ : ∃ k, fuel = k + 1 := ⟨fuel - 1, by simp at hf; omega⟩
    have hc0 := h0 c (List.mem_cons_self _ _)
    have hcq := hq c (List.mem_cons_self _ _)
    rw [ParseString_loop_plain k acc
      (show ¬ peek ((c :: s) ++ '"' :: rest) = '"' from hcq.1)
      (show ¬ peek ((c :: s) ++ '"' :: rest) = Char.ofNat 0 from hc0)
      (show ¬ peek ((c :: s) ++ '"' :: rest) = '\\' from hcq.2)]
    have h := ih (fun d hd => h0 d (List.mem_cons_of_mem _ hd))
      (fun d hd => hq d (List.mem_cons_of_mem _ hd)) k (acc ++ [c])
      (by simp only [List.length_cons] at hf; omega)
    have e : (acc ++ [c]) ++ s = acc ++ c :: s := by simp
    rw [e] at h
    exact h

theorem ReadsAsKey_raw (s : string) (h0 : ∀ c ∈ s, c ≠ Char.ofNat 0)
    (hq : ∀ c ∈ s, c ≠ '"' ∧ c ≠ '\\') : ReadsAsKey (['"'] ++ s ++ ['"']) s := by
  intro rest
  unfold ParseString
  have htext : ['"'] ++ s ++ ['"'] ++ rest = '"' :: (s ++ '"' :: rest) := by simp
  rw [htext]
  simp only [peek, List.headD_cons, List.tail_cons, ne_eq, not_true_eq_false, if_false]
  rw [ParseString_loop_raw s h0 hq _ rest []
    (by simp only [List.length_append, List.length_cons]; omega)]
  simp

/-- C37: the string parser accepts raw control characters.  For every sequence `s` of
characters other than NUL, `"` and `\` (raw newlines, tabs and the other bytes below 0x20
included), `Parse` of the text `"` + `s` + `"` succeeds and yields the String `s`
verbatim; so does `Parse(const std::string&)`. -/
theorem Parse_raw_string (s : string) (h0 : ∀ c ∈ s, c ≠ Char.ofNat 0)
    (hq : ∀ c ∈ s, c ≠ '"' ∧ c ≠ '\\') :
    Parse (['"'] ++ s ++ ['"']) = .ok (String s)
    ∧ Parse_std_string (['"'] ++ s ++ ['"']) = .ok (String s) := by
  have h := Parse_of_ReadsAs (ReadsAs_of_ReadsAsKey (ReadsAsKey_raw s h0 hq))
  refine ⟨h, ?_⟩
  unfold Parse_std_string
  rw [c_str_of_no_nul]
  · exact h
  · intro c hc
    simp only [List.mem_append, List.mem_singleton] at hc
    rcases hc with (hc | hc) | hc
    · rw [hc]; decide
    · exact h0 c hc
    · rw [hc]; decide

/-- Witness for C37: the text `"a`, line feed, tab, byte 0x01, `b"` parses to the String
of those five characters. -/
theorem Parse_raw_string_witness :
    Parse (['"'] ++ ['a', '\n', '\t', Char.ofNat 1, 'b'] ++ ['"'])
      = .ok (String ['a', '\n', '\t', Char.ofNat 1, 'b'])
    ∧ Parse_std_string (['"'] ++ ['a', '\n', '\t', Char.ofNat 1, 'b'] ++ ['"'])
      = .ok (String ['a', '\n', '\t', Char.ofNat 1, 'b']) :=
  Parse_raw_string ['a', '\n', '\t', Char.ofNat 1, 'b'] (by decide) (by decide)

/-! ## Construction followed by conversion -/

theorem InitFromVector_eq {T : Type} (construct : T → TJsonNode) (xs : List T) (acc : TArray) :
    InitFromVector construct xs acc = acc ++ xs.map construct := by
  induction xs generalizing acc with
  | nil => simp [InitFromVector]
  | cons x xs ih => simp [InitFromVector, ih]

theorem construct_vector_eq {T : Type} (construct : T → TJsonNode) (xs : List T) :
    construct_vector construct xs = Array (xs.map construct) := by
  simp [construct_vector, InitFromVector_eq]

theorem operator_vector_loop_map {T : Type} (construct : T → TJsonNode)
    (convert : TJsonNode → Except TException T) (xs : List T)
    (h : ∀ x ∈ xs, convert (construct x) = .ok x) (acc : List T) :
    operator_vector_loop convert (xs.map construct) acc = .ok (acc ++ xs) := by
  induction xs generalizing acc with
  | nil => simp [operator_vector_loop]
  | cons x xs ih =>
    rw [List.map_cons, operator_vector_loop, h x (List.mem_cons_self _ _)]
    simp only
    rw [ih (fun y hy => h y (List.mem_cons_of_mem _ hy))]
    simp

theorem operator_vector_construct_vector {T : Type} (construct : T → TJsonNode)
    (convert : TJsonNode → Except TException T) (xs : List T)
    (h : ∀ x ∈ xs, convert (construct x) = .ok x) :
    operator_vector convert (construct_vector construct xs) = .ok xs := by
  rw [construct_vector_eq, operator_vector, operator_vector_loop_map construct convert xs h]
  simp

theorem construct_int_eq (x : Int) (hlo : -(2 : Int) ^ 31 ≤ x) (hhi : x < (2 : Int) ^ 31) :
    construct_int x = Number (.finite (x : ℚ)) := by
  unfold construct_int Double.ofInt
  rw [Double.ofRat_of_IsDouble (IsDouble_intCast x (by omega))]

theorem operator_int_construct_int (x : Int) (hlo : -(2 : Int) ^ 31 ≤ x)
    (hhi : x < (2 : Int) ^ 31) : operator_int (construct_int x) = .ok x := by
  rw [construct_int_eq x hlo hhi, operator_int,
    static_cast_int_of_range (by exact_mod_cast hlo)
      (by
        have : x ≤ 2147483647 := by omega
        exact_mod_cast this),
    truncate_intCast]

/-- C38: construction followed by conversion is the identity.  For every sequence `xs` of
32-bit integers (of strings, of booleans) the node constructed from `xs` is the Array of
the same length whose `i`-th element is the Number (String, Boolean) constructed from
`xs[i]`, and converting that node to a sequence of the same type returns `xs`; likewise a
node constructed from a single 32-bit integer, string or boolean converts back to it. -/
theorem construct_then_convert (xs : List Int) (ss : List string) (bs : List Bool)
    (hxs : ∀ x ∈ xs, -(2 : Int) ^ 31 ≤ x ∧ x < (2 : Int) ^ 31) :
    (construct_vector construct_int xs = Array (xs.map construct_int)
      ∧ size (construct_vector construct_int xs) = .ok xs.length
      ∧ (∀ x ∈ xs, construct_int x = Number (.finite (x : ℚ)))
      ∧ operator_vector operator_int (construct_vector construct_int xs) = .ok xs)
    ∧ (construct_vector construct_string ss = Array (ss.map String)
      ∧ size (construct_vector construct_string ss) = .ok ss.length
      ∧ operator_vector operator_string (construct_vector construct_string ss) = .ok ss)
    ∧ (construct_vector construct_bool bs = Array (bs.map Boolean)
      ∧ size (construct_vector construct_bool bs) = .ok bs.length
      ∧ operator_vector operator_bool (construct_vector construct_bool bs) = .ok bs)
    ∧ (∀ x : Int, -(2 : Int) ^ 31 ≤ x → x < (2 : Int) ^ 31 →
        operator_int (construct_int x) = .ok x)
    ∧ (∀ s : string, operator_string (construct_string s) = .ok s)
    ∧ (∀ b : Bool, operator_bool (construct_bool b) = .ok b) := by
  refine ⟨⟨construct_vector_eq _ _, ?_, ?_, ?_⟩, ⟨construct_vector_eq _ _, ?_, ?_⟩,
    ⟨construct_vector_eq _ _, ?_, ?_⟩, operator_int_construct_int, fun s => rfl, fun b => rfl⟩
  · rw [construct_vector_eq, size, List.length_map]
  · exact fun x hx => construct_int_eq x (hxs x hx).1 (hxs x hx).2
  · exact operator_vector_construct_vector _ _ xs
      (fun x hx => operator_int_construct_int x (hxs x hx).1 (hxs x hx).2)
  · rw [construct_vector_eq, size, List.length_map]
  · exact operator_vector_construct_vector _ _ ss (fun s _ => rfl)
  · rw [construct_vector_eq, size, List.length_map]
  · exact operator_vector_construct_vector _ _ bs (fun b _ => rfl)

/-- Witness for C38: the sequences `[-2147483648, 0, 2147483647]`, `["a", ""]` and
`[true, false]`. -/
theorem construct_then_convert_witness :
    operator_vector operator_int
        (construct_vector construct_int [-2147483648, 0, 2147483647])
      = .ok [-2147483648, 0, 2147483647]
    ∧ operator_vector operator_string (construct_vector construct_string [['a'], []])
      = .ok [['a'], []]
    ∧ operator_vector operator_bool (construct_vector construct_bool [true, false])
      = .ok [true, false] :=
  have h := construct_then_convert [-2147483648, 0, 2147483647] [['a'], []] [true, false]
    (by decide)
  ⟨h.1.2.2.2, h.2.1.2.2, h.2.2.1.2.2⟩

/-! ## Removing whitespace -/

/-- A token without structural characters and whitespace that is read, in the text with the
whitespace inserted, from a cursor strictly in front of the place ends in front of the
place. -/
theorem token_within_removed {tok r1 a b w : string}
    (htok : ∀ c ∈ tok, isStructural c = false ∧ isWhitespace c = false)
    (hw : ∀ c ∈ w, isWhitespace c = true)
    (heq : tok ++ r1 = a ++ (w ++ b)) (ha : a ≠ []) (hB : Boundary a b) :
    ∃ x, a = tok ++ x ∧ r1 = x ++ (w ++ b) := by
  rcases List.append_eq_append_iff.mp heq with ⟨m, h1, h2⟩ | ⟨m, h1, h2⟩
  · exact ⟨m, h1, h2⟩
  · cases m with
    | nil =>
      refine ⟨[], ?_, ?_⟩
      · rw [h1, List.append_nil, List.append_nil]
      · rw [h2]; rfl
    | cons c m =>
      exfalso
      have hc : c ∈ tok := by rw [h1]; exact List.mem_append_right _ (List.mem_cons_self _ _)
      cases w with
      | nil =>
        rw [List.nil_append] at h2
        refine hB.not_straddle ha ?_ ?_ ?_
        · intro l hl
          exact (htok l (by
            rw [h1]; exact List.mem_append_left _ (List.mem_of_mem_getLast? hl))).1
        · rw [h2]; exact List.cons_ne_nil _ _
        · rw [h2]
          exact (htok c hc).1
      | cons d w =>
        rw [List.cons_append, List.cons_append] at h2
        injection h2 with hd _
        have h3 := hw d (List.mem_cons_self _ _)
        rw [hd, (htok c hc).2] at h3
        cases h3

theorem number_token_alphabet {sign ip frac ex : string} (hs : sign = [] ∨ sign = ['-'])
    (hip : IntegerPart ip) (hfrac : FractionPart frac) (hex : ExponentPart ex) :
    IsNumberAlphabet (sign ++ ip ++ frac ++ ex) := by
  intro c hc
  simp only [List.mem_append] at hc
  rcases hc with ((hc | hc) | hc) | hc
  · rcases hs with h | h
    · subst h; cases hc
    · subst h
      simp only [List.mem_singleton] at hc
      exact Or.inr (Or.inl hc)
  · exact Or.inl (hip.digits c hc)
  · rcases hfrac with h | ⟨fp, h, _, hfp⟩
    · subst h; cases hc
    · subst h
      rcases List.mem_cons.mp hc with hc | hc
      · exact Or.inr (Or.inr (Or.inr (Or.inl hc)))
      · exact Or.inl (hfp c hc)
  · rcases hex with h | ⟨m, sg, ep, h, hm, hsg, _, hep⟩
    · subst h; cases hc
    · subst h
      rcases List.mem_cons.mp hc with hc | hc
      · rcases hm with hm | hm
        · exact Or.inr (Or.inr (Or.inr (Or.inr (Or.inl (hc.trans hm)))))
        · exact Or.inr (Or.inr (Or.inr (Or.inr (Or.inr (hc.trans hm)))))
      · rcases List.mem_append.mp hc with hc | hc
        · rcases hsg with h | h | h
          · subst h; cases hc
          · subst h
            simp only [List.mem_singleton] at hc
            exact Or.inr (Or.inr (Or.inl hc))
          · subst h
            simp only [List.mem_singleton] at hc
            exact Or.inr (Or.inl hc)
        · exact Or.inl (hep c hc)

theorem ParseLiteral_removed {w b p p1 lit r1 : string} {v v0 : TJsonNode}
    (hw : ∀ c ∈ w, isWhitespace c = true)
    (hlit : ∀ c ∈ lit, c ≠ '"' ∧ isStructural c = false ∧ isWhitespace c = false)
    (h : ParseLiteral p1 lit v = .ok (v0, r1)) (hi : InsertedInside w b p p1) :
    ∃ r, ParseLiteral p lit v = .ok (v0, r) ∧ Inserted w b r r1 := by
  rcases hi with hi | ⟨a, ha, h1, h2, hB⟩
  · subst hi
    exact ⟨r1, h, Or.inl rfl⟩
  · unfold ParseLiteral at h
    by_cases ht : p1.take lit.length = lit
    · rw [if_pos ht] at h
      injection h with h
      injection h with hv hr
      have hp : lit ++ r1 = a ++ (w ++ b) := by
        rw [← h2]
        conv_rhs => rw [← List.take_append_drop lit.length p1, ht, hr]
      obtain ⟨x, hax, hrx⟩ :=
        token_within_removed (fun c hc => (hlit c hc).2) hw hp ha hB
      refine ⟨x ++ b, ?_, ?_⟩
      · unfold ParseLiteral
        have hp0 : p = lit ++ (x ++ b) := by
          rw [h1, hax, List.append_assoc]
        rw [hp0, List.take_left, if_pos rfl, List.drop_left, hv]
      · rw [hrx]
        exact Inserted.of_consumed w hB hax
          (scanState_code_of_plain lit (fun c hc => (hlit c hc).1))
    · rw [if_neg ht] at h
      cases h

theorem ParseNumber_removed {w b p p1 r1 : string} {v : TJsonNode}
    (hw : ∀ c ∈ w, isWhitespace c = true)
    (h : ParseNumber p1 = .ok (v, r1)) (hi : InsertedInside w b p p1) :
    ∃ r, ParseNumber p = .ok (v, r) ∧ Inserted w b r r1 := by
  rcases hi with hi | ⟨a, ha, h1, h2, hB⟩
  · subst hi
    exact ⟨r1, h, Or.inl rfl⟩
  · obtain ⟨sign, ip, frac, ex, d, hp, hsign, hip, hfrac, hex, hstop, hd, hv⟩ :=
      ParseNumber_parts h
    have htok := number_token_plain hsign hip hfrac hex
    have halpha := number_token_alphabet hsign hip hfrac hex
    have hp' : (sign ++ ip ++ frac ++ ex) ++ r1 = a ++ (w ++ b) := by rw [← hp, h2]
    obtain ⟨x, hax, hrx⟩ := token_within_removed
      (fun c hc => ⟨(htok c hc).2, (number_alphabet_not_ws (halpha c hc)).1⟩) hw hp' ha hB
    refine ⟨x ++ b, ?_, ?_⟩
    · have hstop' : StopsNumber ip frac ex (x ++ b) := by
        rw [hrx] at hstop
        refine StopsNumber_of_peek hstop ?_
        cases x with
        | cons c x => exact Or.inl rfl
        | nil =>
          right
          rw [List.nil_append]
          -- the token ends at the place: what follows is the end or a structural token
          have hlast : ∀ c, a.getLast? = some c → isStructural c = false := by
            intro l hl
            exact (htok l (by
              rw [hax, List.append_nil] at hl
              exact List.mem_of_mem_getLast? hl)).2
          rcases hB with hb | ⟨_, hb | ⟨l, h3, h4⟩ | hb⟩
          · rw [hb]
            exact ⟨by decide, by decide, by decide, by decide⟩
          · exact absurd hb ha
          · rw [hlast l h3] at h4
            cases h4
          · simp only [isStructural, decide_eq_true_eq] at hb
            unfold NumberEnd
            rcases hb with hb | hb | hb | hb | hb | hb <;> rw [hb] <;>
              exact ⟨by decide, by decide, by decide, by decide⟩
      have hp0 : p = sign ++ ip ++ frac ++ ex ++ (x ++ b) := by
        rw [h1, hax, List.append_assoc]
      have hres := ParseNumber_of_parts hsign hip hfrac hex _ hstop'
      rw [hd] at hres
      rw [hp0, hres, hv]
    · rw [hrx]
      exact Inserted.of_consumed w hB hax
        (scanState_code_of_plain _ (fun c hc => (htok c hc).1))

theorem ParseString_loop_ok_of_length (N : Nat) (p acc : string) (res : string × string)
    (h : ParseString_loop N p acc = .ok res) (M : Nat) (hM : p.length < M) :
    ParseString_loop M p acc = .ok res := by
  induction N generalizing p acc M with
  | zero => simp [ParseString_loop] at h
  | succ n ih =>
    obtain ⟨m, rfl⟩ : ∃ m, M = m + 1 := ⟨M - 1, by omega⟩
    rcases ParseString_loop_step p acc with ⟨r0, hr⟩ | ⟨q, acc1, hq, hr⟩
    · rw [hr m, ← hr n]
      exact h
    · rw [hr n] at h
      rw [hr m]
      exact ih q acc1 h m (by have := hq.2; omega)

theorem ParseArray_loop_ok_of_length {pv : string → Except TException (TJsonNode × string)}
    (hpv : Consuming pv) (N : Nat) (p : string) (acc : List TJsonNode)
    (res : TJsonNode × string) (h : ParseArray_loop pv N p acc = .ok res) (M : Nat)
    (hM : p.length < M) : ParseArray_loop pv M p acc = .ok res := by
  induction N generalizing p acc M with
  | zero => simp [ParseArray_loop] at h
  | succ n ih =>
    obtain ⟨m, rfl⟩ : ∃ m, M = m + 1 := ⟨M - 1, by omega⟩
    rcases ParseArray_loop_step hpv p acc with ⟨r0, hr⟩ | ⟨q, acc1, hq, hr⟩
    · rw [hr m, ← hr n]
      exact h
    · rw [hr n] at h
      rw [hr m]
      exact ih q acc1 h m (by have := hq.2; omega)

theorem ParseObject_loop_ok_of_length {pv : string → Except TException (TJsonNode × string)}
    (hpv : Consuming pv) (N : Nat) (p : string) (acc : List (string × TJsonNode))
    (res : TJsonNode × string) (h : ParseObject_loop pv N p acc = .ok res) (M : Nat)
    (hM : p.length < M) : ParseObject_loop pv M p acc = .ok res := by
  induction N generalizing p acc M with
  | zero => simp [ParseObject_loop] at h
  | succ n ih =>
    obtain ⟨m, rfl⟩ : ∃ m, M = m + 1 := ⟨M - 1, by omega⟩
    rcases ParseObject_loop_step hpv p acc with ⟨r0, hr⟩ | ⟨q, acc1, hq, hr⟩
    · rw [hr m, ← hr n]
      exact h
    · rw [hr n] at h
      rw [hr m]
      exact ih q acc1 h m (by have := hq.2; omega)

/-- The characters the string loop reads: they close the literal, and the loop reads them
the same way in front of any other text. -/
theorem ParseString_loop_consumed (fuel : Nat) (p acc s r : string)
    (h : ParseString_loop fuel p acc = .ok (s, r)) :
    ∃ c, p = c ++ r ∧ scanState .text c = .code
      ∧ ∀ y fuel1, fuel ≤ fuel1 → ParseString_loop fuel1 (c ++ y) acc = .ok (s, y) := by
  have h0 : ParseString_loop fuel (p ++ []) acc = .ok (s, r) := by
    rw [List.append_nil]; exact h
  obtain ⟨c, x1, hc1, hc2, hc3, hc4⟩ := ParseString_loop_local fuel p acc s r (Or.inl rfl) h0
  rw [List.append_nil] at hc2
  subst hc2
  have h1 : ParseString_loop fuel (c ++ r) acc = .ok (s, r) := by
    rw [← hc1]; exact h
  obtain ⟨c', x2, hd1, hd2, hd3, hd4⟩ := ParseString_loop_local fuel c acc s r (Or.inr hc3) h1
  have hx2 : x2 = [] := by
    have := congrArg List.length hd2
    simp only [List.length_append] at this
    exact List.length_eq_zero.mp (by omega)
  subst hx2
  refine ⟨c, hc1, hc3, fun y fuel1 hf => ?_⟩
  have := hd4 y fuel1 hf
  rw [List.nil_append] at this
  exact this

theorem scanState_whitespace {w : string} (hw : ∀ c ∈ w, isWhitespace c = true)
    (s : EScanState) (hs : s ≠ .code) : scanState s w ≠ .code := by
  induction w generalizing s with
  | nil => cases s <;> exact hs
  | cons c w ih =>
    have hc := hw c (List.mem_cons_self _ _)
    have hw' : ∀ d ∈ w, isWhitespace d = true := fun d hd => hw d (List.mem_cons_of_mem _ hd)
    have h1 : c ≠ '"' := by intro h; rw [h] at hc; revert hc; decide
    have h2 : c ≠ '\\' := by intro h; rw [h] at hc; revert hc; decide
    cases s with
    | code => exact absurd rfl hs
    | text =>
      rw [scanState_text_cons h2 h1]
      exact ih hw' _ (by decide)
    | escape =>
      rw [scanState]
      exact ih hw' _ (by decide)

theorem ParseString_removed {w b p p1 r1 : string} {v : TJsonNode}
    (hw : ∀ c ∈ w, isWhitespace c = true)
    (h : ParseString p1 = .ok (v, r1)) (hi : InsertedInside w b p p1) :
    ∃ r, ParseString p = .ok (v, r) ∧ Inserted w b r r1 := by
  rcases hi with hi | ⟨a, ha, h1, h2, hB⟩
  · subst hi
    exact ⟨r1, h, Or.inl rfl⟩
  · cases a with
    | nil => exact absurd rfl ha
    | cons c0 x0 =>
      subst h1 h2
      unfold ParseString at h
      by_cases hq : peek ((c0 :: x0) ++ (w ++ b)) ≠ '"'
      · rw [if_pos hq] at h
        cases h
      rw [if_neg hq] at h
      have hc0 : c0 = '"' := by
        have : peek ((c0 :: x0) ++ (w ++ b)) = '"' := by simpa using hq
        exact this
      subst hc0
      cases hl : ParseString_loop (x0 ++ (w ++ b)).length.succ (x0 ++ (w ++ b)) [] with
      | error e =>
        have hl' : ParseString_loop ((('"' :: x0) ++ (w ++ b)).tail.length + 1)
            (('"' :: x0) ++ (w ++ b)).tail [] = .error e := hl
        rw [hl'] at h
        cases h
      | ok res =>
        obtain ⟨s, r0⟩ := res
        have hl' : ParseString_loop ((('"' :: x0) ++ (w ++ b)).tail.length + 1)
            (('"' :: x0) ++ (w ++ b)).tail [] = .ok (s, r0) := hl
        rw [hl'] at h
        injection h with h
        injection h with hv hr
        subst hr
        -- the literal ends in front of the place
        have key : ∃ c x1, x0 = c ++ x1 ∧ r0 = x1 ++ (w ++ b) ∧ scanState .text c = .code
            ∧ ParseString_loop (x0 ++ (w ++ b)).length.succ (x0 ++ b) [] = .ok (s, x1 ++ b) := by
          by_cases hs : scanState .text x0 = .code
          · obtain ⟨c, x1, hc1, hc2, hc3, hc4⟩ :=
              ParseString_loop_local _ x0 [] s r0 (Or.inr hs) hl
            exact ⟨c, x1, hc1, hc2, hc3, hc4 b _ (Nat.le_refl _)⟩
          · have hb : b = [] := by
              rcases hB with hb | ⟨hs1, _⟩
              · exact hb
              · rw [scanState, if_pos rfl] at hs1
                exact absurd hs1 hs
            subst hb
            obtain ⟨c, hc1, hc3, hc4⟩ := ParseString_loop_consumed _ _ _ _ _ hl
            rcases List.append_eq_append_iff.mp hc1 with ⟨m, e1, e2⟩ | ⟨m, e1, e2⟩
            · exfalso
              rw [e1, scanState_append] at hc3
              refine scanState_whitespace (fun d hd => hw d ?_) _ hs hc3
              have : d ∈ w ++ [] := by rw [e2]; exact List.mem_append_left _ hd
              simpa using this
            · refine ⟨c, m, e1, e2, hc3, ?_⟩
              have h5 := hc4 m _ (Nat.le_refl _)
              rw [← e1] at h5
              simpa only [List.append_nil] using h5
        obtain ⟨c, x1, hc1, hc2, hc3, hc4⟩ := key
        refine ⟨x1 ++ b, ?_, ?_⟩
        · unfold ParseString
          rw [if_neg (show ¬ peek (('"' :: x0) ++ b) ≠ '"' from hq)]
          have hl1 : ParseString_loop ((('"' :: x0) ++ b).tail.length + 1)
              (('"' :: x0) ++ b).tail [] = .ok (s, x1 ++ b) :=
            ParseString_loop_ok_of_length _ _ _ _ hc4 _ (Nat.lt_succ_self _)
          rw [hl1, ← hv]
        · rw [hc2]
          refine Inserted.of_consumed w hB (c := '"' :: c) (by rw [hc1]; rfl) ?_
          rw [scanState, if_pos rfl]
          exact hc3

theorem ParseArray_loop_removed {w b : string} (hw : ∀ c ∈ w, isWhitespace c = true)
    {pv : string → Except TException (TJsonNode × string)}
    (hpv : ∀ p p1 v r1, pv p1 = .ok (v, r1) → Inserted w b p p1 →
      ∃ r, pv p = .ok (v, r) ∧ Inserted w b r r1)
    (fuel : Nat) (p p1 : string) (acc : List TJsonNode) (v : TJsonNode) (r1 : string)
    (h : ParseArray_loop pv fuel p1 acc = .ok (v, r1)) (hi : Inserted w b p p1) :
    ∃ r, ParseArray_loop pv fuel p acc = .ok (v, r) ∧ Inserted w b r r1 := by
  induction fuel generalizing p p1 acc with
  | zero => simp [ParseArray_loop] at h
  | succ fuel ih =>
    rw [ParseArray_loop] at h ⊢
    cases hv1 : pv p1 with
    | error e => rw [hv1] at h; cases h
    | ok res =>
      obtain ⟨x, q1⟩ := res
      rw [hv1] at h
      simp only at h
      obtain ⟨q, hv, hq⟩ := hpv _ _ _ _ hv1 hi
      rw [hv]
      simp only
      have hs := hq.skipWhitespace hw
      rw [hs.peek_eq] at h
      by_cases c1 : peek (SkipWhitespace q) = ']'
      · rw [if_pos c1] at h ⊢
        injection h with h
        injection h with ha hb
        subst hb
        exact ⟨_, by rw [ha], hs.tail (by rw [c1]; decide)⟩
      rw [if_neg c1] at h ⊢
      by_cases c2 : peek (SkipWhitespace q) ≠ ','
      · rw [if_pos c2] at h
        cases h
      rw [if_neg c2] at h ⊢
      have c2' : peek (SkipWhitespace q) = ',' := by simpa using c2
      exact ih _ _ _ h
        ((hs.tail (by rw [c2']; decide)).skipWhitespace hw).inserted

theorem ParseArray_removed {w b : string} (hw : ∀ c ∈ w, isWhitespace c = true)
    {pv : string → Except TException (TJsonNode × string)} (hcons : Consuming pv)
    (hpv : ∀ p p1 v r1, pv p1 = .ok (v, r1) → Inserted w b p p1 →
      ∃ r, pv p = .ok (v, r) ∧ Inserted w b r r1)
    {p p1 r1 : string} {v : TJsonNode}
    (h : ParseArray pv p1 = .ok (v, r1)) (hi : InsertedInside w b p p1) :
    ∃ r, ParseArray pv p = .ok (v, r) ∧ Inserted w b r r1 := by
  unfold ParseArray at h ⊢
  rw [hi.peek_eq] at h
  by_cases c0 : peek p ≠ '['
  · rw [if_pos c0] at h
    cases h
  rw [if_neg c0] at h ⊢
  have c0' : peek p = '[' := by simpa using c0
  have hs := (hi.tail (by rw [c0']; decide)).skipWhitespace hw
  rw [hs.peek_eq] at h
  by_cases c1 : peek (SkipWhitespace p.tail) = ']'
  · rw [if_pos c1] at h ⊢
    injection h with h
    injection h with ha hb
    subst hb
    exact ⟨_, by rw [ha], hs.tail (by rw [c1]; decide)⟩
  rw [if_neg c1] at h ⊢
  obtain ⟨r, h1, hr⟩ := ParseArray_loop_removed hw hpv _ _ _ _ _ _ h hs.inserted
  exact ⟨r, ParseArray_loop_ok_of_length hcons _ _ _ _ h1 _ (Nat.lt_succ_self _), hr⟩

theorem ParseObject_loop_removed {w b : string} (hw : ∀ c ∈ w, isWhitespace c = true)
    {pv : string → Except TException (TJsonNode × string)}
    (hpv : ∀ p p1 v r1, pv p1 = .ok (v, r1) → Inserted w b p p1 →
      ∃ r, pv p = .ok (v, r) ∧ Inserted w b r r1)
    (fuel : Nat) (p p1 : string) (acc : List (string × TJsonNode)) (v : TJsonNode)
    (r1 : string) (h : ParseObject_loop pv fuel p1 acc = .ok (v, r1))
    (hi : Inserted w b p p1) :
    ∃ r, ParseObject_loop pv fuel p acc = .ok (v, r) ∧ Inserted w b r r1 := by
  induction fuel generalizing p p1 acc with
  | zero => simp [ParseObject_loop] at h
  | succ fuel ih =>
    rw [ParseObject_loop] at h ⊢
    have hs0 := hi.skipWhitespace hw
    rw [hs0.peek_eq] at h
    by_cases c0 : peek (SkipWhitespace p) ≠ '"'
    · rw [if_pos c0] at h
      cases h
    rw [if_neg c0] at h ⊢
    cases hk1 : ParseString (SkipWhitespace p1) with
    | error e => rw [hk1] at h; cases h
    | ok res =>
      obtain ⟨keyNode, q1⟩ := res
      rw [hk1] at h
      simp only at h
      obtain ⟨q, hk, hq⟩ := ParseString_removed hw hk1 hs0
      rw [hk]
      simp only
      cases hs : operator_string keyNode with
      | error e => rw [hs] at h; cases h
      | ok key =>
        rw [hs] at h
        simp only at h ⊢
        have hs1 := hq.skipWhitespace hw
        rw [hs1.peek_eq] at h
        by_cases c1 : peek (SkipWhitespace q) ≠ ':'
        · rw [if_pos c1] at h
          cases h
        rw [if_neg c1] at h ⊢
        have c1' : peek (SkipWhitespace q) = ':' := by simpa using c1
        cases hv1 : pv (SkipWhitespace q1).tail with
        | error e => rw [hv1] at h; cases h
        | ok res2 =>
          obtain ⟨x, p3⟩ := res2
          rw [hv1] at h
          simp only at h
          obtain ⟨p2, hv, hp3⟩ := hpv _ _ _ _ hv1 (hs1.tail (by rw [c1']; decide))
          rw [hv]
          simp only
          have hs2 := hp3.skipWhitespace hw
          rw [hs2.peek_eq] at h
          by_cases c2 : peek (SkipWhitespace p2) = '}'
          · rw [if_pos c2] at h ⊢
            injection h with h
            injection h with ha hb
            subst hb
            exact ⟨_, by rw [ha], hs2.tail (by rw [c2]; decide)⟩
          rw [if_neg c2] at h ⊢
          by_cases c3 : peek (SkipWhitespace p2) ≠ ','
          · rw [if_pos c3] at h
            cases h
          rw [if_neg c3] at h ⊢
          have c3' : peek (SkipWhitespace p2) = ',' := by simpa using c3
          exact ih _ _ _ h (hs2.tail (by rw [c3']; decide))

theorem ParseObject_removed {w b : string} (hw : ∀ c ∈ w, isWhitespace c = true)
    {pv : string → Except TException (TJsonNode × string)} (hcons : Consuming pv)
    (hpv : ∀ p p1 v r1, pv p1 = .ok (v, r1) → Inserted w b p p1 →
      ∃ r, pv p = .ok (v, r) ∧ Inserted w b r r1)
    {p p1 r1 : string} {v : TJsonNode}
    (h : ParseObject pv p1 = .ok (v, r1)) (hi : InsertedInside w b p p1) :
    ∃ r, ParseObject pv p = .ok (v, r) ∧ Inserted w b r r1 := by
  unfold ParseObject at h ⊢
  rw [hi.peek_eq] at h
  by_cases c0 : peek p ≠ '{'
  · rw [if_pos c0] at h
    cases h
  rw [if_neg c0] at h ⊢
  have c0' : peek p = '{' := by simpa using c0
  have hs := (hi.tail (by rw [c0']; decide)).skipWhitespace hw
  rw [hs.peek_eq] at h
  by_cases c1 : peek (SkipWhitespace p.tail) = '}'
  · rw [if_pos c1] at h ⊢
    injection h with h
    injection h with ha hb
    subst hb
    exact ⟨_, by rw [ha], hs.tail (by rw [c1]; decide)⟩
  rw [if_neg c1] at h ⊢
  obtain ⟨r, h1, hr⟩ := ParseObject_loop_removed hw hpv _ _ _ _ _ _ h hs.inserted
  exact ⟨r, ParseObject_loop_ok_of_length hcons _ _ _ _ h1 _ (Nat.lt_succ_self _), hr⟩

theorem ParseValue_removed {w b : string} (hw : ∀ c ∈ w, isWhitespace c = true)
    (fuel : Nat) (p p1 : string) (v : TJsonNode) (r1 : string)
    (h : ParseValue fuel p1 = .ok (v, r1)) (hi : Inserted w b p p1) :
    ∃ r, ParseValue fuel p = .ok (v, r) ∧ Inserted w b r r1 := by
  induction fuel generalizing p p1 v r1 with
  | zero => simp [ParseValue] at h
  | succ fuel ih =>
    rw [ParseValue] at h ⊢
    have hs := hi.skipWhitespace hw
    rw [hs.peek_eq] at h
    by_cases c1 : peek (SkipWhitespace p) = 'n'
    · rw [if_pos c1] at h ⊢
      exact ParseLiteral_removed hw (by decide) h hs
    rw [if_neg c1] at h ⊢
    by_cases c2 : peek (SkipWhitespace p) = 't'
    · rw [if_pos c2] at h ⊢
      exact ParseLiteral_removed hw (by decide) h hs
    rw [if_neg c2] at h ⊢
    by_cases c3 : peek (SkipWhitespace p) = 'f'
    · rw [if_pos c3] at h ⊢
      exact ParseLiteral_removed hw (by decide) h hs
    rw [if_neg c3] at h ⊢
    by_cases c4 : peek (SkipWhitespace p) = '"'
    · rw [if_pos c4] at h ⊢
      exact ParseString_removed hw h hs
    rw [if_neg c4] at h ⊢
    by_cases c5 : peek (SkipWhitespace p) = '['
    · rw [if_pos c5] at h ⊢
      exact ParseArray_removed hw (ParseValue_consuming fuel)
        (fun p p1 v r hp hq => ih p p1 v r hp hq) h hs
    rw [if_neg c5] at h ⊢
    by_cases c6 : peek (SkipWhitespace p) = '{'
    · rw [if_pos c6] at h ⊢
      exact ParseObject_removed hw (ParseValue_consuming fuel)
        (fun p p1 v r hp hq => ih p p1 v r hp hq) h hs
    rw [if_neg c6] at h ⊢
    by_cases c7 : peek (SkipWhitespace p) = '-' ∨ isDigit (peek (SkipWhitespace p)) = true
    · rw [if_pos c7] at h ⊢
      exact ParseNumber_removed hw h hs
    · rw [if_neg c7] at h
      cases h

theorem Parse_removed {w a b : string} {v : TJsonNode}
    (hw : ∀ c ∈ w, isWhitespace c = true) (hB : Boundary a b)
    (h : Parse (a ++ (w ++ b)) = .ok v) : Parse (a ++ b) = .ok v := by
  have hi : Inserted w b (a ++ b) (a ++ (w ++ b)) := Or.inr ⟨a, rfl, rfl, hB⟩
  have hs := hi.skipWhitespace hw
  unfold Parse at h ⊢
  rw [hs.peek_eq] at h
  by_cases c0 : peek (SkipWhitespace (a ++ b)) = Char.ofNat 0
  · rw [if_pos c0] at h
    cases h
  rw [if_neg c0] at h ⊢
  cases hv1 : ParseValue ((SkipWhitespace (a ++ (w ++ b))).length + 1)
      (SkipWhitespace (a ++ (w ++ b))) with
  | error e => rw [hv1] at h; cases h
  | ok res =>
    obtain ⟨v0, r1⟩ := res
    rw [hv1] at h
    simp only at h
    obtain ⟨r, hv, hr⟩ := ParseValue_removed hw _ _ _ _ _ hv1 hs.inserted
    rw [ParseValue_fuel_independent hv]
    simp only
    rw [(hr.skipWhitespace hw).peek_eq] at h
    by_cases c1 : peek (SkipWhitespace r) ≠ Char.ofNat 0
    · rw [if_pos c1] at h
      cases h
    rw [if_neg c1] at h ⊢
    exact h

/-- Whitespace at a boundary changes neither whether `Parse` accepts the text nor the
document it returns. -/
theorem Parse_boundary_iff {w a b : string} (hw : ∀ c ∈ w, isWhitespace c = true)
    (hB : Boundary a b) (v : TJsonNode) :
    Parse (a ++ (w ++ b)) = .ok v ↔ Parse (a ++ b) = .ok v := by
  refine ⟨Parse_removed hw hB, fun h => ?_⟩
  have hi : Inserted w b (a ++ b) (a ++ (w ++ b)) := Or.inr ⟨a, rfl, rfl, hB⟩
  have hs := hi.skipWhitespace hw
  unfold Parse at h ⊢
  rw [hs.peek_eq]
  by_cases c0 : peek (SkipWhitespace (a ++ b)) = Char.ofNat 0
  · rw [if_pos c0] at h
    cases h
  rw [if_neg c0] at h ⊢
  cases hv : ParseValue ((SkipWhitespace (a ++ b)).length + 1) (SkipWhitespace (a ++ b)) with
  | error e => rw [hv] at h; cases h
  | ok res =>
    obtain ⟨v0, r⟩ := res
    rw [hv] at h
    simp only at h
    obtain ⟨r1, hv1, hr⟩ := ParseValue_inserted hw _ _ _ _ _ hv hs.inserted
    have hv2 := ParseValue_of_fuel_gt hv1 ((SkipWhitespace (a ++ (w ++ b))).length + 1)
      (Nat.lt_succ_self _)
    rw [hv2]
    simp only
    rw [(hr.skipWhitespace hw).peek_eq]
    by_cases c1 : peek (SkipWhitespace r) ≠ Char.ofNat 0
    · rw [if_pos c1] at h
      cases h
    rw [if_neg c1] at h ⊢
    exact h

/-! ## Texts that read alike -/

theorem ReadsAlike.refl {x : string} (h : scanState .code x = .code) : ReadsAlike x x :=
  ⟨h, h, fun _ _ _ _ => Iff.rfl⟩

theorem ReadsAlike.append {x y x1 y1 : string} (h : ReadsAlike x y) (h1 : ReadsAlike x1 y1) :
    ReadsAlike (x ++ x1) (y ++ y1) := by
  obtain ⟨hx, hy, hxy⟩ := h
  obtain ⟨hx1, hy1, hxy1⟩ := h1
  refine ⟨?_, ?_, fun pre post d hpre => ?_⟩
  · rw [scanState_append, hx, hx1]
  · rw [scanState_append, hy, hy1]
  · have e1 := hxy pre (x1 ++ post) d hpre
    have e2 := hxy1 (pre ++ y) post d (by rw [scanState_append, hpre, hy])
    rw [List.append_assoc, List.append_assoc]
    rw [List.append_assoc, List.append_assoc] at e2
    exact e1.trans e2

theorem scanState_code_whitespace {w : string} (hw : ∀ c ∈ w, isWhitespace c = true) :
    scanState .code w = .code :=
  scanState_code_of_plain w (fun c hc h => by
    have := hw c hc
    rw [h] at this
    revert this
    decide)

/-- Whitespace behind a structural token does not change how the text reads. -/
theorem ReadsAlike_behind {c : Char} (hc : isStructural c = true) {w : string}
    (hw : ∀ c ∈ w, isWhitespace c = true) : ReadsAlike [c] (c :: w) := by
  have h1 : scanState .code [c] = .code := by
    rw [scanState_code_cons (isStructural_ne_quote hc)]; rfl
  refine ⟨h1, ?_, fun pre post d hpre => ?_⟩
  · rw [scanState_code_cons (isStructural_ne_quote hc)]
    exact scanState_code_whitespace hw
  · have hB : Boundary (pre ++ [c]) post := by
      refine Or.inr ⟨by rw [scanState_append, hpre, h1], Or.inr (Or.inl ⟨c, ?_, hc⟩)⟩
      simp
    have := Parse_boundary_iff hw hB d
    simp only [List.append_assoc, List.singleton_append, List.cons_append] at this ⊢
    exact this.symm

/-- Whitespace in front of a structural token does not change how the text reads. -/
theorem ReadsAlike_front {c : Char} (hc : isStructural c = true) {w : string}
    (hw : ∀ c ∈ w, isWhitespace c = true) : ReadsAlike [c] (w ++ [c]) := by
  have h1 : scanState .code [c] = .code := by
    rw [scanState_code_cons (isStructural_ne_quote hc)]; rfl
  refine ⟨h1, ?_, fun pre post d hpre => ?_⟩
  · rw [scanState_append, scanState_code_whitespace hw, h1]
  · have hB : Boundary pre (c :: post) := Or.inr ⟨hpre, Or.inr (Or.inr hc)⟩
    have := Parse_boundary_iff hw hB d
    simp only [List.append_assoc, List.singleton_append, List.cons_append] at this ⊢
    exact this.symm

theorem indentation_whitespace (d : Nat) : ∀ c ∈ indentation d, isWhitespace c = true := by
  intro c hc
  rw [indentation] at hc
  rw [List.eq_of_mem_replicate hc]
  rfl

theorem newline_indentation_whitespace (d : Nat) :
    ∀ c ∈ '\n' :: indentation d, isWhitespace c = true := by
  intro c hc
  rcases List.mem_cons.mp hc with h | h
  · rw [h]; rfl
  · exact indentation_whitespace d c h

theorem to_string_long_long_no_quote (n : ℤ) : ∀ c ∈ to_string_long_long n, c ≠ '"' := by
  unfold to_string_long_long
  intro c hc
  by_cases h : n < 0
  · rw [if_pos h] at hc
    rcases List.mem_cons.mp hc with hc | hc
    · rw [hc]; decide
    · exact (isDigit_token (to_string_nat_digits _ c hc)).1
  · rw [if_neg h] at hc
    exact (isDigit_token (to_string_nat_digits _ c hc)).1

theorem sign_no_quote (b : Prop) [Decidable b] :
    ∀ c ∈ (if b then ['-'] else []), c ≠ '"' := by
  intro c hc
  by_cases h : b
  · rw [if_pos h, List.mem_singleton] at hc
    rw [hc]; decide
  · rw [if_neg h] at hc
    cases hc

theorem to_string_double_no_quote (d : Double) : ∀ c ∈ to_string_double d, c ≠ '"' := by
  intro c hc
  cases d with
  | finite q =>
    unfold to_string_double at hc
    simp only [List.mem_append, List.mem_cons, List.mem_singleton, List.not_mem_nil,
      or_false] at hc
    rcases hc with ((hc | hc) | hc) | hc
    · exact sign_no_quote _ c hc
    · exact (isDigit_token (to_string_nat_digits _ c hc)).1
    · rw [hc]; decide
    · rcases hc with hc | hc | hc | hc | hc | hc <;> rw [hc] <;>
        exact (isDigit_token (isDigit_digitChar _ (Nat.mod_lt _ (by omega)))).1
  | inf b =>
    unfold to_string_double at hc
    rcases List.mem_append.mp hc with hc | hc
    · exact sign_no_quote _ c hc
    · simp only [List.mem_cons, List.mem_singleton, List.not_mem_nil, or_false] at hc
      rcases hc with hc | hc | hc <;> rw [hc] <;> decide
  | nan b =>
    unfold to_string_double at hc
    rcases List.mem_append.mp hc with hc | hc
    · exact sign_no_quote _ c hc
    · simp only [List.mem_cons, List.mem_singleton, List.not_mem_nil, or_false] at hc
      rcases hc with hc | hc | hc <;> rw [hc] <;> decide

theorem scanState_text_EscapeChar (c : Char) : scanState .text (EscapeChar c) = .text := by
  rcases EscapeChar_shape c with ⟨y, hy, _, _⟩ | ⟨a, b, d, e, hh, ha, hb, hd, he⟩
    | ⟨hh, hq, hb, _⟩
  · rw [hy, scanState, if_pos rfl, scanState]
    rfl
  · rw [hh, scanState, if_pos rfl, scanState,
      scanState_text_cons (hexDigit_printable a ha).2.2 (hexDigit_printable a ha).2.1,
      scanState_text_cons (hexDigit_printable b hb).2.2 (hexDigit_printable b hb).2.1,
      scanState_text_cons (hexDigit_printable d hd).2.2 (hexDigit_printable d hd).2.1,
      scanState_text_cons (hexDigit_printable e he).2.2 (hexDigit_printable e he).2.1]
    rfl
  · rw [hh, scanState_text_cons hb hq]
    rfl

theorem scanState_text_EscapeString (s : string) :
    scanState .text (EscapeString s) = .text := by
  induction s with
  | nil => rfl
  | cons c s ih => rw [EscapeString, scanState_append, scanState_text_EscapeChar, ih]

/-- A rendered string literal is closed. -/
theorem scanState_code_literal (s : string) :
    scanState .code (['"'] ++ EscapeString s ++ ['"']) = .code := by
  rw [List.append_assoc, List.singleton_append, scanState, if_pos rfl, scanState_append,
    scanState_text_EscapeString]
  rfl

theorem ReadsAlike_elements (k : Nat) (xs : List TJsonNode) (x : TJsonNode)
    (h : ∀ y ∈ x :: xs, ∀ d, ReadsAlike (compactText y) (prettyText d y)) :
    ∃ t, prettyElements k (x :: xs) = indentation k ++ t ++ ['\n']
      ∧ ReadsAlike (compactElements (x :: xs)) t := by
  induction xs generalizing x with
  | nil =>
    refine ⟨prettyText k x, ?_, ?_⟩
    · simp [prettyElements]
    · have e : compactElements [x] = compactText x := by simp [compactElements]
      rw [e]
      exact h x (List.mem_cons_self _ _) k
  | cons x1 rest ih =>
    obtain ⟨t1, e1, ht1⟩ := ih x1 (fun y hy => h y (List.mem_cons_of_mem _ hy))
    refine ⟨prettyText k x ++ ((',' :: '\n' :: indentation k) ++ t1), ?_, ?_⟩
    · rw [prettyElements, e1]
      simp
    · have e : compactElements (x :: x1 :: rest)
          = compactText x ++ ([','] ++ compactElements (x1 :: rest)) := by
        rw [compactElements]
        simp
      rw [e]
      exact (h x (List.mem_cons_self _ _) k).append
        ((ReadsAlike_behind (by decide) (newline_indentation_whitespace k)).append ht1)

theorem ReadsAlike_members (k : Nat) (ms : List (string × TJsonNode)) (m : string × TJsonNode)
    (h : ∀ kv ∈ m :: ms, ∀ d, ReadsAlike (compactText kv.2) (prettyText d kv.2)) :
    ∃ t, prettyMembers k (m :: ms) = indentation k ++ t ++ ['\n']
      ∧ ReadsAlike (compactMembers (m :: ms)) t := by
  induction ms generalizing m with
  | nil =>
    obtain ⟨key, value⟩ := m
    refine ⟨(['"'] ++ EscapeString key ++ ['"']) ++ ([':', ' '] ++ prettyText k value), ?_, ?_⟩
    · simp [prettyMembers]
    · have e : compactMembers [(key, value)]
          = (['"'] ++ EscapeString key ++ ['"']) ++ ([':'] ++ compactText value) := by
        simp [compactMembers]
      rw [e]
      exact (ReadsAlike.refl (scanState_code_literal key)).append
        ((ReadsAlike_behind (by decide) (w := [' ']) (by decide)).append
          (h (key, value) (List.mem_cons_self _ _) k))
  | cons m1 rest ih =>
    obtain ⟨key, value⟩ := m
    obtain ⟨t1, e1, ht1⟩ := ih m1 (fun y hy => h y (List.mem_cons_of_mem _ hy))
    refine ⟨(['"'] ++ EscapeString key ++ ['"']) ++ ([':', ' '] ++ (prettyText k value
      ++ ((',' :: '\n' :: indentation k) ++ t1))), ?_, ?_⟩
    · rw [prettyMembers, e1]
      simp
    · have e : compactMembers ((key, value) :: m1 :: rest)
          = (['"'] ++ EscapeString key ++ ['"']) ++ ([':'] ++ (compactText value
            ++ ([','] ++ compactMembers (m1 :: rest)))) := by
        rw [compactMembers]
        simp
      rw [e]
      exact (ReadsAlike.refl (scanState_code_literal key)).append
        ((ReadsAlike_behind (by decide) (w := [' ']) (by decide)).append
          ((h (key, value) (List.mem_cons_self _ _) k).append
            ((ReadsAlike_behind (by decide) (newline_indentation_whitespace k)).append ht1)))

/-- The pretty layout of a document reads like its compact rendering. -/
theorem ReadsAlike_prettyText (v : TJsonNode) :
    ∀ d, ReadsAlike (compactText v) (prettyText d v) := by
  induction v using induction_on with
  | hNull =>
    intro d
    rw [prettyText, compactText]
    exact ReadsAlike.refl (by decide)
  | hBoolean b =>
    intro d
    rw [prettyText, compactText]
    cases b
    · exact ReadsAlike.refl (by decide)
    · exact ReadsAlike.refl (by decide)
  | hNumber x =>
    intro d
    rw [prettyText_Number]
    refine ReadsAlike.refl (scanState_code_of_plain _ ?_)
    rw [compactText]
    by_cases h : Double.eq x (Double.ofInt (static_cast_long_long x)) = true
    · rw [if_pos h]; exact to_string_long_long_no_quote _
    · rw [if_neg h]; exact to_string_double_no_quote _
  | hString s =>
    intro d
    rw [prettyText, compactText]
    exact ReadsAlike.refl (scanState_code_literal s)
  | hArray xs ih =>
    intro d
    cases xs with
    | nil =>
      rw [prettyText, compactText]
      exact ReadsAlike.refl (by decide)
    | cons x xs =>
      obtain ⟨t, e, ht⟩ := ReadsAlike_elements (d + 1) xs x ih
      have e1 : prettyText d (Array (x :: xs))
          = ('[' :: '\n' :: indentation (d + 1)) ++ (t ++ (('\n' :: indentation d) ++ [']'])) := by
        rw [prettyText, e]
        simp
      have e2 : compactText (Array (x :: xs))
          = ['['] ++ (compactElements (x :: xs) ++ [']']) := by
        rw [compactText]
        simp
      rw [e1, e2]
      exact (ReadsAlike_behind (by decide) (newline_indentation_whitespace (d + 1))).append
        (ht.append (ReadsAlike_front (by decide) (newline_indentation_whitespace d)))
  | hObject m ih =>
    intro d
    cases m with
    | nil =>
      rw [prettyText, compactText]
      exact ReadsAlike.refl (by decide)
    | cons kv ms =>
      obtain ⟨t, e, ht⟩ := ReadsAlike_members (d + 1) ms kv ih
      have e1 : prettyText d (Object (kv :: ms))
          = ('{' :: '\n' :: indentation (d + 1)) ++ (t ++ (('\n' :: indentation d) ++ ['}'])) := by
        rw [prettyText, e]
        simp
      have e2 : compactText (Object (kv :: ms))
          = ['{'] ++ (compactMembers (kv :: ms) ++ ['}']) := by
        rw [compactText]
        simp
      rw [e1, e2]
      exact (ReadsAlike_behind (by decide) (newline_indentation_whitespace (d + 1))).append
        (ht.append (ReadsAlike_front (by decide) (newline_indentation_whitespace d)))

theorem indentation_no_nul (d : Nat) : ∀ c ∈ indentation d, c ≠ Char.ofNat 0 :=
  isWhitespace_ne_nul (indentation_whitespace d)

theorem prettyElements_no_nul (d : Nat) (xs : List TJsonNode)
    (h : ∀ x ∈ xs, ∀ k, ∀ c ∈ prettyText k x, c ≠ Char.ofNat 0) :
    ∀ c ∈ prettyElements d xs, c ≠ Char.ofNat 0 := by
  induction xs with
  | nil => intro c hc; rw [prettyElements] at hc; cases hc
  | cons x rest ih =>
    intro c hc
    rw [prettyElements] at hc
    simp only [List.mem_append, List.mem_singleton] at hc
    rcases hc with (((hc | hc) | hc) | hc) | hc
    · exact indentation_no_nul d c hc
    · exact h x (List.mem_cons_self _ _) d c hc
    · by_cases he : rest.isEmpty = true
      · rw [if_pos he] at hc; cases hc
      · rw [if_neg he, List.mem_singleton] at hc
        rw [hc]; decide
    · rw [hc]; decide
    · exact ih (fun y hy => h y (List.mem_cons_of_mem _ hy)) c hc

theorem prettyMembers_no_nul (d : Nat) (m : List (string × TJsonNode))
    (h : ∀ kv ∈ m, ∀ k, ∀ c ∈ prettyText k kv.2, c ≠ Char.ofNat 0) :
    ∀ c ∈ prettyMembers d m, c ≠ Char.ofNat 0 := by
  induction m with
  | nil => intro c hc; rw [prettyMembers] at hc; cases hc
  | cons kv rest ih =>
    obtain ⟨key, v⟩ := kv
    intro c hc
    rw [prettyMembers] at hc
    simp only [List.mem_append, List.mem_singleton, List.mem_cons, List.not_mem_nil,
      or_false] at hc
    rcases hc with (((((((hc | hc) | hc) | hc) | hc) | hc) | hc) | hc) | hc
    · exact indentation_no_nul d c hc
    · rw [hc]; decide
    · exact EscapeString_no_nul key c hc
    · rw [hc]; decide
    · rcases hc with hc | hc <;> rw [hc] <;> decide
    · exact h (key, v) (List.mem_cons_self _ _) d c hc
    · by_cases he : rest.isEmpty = true
      · rw [if_pos he] at hc; cases hc
      · rw [if_neg he, List.mem_singleton] at hc
        rw [hc]; decide
    · rw [hc]; decide
    · exact ih (fun y hy => h y (List.mem_cons_of_mem _ hy)) c hc

/-- The pretty layout has no NUL character. -/
theorem prettyText_no_nul (v : TJsonNode) :
    ∀ d, ∀ c ∈ prettyText d v, c ≠ Char.ofNat 0 := by
  induction v using induction_on with
  | hNull => intro d; rw [prettyText]; decide
  | hBoolean b => intro d; cases b <;> rw [prettyText] <;> decide
  | hNumber x =>
    intro d
    rw [prettyText_Number]
    exact compactText_no_nul _
  | hString s =>
    intro d
    have e : prettyText d (String s) = compactText (String s) := by
      rw [prettyText, compactText]
    rw [e]
    exact compactText_no_nul _
  | hArray xs ih =>
    intro d
    cases xs with
    | nil => rw [prettyText]; decide
    | cons x xs =>
      rw [prettyText]
      intro c hc
      simp only [List.mem_append, List.mem_singleton, List.mem_cons, List.not_mem_nil,
        or_false] at hc
      rcases hc with (((hc | hc) | hc) | hc) | hc
      · rw [hc]; decide
      · rw [hc]; decide
      · exact prettyElements_no_nul _ _ ih c hc
      · exact indentation_no_nul d c hc
      · rw [hc]; decide
  | hObject m ih =>
    intro d
    cases m with
    | nil => rw [prettyText]; decide
    | cons kv ms =>
      rw [prettyText]
      intro c hc
      simp only [List.mem_append, List.mem_singleton, List.mem_cons, List.not_mem_nil,
        or_false] at hc
      rcases hc with (((hc | hc) | hc) | hc) | hc
      · rw [hc]; decide
      · rw [hc]; decide
      · exact prettyMembers_no_nul _ _ ih c hc
      · exact indentation_no_nul d c hc
      · rw [hc]; decide

/-- C33: pretty and compact output denote the same document.  For every document `v`
both `ToString(v, true, 0)` and `ToString(v, false)` return a text, and `Parse` (of a
`std::string`, and likewise of the C string) either fails on both texts or returns one and
the same document for both; identical documents are in particular equal up to the order of
the members of their objects. -/
theorem pretty_compact_same_document (v : TJsonNode) :
    ∃ tp tc, ToString v true 0 = .ok tp ∧ ToString v false 0 = .ok tc
      ∧ ((∃ e1 e2, Parse_std_string tp = .error e1 ∧ Parse_std_string tc = .error e2)
        ∨ ∃ d, Parse_std_string tp = .ok d ∧ Parse_std_string tc = .ok d)
      ∧ ((∃ e1 e2, Parse tp = .error e1 ∧ Parse tc = .error e2)
        ∨ ∃ d, Parse tp = .ok d ∧ Parse tc = .ok d) := by
  have key : ∀ d, Parse (prettyText 0 v) = .ok d ↔ Parse (compactText v) = .ok d := by
    intro d
    have h := (ReadsAlike_prettyText v 0).2.2 [] [] d rfl
    simp only [List.nil_append, List.append_nil] at h
    exact h.symm
  have both : (∃ e1 e2, Parse (prettyText 0 v) = .error e1 ∧ Parse (compactText v) = .error e2)
      ∨ ∃ d, Parse (prettyText 0 v) = .ok d ∧ Parse (compactText v) = .ok d := by
    cases hp : Parse (prettyText 0 v) with
    | ok d => exact Or.inr ⟨d, rfl, (key d).mp hp⟩
    | error e1 =>
      cases hc : Parse (compactText v) with
      | ok d =>
        rw [(key d).mpr hc] at hp
        cases hp
      | error e2 => exact Or.inl ⟨e1, e2, rfl, rfl⟩
  refine ⟨prettyText 0 v, compactText v, ToStringImpl_pretty v 0, ToStringImpl_compact v 0,
    ?_, both⟩
  unfold Parse_std_string
  rw [c_str_of_no_nul _ (prettyText_no_nul v 0), c_str_of_no_nul _ (compactText_no_nul v)]
  exact both

/-! ## The checked parser agrees with the parser and never leaves the buffer -/

theorem deref_terminated (p : string) : deref (p ++ [Char.ofNat 0]) = some (peek p) := by
  cases p <;> rfl

theorem increment_terminated {p : string} (h : peek p ≠ Char.ofNat 0) :
    increment (p ++ [Char.ofNat 0]) = some (p.tail ++ [Char.ofNat 0]) := by
  cases p with
  | nil => exact absurd rfl h
  | cons c rest => cases rest <;> rfl

theorem increment_terminated_of_peek {p : string} {c : Char} (h : peek p = c)
    (hc : c ≠ Char.ofNat 0) :
    increment (p ++ [Char.ofNat 0]) = some (p.tail ++ [Char.ofNat 0]) :=
  increment_terminated (by rw [h]; exact hc)

theorem SkipWhitespace_checked_terminated (p : string) :
    SkipWhitespace_checked (p ++ [Char.ofNat 0]) = some (SkipWhitespace p ++ [Char.ofNat 0]) := by
  induction p with
  | nil =>
    show SkipWhitespace_checked [Char.ofNat 0] = _
    rw [SkipWhitespace_checked, if_neg (by decide)]
    rfl
  | cons c rest ih =>
    have e : (c :: rest) ++ [Char.ofNat 0] = c :: (rest ++ [Char.ofNat 0]) := rfl
    obtain ⟨d, r, hr⟩ : ∃ d r, rest ++ [Char.ofNat 0] = d :: r := by
      cases rest with
      | nil => exact ⟨_, _, rfl⟩
      | cons d r => exact ⟨_, _, rfl⟩
    rw [e, hr, SkipWhitespace_checked, SkipWhitespace]
    by_cases hc : c = ' ' ∨ c = '\t' ∨ c = '\n' ∨ c = '\r'
    · rw [if_pos hc, if_pos hc, ← hr]
      exact ih
    · rw [if_neg hc, if_neg hc, ← hr]
      rfl

theorem skipDigits_checked_terminated (p : string) :
    skipDigits_checked (p ++ [Char.ofNat 0]) = some (p.dropWhile isDigit ++ [Char.ofNat 0]) := by
  induction p with
  | nil =>
    show skipDigits_checked [Char.ofNat 0] = _
    rw [skipDigits_checked, if_neg (by decide)]
    rfl
  | cons c rest ih =>
    have e : (c :: rest) ++ [Char.ofNat 0] = c :: (rest ++ [Char.ofNat 0]) := rfl
    obtain ⟨d, r, hr⟩ : ∃ d r, rest ++ [Char.ofNat 0] = d :: r := by
      cases rest with
      | nil => exact ⟨_, _, rfl⟩
      | cons d r => exact ⟨_, _, rfl⟩
    rw [e, hr, skipDigits_checked]
    by_cases hc : isDigit c = true
    · rw [if_pos hc, ← hr, List.dropWhile_cons_of_pos hc]
      exact ih
    · rw [if_neg hc, ← hr, List.dropWhile_cons_of_neg hc]
      rfl

theorem strncmp_checked_terminated (literal : string)
    (hl : ∀ c ∈ literal, c ≠ Char.ofNat 0) (p : string) :
    strncmp_checked (p ++ [Char.ofNat 0]) literal
      = some (decide (p.take literal.length = literal)) := by
  induction literal generalizing p with
  | nil =>
    rw [strncmp_checked]
    simp
  | cons l literal ih =>
    have hl0 : l ≠ Char.ofNat 0 := hl l (List.mem_cons_self _ _)
    cases p with
    | nil =>
      show strncmp_checked [Char.ofNat 0] (l :: literal) = _
      rw [strncmp_checked, if_pos (fun h => hl0 h.symm)]
      simp
    | cons c rest =>
      show strncmp_checked (c :: (rest ++ [Char.ofNat 0])) (l :: literal) = _
      rw [strncmp_checked]
      by_cases hc : c = l
      · subst hc
        rw [if_neg (by simp), if_neg hl0, ih (fun d hd => hl d (List.mem_cons_of_mem _ hd))]
        simp
      · rw [if_pos hc]
        simp [hc]

theorem advance_checked_terminated (n : Nat) (p : string) (h : n ≤ p.length) :
    advance_checked n (p ++ [Char.ofNat 0]) = some (p.drop n ++ [Char.ofNat 0]) := by
  induction n generalizing p with
  | zero => rfl
  | succ n ih =>
    cases p with
    | nil => simp at h
    | cons c rest =>
      have e : increment ((c :: rest) ++ [Char.ofNat 0]) = some (rest ++ [Char.ofNat 0]) := by
        cases rest <;> rfl
      rw [advance_checked, e]
      exact ih rest (by simpa using h)

theorem ParseLiteral_checked_terminated (literal : string)
    (hl : ∀ c ∈ literal, c ≠ Char.ofNat 0) (p : string) (v : TJsonNode) :
    ParseLiteral_checked (p ++ [Char.ofNat 0]) literal v
      = some (inBuffer (ParseLiteral p literal v)) := by
  unfold ParseLiteral_checked ParseLiteral
  rw [strncmp_checked_terminated literal hl]
  by_cases h : p.take literal.length = literal
  · have hn : literal.length ≤ p.length := by
      have := congrArg List.length h
      rw [List.length_take] at this
      omega
    rw [if_pos h, decide_eq_true h]
    simp only
    rw [advance_checked_terminated _ _ hn]
    rfl
  · rw [if_neg h, decide_eq_false h]
    rfl

theorem ParseString_codepoint_checked_step (n cp : Nat) (p : string) {d : Nat}
    (h : hexValue (peek p) = some d) :
    ParseString_codepoint_checked (n + 1) cp (p ++ [Char.ofNat 0])
      = ParseString_codepoint_checked n (cp * 16 + d) (p.tail ++ [Char.ofNat 0]) := by
  have h0 : peek p ≠ Char.ofNat 0 := by
    intro h1
    have h2 : hexValue (Char.ofNat 0) = none := by decide
    rw [h1, h2] at h
    cases h
  rw [ParseString_codepoint_checked, deref_terminated]
  simp only [h]
  rw [increment_terminated h0]

theorem ParseString_codepoint_checked_stop (n cp : Nat) (p : string)
    (h : hexValue (peek p) = none) :
    ParseString_codepoint_checked (n + 1) cp (p ++ [Char.ofNat 0])
      = some (.error .invalidUnicodeEscape) := by
  rw [ParseString_codepoint_checked, deref_terminated]
  simp only [h]

theorem ParseString_codepoint_checked_terminated (p : string) :
    ParseString_codepoint_checked 4 0 (p ++ [Char.ofNat 0])
      = some (inBuffer (ParseString_codepoint p)) := by
  unfold ParseString_codepoint
  cases h1 : hexValue (peek p) with
  | none => rw [ParseString_codepoint_checked_stop _ _ _ h1]; rfl
  | some d1 =>
    rw [ParseString_codepoint_checked_step _ _ _ h1]
    cases h2 : hexValue (peek p.tail) with
    | none => rw [ParseString_codepoint_checked_stop _ _ _ h2]; rfl
    | some d2 =>
      rw [ParseString_codepoint_checked_step _ _ _ h2]
      cases h3 : hexValue (peek p.tail.tail) with
      | none => rw [ParseString_codepoint_checked_stop _ _ _ h3]; rfl
      | some d3 =>
        rw [ParseString_codepoint_checked_step _ _ _ h3]
        cases h4 : hexValue (peek p.tail.tail.tail) with
        | none => rw [ParseString_codepoint_checked_stop _ _ _ h4]; rfl
        | some d4 =>
          rw [ParseString_codepoint_checked_step _ _ _ h4, ParseString_codepoint_checked]
          simp only [inBuffer, Nat.zero_mul, Nat.zero_add]

theorem simpleEscape_none {e : Char} (h : simpleEscape e = none) :
    ¬ (e = '"' ∨ e = '\\' ∨ e = '/' ∨ e = 'b' ∨ e = 'f' ∨ e = 'n' ∨ e = 'r' ∨ e = 't') := by
  intro he
  rcases he with he | he | he | he | he | he | he | he <;> subst he <;> revert h <;> decide

theorem simpleEscape_some {e u : Char} (h : simpleEscape e = some u) : e ≠ Char.ofNat 0 := by
  intro he
  have h2 : simpleEscape (Char.ofNat 0) = none := by decide
  rw [he, h2] at h
  cases h

/-- One iteration of the loop of `ParseString` over an escape of one character. -/
theorem ParseString_loop_simpleEscape {e u : Char} (h : simpleEscape e = some u)
    (fuel : Nat) (p acc : string) (hp : peek p = '\\') (he : peek p.tail = e) :
    ParseString_loop (fuel + 1) p acc = ParseString_loop fuel p.tail.tail (acc ++ [u]) := by
  have hq1 : peek p ≠ '"' := by rw [hp]; decide
  have hq2 : peek p ≠ Char.ofNat 0 := by rw [hp]; decide
  rw [ParseString_loop, if_neg hq1, if_neg hq2, if_pos hp, he]
  unfold simpleEscape at h
  by_cases c1 : e = '"'
  · rw [if_pos c1] at h ⊢
    injection h with h; rw [h]
  rw [if_neg c1] at h ⊢
  by_cases c2 : e = '\\'
  · rw [if_pos c2] at h ⊢
    injection h with h; rw [h]
  rw [if_neg c2] at h ⊢
  by_cases c3 : e = '/'
  · rw [if_pos c3] at h ⊢
    injection h with h; rw [h]
  rw [if_neg c3] at h ⊢
  by_cases c4 : e = 'b'
  · rw [if_pos c4] at h ⊢
    injection h with h; rw [h]
  rw [if_neg c4] at h ⊢
  by_cases c5 : e = 'f'
  · rw [if_pos c5] at h ⊢
    injection h with h; rw [h]
  rw [if_neg c5] at h ⊢
  by_cases c6 : e = 'n'
  · rw [if_pos c6] at h ⊢
    injection h with h; rw [h]
  rw [if_neg c6] at h ⊢
  by_cases c7 : e = 'r'
  · rw [if_pos c7] at h ⊢
    injection h with h; rw [h]
  rw [if_neg c7] at h ⊢
  by_cases c8 : e = 't'
  · rw [if_pos c8] at h ⊢
    injection h with h; rw [h]
  rw [if_neg c8] at h
  cases h

theorem ParseString_loop_checked_terminated (fuel : Nat) (p acc : string) :
    ParseString_loop_checked fuel (p ++ [Char.ofNat 0]) acc
      = some (inBuffer (ParseString_loop fuel p acc)) := by
  induction fuel generalizing p acc with
  | zero => rfl
  | succ fuel ih =>
    rw [ParseString_loop_checked, deref_terminated]
    simp only
    by_cases h1 : peek p = '"'
    · rw [if_pos h1, increment_terminated_of_peek h1 (by decide),
        ParseString_loop_quote fuel acc h1]
      rfl
    rw [if_neg h1]
    by_cases h2 : peek p = Char.ofNat 0
    · rw [if_pos h2, ParseString_loop, if_neg h1, if_pos h2]
      rfl
    rw [if_neg h2]
    by_cases h3 : peek p = '\\'
    · rw [if_pos h3, increment_terminated h2]
      simp only
      rw [deref_terminated]
      simp only
      cases hs : simpleEscape (peek p.tail) with
      | some u =>
        simp only
        rw [increment_terminated (simpleEscape_some hs)]
        simp only
        rw [ih, ParseString_loop_simpleEscape hs fuel p acc h3 rfl]
      | none =>
        simp only
        by_cases hu : peek p.tail = 'u'
        · rw [if_pos hu, increment_terminated_of_peek hu (by decide)]
          simp only
          rw [ParseString_codepoint_checked_terminated]
          cases hcp : ParseString_codepoint p.tail.tail with
          | error er =>
            rw [ParseString_loop_escape_u_error fuel p acc h3 hu hcp]
            rfl
          | ok res =>
            obtain ⟨cp, p1⟩ := res
            rw [ParseString_loop_escape_u fuel p acc h3 hu hcp]
            simp only [inBuffer]
            by_cases hlt : cp < 128
            · rw [if_pos hlt, if_pos hlt, ih]
              rfl
            · rw [if_neg hlt, if_neg hlt, ih]
              rfl
        · rw [if_neg hu, ParseString_loop_escape_bad fuel p acc h3 (simpleEscape_none hs) hu]
          rfl
    · rw [if_neg h3, increment_terminated h2]
      simp only
      rw [ih, ParseString_loop_plain fuel acc h1 h2 h3]

theorem ParseString_checked_terminated (p : string) :
    ParseString_checked (p ++ [Char.ofNat 0]) = some (inBuffer (ParseString p)) := by
  unfold ParseString_checked ParseString
  rw [deref_terminated]
  simp only
  by_cases h : peek p ≠ '"'
  · rw [if_pos h, if_pos h]
    rfl
  rw [if_neg h, if_neg h]
  have h' : peek p = '"' := by simpa using h
  rw [increment_terminated_of_peek h' (by decide)]
  simp only
  have hlen : (p.tail ++ [Char.ofNat 0]).length = p.tail.length + 1 := by simp
  rw [hlen, ParseString_loop_checked_terminated]
  cases hl : ParseString_loop (p.tail.length + 1) p.tail [] with
  | error e => rfl
  | ok res =>
    obtain ⟨s, r⟩ := res
    rfl

theorem isDigit_peek_ne_nul {p : string} (h : isDigit (peek p) = true) :
    peek p ≠ Char.ofNat 0 := by
  intro h0
  rw [h0] at h
  revert h
  decide

theorem ParseNumber_integer_checked_terminated (p : string) :
    ParseNumber_integer_checked (p ++ [Char.ofNat 0])
      = some (Except.map (fun r => r ++ [Char.ofNat 0]) (ParseNumber_integer p)) := by
  unfold ParseNumber_integer_checked ParseNumber_integer
  rw [deref_terminated]
  simp only
  by_cases h1 : peek p = '0'
  · rw [if_pos h1, if_pos h1, increment_terminated_of_peek h1 (by decide)]
    rfl
  rw [if_neg h1, if_neg h1]
  by_cases h2 : 49 ≤ (peek p).toNat ∧ (peek p).toNat ≤ 57
  · rw [if_pos h2, if_pos h2, skipDigits_checked_terminated]
    rfl
  · rw [if_neg h2, if_neg h2]
    rfl

theorem ParseNumber_fraction_checked_terminated (p : string) :
    ParseNumber_fraction_checked (p ++ [Char.ofNat 0])
      = some (Except.map (fun r => r ++ [Char.ofNat 0]) (ParseNumber_fraction p)) := by
  unfold ParseNumber_fraction_checked ParseNumber_fraction
  rw [deref_terminated]
  simp only
  by_cases h1 : peek p = '.'
  · rw [if_pos h1, if_pos h1, increment_terminated_of_peek h1 (by decide)]
    simp only
    rw [deref_terminated]
    simp only
    by_cases h2 : isDigit (peek p.tail) = true
    · rw [if_pos h2, if_pos h2, skipDigits_checked_terminated]
      rfl
    · rw [if_neg h2, if_neg h2]
      rfl
  · rw [if_neg h1, if_neg h1]
    rfl

theorem ParseNumber_exponent_checked_terminated (p : string) :
    ParseNumber_exponent_checked (p ++ [Char.ofNat 0])
      = some (Except.map (fun r => r ++ [Char.ofNat 0]) (ParseNumber_exponent p)) := by
  unfold ParseNumber_exponent_checked ParseNumber_exponent
  rw [deref_terminated]
  simp only
  by_cases h1 : peek p = 'e' ∨ peek p = 'E'
  · have h0 : peek p ≠ Char.ofNat 0 := by
      rcases h1 with h | h <;> rw [h] <;> decide
    rw [if_pos h1, if_pos h1, increment_terminated h0]
    simp only
    rw [deref_terminated]
    simp only
    by_cases h2 : peek p.tail = '+' ∨ peek p.tail = '-'
    · have h3 : peek p.tail ≠ Char.ofNat 0 := by
        rcases h2 with h | h <;> rw [h] <;> decide
      rw [if_pos h2, if_pos h2, increment_terminated h3]
      simp only
      rw [deref_terminated]
      simp only
      by_cases h4 : isDigit (peek p.tail.tail) = true
      · rw [if_pos h4, if_pos h4, skipDigits_checked_terminated]
        rfl
      · rw [if_neg h4, if_neg h4]
        rfl
    · rw [if_neg h2, if_neg h2]
      by_cases h4 : isDigit (peek p.tail) = true
      · rw [if_pos h4, if_pos h4, skipDigits_checked_terminated]
        rfl
      · rw [if_neg h4, if_neg h4]
        rfl
  · rw [if_neg h1, if_neg h1]
    rfl

theorem take_terminated (start ptr : string) :
    (start ++ [Char.ofNat 0]).take
        ((start ++ [Char.ofNat 0]).length - (ptr ++ [Char.ofNat 0]).length)
      = start.take (start.length - ptr.length) := by
  have e : (start ++ [Char.ofNat 0]).length - (ptr ++ [Char.ofNat 0]).length
      = start.length - ptr.length := by
    simp only [List.length_append, List.length_singleton]
    omega
  rw [e, List.take_append_of_le_length (Nat.sub_le _ _)]

theorem ParseNumber_checked_terminated (p : string) :
    ParseNumber_checked (p ++ [Char.ofNat 0]) = some (inBuffer (ParseNumber p)) := by
  unfold ParseNumber_checked ParseNumber
  rw [deref_terminated]
  simp only
  have e0 : (if peek p = '-' then increment (p ++ [Char.ofNat 0])
        else some (p ++ [Char.ofNat 0]))
      = some ((if peek p = '-' then p.tail else p) ++ [Char.ofNat 0]) := by
    by_cases h : peek p = '-'
    · rw [if_pos h, if_pos h, increment_terminated_of_peek h (by decide)]
    · rw [if_neg h, if_neg h]
  rw [e0]
  simp only
  rw [ParseNumber_integer_checked_terminated]
  cases h1 : ParseNumber_integer (if peek p = '-' then p.tail else p) with
  | error e => rfl
  | ok p1 =>
    simp only [Except.map]
    rw [ParseNumber_fraction_checked_terminated]
    cases h2 : ParseNumber_fraction p1 with
    | error e => rfl
    | ok p2 =>
      simp only [Except.map]
      rw [ParseNumber_exponent_checked_terminated]
      cases h3 : ParseNumber_exponent p2 with
      | error e => rfl
      | ok p3 =>
        simp only [Except.map]
        rw [take_terminated]
        cases h4 : stod (p.take (p.length - p3.length)) with
        | error e => rfl
        | ok value => rfl

theorem length_terminated (p : string) : (p ++ [Char.ofNat 0]).length = p.length + 1 := by
  simp

theorem ParseArray_loop_checked_terminated
    {pv : string → Except TException (TJsonNode × string)}
    {pvc : string → Option (Except TException (TJsonNode × string))}
    (hpv : ∀ p, pvc (p ++ [Char.ofNat 0]) = some (inBuffer (pv p)))
    (fuel : Nat) (p : string) (acc : List TJsonNode) :
    ParseArray_loop_checked pvc fuel (p ++ [Char.ofNat 0]) acc
      = some (inBuffer (ParseArray_loop pv fuel p acc)) := by
  induction fuel generalizing p acc with
  | zero => rfl
  | succ fuel ih =>
    rw [ParseArray_loop_checked, ParseArray_loop, hpv]
    cases hv : pv p with
    | error e => rfl
    | ok res =>
      obtain ⟨x, q⟩ := res
      simp only [inBuffer]
      rw [SkipWhitespace_checked_terminated]
      simp only
      rw [deref_terminated]
      simp only
      by_cases c1 : peek (SkipWhitespace q) = ']'
      · rw [if_pos c1, if_pos c1, increment_terminated_of_peek c1 (by decide)]
      rw [if_neg c1, if_neg c1]
      by_cases c2 : peek (SkipWhitespace q) ≠ ','
      · rw [if_pos c2, if_pos c2]
      rw [if_neg c2, if_neg c2]
      have c2' : peek (SkipWhitespace q) = ',' := by simpa using c2
      rw [increment_terminated_of_peek c2' (by decide)]
      simp only
      rw [SkipWhitespace_checked_terminated]
      simp only
      rw [ih]
      rfl

theorem ParseArray_checked_terminated
    {pv : string → Except TException (TJsonNode × string)}
    {pvc : string → Option (Except TException (TJsonNode × string))}
    (hpv : ∀ p, pvc (p ++ [Char.ofNat 0]) = some (inBuffer (pv p))) (p : string) :
    ParseArray_checked pvc (p ++ [Char.ofNat 0]) = some (inBuffer (ParseArray pv p)) := by
  unfold ParseArray_checked ParseArray
  rw [deref_terminated]
  simp only
  by_cases c0 : peek p ≠ '['
  · rw [if_pos c0, if_pos c0]
    rfl
  rw [if_neg c0, if_neg c0]
  have c0' : peek p = '[' := by simpa using c0
  rw [increment_terminated_of_peek c0' (by decide)]
  simp only
  rw [SkipWhitespace_checked_terminated]
  simp only
  rw [deref_terminated]
  simp only
  by_cases c1 : peek (SkipWhitespace p.tail) = ']'
  · rw [if_pos c1, if_pos c1, increment_terminated_of_peek c1 (by decide)]
    rfl
  rw [if_neg c1, if_neg c1, length_terminated]
  exact ParseArray_loop_checked_terminated hpv _ _ _

theorem ParseObject_loop_checked_terminated
    {pv : string → Except TException (TJsonNode × string)}
    {pvc : string → Option (Except TException (TJsonNode × string))}
    (hpv : ∀ p, pvc (p ++ [Char.ofNat 0]) = some (inBuffer (pv p)))
    (fuel : Nat) (p : string) (acc : List (string × TJsonNode)) :
    ParseObject_loop_checked pvc fuel (p ++ [Char.ofNat 0]) acc
      = some (inBuffer (ParseObject_loop pv fuel p acc)) := by
  induction fuel generalizing p acc with
  | zero => rfl
  | succ fuel ih =>
    rw [ParseObject_loop_checked, ParseObject_loop, SkipWhitespace_checked_terminated]
    simp only
    rw [deref_terminated]
    simp only
    by_cases c0 : peek (SkipWhitespace p) ≠ '"'
    · rw [if_pos c0, if_pos c0]
      rfl
    rw [if_neg c0, if_neg c0, ParseString_checked_terminated]
    cases hk : ParseString (SkipWhitespace p) with
    | error e => rfl
    | ok res =>
      obtain ⟨keyNode, q⟩ := res
      simp only [inBuffer]
      cases hs : operator_string keyNode with
      | error e => rfl
      | ok key =>
        simp only
        rw [SkipWhitespace_checked_terminated]
        simp only
        rw [deref_terminated]
        simp only
        by_cases c1 : peek (SkipWhitespace q) ≠ ':'
        · rw [if_pos c1, if_pos c1]
        rw [if_neg c1, if_neg c1]
        have c1' : peek (SkipWhitespace q) = ':' := by simpa using c1
        rw [increment_terminated_of_peek c1' (by decide)]
        simp only
        rw [hpv]
        cases hv : pv (SkipWhitespace q).tail with
        | error e => rfl
        | ok res2 =>
          obtain ⟨x, p2⟩ := res2
          simp only [inBuffer]
          rw [SkipWhitespace_checked_terminated]
          simp only
          rw [deref_terminated]
          simp only
          by_cases c2 : peek (SkipWhitespace p2) = '}'
          · rw [if_pos c2, if_pos c2, increment_terminated_of_peek c2 (by decide)]
          rw [if_neg c2, if_neg c2]
          by_cases c3 : peek (SkipWhitespace p2) ≠ ','
          · rw [if_pos c3, if_pos c3]
          rw [if_neg c3, if_neg c3]
          have c3' : peek (SkipWhitespace p2) = ',' := by simpa using c3
          rw [increment_terminated_of_peek c3' (by decide)]
          simp only
          rw [ih]
          rfl

theorem ParseObject_checked_terminated
    {pv : string → Except TException (TJsonNode × string)}
    {pvc : string → Option (Except TException (TJsonNode × string))}
    (hpv : ∀ p, pvc (p ++ [Char.ofNat 0]) = some (inBuffer (pv p))) (p : string) :
    ParseObject_checked pvc (p ++ [Char.ofNat 0]) = some (inBuffer (ParseObject pv p)) := by
  unfold ParseObject_checked ParseObject
  rw [deref_terminated]
  simp only
  by_cases c0 : peek p ≠ '{'
  · rw [if_pos c0, if_pos c0]
    rfl
  rw [if_neg c0, if_neg c0]
  have c0' : peek p = '{' := by simpa using c0
  rw [increment_terminated_of_peek c0' (by decide)]
  simp only
  rw [SkipWhitespace_checked_terminated]
  simp only
  rw [deref_terminated]
  simp only
  by_cases c1 : peek (SkipWhitespace p.tail) = '}'
  · rw [if_pos c1, if_pos c1, increment_terminated_of_peek c1 (by decide)]
    rfl
  rw [if_neg c1, if_neg c1, length_terminated]
  exact ParseObject_loop_checked_terminated hpv _ _ _

theorem ParseValue_checked_terminated (fuel : Nat) (p : string) :
    ParseValue_checked fuel (p ++ [Char.ofNat 0]) = some (inBuffer (ParseValue fuel p)) := by
  induction fuel generalizing p with
  | zero => rfl
  | succ fuel ih =>
    rw [ParseValue_checked, ParseValue, SkipWhitespace_checked_terminated]
    simp only
    rw [deref_terminated]
    simp only
    by_cases c1 : peek (SkipWhitespace p) = 'n'
    · rw [if_pos c1, if_pos c1]
      exact ParseLiteral_checked_terminated _ (by decide) _ _
    rw [if_neg c1, if_neg c1]
    by_cases c2 : peek (SkipWhitespace p) = 't'
    · rw [if_pos c2, if_pos c2]
      exact ParseLiteral_checked_terminated _ (by decide) _ _
    rw [if_neg c2, if_neg c2]
    by_cases c3 : peek (SkipWhitespace p) = 'f'
    · rw [if_pos c3, if_pos c3]
      exact ParseLiteral_checked_terminated _ (by decide) _ _
    rw [if_neg c3, if_neg c3]
    by_cases c4 : peek (SkipWhitespace p) = '"'
    · rw [if_pos c4, if_pos c4]
      exact ParseString_checked_terminated _
    rw [if_neg c4, if_neg c4]
    by_cases c5 : peek (SkipWhitespace p) = '['
    · rw [if_pos c5, if_pos c5]
      exact ParseArray_checked_terminated ih _
    rw [if_neg c5, if_neg c5]
    by_cases c6 : peek (SkipWhitespace p) = '{'
    · rw [if_pos c6, if_pos c6]
      exact ParseObject_checked_terminated ih _
    rw [if_neg c6, if_neg c6]
    by_cases c7 : peek (SkipWhitespace p) = '-' ∨ isDigit (peek (SkipWhitespace p)) = true
    · rw [if_pos c7, if_pos c7]
      exact ParseNumber_checked_terminated _
    · rw [if_neg c7, if_neg c7]
      rfl

theorem Parse_checked_terminated (json : string) :
    Parse_checked (json ++ [Char.ofNat 0]) = some (Parse json) := by
  unfold Parse_checked Parse
  rw [SkipWhitespace_checked_terminated]
  simp only
  rw [deref_terminated]
  simp only
  by_cases c0 : peek (SkipWhitespace json) = Char.ofNat 0
  · rw [if_pos c0, if_pos c0]
  rw [if_neg c0, if_neg c0, length_terminated, ParseValue_checked_terminated]
  cases hv : ParseValue ((SkipWhitespace json).length + 1) (SkipWhitespace json) with
  | error e => rfl
  | ok res =>
    obtain ⟨v, r⟩ := res
    simp only [inBuffer]
    rw [SkipWhitespace_checked_terminated]
    simp only
    rw [deref_terminated]
    simp only
    by_cases c1 : peek (SkipWhitespace r) ≠ Char.ofNat 0
    · rw [if_pos c1, if_pos c1]
    · rw [if_neg c1, if_neg c1]

theorem c_str_no_nul (s : string) : ∀ c ∈ c_str s, c ≠ Char.ofNat 0 := by
  intro c hc
  have := List.mem_takeWhile_imp hc
  simpa using this

/-- C34: the parser never reads beyond the end of its input.  The buffer of a
NUL-terminated text is the text in front of the first NUL followed by that NUL; over it
every `*ptr` is checked to read inside the buffer and every `++ptr` (and `ptr += len`) to
leave the cursor inside it.  For every input the checked `Parse` passes all these checks
and returns what `Parse` returns, which is a document or an exception of the code; from
every cursor the same holds of `ParseValue`, `ParseString`, `ParseNumber` and
`ParseLiteral` for the three literals.  In particular a trailing backslash, a truncated
`\u` escape and the truncated literals `nul` and `tru` are refused by an exception raised
on the terminator. -/
theorem Parse_stays_in_buffer (json : string) :
    (∀ c ∈ c_str json, c ≠ Char.ofNat 0)
    ∧ Parse_checked (c_str json ++ [Char.ofNat 0]) = some (Parse_std_string json)
    ∧ Parse_std_string json ≠ .error .outOfFuel
    ∧ (∀ fuel p, ParseValue_checked fuel (p ++ [Char.ofNat 0])
        = some (inBuffer (ParseValue fuel p)))
    ∧ (∀ p, ParseString_checked (p ++ [Char.ofNat 0]) = some (inBuffer (ParseString p)))
    ∧ (∀ p, ParseNumber_checked (p ++ [Char.ofNat 0]) = some (inBuffer (ParseNumber p)))
    ∧ (∀ p v, ParseLiteral_checked (p ++ [Char.ofNat 0]) ['n', 'u', 'l', 'l'] v
        = some (inBuffer (ParseLiteral p ['n', 'u', 'l', 'l'] v)))
    ∧ (∀ p v, ParseLiteral_checked (p ++ [Char.ofNat 0]) ['t', 'r', 'u', 'e'] v
        = some (inBuffer (ParseLiteral p ['t', 'r', 'u', 'e'] v)))
    ∧ (∀ p v, ParseLiteral_checked (p ++ [Char.ofNat 0]) ['f', 'a', 'l', 's', 'e'] v
        = some (inBuffer (ParseLiteral p ['f', 'a', 'l', 's', 'e'] v)))
    ∧ Parse_checked ['"', 'a', '\\', Char.ofNat 0]
        = some (.error (.invalidEscape (Char.ofNat 0)))
    ∧ Parse_checked ['"', '\\', 'u', '0', '0', Char.ofNat 0]
        = some (.error .invalidUnicodeEscape)
    ∧ Parse_checked ['n', 'u', 'l', Char.ofNat 0]
        = some (.error (.expectedLiteral ['n', 'u', 'l', 'l']))
    ∧ Parse_checked ['t', 'r', 'u', Char.ofNat 0]
        = some (.error (.expectedLiteral ['t', 'r', 'u', 'e'])) :=
  ⟨c_str_no_nul json, Parse_checked_terminated (c_str json), Parse_no_fuel_error (c_str json),
    ParseValue_checked_terminated, ParseString_checked_terminated,
    ParseNumber_checked_terminated,
    fun p v => ParseLiteral_checked_terminated _ (by decide) p v,
    fun p v => ParseLiteral_checked_terminated _ (by decide) p v,
    fun p v => ParseLiteral_checked_terminated _ (by decide) p v,
    by decide, by decide, by decide, by decide⟩

theorem to_string_double_alphabet (q : ℚ) : IsNumberAlphabet (to_string_double (.finite q)) := by
  intro c hc
  unfold to_string_double at hc
  simp only [List.mem_append, List.mem_cons, List.mem_singleton, List.not_mem_nil,
    or_false] at hc
  rcases hc with ((hc | hc) | hc) | hc
  · by_cases h : q < 0
    · rw [if_pos h, List.mem_singleton] at hc
      exact Or.inr (Or.inl hc)
    · rw [if_neg h] at hc
      cases hc
  · exact Or.inl (to_string_nat_digits _ c hc)
  · exact Or.inr (Or.inr (Or.inr (Or.inl hc)))
  · rcases hc with hc | hc | hc | hc | hc | hc <;> rw [hc] <;>
      exact Or.inl (isDigit_digitChar _ (Nat.mod_lt _ (by omega)))

/-- A Number alone survives the round trip exactly when it survives the six-decimal
rendering. -/
theorem Number_roundtrip_iff (q : ℚ) (hd : IsDouble q) :
    SixDecimalStable (.finite q)
      ↔ Parse_std_string (compactText (Number (.finite q))) = .ok (Number (.finite q)) := by
  constructor
  · intro h
    exact (Parse_ToString_of_ReadsAs _ (ReadsAs_SixDecimalStable _ h)).2
  · intro h
    by_cases hden : q.den = 1
    · exact SixDecimalStable_of_whole hd hden
    · rw [compactText_Number_fraction q hden] at h
      unfold Parse_std_string at h
      rw [c_str_of_no_nul _ (to_string_double_no_nul _)] at h
      obtain ⟨_, d, hst, hv⟩ := (Parse_number_iff _ (to_string_double_alphabet q) _).mp h
      injection hv with hv
      rw [stod_to_string_double, ← hv] at hst
      exact ⟨hd, hst⟩


/-- C1 (amended): for every document built only from ASCII text, booleans, null, arrays,
objects and numbers that survive the six-decimal rendering (finite binary64 values that
`std::stod` returns for their value rounded to six decimal places),
`Parse(ToString(v, false))` succeeds and yields a document equal to `v` under a comparison
that ignores object-member order.  The class of numbers is the largest possible: a Number
alone survives the round trip exactly when it is of this kind.  It holds every whole
number, every binary64 value with at most six decimal places, and values such as the
`double` nearest to 0.1; it does not hold 2^-21. -/
theorem roundtrip_six_decimals (v : TJsonNode) (hv : DocumentOver SixDecimalStable v) :
    (∃ text v', ToString v false 0 = .ok text ∧ Parse_std_string text = .ok v'
      ∧ SameDocument v' v)
    ∧ (∀ q, IsDouble q → (SixDecimalStable (.finite q) ↔
        ∃ text, ToString (Number (.finite q)) false 0 = .ok text
          ∧ Parse_std_string text = .ok (Number (.finite q))))
    ∧ (∀ q, IsDouble q → q.den = 1 → SixDecimalStable (.finite q))
    ∧ (∀ d, SixDecimalNumber d → SixDecimalStable d)
    ∧ SixDecimalStable (.finite (3602879701896397 / 36028797018963968))
    ∧ ¬ SixDecimalStable (.finite (1 / 2097152)) := by
  refine ⟨?_, ?_, fun q hd hden => SixDecimalStable_of_whole hd hden,
    SixDecimalStable_of_SixDecimalNumber, ⟨by decide!, by decide!⟩, ?_⟩
  · obtain ⟨h1, h2⟩ :=
      Parse_ToString_of_ReadsAs v (ReadsAs_compactText_of ReadsAs_SixDecimalStable v hv)
    exact ⟨compactText v, v, h1, h2, SameDocument_refl _ v hv⟩
  · intro q hd
    rw [Number_roundtrip_iff q hd]
    constructor
    · intro h
      exact ⟨_, ToStringImpl_compact _ 0, h⟩
    · rintro ⟨text, h1, h2⟩
      have e : ToString (Number (.finite q)) false 0 = .ok (compactText (Number (.finite q))) :=
        ToStringImpl_compact _ 0
      rw [e] at h1
      injection h1 with h1
      rw [h1]
      exact h2
  · rintro ⟨_, h⟩
    revert h
    decide!

/-- Witness for C1 (amended): the document `{"a": [3.5, 0.1, "x\n", null, true, -3]}`,
where 0.1 stands for the `double` nearest to it, is in the class and survives the round
trip. -/
theorem roundtrip_six_decimals_witness :
    DocumentOver SixDecimalStable
        (Object [(['a'], Array [Number (.finite (7 / 2)),
          Number (.finite (3602879701896397 / 36028797018963968)), String ['x', '\n'], Null,
          Boolean true, Number (.finite (-3))])])
    ∧ ∃ text v',
        ToString (Object [(['a'], Array [Number (.finite (7 / 2)),
          Number (.finite (3602879701896397 / 36028797018963968)), String ['x', '\n'], Null,
          Boolean true, Number (.finite (-3))])]) false 0 = .ok text
        ∧ Parse_std_string text = .ok v'
        ∧ SameDocument v' (Object [(['a'], Array [Number (.finite (7 / 2)),
            Number (.finite (3602879701896397 / 36028797018963968)), String ['x', '\n'],
            Null, Boolean true, Number (.finite (-3))])]) :=
  have h : DocumentOver SixDecimalStable
      (Object [(['a'], Array [Number (.finite (7 / 2)),
        Number (.finite (3602879701896397 / 36028797018963968)), String ['x', '\n'], Null,
        Boolean true, Number (.finite (-3))])]) := by
    simp only [DocumentOver, MembersOver, ElementsOver, SixDecimalStable, IsAscii]
    decide!
  ⟨h, (roundtrip_six_decimals _ h).1⟩

/-! ## Where a `std::out_of_range` comes from -/

theorem stdOutOfRange_not_ParseError {e : TException}
    (h : e.kind = some EErrorKind.ParseError) : e ≠ .stdOutOfRange := by
  intro he
  rw [he] at h
  revert h
  decide

theorem ParseString_ne_stdOutOfRange (p : string) : ParseString p ≠ .error .stdOutOfRange :=
  fun h => stdOutOfRange_not_ParseError (ParseString_error h) rfl

theorem ParseLiteral_ne_stdOutOfRange (p lit : string) (v : TJsonNode) :
    ParseLiteral p lit v ≠ .error .stdOutOfRange :=
  fun h => stdOutOfRange_not_ParseError (ParseLiteral_error h) rfl

/-- A call of `ParseValue` from which `std::out_of_range` escapes starts, behind optional
whitespace, with `[`, `{`, `-` or a digit. -/
theorem ParseValue_oor_peek {fuel : Nat} {p : string}
    (h : ParseValue fuel p = .error .stdOutOfRange) :
    peek (SkipWhitespace p) = '[' ∨ peek (SkipWhitespace p) = '{'
      ∨ peek (SkipWhitespace p) = '-' ∨ isDigit (peek (SkipWhitespace p)) = true := by
  cases fuel with
  | zero => simp [ParseValue] at h
  | succ fuel =>
    rw [ParseValue] at h
    by_cases c1 : peek (SkipWhitespace p) = 'n'
    · rw [if_pos c1] at h
      exact absurd h (ParseLiteral_ne_stdOutOfRange _ _ _)
    rw [if_neg c1] at h
    by_cases c2 : peek (SkipWhitespace p) = 't'
    · rw [if_pos c2] at h
      exact absurd h (ParseLiteral_ne_stdOutOfRange _ _ _)
    rw [if_neg c2] at h
    by_cases c3 : peek (SkipWhitespace p) = 'f'
    · rw [if_pos c3] at h
      exact absurd h (ParseLiteral_ne_stdOutOfRange _ _ _)
    rw [if_neg c3] at h
    by_cases c4 : peek (SkipWhitespace p) = '"'
    · rw [if_pos c4] at h
      exact absurd h (ParseString_ne_stdOutOfRange _)
    rw [if_neg c4] at h
    by_cases c5 : peek (SkipWhitespace p) = '['
    · exact Or.inl c5
    by_cases c6 : peek (SkipWhitespace p) = '{'
    · exact Or.inr (Or.inl c6)
    rw [if_neg c5, if_neg c6] at h
    by_cases c7 : peek (SkipWhitespace p) = '-' ∨ isDigit (peek (SkipWhitespace p)) = true
    · exact Or.inr (Or.inr c7)
    · rw [if_neg c7] at h
      cases h

/-- What follows, behind optional whitespace, where a call of `ParseValue` returns a value
or lets `std::out_of_range` escape: none of `]`, `}`, `,`. -/
theorem ParseValue_started {fuel : Nat} {p : string}
    (h : (∃ res, ParseValue fuel p = .ok res) ∨ ParseValue fuel p = .error .stdOutOfRange) :
    peek (SkipWhitespace p) ≠ ']' ∧ peek (SkipWhitespace p) ≠ '}'
      ∧ peek (SkipWhitespace p) ≠ ',' := by
  have key : peek (SkipWhitespace p) = 'n' ∨ peek (SkipWhitespace p) = 't'
      ∨ peek (SkipWhitespace p) = 'f' ∨ peek (SkipWhitespace p) = '"'
      ∨ peek (SkipWhitespace p) = '[' ∨ peek (SkipWhitespace p) = '{'
      ∨ peek (SkipWhitespace p) = '-' ∨ isDigit (peek (SkipWhitespace p)) = true := by
    rcases h with ⟨res, h⟩ | h
    · exact ParseValue_ok_peek h
    · rcases ParseValue_oor_peek h with h | h | h
      · exact Or.inr (Or.inr (Or.inr (Or.inr (Or.inl h))))
      · exact Or.inr (Or.inr (Or.inr (Or.inr (Or.inr (Or.inl h)))))
      · exact Or.inr (Or.inr (Or.inr (Or.inr (Or.inr (Or.inr h)))))
  refine ⟨?_, ?_, ?_⟩ <;> intro hc <;> rw [hc] at key <;> revert key <;> decide

theorem ParseArray_loop_first {pv : string → Except TException (TJsonNode × string)}
    {fuel : Nat} {p : string} {acc : List TJsonNode}
    (h : ParseArray_loop pv fuel p acc = .error .stdOutOfRange) :
    (∃ res, pv p = .ok res) ∨ pv p = .error .stdOutOfRange := by
  cases fuel with
  | zero => simp [ParseArray_loop] at h
  | succ fuel =>
    rw [ParseArray_loop] at h
    cases hv : pv p with
    | error e =>
      rw [hv] at h
      injection h with h
      rw [h]
      exact Or.inr rfl
    | ok res => exact Or.inl ⟨res, rfl⟩

theorem ParseObject_loop_first {pv : string → Except TException (TJsonNode × string)}
    {fuel : Nat} {p : string} {acc : List (string × TJsonNode)}
    (h : ParseObject_loop pv fuel p acc = .error .stdOutOfRange) :
    peek (SkipWhitespace p) = '"' := by
  cases fuel with
  | zero => simp [ParseObject_loop] at h
  | succ fuel =>
    rw [ParseObject_loop] at h
    by_cases c0 : peek (SkipWhitespace p) ≠ '"'
    · rw [if_pos c0] at h
      cases h
    · simpa using c0

theorem ParseArray_loop_oor_scan {pv : string → Except TException (TJsonNode × string)}
    (hcons : Consuming pv)
    (hpv : ∀ p v r, pv p = .ok (v, r) →
      hasTrailingComma .code p = hasTrailingComma .code r)
    (hstart : ∀ p, (∃ res, pv p = .ok res) ∨ pv p = .error .stdOutOfRange →
      peek (SkipWhitespace p) ≠ ']' ∧ peek (SkipWhitespace p) ≠ '}'
        ∧ peek (SkipWhitespace p) ≠ ',')
    (herr : ∀ p, pv p = .error .stdOutOfRange → ∃ q, q <:+ p
      ∧ ParseNumber q = .error .stdOutOfRange
      ∧ hasTrailingComma .code p = hasTrailingComma .code q)
    (fuel : Nat) (p : string) (acc : List TJsonNode)
    (h : ParseArray_loop pv fuel p acc = .error .stdOutOfRange) :
    ∃ q, q <:+ p ∧ ParseNumber q = .error .stdOutOfRange
      ∧ hasTrailingComma .code p = hasTrailingComma .code q := by
  induction fuel generalizing p acc with
  | zero => simp [ParseArray_loop] at h
  | succ fuel ih =>
    rw [ParseArray_loop] at h
    cases hv : pv p with
    | error e =>
      rw [hv] at h
      injection h with h
      rw [h] at hv
      exact herr p hv
    | ok res =>
      obtain ⟨x, p1⟩ := res
      rw [hv] at h
      simp only at h
      by_cases c1 : peek (SkipWhitespace p1) = ']'
      · rw [if_pos c1] at h
        cases h
      rw [if_neg c1] at h
      by_cases c2 : peek (SkipWhitespace p1) ≠ ','
      · rw [if_pos c2] at h
        cases h
      rw [if_neg c2] at h
      have c2' : peek (SkipWhitespace p1) = ',' := by simpa using c2
      obtain ⟨q, hq1, hq2, hq3⟩ := ih _ _ h
      have hne := hstart _ (ParseArray_loop_first h)
      rw [SkipWhitespace_idem] at hne
      have hcl : closesNext (SkipWhitespace p1).tail = false := by
        simp only [closesNext, decide_eq_false_iff_not, not_or]
        exact ⟨hne.1, hne.2.1⟩
      refine ⟨q, ?_, hq2, ?_⟩
      · exact hq1.trans ((SkipWhitespace_suffix _).trans ((tail_suffix _).trans
          ((SkipWhitespace_suffix _).trans (hcons _ _ _ hv).1)))
      · rw [hpv _ _ _ hv, ← scan_code_SkipWhitespace p1, scan_code_comma c2', hcl,
          Bool.false_or, ← scan_code_SkipWhitespace]
        exact hq3

theorem ParseArray_oor_scan {pv : string → Except TException (TJsonNode × string)}
    (hcons : Consuming pv)
    (hpv : ∀ p v r, pv p = .ok (v, r) →
      hasTrailingComma .code p = hasTrailingComma .code r)
    (hstart : ∀ p, (∃ res, pv p = .ok res) ∨ pv p = .error .stdOutOfRange →
      peek (SkipWhitespace p) ≠ ']' ∧ peek (SkipWhitespace p) ≠ '}'
        ∧ peek (SkipWhitespace p) ≠ ',')
    (herr : ∀ p, pv p = .error .stdOutOfRange → ∃ q, q <:+ p
      ∧ ParseNumber q = .error .stdOutOfRange
      ∧ hasTrailingComma .code p = hasTrailingComma .code q)
    {p : string} (h : ParseArray pv p = .error .stdOutOfRange) :
    ∃ q, q <:+ p ∧ ParseNumber q = .error .stdOutOfRange
      ∧ hasTrailingComma .code p = hasTrailingComma .code q := by
  unfold ParseArray at h
  by_cases c0 : peek p ≠ '['
  · rw [if_pos c0] at h
    cases h
  rw [if_neg c0] at h
  have c0' : peek p = '[' := by simpa using c0
  by_cases c1 : peek (SkipWhitespace p.tail) = ']'
  · rw [if_pos c1] at h
    cases h
  rw [if_neg c1] at h
  obtain ⟨q, hq1, hq2, hq3⟩ := ParseArray_loop_oor_scan hcons hpv hstart herr _ _ _ h
  refine ⟨q, hq1.trans ((SkipWhitespace_suffix _).trans (tail_suffix _)), hq2, ?_⟩
  rw [scan_code_tail c0' (by decide), ← scan_code_SkipWhitespace]
  exact hq3

theorem ParseObject_loop_oor_scan {pv : string → Except TException (TJsonNode × string)}
    (hcons : Consuming pv)
    (hpv : ∀ p v r, pv p = .ok (v, r) →
      hasTrailingComma .code p = hasTrailingComma .code r)
    (herr : ∀ p, pv p = .error .stdOutOfRange → ∃ q, q <:+ p
      ∧ ParseNumber q = .error .stdOutOfRange
      ∧ hasTrailingComma .code p = hasTrailingComma .code q)
    (fuel : Nat) (p : string) (acc : List (string × TJsonNode))
    (h : ParseObject_loop pv fuel p acc = .error .stdOutOfRange) :
    ∃ q, q <:+ p ∧ ParseNumber q = .error .stdOutOfRange
      ∧ hasTrailingComma .code p = hasTrailingComma .code q := by
  induction fuel generalizing p acc with
  | zero => simp [ParseObject_loop] at h
  | succ fuel ih =>
    rw [ParseObject_loop] at h
    by_cases c0 : peek (SkipWhitespace p) ≠ '"'
    · rw [if_pos c0] at h
      cases h
    rw [if_neg c0] at h
    cases hk : ParseString (SkipWhitespace p) with
    | error e =>
      rw [hk] at h
      injection h with h
      rw [h] at hk
      exact absurd hk (ParseString_ne_stdOutOfRange _)
    | ok res =>
      obtain ⟨keyNode, p1⟩ := res
      rw [hk] at h
      simp only at h
      obtain ⟨s, hs⟩ := ParseString_ok_String hk
      subst hs
      simp only [operator_string] at h
      by_cases c1 : peek (SkipWhitespace p1) ≠ ':'
      · rw [if_pos c1] at h
        cases h
      rw [if_neg c1] at h
      have c1' : peek (SkipWhitespace p1) = ':' := by simpa using c1
      have hp1 : p1 <:+ p := (ParseString_advanced hk).1.trans (SkipWhitespace_suffix _)
      have e1 : hasTrailingComma .code p
          = hasTrailingComma .code (SkipWhitespace p1).tail := by
        rw [← scan_code_SkipWhitespace p, ParseString_scan hk, ← scan_code_SkipWhitespace p1,
          scan_code_tail c1' (by decide)]
      cases hv : pv (SkipWhitespace p1).tail with
      | error e =>
        rw [hv] at h
        injection h with h
        rw [h] at hv
        obtain ⟨q, hq1, hq2, hq3⟩ := herr _ hv
        exact ⟨q, hq1.trans ((tail_suffix _).trans ((SkipWhitespace_suffix _).trans hp1)),
          hq2, e1.trans hq3⟩
      | ok res2 =>
        obtain ⟨x, p2⟩ := res2
        rw [hv] at h
        simp only at h
        by_cases c2 : peek (SkipWhitespace p2) = '}'
        · rw [if_pos c2] at h
          cases h
        rw [if_neg c2] at h
        by_cases c3 : peek (SkipWhitespace p2) ≠ ','
        · rw [if_pos c3] at h
          cases h
        rw [if_neg c3] at h
        have c3' : peek (SkipWhitespace p2) = ',' := by simpa using c3
        obtain ⟨q, hq1, hq2, hq3⟩ := ih _ _ h
        have hq := ParseObject_loop_first h
        have hcl : closesNext (SkipWhitespace p2).tail = false := by
          simp only [closesNext, decide_eq_false_iff_not, not_or]
          rw [hq]
          decide
        refine ⟨q, ?_, hq2, ?_⟩
        · exact hq1.trans ((tail_suffix _).trans ((SkipWhitespace_suffix _).trans
            ((hcons _ _ _ hv).1.trans ((tail_suffix _).trans
              ((SkipWhitespace_suffix _).trans hp1)))))
        · rw [e1, hpv _ _ _ hv, ← scan_code_SkipWhitespace p2, scan_code_comma c3', hcl,
            Bool.false_or]
          exact hq3

theorem ParseObject_oor_scan {pv : string → Except TException (TJsonNode × string)}
    (hcons : Consuming pv)
    (hpv : ∀ p v r, pv p = .ok (v, r) →
      hasTrailingComma .code p = hasTrailingComma .code r)
    (herr : ∀ p, pv p = .error .stdOutOfRange → ∃ q, q <:+ p
      ∧ ParseNumber q = .error .stdOutOfRange
      ∧ hasTrailingComma .code p = hasTrailingComma .code q)
    {p : string} (h : ParseObject pv p = .error .stdOutOfRange) :
    ∃ q, q <:+ p ∧ ParseNumber q = .error .stdOutOfRange
      ∧ hasTrailingComma .code p = hasTrailingComma .code q := by
  unfold ParseObject at h
  by_cases c0 : peek p ≠ '{'
  · rw [if_pos c0] at h
    cases h
  rw [if_neg c0] at h
  have c0' : peek p = '{' := by simpa using c0
  by_cases c1 : peek (SkipWhitespace p.tail) = '}'
  · rw [if_pos c1] at h
    cases h
  rw [if_neg c1] at h
  obtain ⟨q, hq1, hq2, hq3⟩ := ParseObject_loop_oor_scan hcons hpv herr _ _ _ h
  refine ⟨q, hq1.trans ((SkipWhitespace_suffix _).trans (tail_suffix _)), hq2, ?_⟩
  rw [scan_code_tail c0' (by decide), ← scan_code_SkipWhitespace]
  exact hq3

/-- When `std::out_of_range` escapes from `ParseValue`, it was raised by `ParseNumber` at a
place of the text in front of which there is no trailing comma. -/
theorem ParseValue_oor_scan (fuel : Nat) (p : string)
    (h : ParseValue fuel p = .error .stdOutOfRange) :
    ∃ q, q <:+ p ∧ ParseNumber q = .error .stdOutOfRange
      ∧ hasTrailingComma .code p = hasTrailingComma .code q := by
  induction fuel generalizing p with
  | zero => simp [ParseValue] at h
  | succ fuel ih =>
    rw [ParseValue] at h
    have hw : ∀ {q : string}, (q <:+ SkipWhitespace p ∧ ParseNumber q = .error .stdOutOfRange
        ∧ hasTrailingComma .code (SkipWhitespace p) = hasTrailingComma .code q) →
        q <:+ p ∧ ParseNumber q = .error .stdOutOfRange
          ∧ hasTrailingComma .code p = hasTrailingComma .code q := by
      rintro q ⟨h1, h2, h3⟩
      exact ⟨h1.trans (SkipWhitespace_suffix _), h2, by rw [← scan_code_SkipWhitespace p, h3]⟩
    by_cases c1 : peek (SkipWhitespace p) = 'n'
    · rw [if_pos c1] at h
      exact absurd h (ParseLiteral_ne_stdOutOfRange _ _ _)
    rw [if_neg c1] at h
    by_cases c2 : peek (SkipWhitespace p) = 't'
    · rw [if_pos c2] at h
      exact absurd h (ParseLiteral_ne_stdOutOfRange _ _ _)
    rw [if_neg c2] at h
    by_cases c3 : peek (SkipWhitespace p) = 'f'
    · rw [if_pos c3] at h
      exact absurd h (ParseLiteral_ne_stdOutOfRange _ _ _)
    rw [if_neg c3] at h
    by_cases c4 : peek (SkipWhitespace p) = '"'
    · rw [if_pos c4] at h
      exact absurd h (ParseString_ne_stdOutOfRange _)
    rw [if_neg c4] at h
    by_cases c5 : peek (SkipWhitespace p) = '['
    · rw [if_pos c5] at h
      obtain ⟨q, hq⟩ := ParseArray_oor_scan (ParseValue_consuming fuel)
        (fun p v r hp => ParseValue_scan fuel p v r hp) (fun p hp => ParseValue_started hp)
        ih h
      exact ⟨q, hw hq⟩
    rw [if_neg c5] at h
    by_cases c6 : peek (SkipWhitespace p) = '{'
    · rw [if_pos c6] at h
      obtain ⟨q, hq⟩ := ParseObject_oor_scan (ParseValue_consuming fuel)
        (fun p v r hp => ParseValue_scan fuel p v r hp) ih h
      exact ⟨q, hw hq⟩
    rw [if_neg c6] at h
    by_cases c7 : peek (SkipWhitespace p) = '-' ∨ isDigit (peek (SkipWhitespace p)) = true
    · rw [if_pos c7] at h
      exact ⟨SkipWhitespace p, hw ⟨List.suffix_refl _, h, rfl⟩⟩
    · rw [if_neg c7] at h
      cases h

/-- When `std::out_of_range` escapes from `Parse`, it was raised by `ParseNumber` at a
place of the text in front of which there is no trailing comma. -/
theorem Parse_oor_scan {json : string} (h : Parse json = .error .stdOutOfRange) :
    ∃ pre q, json = pre ++ q ∧ ParseNumber q = .error .stdOutOfRange
      ∧ hasTrailingComma .code json = hasTrailingComma .code q := by
  unfold Parse at h
  by_cases c0 : peek (SkipWhitespace json) = Char.ofNat 0
  · rw [if_pos c0] at h
    cases h
  rw [if_neg c0] at h
  cases hv : ParseValue ((SkipWhitespace json).length + 1) (SkipWhitespace json) with
  | error e =>
    rw [hv] at h
    injection h with h
    rw [h] at hv
    obtain ⟨q, hq1, hq2, hq3⟩ := ParseValue_oor_scan _ _ hv
    obtain ⟨pre, hpre⟩ := hq1.trans (SkipWhitespace_suffix json)
    exact ⟨pre, q, hpre.symm, hq2, by rw [← scan_code_SkipWhitespace json, hq3]⟩
  | ok res =>
    obtain ⟨v, r⟩ := res
    rw [hv] at h
    simp only at h
    by_cases c1 : peek (SkipWhitespace r) ≠ Char.ofNat 0
    · rw [if_pos c1] at h
      cases h
    · rw [if_neg c1] at h
      cases h

/-- When `std::out_of_range` escapes from `ParseNumber`, the cursor stands on a number text
on which `std::stod` throws it. -/
theorem ParseNumber_oor_parts {p : string} (h : ParseNumber p = .error .stdOutOfRange) :
    OutOfRangeNumberAt p := by
  refine ⟨h, ?_⟩
  unfold ParseNumber at h
  cases h1 : ParseNumber_integer (if peek p = '-' then p.tail else p) with
  | error e =>
    rw [h1] at h
    injection h with h
    exact absurd h (stdOutOfRange_not_ParseError (ParseNumber_integer_error h1))
  | ok p1 =>
    rw [h1] at h
    simp only at h
    cases h2 : ParseNumber_fraction p1 with
    | error e =>
      rw [h2] at h
      injection h with h
      exact absurd h (stdOutOfRange_not_ParseError (ParseNumber_fraction_error h2))
    | ok p2 =>
      rw [h2] at h
      simp only at h
      cases h3 : ParseNumber_exponent p2 with
      | error e =>
        rw [h3] at h
        injection h with h
        exact absurd h (stdOutOfRange_not_ParseError (ParseNumber_exponent_error h3))
      | ok p3 =>
        rw [h3] at h
        simp only at h
        cases h4 : stod (p.take (p.length - p3.length)) with
        | ok d => simp [h4] at h
        | error e =>
          rw [h4] at h
          injection h with h
          rw [h] at h4
          obtain ⟨ip, e1, hip, s1⟩ := ParseNumber_integer_parts h1
          obtain ⟨frac, e2, hfrac, s2⟩ := ParseNumber_fraction_parts h2
          obtain ⟨ex, e3, hex, s3⟩ := ParseNumber_exponent_parts h3
          have hp : ∃ sign, (sign = [] ∨ sign = ['-']) ∧ p = sign ++ ip ++ frac ++ ex ++ p3 := by
            by_cases hm : peek p = '-'
            · rw [if_pos hm] at e1
              have hp0 := cons_peek_tail (p := p) (by rw [hm]; decide)
              rw [hm] at hp0
              refine ⟨['-'], Or.inr rfl, ?_⟩
              rw [hp0, e1, e2, e3]
              simp
            · rw [if_neg hm] at e1
              refine ⟨[], Or.inl rfl, ?_⟩
              rw [e1, e2, e3]
              simp
          obtain ⟨sign, hs, hp⟩ := hp
          have htake : p.take (p.length - p3.length) = sign ++ ip ++ frac ++ ex := by
            conv_lhs => rw [hp]
            rw [List.length_append, Nat.add_sub_cancel, List.take_left']
            rfl
          rw [htake] at h4
          exact ⟨sign ++ ip ++ frac ++ ex, p3, hp, ⟨sign, ip, frac, ex, rfl, hs, hip, hfrac, hex⟩,
            h4⟩

/-- C20 (amended): trailing commas are rejected.  Every input (a C string, so without NUL)
in which a `,` outside the string literals is followed, after optional whitespace, by `]`
or `}` makes `Parse` fail.  The failure is a ParseError, or it is the `std::out_of_range`
of `std::stod`, and then the text has a number that is outside the range of `double` in
front of a trailing comma: `ParseNumber` raised the exception at a place behind which
there is a trailing comma. -/
theorem Parse_rejects_trailing_comma (json : string) (hnul : ∀ c ∈ json, c ≠ Char.ofNat 0)
    (h : hasTrailingComma .code json = true) :
    ∃ e, Parse json = .error e
      ∧ (e.kind = some EErrorKind.ParseError
        ∨ (e = TException.stdOutOfRange
          ∧ ∃ pre q, json = pre ++ q ∧ OutOfRangeNumberAt q
            ∧ hasTrailingComma .code q = true)) := by
  obtain ⟨e, he⟩ := Parse_trailing_comma_not_ok json hnul h
  refine ⟨e, he, ?_⟩
  rcases Parse_error he with hk | hk
  · exact Or.inl hk
  · right
    rw [hk] at he
    obtain ⟨pre, q, h1, h2, h3⟩ := Parse_oor_scan he
    exact ⟨hk, pre, q, h1, ParseNumber_oor_parts h2, by rw [← h3, h]⟩

/-- Witness for C20 (amended): the texts `[1,2,]` and `{"a":1,}` have a trailing comma, and
`Parse` fails on both, with a ParseError. -/
theorem Parse_rejects_trailing_comma_witness :
    (hasTrailingComma .code ['[', '1', ',', '2', ',', ']'] = true
      ∧ (∃ e, Parse ['[', '1', ',', '2', ',', ']'] = .error e
        ∧ (e.kind = some EErrorKind.ParseError
          ∨ (e = TException.stdOutOfRange
            ∧ ∃ pre q, ['[', '1', ',', '2', ',', ']'] = pre ++ q ∧ OutOfRangeNumberAt q
              ∧ hasTrailingComma .code q = true)))
      ∧ ∃ e, Parse ['[', '1', ',', '2', ',', ']'] = .error e
        ∧ e.kind = some EErrorKind.ParseError)
    ∧ hasTrailingComma .code ['{', '"', 'a', '"', ':', '1', ',', '}'] = true
      ∧ (∃ e, Parse ['{', '"', 'a', '"', ':', '1', ',', '}'] = .error e
        ∧ (e.kind = some EErrorKind.ParseError
          ∨ (e = TException.stdOutOfRange
            ∧ ∃ pre q, ['{', '"', 'a', '"', ':', '1', ',', '}'] = pre ++ q
              ∧ OutOfRangeNumberAt q ∧ hasTrailingComma .code q = true)))
      ∧ ∃ e, Parse ['{', '"', 'a', '"', ':', '1', ',', '}'] = .error e
        ∧ e.kind = some EErrorKind.ParseError :=
  ⟨⟨by decide,
      Parse_rejects_trailing_comma ['[', '1', ',', '2', ',', ']'] (by decide) (by decide),
      ⟨TException.unexpectedCharacter ']', by decide!, rfl⟩⟩,
    by decide,
    Parse_rejects_trailing_comma ['{', '"', 'a', '"', ':', '1', ',', '}'] (by decide)
      (by decide),
    ⟨TException.expectedKeyQuote, by decide!, rfl⟩⟩

theorem ParseArray_loop_oor_ms {pv : string → Except TException (TJsonNode × string)}
    (hcons : Consuming pv)
    (hpv : ∀ p v r, pv p = .ok (v, r) →
      hasMalformedString .code p = hasMalformedString .code r)
    (herr : ∀ p, pv p = .error .stdOutOfRange → ∃ q, q <:+ p
      ∧ ParseNumber q = .error .stdOutOfRange
      ∧ hasMalformedString .code p = hasMalformedString .code q)
    (fuel : Nat) (p : string) (acc : List TJsonNode)
    (h : ParseArray_loop pv fuel p acc = .error .stdOutOfRange) :
    ∃ q, q <:+ p ∧ ParseNumber q = .error .stdOutOfRange
      ∧ hasMalformedString .code p = hasMalformedString .code q := by
  induction fuel generalizing p acc with
  | zero => simp [ParseArray_loop] at h
  | succ fuel ih =>
    rw [ParseArray_loop] at h
    cases hv : pv p with
    | error e =>
      rw [hv] at h
      injection h with h
      rw [h] at hv
      exact herr p hv
    | ok res =>
      obtain ⟨x, p1⟩ := res
      rw [hv] at h
      simp only at h
      by_cases c1 : peek (SkipWhitespace p1) = ']'
      · rw [if_pos c1] at h
        cases h
      rw [if_neg c1] at h
      by_cases c2 : peek (SkipWhitespace p1) ≠ ','
      · rw [if_pos c2] at h
        cases h
      rw [if_neg c2] at h
      have c2' : peek (SkipWhitespace p1) = ',' := by simpa using c2
      obtain ⟨q, hq1, hq2, hq3⟩ := ih _ _ h
      refine ⟨q, ?_, hq2, ?_⟩
      · exact hq1.trans ((SkipWhitespace_suffix _).trans ((tail_suffix _).trans
          ((SkipWhitespace_suffix _).trans (hcons _ _ _ hv).1)))
      · rw [hpv _ _ _ hv, ← ms_code_SkipWhitespace p1, ms_code_tail c2' (by decide),
          ← ms_code_SkipWhitespace]
        exact hq3

theorem ParseArray_oor_ms {pv : string → Except TException (TJsonNode × string)}
    (hcons : Consuming pv)
    (hpv : ∀ p v r, pv p = .ok (v, r) →
      hasMalformedString .code p = hasMalformedString .code r)
    (herr : ∀ p, pv p = .error .stdOutOfRange → ∃ q, q <:+ p
      ∧ ParseNumber q = .error .stdOutOfRange
      ∧ hasMalformedString .code p = hasMalformedString .code q)
    {p : string} (h : ParseArray pv p = .error .stdOutOfRange) :
    ∃ q, q <:+ p ∧ ParseNumber q = .error .stdOutOfRange
      ∧ hasMalformedString .code p = hasMalformedString .code q := by
  unfold ParseArray at h
  by_cases c0 : peek p ≠ '['
  · rw [if_pos c0] at h
    cases h
  rw [if_neg c0] at h
  have c0' : peek p = '[' := by simpa using c0
  by_cases c1 : peek (SkipWhitespace p.tail) = ']'
  · rw [if_pos c1] at h
    cases h
  rw [if_neg c1] at h
  obtain ⟨q, hq1, hq2, hq3⟩ := ParseArray_loop_oor_ms hcons hpv herr _ _ _ h
  refine ⟨q, hq1.trans ((SkipWhitespace_suffix _).trans (tail_suffix _)), hq2, ?_⟩
  rw [ms_code_tail c0' (by decide), ← ms_code_SkipWhitespace]
  exact hq3

theorem ParseObject_loop_oor_ms {pv : string → Except TException (TJsonNode × string)}
    (hcons : Consuming pv)
    (hpv : ∀ p v r, pv p = .ok (v, r) →
      hasMalformedString .code p = hasMalformedString .code r)
    (herr : ∀ p, pv p = .error .stdOutOfRange → ∃ q, q <:+ p
      ∧ ParseNumber q = .error .stdOutOfRange
      ∧ hasMalformedString .code p = hasMalformedString .code q)
    (fuel : Nat) (p : string) (acc : List (string × TJsonNode))
    (h : ParseObject_loop pv fuel p acc = .error .stdOutOfRange) :
    ∃ q, q <:+ p ∧ ParseNumber q = .error .stdOutOfRange
      ∧ hasMalformedString .code p = hasMalformedString .code q := by
  induction fuel generalizing p acc with
  | zero => simp [ParseObject_loop] at h
  | succ fuel ih =>
    rw [ParseObject_loop] at h
    by_cases c0 : peek (SkipWhitespace p) ≠ '"'
    · rw [if_pos c0] at h
      cases h
    rw [if_neg c0] at h
    cases hk : ParseString (SkipWhitespace p) with
    | error e =>
      rw [hk] at h
      injection h with h
      rw [h] at hk
      exact absurd hk (ParseString_ne_stdOutOfRange _)
    | ok res =>
      obtain ⟨keyNode, p1⟩ := res
      rw [hk] at h
      simp only at h
      obtain ⟨s, hs⟩ := ParseString_ok_String hk
      subst hs
      simp only [operator_string] at h
      by_cases c1 : peek (SkipWhitespace p1) ≠ ':'
      · rw [if_pos c1] at h
        cases h
      rw [if_neg c1] at h
      have c1' : peek (SkipWhitespace p1) = ':' := by simpa using c1
      have hp1 : p1 <:+ p := (ParseString_advanced hk).1.trans (SkipWhitespace_suffix _)
      have e1 : hasMalformedString .code p
          = hasMalformedString .code (SkipWhitespace p1).tail := by
        rw [← ms_code_SkipWhitespace p, ParseString_ms hk, ← ms_code_SkipWhitespace p1,
          ms_code_tail c1' (by decide)]
      cases hv : pv (SkipWhitespace p1).tail with
      | error e =>
        rw [hv] at h
        injection h with h
        rw [h] at hv
        obtain ⟨q, hq1, hq2, hq3⟩ := herr _ hv
        exact ⟨q, hq1.trans ((tail_suffix _).trans ((SkipWhitespace_suffix _).trans hp1)),
          hq2, e1.trans hq3⟩
      | ok res2 =>
        obtain ⟨x, p2⟩ := res2
        rw [hv] at h
        simp only at h
        by_cases c2 : peek (SkipWhitespace p2) = '}'
        · rw [if_pos c2] at h
          cases h
        rw [if_neg c2] at h
        by_cases c3 : peek (SkipWhitespace p2) ≠ ','
        · rw [if_pos c3] at h
          cases h
        rw [if_neg c3] at h
        have c3' : peek (SkipWhitespace p2) = ',' := by simpa using c3
        obtain ⟨q, hq1, hq2, hq3⟩ := ih _ _ h
        refine ⟨q, ?_, hq2, ?_⟩
        · exact hq1.trans ((tail_suffix _).trans ((SkipWhitespace_suffix _).trans
            ((hcons _ _ _ hv).1.trans ((tail_suffix _).trans
              ((SkipWhitespace_suffix _).trans hp1)))))
        · rw [e1, hpv _ _ _ hv, ← ms_code_SkipWhitespace p2, ms_code_tail c3' (by decide)]
          exact hq3

theorem ParseObject_oor_ms {pv : string → Except TException (TJsonNode × string)}
    (hcons : Consuming pv)
    (hpv : ∀ p v r, pv p = .ok (v, r) →
      hasMalformedString .code p = hasMalformedString .code r)
    (herr : ∀ p, pv p = .error .stdOutOfRange → ∃ q, q <:+ p
      ∧ ParseNumber q = .error .stdOutOfRange
      ∧ hasMalformedString .code p = hasMalformedString .code q)
    {p : string} (h : ParseObject pv p = .error .stdOutOfRange) :
    ∃ q, q <:+ p ∧ ParseNumber q = .error .stdOutOfRange
      ∧ hasMalformedString .code p = hasMalformedString .code q := by
  unfold ParseObject at h
  by_cases c0 : peek p ≠ '{'
  · rw [if_pos c0] at h
    cases h
  rw [if_neg c0] at h
  have c0' : peek p = '{' := by simpa using c0
  by_cases c1 : peek (SkipWhitespace p.tail) = '}'
  · rw [if_pos c1] at h
    cases h
  rw [if_neg c1] at h
  obtain ⟨q, hq1, hq2, hq3⟩ := ParseObject_loop_oor_ms hcons hpv herr _ _ _ h
  refine ⟨q, hq1.trans ((SkipWhitespace_suffix _).trans (tail_suffix _)), hq2, ?_⟩
  rw [ms_code_tail c0' (by decide), ← ms_code_SkipWhitespace]
  exact hq3

/-- When `std::out_of_range` escapes from `ParseValue`, it was raised by `ParseNumber` at a
place of the text in front of which there is no malformed string literal. -/
theorem ParseValue_oor_ms (fuel : Nat) (p : string)
    (h : ParseValue fuel p = .error .stdOutOfRange) :
    ∃ q, q <:+ p ∧ ParseNumber q = .error .stdOutOfRange
      ∧ hasMalformedString .code p = hasMalformedString .code q := by
  induction fuel generalizing p with
  | zero => simp [ParseValue] at h
  | succ fuel ih =>
    rw [ParseValue] at h
    have hw : ∀ {q : string}, (q <:+ SkipWhitespace p ∧ ParseNumber q = .error .stdOutOfRange
        ∧ hasMalformedString .code (SkipWhitespace p) = hasMalformedString .code q) →
        q <:+ p ∧ ParseNumber q = .error .stdOutOfRange
          ∧ hasMalformedString .code p = hasMalformedString .code q := by
      rintro q ⟨h1, h2, h3⟩
      exact ⟨h1.trans (SkipWhitespace_suffix _), h2, by rw [← ms_code_SkipWhitespace p, h3]⟩
    by_cases c1 : peek (SkipWhitespace p) = 'n'
    · rw [if_pos c1] at h
      exact absurd h (ParseLiteral_ne_stdOutOfRange _ _ _)
    rw [if_neg c1] at h
    by_cases c2 : peek (SkipWhitespace p) = 't'
    · rw [if_pos c2] at h
      exact absurd h (ParseLiteral_ne_stdOutOfRange _ _ _)
    rw [if_neg c2] at h
    by_cases c3 : peek (SkipWhitespace p) = 'f'
    · rw [if_pos c3] at h
      exact absurd h (ParseLiteral_ne_stdOutOfRange _ _ _)
    rw [if_neg c3] at h
    by_cases c4 : peek (SkipWhitespace p) = '"'
    · rw [if_pos c4] at h
      exact absurd h (ParseString_ne_stdOutOfRange _)
    rw [if_neg c4] at h
    by_cases c5 : peek (SkipWhitespace p) = '['
    · rw [if_pos c5] at h
      obtain ⟨q, hq⟩ := ParseArray_oor_ms (ParseValue_consuming fuel)
        (fun p v r hp => ParseValue_ms fuel p v r hp) ih h
      exact ⟨q, hw hq⟩
    rw [if_neg c5] at h
    by_cases c6 : peek (SkipWhitespace p) = '{'
    · rw [if_pos c6] at h
      obtain ⟨q, hq⟩ := ParseObject_oor_ms (ParseValue_consuming fuel)
        (fun p v r hp => ParseValue_ms fuel p v r hp) ih h
      exact ⟨q, hw hq⟩
    rw [if_neg c6] at h
    by_cases c7 : peek (SkipWhitespace p) = '-' ∨ isDigit (peek (SkipWhitespace p)) = true
    · rw [if_pos c7] at h
      exact ⟨SkipWhitespace p, hw ⟨List.suffix_refl _, h, rfl⟩⟩
    · rw [if_neg c7] at h
      cases h

/-- When `std::out_of_range` escapes from `Parse`, it was raised by `ParseNumber` at a
place of the text in front of which there is no malformed string literal. -/
theorem Parse_oor_ms {json : string} (h : Parse json = .error .stdOutOfRange) :
    ∃ pre q, json = pre ++ q ∧ ParseNumber q = .error .stdOutOfRange
      ∧ hasMalformedString .code json = hasMalformedString .code q := by
  unfold Parse at h
  by_cases c0 : peek (SkipWhitespace json) = Char.ofNat 0
  · rw [if_pos c0] at h
    cases h
  rw [if_neg c0] at h
  cases hv : ParseValue ((SkipWhitespace json).length + 1) (SkipWhitespace json) with
  | error e =>
    rw [hv] at h
    injection h with h
    rw [h] at hv
    obtain ⟨q, hq1, hq2, hq3⟩ := ParseValue_oor_ms _ _ hv
    obtain ⟨pre, hpre⟩ := hq1.trans (SkipWhitespace_suffix json)
    exact ⟨pre, q, hpre.symm, hq2, by rw [← ms_code_SkipWhitespace json, hq3]⟩
  | ok res =>
    obtain ⟨v, r⟩ := res
    rw [hv] at h
    simp only at h
    by_cases c1 : peek (SkipWhitespace r) ≠ Char.ofNat 0
    · rw [if_pos c1] at h
      cases h
    · rw [if_neg c1] at h
      cases h

/-- C25 (amended): malformed strings are rejected.  Every input (a C string, so without
NUL) with a string literal that has no closing unescaped `"` before the end of the input,
or in which a backslash is followed by nothing or by a character other than `"` `\` `/`
`b` `f` `n` `r` `t` `u`, or in which `\u` is followed by fewer than four hexadecimal
digits, makes `Parse` fail.  The failure is a ParseError, or it is the `std::out_of_range`
of `std::stod`, and then the text has a number that is outside the range of `double` in
front of a malformed string literal: `ParseNumber` raised the exception at a place behind
which there is a malformed string literal. -/
theorem Parse_rejects_malformed_string (json : string)
    (hnul : ∀ c ∈ json, c ≠ Char.ofNat 0) (h : hasMalformedString .code json = true) :
    ∃ e, Parse json = .error e
      ∧ (e.kind = some EErrorKind.ParseError
        ∨ (e = TException.stdOutOfRange
          ∧ ∃ pre q, json = pre ++ q ∧ OutOfRangeNumberAt q
            ∧ hasMalformedString .code q = true)) := by
  obtain ⟨e, he⟩ := Parse_malformed_string_not_ok json hnul h
  refine ⟨e, he, ?_⟩
  rcases Parse_error he with hk | hk
  · exact Or.inl hk
  · right
    rw [hk] at he
    obtain ⟨pre, q, h1, h2, h3⟩ := Parse_oor_ms he
    exact ⟨hk, pre, q, h1, ParseNumber_oor_parts h2, by rw [← h3, h]⟩

/-- Witness for C25 (amended): the texts `"abc` (not closed), `"a\qb"` (invalid escape),
`"a\` (backslash at the end) and `"\u12"` (two hexadecimal digits) are malformed, and
`Parse` fails on each, with a ParseError. -/
theorem Parse_rejects_malformed_string_witness :
    (hasMalformedString .code ['"', 'a', 'b', 'c'] = true
      ∧ (∃ e, Parse ['"', 'a', 'b', 'c'] = .error e
        ∧ (e.kind = some EErrorKind.ParseError
          ∨ (e = TException.stdOutOfRange
            ∧ ∃ pre q, ['"', 'a', 'b', 'c'] = pre ++ q ∧ OutOfRangeNumberAt q
              ∧ hasMalformedString .code q = true)))
      ∧ ∃ e, Parse ['"', 'a', 'b', 'c'] = .error e ∧ e.kind = some EErrorKind.ParseError)
    ∧ (hasMalformedString .code ['"', 'a', '\\', 'q', 'b', '"'] = true
      ∧ (∃ e, Parse ['"', 'a', '\\', 'q', 'b', '"'] = .error e
        ∧ (e.kind = some EErrorKind.ParseError
          ∨ (e = TException.stdOutOfRange
            ∧ ∃ pre q, ['"', 'a', '\\', 'q', 'b', '"'] = pre ++ q ∧ OutOfRangeNumberAt q
              ∧ hasMalformedString .code q = true)))
      ∧ ∃ e, Parse ['"', 'a', '\\', 'q', 'b', '"'] = .error e
        ∧ e.kind = some EErrorKind.ParseError)
    ∧ (hasMalformedString .code ['"', 'a', '\\'] = true
      ∧ (∃ e, Parse ['"', 'a', '\\'] = .error e
        ∧ (e.kind = some EErrorKind.ParseError
          ∨ (e = TException.stdOutOfRange
            ∧ ∃ pre q, ['"', 'a', '\\'] = pre ++ q ∧ OutOfRangeNumberAt q
              ∧ hasMalformedString .code q = true)))
      ∧ ∃ e, Parse ['"', 'a', '\\'] = .error e ∧ e.kind = some EErrorKind.ParseError)
    ∧ hasMalformedString .code ['"', '\\', 'u', '1', '2', '"'] = true
      ∧ (∃ e, Parse ['"', '\\', 'u', '1', '2', '"'] = .error e
        ∧ (e.kind = some EErrorKind.ParseError
          ∨ (e = TException.stdOutOfRange
            ∧ ∃ pre q, ['"', '\\', 'u', '1', '2', '"'] = pre ++ q ∧ OutOfRangeNumberAt q
              ∧ hasMalformedString .code q = true)))
      ∧ ∃ e, Parse ['"', '\\', 'u', '1', '2', '"'] = .error e
        ∧ e.kind = some EErrorKind.ParseError :=
  ⟨⟨by decide, Parse_rejects_malformed_string ['"', 'a', 'b', 'c'] (by decide) (by decide),
      ⟨TException.unterminatedString, by decide!, rfl⟩⟩,
    ⟨by decide,
      Parse_rejects_malformed_string ['"', 'a', '\\', 'q', 'b', '"'] (by decide) (by decide),
      ⟨TException.invalidEscape 'q', by decide!, rfl⟩⟩,
    ⟨by decide, Parse_rejects_malformed_string ['"', 'a', '\\'] (by decide) (by decide),
      ⟨TException.invalidEscape (Char.ofNat 0), by decide!, rfl⟩⟩,
    by decide,
    Parse_rejects_malformed_string ['"', '\\', 'u', '1', '2', '"'] (by decide) (by decide),
    ⟨TException.invalidUnicodeEscape, by decide!, rfl⟩⟩

/-! ## The malformed member behind a place of the text -/

theorem mb_at (stack : List Bool) (q : string) :
    hasMalformedMemberBehind q.length stack .value q = hasMalformedMember stack .value q := by
  cases q with
  | nil => rfl
  | cons c rest => rw [hasMalformedMemberBehind, List.length_cons, if_pos rfl]

theorem mb_value_cons {n : Nat} {c : Char}
    (h : c ≠ '"' ∧ c ≠ '{' ∧ c ≠ '[' ∧ c ≠ '}' ∧ c ≠ ']' ∧ c ≠ ',')
    (stack : List Bool) (rest : string) (hn : n ≤ rest.length) :
    hasMalformedMemberBehind n stack .value (c :: rest)
      = hasMalformedMemberBehind n stack .value rest := by
  obtain ⟨h1, h2, h3, h4, h5, h6⟩ := h
  have h45 : ¬ (c = '}' ∨ c = ']') := fun hc => hc.elim h4 h5
  rw [hasMalformedMemberBehind, if_neg (by omega), if_neg h1, if_neg h2, if_neg h3,
    if_neg h45, if_neg h6]

theorem mb_value_tail {n : Nat} {p : string} {c : Char} (h : peek p = c)
    (hc : c ≠ Char.ofNat 0 ∧ c ≠ '"' ∧ c ≠ '{' ∧ c ≠ '[' ∧ c ≠ '}' ∧ c ≠ ']' ∧ c ≠ ',')
    (stack : List Bool) (hn : n ≤ p.tail.length) :
    hasMalformedMemberBehind n stack .value p
      = hasMalformedMemberBehind n stack .value p.tail := by
  have hp := cons_peek_tail (p := p) (by rw [h]; exact hc.1)
  rw [h] at hp
  generalize p.tail = t at hp hn ⊢
  subst hp
  exact mb_value_cons hc.2 _ _ hn

theorem mb_value_append {n : Nat} (pre rest : string)
    (h : ∀ c ∈ pre, c ≠ '"' ∧ c ≠ '{' ∧ c ≠ '[' ∧ c ≠ '}' ∧ c ≠ ']' ∧ c ≠ ',')
    (stack : List Bool) (hn : n ≤ rest.length) :
    hasMalformedMemberBehind n stack .value (pre ++ rest)
      = hasMalformedMemberBehind n stack .value rest := by
  induction pre with
  | nil => rfl
  | cons c pre ih =>
    rw [List.cons_append, mb_value_cons (h c (List.mem_cons_self _ _)) _ _
      (by rw [List.length_append]; omega)]
    exact ih (fun d hd => h d (List.mem_cons_of_mem _ hd))

theorem mb_value_SkipWhitespace {n : Nat} (stack : List Bool) (p : string)
    (hn : n ≤ (SkipWhitespace p).length) :
    hasMalformedMemberBehind n stack .value (SkipWhitespace p)
      = hasMalformedMemberBehind n stack .value p := by
  induction p with
  | nil => rfl
  | cons c rest ih =>
    unfold SkipWhitespace at hn ⊢
    by_cases h : c = ' ' ∨ c = '\t' ∨ c = '\n' ∨ c = '\r'
    · rw [if_pos h] at hn ⊢
      rw [ih hn]
      refine (mb_value_cons ?_ stack rest
        (le_trans hn (SkipWhitespace_suffix rest).length_le)).symm
      rcases h with h | h | h | h <;> rw [h] <;> decide
    · rw [if_neg h]

theorem mb_value_dropWhile_digits {n : Nat} (stack : List Bool) (p : string)
    (hn : n ≤ (p.dropWhile isDigit).length) :
    hasMalformedMemberBehind n stack .value (p.dropWhile isDigit)
      = hasMalformedMemberBehind n stack .value p := by
  induction p with
  | nil => rfl
  | cons c rest ih =>
    by_cases h : isDigit c = true
    · rw [List.dropWhile_cons_of_pos h] at hn ⊢
      rw [ih hn]
      exact (mb_value_cons (isDigit_member_plain h) stack rest
        (le_trans hn (dropWhile_suffix _ rest).length_le)).symm
    · rw [List.dropWhile_cons_of_neg h]

theorem mb_key_SkipWhitespace {n : Nat} {k : EMemberScan}
    (hk : k = .firstKey ∨ k = .nextKey) (stack : List Bool) (p : string) :
    hasMalformedMemberBehind n stack k (SkipWhitespace p)
      = hasMalformedMemberBehind n stack k p := by
  induction p with
  | nil => rfl
  | cons c rest ih =>
    unfold SkipWhitespace
    by_cases h : c = ' ' ∨ c = '\t' ∨ c = '\n' ∨ c = '\r'
    · rw [if_pos h, ih]
      rcases hk with hk | hk <;> subst hk
      · conv_rhs => rw [hasMalformedMemberBehind]
        rw [if_pos (isWhitespace_of_or h)]
      · conv_rhs => rw [hasMalformedMemberBehind]
        rw [if_pos (isWhitespace_of_or h)]
    · rw [if_neg h]

theorem mb_colon_SkipWhitespace {n : Nat} (stack : List Bool) (p : string) :
    hasMalformedMemberBehind n stack .colon (SkipWhitespace p)
      = hasMalformedMemberBehind n stack .colon p := by
  induction p with
  | nil => rfl
  | cons c rest ih =>
    unfold SkipWhitespace
    by_cases h : c = ' ' ∨ c = '\t' ∨ c = '\n' ∨ c = '\r'
    · rw [if_pos h, ih]
      conv_rhs => rw [hasMalformedMemberBehind]
      rw [if_pos (isWhitespace_of_or h)]
    · rw [if_neg h]

theorem mb_value_quote {n : Nat} {p : string} (h : peek p = '"') (stack : List Bool)
    (hn : n ≤ p.tail.length) :
    hasMalformedMemberBehind n stack .value p
      = hasMalformedMemberBehind n stack .text p.tail := by
  have hp := cons_peek_tail (p := p) (by rw [h]; decide)
  rw [h] at hp
  generalize p.tail = t at hp hn ⊢
  subst hp
  rw [hasMalformedMemberBehind, if_neg (by omega), if_pos rfl]

theorem mb_key_quote {n : Nat} {k : EMemberScan} (hk : k = .firstKey ∨ k = .nextKey)
    {p : string} (h : peek p = '"') (stack : List Bool) :
    hasMalformedMemberBehind n stack k p = hasMalformedMemberBehind n stack .key p.tail := by
  have hp := cons_peek_tail (p := p) (by rw [h]; decide)
  rw [h] at hp
  have hw : ¬ isWhitespace '"' = true := by decide
  rcases hk with hk | hk <;> subst hk
  · rw [hp, hasMalformedMemberBehind, if_neg hw, if_pos rfl]
    rfl
  · rw [hp, hasMalformedMemberBehind, if_neg hw, if_pos rfl]
    rfl

theorem mb_value_open_object {n : Nat} {p : string} (h : peek p = '{') (stack : List Bool)
    (hn : n ≤ p.tail.length) :
    hasMalformedMemberBehind n stack .value p
      = hasMalformedMemberBehind n (true :: stack) .firstKey p.tail := by
  have hp := cons_peek_tail (p := p) (by rw [h]; decide)
  rw [h] at hp
  generalize p.tail = t at hp hn ⊢
  subst hp
  rw [hasMalformedMemberBehind, if_neg (by omega), if_neg (by decide), if_pos rfl]

theorem mb_value_open_array {n : Nat} {p : string} (h : peek p = '[') (stack : List Bool)
    (hn : n ≤ p.tail.length) :
    hasMalformedMemberBehind n stack .value p
      = hasMalformedMemberBehind n (false :: stack) .value p.tail := by
  have hp := cons_peek_tail (p := p) (by rw [h]; decide)
  rw [h] at hp
  generalize p.tail = t at hp hn ⊢
  subst hp
  rw [hasMalformedMemberBehind, if_neg (by omega), if_neg (by decide), if_neg (by decide),
    if_pos rfl]

theorem mb_value_close {n : Nat} {p : string} (h : peek p = '}' ∨ peek p = ']') (b : Bool)
    (stack : List Bool) (hn : n ≤ p.tail.length) :
    hasMalformedMemberBehind n (b :: stack) .value p
      = hasMalformedMemberBehind n stack .value p.tail := by
  rcases h with h | h
  · have hp := cons_peek_tail (p := p) (by rw [h]; decide)
    rw [h] at hp
    generalize p.tail = t at hp hn ⊢
    subst hp
    rw [hasMalformedMemberBehind, if_neg (by omega), if_neg (by decide), if_neg (by decide),
      if_neg (by decide), if_pos (Or.inl rfl)]
    rfl
  · have hp := cons_peek_tail (p := p) (by rw [h]; decide)
    rw [h] at hp
    generalize p.tail = t at hp hn ⊢
    subst hp
    rw [hasMalformedMemberBehind, if_neg (by omega), if_neg (by decide), if_neg (by decide),
      if_neg (by decide), if_pos (Or.inr rfl)]
    rfl

theorem mb_firstKey_close {n : Nat} {p : string} (h : peek p = '}') (b : Bool)
    (stack : List Bool) :
    hasMalformedMemberBehind n (b :: stack) .firstKey p
      = hasMalformedMemberBehind n stack .value p.tail := by
  have hp := cons_peek_tail (p := p) (by rw [h]; decide)
  rw [h] at hp
  have hw : ¬ isWhitespace '}' = true := by decide
  rw [hp, hasMalformedMemberBehind, if_neg hw, if_neg (by decide), if_pos rfl]
  rfl

theorem mb_value_comma_array {n : Nat} {p : string} (h : peek p = ',') (stack : List Bool)
    (hn : n ≤ p.tail.length) :
    hasMalformedMemberBehind n (false :: stack) .value p
      = hasMalformedMemberBehind n (false :: stack) .value p.tail := by
  have hp := cons_peek_tail (p := p) (by rw [h]; decide)
  rw [h] at hp
  generalize p.tail = t at hp hn ⊢
  subst hp
  have h45 : ¬ (',' = '}' ∨ ',' = ']') := by decide
  rw [hasMalformedMemberBehind, if_neg (by omega), if_neg (by decide), if_neg (by decide),
    if_neg (by decide), if_neg h45, if_pos rfl]
  rfl

theorem mb_value_comma_object {n : Nat} {p : string} (h : peek p = ',') (stack : List Bool)
    (hn : n ≤ p.tail.length) :
    hasMalformedMemberBehind n (true :: stack) .value p
      = hasMalformedMemberBehind n (true :: stack) .nextKey p.tail := by
  have hp := cons_peek_tail (p := p) (by rw [h]; decide)
  rw [h] at hp
  generalize p.tail = t at hp hn ⊢
  subst hp
  have h45 : ¬ (',' = '}' ∨ ',' = ']') := by decide
  rw [hasMalformedMemberBehind, if_neg (by omega), if_neg (by decide), if_neg (by decide),
    if_neg (by decide), if_neg h45, if_pos rfl]
  rfl

theorem mb_colon_step {n : Nat} {p : string} (h : peek p = ':')
    (hv : valueMissing p.tail = false) (stack : List Bool) :
    hasMalformedMemberBehind n stack .colon p
      = hasMalformedMemberBehind n stack .value p.tail := by
  have hp := cons_peek_tail (p := p) (by rw [h]; decide)
  rw [h] at hp
  have hw : ¬ isWhitespace ':' = true := by decide
  rw [hp, hasMalformedMemberBehind, if_neg hw, if_pos rfl]
  simp only [List.tail_cons] at hv ⊢
  rw [hv]
  rfl

theorem mb_text_step (n : Nat) (stack : List Bool) (c : Char) (rest : string) :
    hasMalformedMemberBehind n stack .text (c :: rest) =
      if c = '\\' then hasMalformedMemberBehind n stack .textEscape rest
      else if c = '"' then hasMalformedMemberBehind n stack .value rest
      else hasMalformedMemberBehind n stack .text rest := by
  rw [hasMalformedMemberBehind]

theorem mb_textEscape_step (n : Nat) (stack : List Bool) (c : Char) (rest : string) :
    hasMalformedMemberBehind n stack .textEscape (c :: rest)
      = hasMalformedMemberBehind n stack .text rest := by
  rw [hasMalformedMemberBehind]

theorem mb_key_step (n : Nat) (stack : List Bool) (c : Char) (rest : string) :
    hasMalformedMemberBehind n stack .key (c :: rest) =
      if c = '\\' then hasMalformedMemberBehind n stack .keyEscape rest
      else if c = '"' then hasMalformedMemberBehind n stack .colon rest
      else hasMalformedMemberBehind n stack .key rest := by
  rw [hasMalformedMemberBehind]

theorem mb_keyEscape_step (n : Nat) (stack : List Bool) (c : Char) (rest : string) :
    hasMalformedMemberBehind n stack .keyEscape (c :: rest)
      = hasMalformedMemberBehind n stack .key rest := by
  rw [hasMalformedMemberBehind]

theorem ParseString_mb {n : Nat} {p r : string} {v : TJsonNode}
    (h : ParseString p = .ok (v, r)) (stack : List Bool) (hn : n ≤ r.length) :
    hasMalformedMemberBehind n stack .value p
      = hasMalformedMemberBehind n stack .value r := by
  unfold ParseString at h
  by_cases h1 : peek p ≠ '"'
  · rw [if_pos h1] at h
    cases h
  rw [if_neg h1] at h
  have h1' : peek p = '"' := by simpa using h1
  cases hl : ParseString_loop (p.tail.length + 1) p.tail [] with
  | error e => rw [hl] at h; cases h
  | ok res =>
    obtain ⟨s, p1⟩ := res
    rw [hl] at h
    injection h with h
    injection h with ha hb
    subst hb
    have hadv := ParseString_loop_advanced _ _ _ _ _ hl
    rw [mb_value_quote h1' stack (le_trans hn hadv.1.length_le)]
    exact ParseString_loop_mm (mb_text_step n) (mb_textEscape_step n) stack _ _ _ _ _ hl

theorem ParseString_mb_key {n : Nat} {k : EMemberScan} (hk : k = .firstKey ∨ k = .nextKey)
    {p r : string} {v : TJsonNode}
    (h : ParseString p = .ok (v, r)) (stack : List Bool) :
    hasMalformedMemberBehind n stack k p = hasMalformedMemberBehind n stack .colon r := by
  unfold ParseString at h
  by_cases h1 : peek p ≠ '"'
  · rw [if_pos h1] at h
    cases h
  rw [if_neg h1] at h
  have h1' : peek p = '"' := by simpa using h1
  cases hl : ParseString_loop (p.tail.length + 1) p.tail [] with
  | error e => rw [hl] at h; cases h
  | ok res =>
    obtain ⟨s, p1⟩ := res
    rw [hl] at h
    injection h with h
    injection h with ha hb
    subst hb
    rw [mb_key_quote hk h1']
    exact ParseString_loop_mm (mb_key_step n) (mb_keyEscape_step n) stack _ _ _ _ _ hl

theorem ParseLiteral_mb {n : Nat} {p lit r : string} {v w : TJsonNode}
    (hlit : ∀ c ∈ lit, c ≠ '"' ∧ c ≠ '{' ∧ c ≠ '[' ∧ c ≠ '}' ∧ c ≠ ']' ∧ c ≠ ',')
    (h : ParseLiteral p lit v = .ok (w, r)) (stack : List Bool) (hn : n ≤ r.length) :
    hasMalformedMemberBehind n stack .value p
      = hasMalformedMemberBehind n stack .value r := by
  unfold ParseLiteral at h
  by_cases h1 : p.take lit.length = lit
  · rw [if_pos h1] at h
    injection h with h
    injection h with ha hb
    subst hb
    have hp : p = lit ++ p.drop lit.length := by
      conv_lhs => rw [← List.take_append_drop lit.length p, h1]
    conv_lhs => rw [hp]
    exact mb_value_append _ _ hlit stack hn
  · rw [if_neg h1] at h
    cases h

theorem ParseNumber_integer_mb {n : Nat} {p r : string}
    (h : ParseNumber_integer p = .ok r) (stack : List Bool) (hn : n ≤ r.length) :
    hasMalformedMemberBehind n stack .value p
      = hasMalformedMemberBehind n stack .value r := by
  unfold ParseNumber_integer at h
  by_cases h1 : peek p = '0'
  · rw [if_pos h1] at h
    injection h with h
    subst h
    exact mb_value_tail h1 (by decide) stack hn
  rw [if_neg h1] at h
  by_cases h2 : 49 ≤ (peek p).toNat ∧ (peek p).toNat ≤ 57
  · rw [if_pos h2] at h
    injection h with h
    subst h
    exact (mb_value_dropWhile_digits stack p hn).symm
  · rw [if_neg h2] at h
    cases h

theorem ParseNumber_fraction_mb {n : Nat} {p r : string}
    (h : ParseNumber_fraction p = .ok r) (stack : List Bool) (hn : n ≤ r.length) :
    hasMalformedMemberBehind n stack .value p
      = hasMalformedMemberBehind n stack .value r := by
  unfold ParseNumber_fraction at h
  by_cases h1 : peek p = '.'
  · rw [if_pos h1] at h
    by_cases h2 : isDigit (peek p.tail) = true
    · rw [if_pos h2] at h
      injection h with h
      subst h
      rw [mb_value_dropWhile_digits _ _ hn]
      exact mb_value_tail h1 (by decide) stack
        (le_trans hn (dropWhile_suffix _ _).length_le)
    · rw [if_neg h2] at h
      cases h
  · rw [if_neg h1] at h
    injection h with h
    subst h
    rfl

theorem ParseNumber_exponent_mb {n : Nat} {p r : string}
    (h : ParseNumber_exponent p = .ok r) (stack : List Bool) (hn : n ≤ r.length) :
    hasMalformedMemberBehind n stack .value p
      = hasMalformedMemberBehind n stack .value r := by
  unfold ParseNumber_exponent at h
  by_cases h1 : peek p = 'e' ∨ peek p = 'E'
  · rw [if_pos h1] at h
    have s1 : n ≤ p.tail.length → hasMalformedMemberBehind n stack .value p
        = hasMalformedMemberBehind n stack .value p.tail := by
      intro hn1
      rcases h1 with h1 | h1
      · exact mb_value_tail h1 (by decide) stack hn1
      · exact mb_value_tail h1 (by decide) stack hn1
    by_cases h2 : peek p.tail = '+' ∨ peek p.tail = '-'
    · rw [if_pos h2] at h
      have s2 : n ≤ p.tail.tail.length → hasMalformedMemberBehind n stack .value p.tail
          = hasMalformedMemberBehind n stack .value p.tail.tail := by
        intro hn2
        rcases h2 with h2 | h2
        · exact mb_value_tail h2 (by decide) stack hn2
        · exact mb_value_tail h2 (by decide) stack hn2
      by_cases h3 : isDigit (peek p.tail.tail) = true
      · rw [if_pos h3] at h
        injection h with h
        subst h
        have hn2 : n ≤ p.tail.tail.length := le_trans hn (dropWhile_suffix _ _).length_le
        rw [mb_value_dropWhile_digits _ _ hn, s1 (le_trans hn2 (length_tail_le _)), s2 hn2]
      · rw [if_neg h3] at h
        cases h
    · rw [if_neg h2] at h
      by_cases h3 : isDigit (peek p.tail) = true
      · rw [if_pos h3] at h
        injection h with h
        subst h
        rw [mb_value_dropWhile_digits _ _ hn,
          s1 (le_trans hn (dropWhile_suffix _ _).length_le)]
      · rw [if_neg h3] at h
        cases h
  · rw [if_neg h1] at h
    injection h with h
    subst h
    rfl

theorem ParseNumber_mb {n : Nat} {p r : string} {v : TJsonNode}
    (h : ParseNumber p = .ok (v, r)) (stack : List Bool) (hn : n ≤ r.length) :
    hasMalformedMemberBehind n stack .value p
      = hasMalformedMemberBehind n stack .value r := by
  unfold ParseNumber at h
  cases h1 : ParseNumber_integer (if peek p = '-' then p.tail else p) with
  | error e => rw [h1] at h; cases h
  | ok p1 =>
    rw [h1] at h
    simp only at h
    cases h2 : ParseNumber_fraction p1 with
    | error e => rw [h2] at h; cases h
    | ok p2 =>
      rw [h2] at h
      simp only at h
      cases h3 : ParseNumber_exponent p2 with
      | error e => rw [h3] at h; cases h
      | ok p3 =>
        rw [h3] at h
        simp only at h
        cases h4 : stod (p.take (p.length - p3.length)) with
        | error e => simp [h4] at h
        | ok d =>
          rw [h4] at h
          injection h with h
          injection h with ha hb
          subst hb
          have hn2 : n ≤ p2.length := le_trans hn (ParseNumber_exponent_suffix h3).length_le
          have hn1 : n ≤ p1.length := le_trans hn2 (ParseNumber_fraction_suffix h2).length_le
          have hn0 : n ≤ (if peek p = '-' then p.tail else p).length :=
            le_trans hn1 (ParseNumber_integer_advanced h1).1.length_le
          have hs : hasMalformedMemberBehind n stack .value p
              = hasMalformedMemberBehind n stack .value
                  (if peek p = '-' then p.tail else p) := by
            by_cases hm : peek p = '-'
            · rw [if_pos hm] at hn0 ⊢
              exact mb_value_tail hm (by decide) stack hn0
            · rw [if_neg hm]
          rw [hs, ParseNumber_integer_mb h1 stack hn1, ParseNumber_fraction_mb h2 stack hn2,
            ParseNumber_exponent_mb h3 stack hn]

theorem ParseArray_loop_mb {n : Nat} {pv : string → Except TException (TJsonNode × string)}
    (hcons : Consuming pv)
    (hpv : ∀ p v r stack, pv p = .ok (v, r) → n ≤ r.length →
      hasMalformedMemberBehind n stack .value p = hasMalformedMemberBehind n stack .value r)
    (stack : List Bool) (fuel : Nat) (p : string) (acc : List TJsonNode) (v : TJsonNode)
    (r : string) (h : ParseArray_loop pv fuel p acc = .ok (v, r)) (hn : n ≤ r.length) :
    hasMalformedMemberBehind n (false :: stack) .value p
      = hasMalformedMemberBehind n stack .value r := by
  induction fuel generalizing p acc with
  | zero => simp [ParseArray_loop] at h
  | succ fuel ih =>
    rw [ParseArray_loop] at h
    cases hv : pv p with
    | error e => rw [hv] at h; cases h
    | ok res =>
      obtain ⟨x, p1⟩ := res
      rw [hv] at h
      simp only at h
      by_cases c1 : peek (SkipWhitespace p1) = ']'
      · rw [if_pos c1] at h
        injection h with h
        injection h with ha hb
        subst hb
        have hn1 : n ≤ (SkipWhitespace p1).length := le_trans hn (length_tail_le _)
        have hn2 : n ≤ p1.length := le_trans hn1 (SkipWhitespace_suffix _).length_le
        rw [hpv _ _ _ _ hv hn2, ← mb_value_SkipWhitespace _ p1 hn1]
        exact mb_value_close (Or.inr c1) false stack hn
      rw [if_neg c1] at h
      by_cases c2 : peek (SkipWhitespace p1) ≠ ','
      · rw [if_pos c2] at h
        cases h
      rw [if_neg c2] at h
      have c2' : peek (SkipWhitespace p1) = ',' := by simpa using c2
      have hadv := ParseArray_loop_advanced hcons _ _ _ _ _ h
      have hn3 : n ≤ (SkipWhitespace (SkipWhitespace p1).tail).length :=
        le_trans hn hadv.1.length_le
      have hn0 : n ≤ (SkipWhitespace p1).tail.length :=
        le_trans hn3 (SkipWhitespace_suffix _).length_le
      have hn1 : n ≤ (SkipWhitespace p1).length := le_trans hn0 (length_tail_le _)
      have hn2 : n ≤ p1.length := le_trans hn1 (SkipWhitespace_suffix _).length_le
      rw [hpv _ _ _ _ hv hn2, ← mb_value_SkipWhitespace _ p1 hn1,
        mb_value_comma_array c2' _ hn0, ← mb_value_SkipWhitespace _ _ hn3]
      exact ih _ _ h

theorem ParseArray_mb {n : Nat} {pv : string → Except TException (TJsonNode × string)}
    (hcons : Consuming pv)
    (hpv : ∀ p v r stack, pv p = .ok (v, r) → n ≤ r.length →
      hasMalformedMemberBehind n stack .value p = hasMalformedMemberBehind n stack .value r)
    {p r : string} {v : TJsonNode}
    (h : ParseArray pv p = .ok (v, r)) (stack : List Bool) (hn : n ≤ r.length) :
    hasMalformedMemberBehind n stack .value p
      = hasMalformedMemberBehind n stack .value r := by
  have hadv := ParseArray_advanced hcons h
  unfold ParseArray at h
  by_cases c0 : peek p ≠ '['
  · rw [if_pos c0] at h
    cases h
  rw [if_neg c0] at h
  have c0' : peek p = '[' := by simpa using c0
  by_cases c1 : peek (SkipWhitespace p.tail) = ']'
  · rw [if_pos c1] at h
    injection h with h
    injection h with ha hb
    subst hb
    have hn1 : n ≤ (SkipWhitespace p.tail).length := le_trans hn (length_tail_le _)
    have hn2 : n ≤ p.tail.length := le_trans hn1 (SkipWhitespace_suffix _).length_le
    rw [mb_value_open_array c0' _ hn2, ← mb_value_SkipWhitespace _ _ hn1]
    exact mb_value_close (Or.inr c1) false stack hn
  rw [if_neg c1] at h
  have hadv2 := ParseArray_loop_advanced hcons _ _ _ _ _ h
  have hn1 : n ≤ (SkipWhitespace p.tail).length := le_trans hn hadv2.1.length_le
  have hn2 : n ≤ p.tail.length := le_trans hn1 (SkipWhitespace_suffix _).length_le
  rw [mb_value_open_array c0' _ hn2, ← mb_value_SkipWhitespace _ _ hn1]
  exact ParseArray_loop_mb hcons hpv stack _ _ _ _ _ h hn

theorem ParseObject_loop_mb {n : Nat} {pv : string → Except TException (TJsonNode × string)}
    (hcons : Consuming pv)
    (hpv : ∀ p v r stack, pv p = .ok (v, r) → n ≤ r.length →
      hasMalformedMemberBehind n stack .value p = hasMalformedMemberBehind n stack .value r)
    (hstart : ∀ p res, pv p = .ok res →
      peek (SkipWhitespace p) ≠ '}' ∧ peek (SkipWhitespace p) ≠ ',')
    (stack : List Bool) {k : EMemberScan} (hk : k = .firstKey ∨ k = .nextKey)
    (fuel : Nat) (p : string) (acc : List (string × TJsonNode))
    (v : TJsonNode) (r : string) (h : ParseObject_loop pv fuel p acc = .ok (v, r))
    (hn : n ≤ r.length) :
    hasMalformedMemberBehind n (true :: stack) k p
      = hasMalformedMemberBehind n stack .value r := by
  induction fuel generalizing p acc k with
  | zero => simp [ParseObject_loop] at h
  | succ fuel ih =>
    rw [ParseObject_loop] at h
    by_cases c0 : peek (SkipWhitespace p) ≠ '"'
    · rw [if_pos c0] at h
      cases h
    rw [if_neg c0] at h
    cases hkey : ParseString (SkipWhitespace p) with
    | error e => rw [hkey] at h; cases h
    | ok res =>
      obtain ⟨keyNode, p1⟩ := res
      rw [hkey] at h
      simp only at h
      cases hs : operator_string keyNode with
      | error e => rw [hs] at h; cases h
      | ok key =>
        rw [hs] at h
        simp only at h
        by_cases c1 : peek (SkipWhitespace p1) ≠ ':'
        · rw [if_pos c1] at h
          cases h
        rw [if_neg c1] at h
        have c1' : peek (SkipWhitespace p1) = ':' := by simpa using c1
        cases hv : pv (SkipWhitespace p1).tail with
        | error e => rw [hv] at h; cases h
        | ok res2 =>
          obtain ⟨x, p2⟩ := res2
          rw [hv] at h
          simp only at h
          have hvm : valueMissing (SkipWhitespace p1).tail = false := by
            obtain ⟨n1, n2⟩ := hstart _ _ hv
            simp only [valueMissing, decide_eq_false_iff_not, not_or]
            exact ⟨n1, n2⟩
          by_cases c2 : peek (SkipWhitespace p2) = '}'
          · rw [if_pos c2] at h
            injection h with h
            injection h with ha hb
            subst hb
            have hn1 : n ≤ (SkipWhitespace p2).length := le_trans hn (length_tail_le _)
            have hn2 : n ≤ p2.length := le_trans hn1 (SkipWhitespace_suffix _).length_le
            rw [← mb_key_SkipWhitespace hk _ p, ParseString_mb_key hk hkey,
              ← mb_colon_SkipWhitespace _ p1, mb_colon_step c1' hvm, hpv _ _ _ _ hv hn2,
              ← mb_value_SkipWhitespace _ p2 hn1]
            exact mb_value_close (Or.inl c2) true stack hn
          rw [if_neg c2] at h
          by_cases c3 : peek (SkipWhitespace p2) ≠ ','
          · rw [if_pos c3] at h
            cases h
          rw [if_neg c3] at h
          have c3' : peek (SkipWhitespace p2) = ',' := by simpa using c3
          have hadv := ParseObject_loop_advanced hcons _ _ _ _ _ h
          have hn0 : n ≤ (SkipWhitespace p2).tail.length := le_trans hn hadv.1.length_le
          have hn1 : n ≤ (SkipWhitespace p2).length := le_trans hn0 (length_tail_le _)
          have hn2 : n ≤ p2.length := le_trans hn1 (SkipWhitespace_suffix _).length_le
          rw [← mb_key_SkipWhitespace hk _ p, ParseString_mb_key hk hkey,
            ← mb_colon_SkipWhitespace _ p1, mb_colon_step c1' hvm, hpv _ _ _ _ hv hn2,
            ← mb_value_SkipWhitespace _ p2 hn1, mb_value_comma_object c3' _ hn0]
          exact ih (Or.inr rfl) _ _ h

theorem ParseObject_mb {n : Nat} {pv : string → Except TException (TJsonNode × string)}
    (hcons : Consuming pv)
    (hpv : ∀ p v r stack, pv p = .ok (v, r) → n ≤ r.length →
      hasMalformedMemberBehind n stack .value p = hasMalformedMemberBehind n stack .value r)
    (hstart : ∀ p res, pv p = .ok res →
      peek (SkipWhitespace p) ≠ '}' ∧ peek (SkipWhitespace p) ≠ ',')
    {p r : string} {v : TJsonNode}
    (h : ParseObject pv p = .ok (v, r)) (stack : List Bool) (hn : n ≤ r.length) :
    hasMalformedMemberBehind n stack .value p
      = hasMalformedMemberBehind n stack .value r := by
  have hadv := ParseObject_advanced hcons h
  have hn2 : n ≤ p.tail.length := by
    have := hadv.2
    have h3 : p.length ≤ p.tail.length + 1 := by
      cases p with
      | nil => simp
      | cons c rest => simp
    omega
  unfold ParseObject at h
  by_cases c0 : peek p ≠ '{'
  · rw [if_pos c0] at h
    cases h
  rw [if_neg c0] at h
  have c0' : peek p = '{' := by simpa using c0
  rw [mb_value_open_object c0' _ hn2, ← mb_key_SkipWhitespace (Or.inl rfl)]
  by_cases c1 : peek (SkipWhitespace p.tail) = '}'
  · rw [if_pos c1] at h
    injection h with h
    injection h with ha hb
    subst hb
    exact mb_firstKey_close c1 true stack
  rw [if_neg c1] at h
  exact ParseObject_loop_mb hcons hpv hstart stack (Or.inl rfl) _ _ _ _ _ h hn

theorem ParseValue_mb {n : Nat} (fuel : Nat) (p : string) (v : TJsonNode) (r : string)
    (stack : List Bool) (h : ParseValue fuel p = .ok (v, r)) (hn : n ≤ r.length) :
    hasMalformedMemberBehind n stack .value p
      = hasMalformedMemberBehind n stack .value r := by
  induction fuel generalizing p v r stack with
  | zero => simp [ParseValue] at h
  | succ fuel ih =>
    have hadv : Advanced r (SkipWhitespace p) := by
      have h2 := h
      rw [← ParseValue_SkipWhitespace] at h2
      exact ParseValue_consuming _ _ _ _ h2
    rw [ParseValue] at h
    rw [← mb_value_SkipWhitespace _ p (le_trans hn hadv.1.length_le)]
    by_cases c1 : peek (SkipWhitespace p) = 'n'
    · rw [if_pos c1] at h
      exact ParseLiteral_mb (by decide) h stack hn
    rw [if_neg c1] at h
    by_cases c2 : peek (SkipWhitespace p) = 't'
    · rw [if_pos c2] at h
      exact ParseLiteral_mb (by decide) h stack hn
    rw [if_neg c2] at h
    by_cases c3 : peek (SkipWhitespace p) = 'f'
    · rw [if_pos c3] at h
      exact ParseLiteral_mb (by decide) h stack hn
    rw [if_neg c3] at h
    by_cases c4 : peek (SkipWhitespace p) = '"'
    · rw [if_pos c4] at h
      exact ParseString_mb h stack hn
    rw [if_neg c4] at h
    by_cases c5 : peek (SkipWhitespace p) = '['
    · rw [if_pos c5] at h
      exact ParseArray_mb (ParseValue_consuming fuel)
        (fun p v r stack hp hn1 => ih p v r stack hp hn1) h stack hn
    rw [if_neg c5] at h
    by_cases c6 : peek (SkipWhitespace p) = '{'
    · rw [if_pos c6] at h
      exact ParseObject_mb (ParseValue_consuming fuel)
        (fun p v r stack hp hn1 => ih p v r stack hp hn1)
        (fun p res hp => ParseValue_ok_peek_member hp) h stack hn
    rw [if_neg c6] at h
    by_cases c7 : peek (SkipWhitespace p) = '-' ∨ isDigit (peek (SkipWhitespace p)) = true
    · rw [if_pos c7] at h
      exact ParseNumber_mb h stack hn
    · rw [if_neg c7] at h
      cases h

theorem ParseArray_loop_oor_mb {pv : string → Except TException (TJsonNode × string)}
    (hcons : Consuming pv)
    (hpv : ∀ p v r stack, pv p = .ok (v, r) →
      hasMalformedMember stack .value p = hasMalformedMember stack .value r)
    (hpvb : ∀ n p v r stack, pv p = .ok (v, r) → n ≤ r.length →
      hasMalformedMemberBehind n stack .value p = hasMalformedMemberBehind n stack .value r)
    (herr : ∀ p, pv p = .error .stdOutOfRange → ∀ stack, ∃ q stack1, q <:+ p
      ∧ ParseNumber q = .error .stdOutOfRange
      ∧ hasMalformedMember stack .value p = hasMalformedMember stack1 .value q
      ∧ hasMalformedMemberBehind q.length stack .value p
        = hasMalformedMemberBehind q.length stack1 .value q)
    (fuel : Nat) (p : string) (acc : List TJsonNode)
    (h : ParseArray_loop pv fuel p acc = .error .stdOutOfRange) (stack : List Bool) :
    ∃ q stack1, q <:+ p ∧ ParseNumber q = .error .stdOutOfRange
      ∧ hasMalformedMember (false :: stack) .value p = hasMalformedMember stack1 .value q
      ∧ hasMalformedMemberBehind q.length (false :: stack) .value p
        = hasMalformedMemberBehind q.length stack1 .value q := by
  induction fuel generalizing p acc with
  | zero => simp [ParseArray_loop] at h
  | succ fuel ih =>
    rw [ParseArray_loop] at h
    cases hv : pv p with
    | error e =>
      rw [hv] at h
      injection h with h
      rw [h] at hv
      exact herr p hv _
    | ok res =>
      obtain ⟨x, p1⟩ := res
      rw [hv] at h
      simp only at h
      by_cases c1 : peek (SkipWhitespace p1) = ']'
      · rw [if_pos c1] at h
        cases h
      rw [if_neg c1] at h
      by_cases c2 : peek (SkipWhitespace p1) ≠ ','
      · rw [if_pos c2] at h
        cases h
      rw [if_neg c2] at h
      have c2' : peek (SkipWhitespace p1) = ',' := by simpa using c2
      obtain ⟨q, stack1, hq1, hq2, hq3, hq4⟩ := ih _ _ h
      have hn3 : q.length ≤ (SkipWhitespace (SkipWhitespace p1).tail).length := hq1.length_le
      have hn0 : q.length ≤ (SkipWhitespace p1).tail.length :=
        le_trans hn3 (SkipWhitespace_suffix _).length_le
      have hn1 : q.length ≤ (SkipWhitespace p1).length := le_trans hn0 (length_tail_le _)
      have hn2 : q.length ≤ p1.length := le_trans hn1 (SkipWhitespace_suffix _).length_le
      refine ⟨q, stack1, ?_, hq2, ?_, ?_⟩
      · exact hq1.trans ((SkipWhitespace_suffix _).trans ((tail_suffix _).trans
          ((SkipWhitespace_suffix _).trans (hcons _ _ _ hv).1)))
      · rw [hpv _ _ _ _ hv, ← mm_value_SkipWhitespace _ p1, mm_value_comma_array c2',
          ← mm_value_SkipWhitespace]
        exact hq3
      · rw [hpvb _ _ _ _ _ hv hn2, ← mb_value_SkipWhitespace _ p1 hn1,
          mb_value_comma_array c2' _ hn0, ← mb_value_SkipWhitespace _ _ hn3]
        exact hq4

theorem ParseArray_oor_mb {pv : string → Except TException (TJsonNode × string)}
    (hcons : Consuming pv)
    (hpv : ∀ p v r stack, pv p = .ok (v, r) →
      hasMalformedMember stack .value p = hasMalformedMember stack .value r)
    (hpvb : ∀ n p v r stack, pv p = .ok (v, r) → n ≤ r.length →
      hasMalformedMemberBehind n stack .value p = hasMalformedMemberBehind n stack .value r)
    (herr : ∀ p, pv p = .error .stdOutOfRange → ∀ stack, ∃ q stack1, q <:+ p
      ∧ ParseNumber q = .error .stdOutOfRange
      ∧ hasMalformedMember stack .value p = hasMalformedMember stack1 .value q
      ∧ hasMalformedMemberBehind q.length stack .value p
        = hasMalformedMemberBehind q.length stack1 .value q)
    {p : string} (h : ParseArray pv p = .error .stdOutOfRange) (stack : List Bool) :
    ∃ q stack1, q <:+ p ∧ ParseNumber q = .error .stdOutOfRange
      ∧ hasMalformedMember stack .value p = hasMalformedMember stack1 .value q
      ∧ hasMalformedMemberBehind q.length stack .value p
        = hasMalformedMemberBehind q.length stack1 .value q := by
  unfold ParseArray at h
  by_cases c0 : peek p ≠ '['
  · rw [if_pos c0] at h
    cases h
  rw [if_neg c0] at h
  have c0' : peek p = '[' := by simpa using c0
  by_cases c1 : peek (SkipWhitespace p.tail) = ']'
  · rw [if_pos c1] at h
    cases h
  rw [if_neg c1] at h
  obtain ⟨q, stack1, hq1, hq2, hq3, hq4⟩ :=
    ParseArray_loop_oor_mb hcons hpv hpvb herr _ _ _ h stack
  have hn1 : q.length ≤ (SkipWhitespace p.tail).length := hq1.length_le
  have hn2 : q.length ≤ p.tail.length := le_trans hn1 (SkipWhitespace_suffix _).length_le
  refine ⟨q, stack1, hq1.trans ((SkipWhitespace_suffix _).trans (tail_suffix _)), hq2, ?_, ?_⟩
  · rw [mm_value_open_array c0', ← mm_value_SkipWhitespace]
    exact hq3
  · rw [mb_value_open_array c0' _ hn2, ← mb_value_SkipWhitespace _ _ hn1]
    exact hq4

theorem ParseObject_loop_oor_mb {pv : string → Except TException (TJsonNode × string)}
    (hcons : Consuming pv)
    (hpv : ∀ p v r stack, pv p = .ok (v, r) →
      hasMalformedMember stack .value p = hasMalformedMember stack .value r)
    (hpvb : ∀ n p v r stack, pv p = .ok (v, r) → n ≤ r.length →
      hasMalformedMemberBehind n stack .value p = hasMalformedMemberBehind n stack .value r)
    (hstart : ∀ p, (∃ res, pv p = .ok res) ∨ pv p = .error .stdOutOfRange →
      peek (SkipWhitespace p) ≠ ']' ∧ peek (SkipWhitespace p) ≠ '}'
        ∧ peek (SkipWhitespace p) ≠ ',')
    (herr : ∀ p, pv p = .error .stdOutOfRange → ∀ stack, ∃ q stack1, q <:+ p
      ∧ ParseNumber q = .error .stdOutOfRange
      ∧ hasMalformedMember stack .value p = hasMalformedMember stack1 .value q
      ∧ hasMalformedMemberBehind q.length stack .value p
        = hasMalformedMemberBehind q.length stack1 .value q)
    {k : EMemberScan} (hk : k = .firstKey ∨ k = .nextKey)
    (fuel : Nat) (p : string) (acc : List (string × TJsonNode))
    (h : ParseObject_loop pv fuel p acc = .error .stdOutOfRange) (stack : List Bool) :
    ∃ q stack1, q <:+ p ∧ ParseNumber q = .error .stdOutOfRange
      ∧ hasMalformedMember (true :: stack) k p = hasMalformedMember stack1 .value q
      ∧ hasMalformedMemberBehind q.length (true :: stack) k p
        = hasMalformedMemberBehind q.length stack1 .value q := by
  induction fuel generalizing p acc k with
  | zero => simp [ParseObject_loop] at h
  | succ fuel ih =>
    rw [ParseObject_loop] at h
    by_cases c0 : peek (SkipWhitespace p) ≠ '"'
    · rw [if_pos c0] at h
      cases h
    rw [if_neg c0] at h
    cases hkey : ParseString (SkipWhitespace p) with
    | error e =>
      rw [hkey] at h
      injection h with h
      rw [h] at hkey
      exact absurd hkey (ParseString_ne_stdOutOfRange _)
    | ok res =>
      obtain ⟨keyNode, p1⟩ := res
      rw [hkey] at h
      simp only at h
      obtain ⟨s, hs⟩ := ParseString_ok_String hkey
      subst hs
      simp only [operator_string] at h
      by_cases c1 : peek (SkipWhitespace p1) ≠ ':'
      · rw [if_pos c1] at h
        cases h
      rw [if_neg c1] at h
      have c1' : peek (SkipWhitespace p1) = ':' := by simpa using c1
      have hp1 : p1 <:+ p := (ParseString_advanced hkey).1.trans (SkipWhitespace_suffix _)
      have hvm : valueMissing (SkipWhitespace p1).tail = false := by
        have hs : (∃ res, pv (SkipWhitespace p1).tail = .ok res)
            ∨ pv (SkipWhitespace p1).tail = .error .stdOutOfRange := by
          cases hv : pv (SkipWhitespace p1).tail with
          | error e =>
            rw [hv] at h
            injection h with h
            rw [h]
            exact Or.inr rfl
          | ok res => exact Or.inl ⟨res, rfl⟩
        obtain ⟨_, n1, n2⟩ := hstart _ hs
        simp only [valueMissing, decide_eq_false_iff_not, not_or]
        exact ⟨n1, n2⟩
      have e1 : hasMalformedMember (true :: stack) k p
          = hasMalformedMember (true :: stack) .value (SkipWhitespace p1).tail := by
        rw [← mm_key_SkipWhitespace hk _ p, ParseString_mm_key hk hkey,
          ← mm_colon_SkipWhitespace _ p1, mm_colon_step c1' hvm]
      have e2 : ∀ n, hasMalformedMemberBehind n (true :: stack) k p
          = hasMalformedMemberBehind n (true :: stack) .value (SkipWhitespace p1).tail := by
        intro n
        rw [← mb_key_SkipWhitespace hk _ p, ParseString_mb_key hk hkey,
          ← mb_colon_SkipWhitespace _ p1, mb_colon_step c1' hvm]
      cases hv : pv (SkipWhitespace p1).tail with
      | error e =>
        rw [hv] at h
        injection h with h
        rw [h] at hv
        obtain ⟨q, stack1, hq1, hq2, hq3, hq4⟩ := herr _ hv (true :: stack)
        exact ⟨q, stack1,
          hq1.trans ((tail_suffix _).trans ((SkipWhitespace_suffix _).trans hp1)),
          hq2, e1.trans hq3, (e2 _).trans hq4⟩
      | ok res2 =>
        obtain ⟨x, p2⟩ := res2
        rw [hv] at h
        simp only at h
        by_cases c2 : peek (SkipWhitespace p2) = '}'
        · rw [if_pos c2] at h
          cases h
        rw [if_neg c2] at h
        by_cases c3 : peek (SkipWhitespace p2) ≠ ','
        · rw [if_pos c3] at h
          cases h
        rw [if_neg c3] at h
        have c3' : peek (SkipWhitespace p2) = ',' := by simpa using c3
        obtain ⟨q, stack1, hq1, hq2, hq3, hq4⟩ := ih (Or.inr rfl) _ _ h
        have hn0 : q.length ≤ (SkipWhitespace p2).tail.length := hq1.length_le
        have hn1 : q.length ≤ (SkipWhitespace p2).length := le_trans hn0 (length_tail_le _)
        have hn2 : q.length ≤ p2.length := le_trans hn1 (SkipWhitespace_suffix _).length_le
        refine ⟨q, stack1, ?_, hq2, ?_, ?_⟩
        · exact hq1.trans ((tail_suffix _).trans ((SkipWhitespace_suffix _).trans
            ((hcons _ _ _ hv).1.trans ((tail_suffix _).trans
              ((SkipWhitespace_suffix _).trans hp1)))))
        · rw [e1, hpv _ _ _ _ hv, ← mm_value_SkipWhitespace _ p2, mm_value_comma_object c3']
          exact hq3
        · rw [e2, hpvb _ _ _ _ _ hv hn2, ← mb_value_SkipWhitespace _ p2 hn1,
            mb_value_comma_object c3' _ hn0]
          exact hq4

theorem ParseObject_oor_mb {pv : string → Except TException (TJsonNode × string)}
    (hcons : Consuming pv)
    (hpv : ∀ p v r stack, pv p = .ok (v, r) →
      hasMalformedMember stack .value p = hasMalformedMember stack .value r)
    (hpvb : ∀ n p v r stack, pv p = .ok (v, r) → n ≤ r.length →
      hasMalformedMemberBehind n stack .value p = hasMalformedMemberBehind n stack .value r)
    (hstart : ∀ p, (∃ res, pv p = .ok res) ∨ pv p = .error .stdOutOfRange →
      peek (SkipWhitespace p) ≠ ']' ∧ peek (SkipWhitespace p) ≠ '}'
        ∧ peek (SkipWhitespace p) ≠ ',')
    (herr : ∀ p, pv p = .error .stdOutOfRange → ∀ stack, ∃ q stack1, q <:+ p
      ∧ ParseNumber q = .error .stdOutOfRange
      ∧ hasMalformedMember stack .value p = hasMalformedMember stack1 .value q
      ∧ hasMalformedMemberBehind q.length stack .value p
        = hasMalformedMemberBehind q.length stack1 .value q)
    {p : string} (h : ParseObject pv p = .error .stdOutOfRange) (stack : List Bool) :
    ∃ q stack1, q <:+ p ∧ ParseNumber q = .error .stdOutOfRange
      ∧ hasMalformedMember stack .value p = hasMalformedMember stack1 .value q
      ∧ hasMalformedMemberBehind q.length stack .value p
        = hasMalformedMemberBehind q.length stack1 .value q := by
  unfold ParseObject at h
  by_cases c0 : peek p ≠ '{'
  · rw [if_pos c0] at h
    cases h
  rw [if_neg c0] at h
  have c0' : peek p = '{' := by simpa using c0
  by_cases c1 : peek (SkipWhitespace p.tail) = '}'
  · rw [if_pos c1] at h
    cases h
  rw [if_neg c1] at h
  obtain ⟨q, stack1, hq1, hq2, hq3, hq4⟩ :=
    ParseObject_loop_oor_mb hcons hpv hpvb hstart herr (Or.inl rfl) _ _ _ h stack
  have hn1 : q.length ≤ (SkipWhitespace p.tail).length := hq1.length_le
  have hn2 : q.length ≤ p.tail.length := le_trans hn1 (SkipWhitespace_suffix _).length_le
  refine ⟨q, stack1, hq1.trans ((SkipWhitespace_suffix _).trans (tail_suffix _)), hq2, ?_, ?_⟩
  · rw [mm_value_open_object c0', ← mm_key_SkipWhitespace (Or.inl rfl)]
    exact hq3
  · rw [mb_value_open_object c0' _ hn2, ← mb_key_SkipWhitespace (Or.inl rfl)]
    exact hq4

/-- When `std::out_of_range` escapes from `ParseValue`, it was raised by `ParseNumber` at a
place of the text in front of which there is no malformed object member. -/
theorem ParseValue_oor_mb (fuel : Nat) (p : string)
    (h : ParseValue fuel p = .error .stdOutOfRange) (stack : List Bool) :
    ∃ q stack1, q <:+ p ∧ ParseNumber q = .error .stdOutOfRange
      ∧ hasMalformedMember stack .value p = hasMalformedMember stack1 .value q
      ∧ hasMalformedMemberBehind q.length stack .value p
        = hasMalformedMemberBehind q.length stack1 .value q := by
  induction fuel generalizing p stack with
  | zero => simp [ParseValue] at h
  | succ fuel ih =>
    rw [ParseValue] at h
    have hw : ∀ {q : string} {stack1 : List Bool},
        (q <:+ SkipWhitespace p ∧ ParseNumber q = .error .stdOutOfRange
          ∧ hasMalformedMember stack .value (SkipWhitespace p)
            = hasMalformedMember stack1 .value q
          ∧ hasMalformedMemberBehind q.length stack .value (SkipWhitespace p)
            = hasMalformedMemberBehind q.length stack1 .value q) →
        q <:+ p ∧ ParseNumber q = .error .stdOutOfRange
          ∧ hasMalformedMember stack .value p = hasMalformedMember stack1 .value q
          ∧ hasMalformedMemberBehind q.length stack .value p
            = hasMalformedMemberBehind q.length stack1 .value q := by
      rintro q stack1 ⟨h1, h2, h3, h4⟩
      exact ⟨h1.trans (SkipWhitespace_suffix _), h2,
        by rw [← mm_value_SkipWhitespace _ p, h3],
        by rw [← mb_value_SkipWhitespace _ p h1.length_le, h4]⟩
    by_cases c1 : peek (SkipWhitespace p) = 'n'
    · rw [if_pos c1] at h
      exact absurd h (ParseLiteral_ne_stdOutOfRange _ _ _)
    rw [if_neg c1] at h
    by_cases c2 : peek (SkipWhitespace p) = 't'
    · rw [if_pos c2] at h
      exact absurd h (ParseLiteral_ne_stdOutOfRange _ _ _)
    rw [if_neg c2] at h
    by_cases c3 : peek (SkipWhitespace p) = 'f'
    · rw [if_pos c3] at h
      exact absurd h (ParseLiteral_ne_stdOutOfRange _ _ _)
    rw [if_neg c3] at h
    by_cases c4 : peek (SkipWhitespace p) = '"'
    · rw [if_pos c4] at h
      exact absurd h (ParseString_ne_stdOutOfRange _)
    rw [if_neg c4] at h
    by_cases c5 : peek (SkipWhitespace p) = '['
    · rw [if_pos c5] at h
      obtain ⟨q, stack1, hq⟩ := ParseArray_oor_mb (ParseValue_consuming fuel)
        (fun p v r stack hp => ParseValue_mm fuel p v r stack hp)
        (fun n p v r stack hp hn => ParseValue_mb fuel p v r stack hp hn)
        (fun p hp stack => ih p hp stack) h stack
      exact ⟨q, stack1, hw hq⟩
    rw [if_neg c5] at h
    by_cases c6 : peek (SkipWhitespace p) = '{'
    · rw [if_pos c6] at h
      obtain ⟨q, stack1, hq⟩ := ParseObject_oor_mb (ParseValue_consuming fuel)
        (fun p v r stack hp => ParseValue_mm fuel p v r stack hp)
        (fun n p v r stack hp hn => ParseValue_mb fuel p v r stack hp hn)
        (fun p hp => ParseValue_started hp)
        (fun p hp stack => ih p hp stack) h stack
      exact ⟨q, stack1, hw hq⟩
    rw [if_neg c6] at h
    by_cases c7 : peek (SkipWhitespace p) = '-' ∨ isDigit (peek (SkipWhitespace p)) = true
    · rw [if_pos c7] at h
      exact ⟨SkipWhitespace p, stack, hw ⟨List.suffix_refl _, h, rfl, rfl⟩⟩
    · rw [if_neg c7] at h
      cases h

/-- When `std::out_of_range` escapes from `Parse`, it was raised by `ParseNumber` at a
place of the text in front of which the scan finds no malformed object member; what the
scan finds in the text, it finds from that place on. -/
theorem Parse_oor_mb {json : string} (h : Parse json = .error .stdOutOfRange) :
    ∃ pre q, json = pre ++ q ∧ ParseNumber q = .error .stdOutOfRange
      ∧ hasMalformedMemberBehind q.length [] .value json
        = hasMalformedMember [] .value json := by
  unfold Parse at h
  by_cases c0 : peek (SkipWhitespace json) = Char.ofNat 0
  · rw [if_pos c0] at h
    cases h
  rw [if_neg c0] at h
  cases hv : ParseValue ((SkipWhitespace json).length + 1) (SkipWhitespace json) with
  | error e =>
    rw [hv] at h
    injection h with h
    rw [h] at hv
    obtain ⟨q, stack, hq1, hq2, hq3, hq4⟩ := ParseValue_oor_mb _ _ hv []
    obtain ⟨pre, hpre⟩ := hq1.trans (SkipWhitespace_suffix json)
    refine ⟨pre, q, hpre.symm, hq2, ?_⟩
    rw [← mb_value_SkipWhitespace _ json hq1.length_le, hq4, mb_at,
      ← mm_value_SkipWhitespace _ json, hq3]
  | ok res =>
    obtain ⟨v, r⟩ := res
    rw [hv] at h
    simp only at h
    by_cases c1 : peek (SkipWhitespace r) ≠ Char.ofNat 0
    · rw [if_pos c1] at h
      cases h
    · rw [if_neg c1] at h
      cases h

/-- C21 (amended): object members must be `"key": value`.  Every text (a C string, so
without NUL) in which a member of an object does not start with `"`, in which a key is
followed, after optional whitespace, by something other than `:` (the end of the text
included), or in which the `:` behind a key is followed, after optional whitespace, by `}`
or `,`, makes `Parse` fail.  The failure is a ParseError, or it is the `std::out_of_range`
of `std::stod`, and then the text has a number that is outside the range of `double` in
front of a malformed member: `ParseNumber` raised the exception at a place `q` of the
text, and the scan for a malformed member finds none in front of `q` and one from `q`
on. -/
theorem Parse_rejects_malformed_member (json : string)
    (hnul : ∀ c ∈ json, c ≠ Char.ofNat 0) (h : hasMalformedMember [] .value json = true) :
    ∃ e, Parse json = .error e
      ∧ (e.kind = some EErrorKind.ParseError
        ∨ (e = TException.stdOutOfRange
          ∧ ∃ pre q, json = pre ++ q ∧ OutOfRangeNumberAt q
            ∧ hasMalformedMemberBehind q.length [] .value json = true)) := by
  obtain ⟨e, he⟩ := Parse_malformed_member_not_ok json hnul h
  refine ⟨e, he, ?_⟩
  rcases Parse_error he with hk | hk
  · exact Or.inl hk
  · right
    rw [hk] at he
    obtain ⟨pre, q, h1, h2, h3⟩ := Parse_oor_mb he
    exact ⟨hk, pre, q, h1, ParseNumber_oor_parts h2, by rw [h3, h]⟩

/-- Witness for C21 (amended): the texts `{a:1}` (a member that does not start with `"`),
`{"a" 1}` (a key that is not followed by `:`), `{"a"` (a key that is followed by the end
of the text), `{"a":}` and `{"a":,"b":1}` (a `:` that is followed by `}` or by `,`) have a
malformed member, and `Parse` fails on each, with a ParseError. -/
theorem Parse_rejects_malformed_member_witness :
    (hasMalformedMember [] .value
        ['{', 'a', ':', '1', '}'] = true
      ∧ (∃ e, Parse ['{', 'a', ':', '1', '}'] = .error e
        ∧ (e.kind = some EErrorKind.ParseError
          ∨ (e = TException.stdOutOfRange
            ∧ ∃ pre q, ['{', 'a', ':', '1', '}'] = pre ++ q
              ∧ OutOfRangeNumberAt q
              ∧ hasMalformedMemberBehind q.length [] .value
                  ['{', 'a', ':', '1', '}'] = true)))
      ∧ ∃ e, Parse ['{', 'a', ':', '1', '}'] = .error e
        ∧ e.kind = some EErrorKind.ParseError)
    ∧ (hasMalformedMember [] .value
        ['{', '"', 'a', '"', ' ', '1', '}'] = true
      ∧ (∃ e, Parse ['{', '"', 'a', '"', ' ', '1', '}'] = .error e
        ∧ (e.kind = some EErrorKind.ParseError
          ∨ (e = TException.stdOutOfRange
            ∧ ∃ pre q, ['{', '"', 'a', '"', ' ', '1', '}'] = pre ++ q
              ∧ OutOfRangeNumberAt q
              ∧ hasMalformedMemberBehind q.length [] .value
                  ['{', '"', 'a', '"', ' ', '1', '}'] = true)))
      ∧ ∃ e, Parse ['{', '"', 'a', '"', ' ', '1', '}'] = .error e
        ∧ e.kind = some EErrorKind.ParseError)
    ∧ (hasMalformedMember [] .value
        ['{', '"', 'a', '"'] = true
      ∧ (∃ e, Parse ['{', '"', 'a', '"'] = .error e
        ∧ (e.kind = some EErrorKind.ParseError
          ∨ (e = TException.stdOutOfRange
            ∧ ∃ pre q, ['{', '"', 'a', '"'] = pre ++ q
              ∧ OutOfRangeNumberAt q
              ∧ hasMalformedMemberBehind q.length [] .value
                  ['{', '"', 'a', '"'] = true)))
      ∧ ∃ e, Parse ['{', '"', 'a', '"'] = .error e
        ∧ e.kind = some EErrorKind.ParseError)
    ∧ (hasMalformedMember [] .value
        ['{', '"', 'a', '"', ':', '}'] = true
      ∧ (∃ e, Parse ['{', '"', 'a', '"', ':', '}'] = .error e
        ∧ (e.kind = some EErrorKind.ParseError
          ∨ (e = TException.stdOutOfRange
            ∧ ∃ pre q, ['{', '"', 'a', '"', ':', '}'] = pre ++ q
              ∧ OutOfRangeNumberAt q
              ∧ hasMalformedMemberBehind q.length [] .value
                  ['{', '"', 'a', '"', ':', '}'] = true)))
      ∧ ∃ e, Parse ['{', '"', 'a', '"', ':', '}'] = .error e
        ∧ e.kind = some EErrorKind.ParseError)
    ∧ (hasMalformedMember [] .value
        ['{', '"', 'a', '"', ':', ',', '"', 'b', '"', ':', '1', '}'] = true
      ∧ (∃ e, Parse ['{', '"', 'a', '"', ':', ',', '"', 'b', '"', ':', '1', '}'] = .error e
        ∧ (e.kind = some EErrorKind.ParseError
          ∨ (e = TException.stdOutOfRange
            ∧ ∃ pre q, ['{', '"', 'a', '"', ':', ',', '"', 'b', '"', ':', '1', '}'] = pre ++ q
              ∧ OutOfRangeNumberAt q
              ∧ hasMalformedMemberBehind q.length [] .value
                  ['{', '"', 'a', '"', ':', ',', '"', 'b', '"', ':', '1', '}'] = true)))
      ∧ ∃ e, Parse ['{', '"', 'a', '"', ':', ',', '"', 'b', '"', ':', '1', '}'] = .error e
        ∧ e.kind = some EErrorKind.ParseError) :=
  ⟨⟨by decide,
      Parse_rejects_malformed_member
        ['{', 'a', ':', '1', '}'] (by decide) (by decide),
      ⟨TException.expectedKeyQuote, by decide!, rfl⟩⟩,
    ⟨by decide,
      Parse_rejects_malformed_member
        ['{', '"', 'a', '"', ' ', '1', '}'] (by decide) (by decide),
      ⟨TException.expectedColon, by decide!, rfl⟩⟩,
    ⟨by decide,
      Parse_rejects_malformed_member
        ['{', '"', 'a', '"'] (by decide) (by decide),
      ⟨TException.expectedColon, by decide!, rfl⟩⟩,
    ⟨by decide,
      Parse_rejects_malformed_member
        ['{', '"', 'a', '"', ':', '}'] (by decide) (by decide),
      ⟨TException.unexpectedCharacter '}', by decide!, rfl⟩⟩,
    ⟨by decide,
      Parse_rejects_malformed_member
        ['{', '"', 'a', '"', ':', ',', '"', 'b', '"', ':', '1', '}'] (by decide) (by decide),
      ⟨TException.unexpectedCharacter ',', by decide!, rfl⟩⟩⟩

/-! ## The serializer with the arithmetic of `int` -/

theorem int_checked_of_range {n : Int} (h1 : INT_MIN ≤ n) (h2 : n ≤ INT_MAX) :
    int_checked n = some n := by
  unfold int_checked
  rw [if_pos ⟨h1, h2⟩]

theorem int_checked_of_overflow {n : Int} (h : n < INT_MIN ∨ INT_MAX < n) :
    int_checked n = none := by
  unfold int_checked
  rw [if_neg]
  rintro ⟨h1, h2⟩
  rcases h with h | h <;> omega

theorem depth_Array_cons (x : TJsonNode) (xs : List TJsonNode) :
    depth (Array (x :: xs)) = depth_elements (x :: xs) + 1 := by
  rw [depth]

theorem depth_Object_cons (kv : string × TJsonNode) (m : List (string × TJsonNode)) :
    depth (Object (kv :: m)) = depth_members (kv :: m) + 1 := by
  rw [depth]

theorem depth_elements_cons (x : TJsonNode) (xs : List TJsonNode) :
    depth_elements (x :: xs) = max (depth x) (depth_elements xs) := by
  rw [depth_elements]

theorem depth_members_cons (k : string) (v : TJsonNode) (m : List (string × TJsonNode)) :
    depth_members ((k, v) :: m) = max (depth v) (depth_members m) := by
  rw [depth_members]

theorem ToStringImpl_elements_checked_compact (xs : List TJsonNode) (i : Int)
    (hi : INT_MIN ≤ i) (h1 : i + 1 ≤ INT_MAX)
    (h : ∀ x ∈ xs, ∀ j : Int, INT_MIN ≤ j → j ≤ INT_MAX → ToStringImpl_checked x false j
      = if j + (depth x : Int) ≤ INT_MAX then some (.ok (compactText x)) else none) :
    ToStringImpl_elements_checked xs false i []
      = if i + 1 + (depth_elements xs : Int) ≤ INT_MAX
        then some (.ok (compactElements xs)) else none := by
  induction xs with
  | nil =>
    have h0 : i + 1 + ((0 : Nat) : Int) ≤ INT_MAX := by simpa using h1
    simp only [ToStringImpl_elements_checked, compactElements, depth_elements]
    rw [if_pos h0]
  | cons x rest ih =>
    have hi1 : INT_MIN ≤ i + 1 := by simp only [INT_MIN] at *; omega
    have hc : i + 1 + ((max (depth x) (depth_elements rest) : Nat) : Int) ≤ INT_MAX
        ↔ i + 1 + (depth x : Int) ≤ INT_MAX
          ∧ i + 1 + (depth_elements rest : Int) ≤ INT_MAX := by
      simp only [INT_MAX]
      omega
    rw [ToStringImpl_elements_checked, int_checked_of_range hi1 h1]
    simp only
    rw [h x (List.mem_cons_self _ _) _ hi1 h1,
      ih (fun y hy => h y (List.mem_cons_of_mem _ hy)), depth_elements_cons]
    by_cases h2 : i + 1 + (depth x : Int) ≤ INT_MAX
    · by_cases h3 : i + 1 + (depth_elements rest : Int) ≤ INT_MAX
      · rw [if_pos h2, if_pos h3, if_pos (hc.mpr ⟨h2, h3⟩)]
        simp [compactElements]
      · rw [if_pos h2, if_neg h3, if_neg (fun hh => h3 (hc.mp hh).2)]
    · rw [if_neg h2, if_neg (fun hh => h2 (hc.mp hh).1)]

theorem ToStringImpl_members_checked_compact (m : List (string × TJsonNode)) (i : Int)
    (hi : INT_MIN ≤ i) (h1 : i + 1 ≤ INT_MAX)
    (h : ∀ kv ∈ m, ∀ j : Int, INT_MIN ≤ j → j ≤ INT_MAX → ToStringImpl_checked kv.2 false j
      = if j + (depth kv.2 : Int) ≤ INT_MAX then some (.ok (compactText kv.2)) else none) :
    ToStringImpl_members_checked m false i []
      = if i + 1 + (depth_members m : Int) ≤ INT_MAX
        then some (.ok (compactMembers m)) else none := by
  induction m with
  | nil =>
    have h0 : i + 1 + ((0 : Nat) : Int) ≤ INT_MAX := by simpa using h1
    simp only [ToStringImpl_members_checked, compactMembers, depth_members]
    rw [if_pos h0]
  | cons kv rest ih =>
    obtain ⟨k, v⟩ := kv
    have hi1 : INT_MIN ≤ i + 1 := by simp only [INT_MIN] at *; omega
    have hc : i + 1 + ((max (depth v) (depth_members rest) : Nat) : Int) ≤ INT_MAX
        ↔ i + 1 + (depth v : Int) ≤ INT_MAX
          ∧ i + 1 + (depth_members rest : Int) ≤ INT_MAX := by
      simp only [INT_MAX]
      omega
    rw [ToStringImpl_members_checked, int_checked_of_range hi1 h1]
    simp only
    rw [h (k, v) (List.mem_cons_self _ _) _ hi1 h1,
      ih (fun y hy => h y (List.mem_cons_of_mem _ hy)), depth_members_cons]
    by_cases h2 : i + 1 + (depth v : Int) ≤ INT_MAX
    · by_cases h3 : i + 1 + (depth_members rest : Int) ≤ INT_MAX
      · rw [if_pos h2, if_pos h3, if_pos (hc.mpr ⟨h2, h3⟩)]
        simp [compactMembers]
      · rw [if_pos h2, if_neg h3, if_neg (fun hh => h3 (hc.mp hh).2)]
    · rw [if_neg h2, if_neg (fun hh => h2 (hc.mp hh).1)]

/-- With `pretty = false` the serializer returns the compact text when
`currentIndent + depth` is an `int`, and otherwise an `int` addition overflows. -/
theorem ToStringImpl_checked_compact (v : TJsonNode) :
    ∀ i : Int, INT_MIN ≤ i → i ≤ INT_MAX → ToStringImpl_checked v false i
      = if i + (depth v : Int) ≤ INT_MAX then some (.ok (compactText v)) else none := by
  induction v using induction_on with
  | hNull =>
    intro i hi hi2
    have h0 : i + ((0 : Nat) : Int) ≤ INT_MAX := by simpa using hi2
    simp only [ToStringImpl_checked, depth, compactText, Bool.false_eq_true, if_false]
    rw [if_pos h0]
  | hBoolean b =>
    intro i hi hi2
    have h0 : i + ((0 : Nat) : Int) ≤ INT_MAX := by simpa using hi2
    simp only [ToStringImpl_checked, depth, compactText, Bool.false_eq_true, if_false]
    rw [if_pos h0]
  | hNumber d =>
    intro i hi hi2
    have h0 : i + ((0 : Nat) : Int) ≤ INT_MAX := by simpa using hi2
    simp only [ToStringImpl_checked, depth, compactText, Bool.false_eq_true, if_false]
    rw [if_pos h0]
    by_cases h : Double.eq d (Double.ofInt (static_cast_long_long d)) = true
    · simp [h]
    · simp [h]
  | hString s =>
    intro i hi hi2
    have h0 : i + ((0 : Nat) : Int) ≤ INT_MAX := by simpa using hi2
    simp only [ToStringImpl_checked, depth, compactText, Bool.false_eq_true, if_false]
    rw [if_pos h0]
  | hArray xs ih =>
    intro i hi hi2
    cases xs with
    | nil =>
      have h0 : i + ((0 : Nat) : Int) ≤ INT_MAX := by simpa using hi2
      simp only [ToStringImpl_checked, depth, compactText, compactElements,
        Bool.false_eq_true, if_false]
      rw [if_pos h0]
      rfl
    | cons x rest =>
      rw [ToStringImpl_checked]
      simp only [Bool.false_eq_true, if_false]
      rw [depth_Array_cons]
      have hc : i + ((depth_elements (x :: rest) + 1 : Nat) : Int) ≤ INT_MAX
          ↔ i + 1 + (depth_elements (x :: rest) : Int) ≤ INT_MAX := by
        simp only [INT_MAX]
        omega
      by_cases h1 : i + 1 ≤ INT_MAX
      · rw [ToStringImpl_elements_checked_compact (x :: rest) i hi h1 ih]
        by_cases h2 : i + 1 + (depth_elements (x :: rest) : Int) ≤ INT_MAX
        · rw [if_pos h2, if_pos (hc.mpr h2)]
          simp [compactText]
        · rw [if_neg h2, if_neg (fun hh => h2 (hc.mp hh))]
      · have hn : ¬ (i + ((depth_elements (x :: rest) + 1 : Nat) : Int) ≤ INT_MAX) := by
          intro hh
          apply h1
          simp only [INT_MAX] at *
          omega
        rw [ToStringImpl_elements_checked, int_checked_of_overflow (Or.inr (by omega)),
          if_neg hn]
  | hObject m ih =>
    intro i hi hi2
    cases m with
    | nil =>
      have h0 : i + ((0 : Nat) : Int) ≤ INT_MAX := by simpa using hi2
      simp only [ToStringImpl_checked, depth, compactText, compactMembers,
        Bool.false_eq_true, if_false]
      rw [if_pos h0]
      rfl
    | cons kv rest =>
      obtain ⟨k, v⟩ := kv
      rw [ToStringImpl_checked]
      simp only [Bool.false_eq_true, if_false]
      rw [depth_Object_cons]
      have hc : i + ((depth_members ((k, v) :: rest) + 1 : Nat) : Int) ≤ INT_MAX
          ↔ i + 1 + (depth_members ((k, v) :: rest) : Int) ≤ INT_MAX := by
        simp only [INT_MAX]
        omega
      by_cases h1 : i + 1 ≤ INT_MAX
      · rw [ToStringImpl_members_checked_compact ((k, v) :: rest) i hi h1 ih]
        by_cases h2 : i + 1 + (depth_members ((k, v) :: rest) : Int) ≤ INT_MAX
        · rw [if_pos h2, if_pos (hc.mpr h2)]
          simp [compactText]
        · rw [if_neg h2, if_neg (fun hh => h2 (hc.mp hh))]
      · have hn : ¬ (i + ((depth_members ((k, v) :: rest) + 1 : Nat) : Int) ≤ INT_MAX) := by
          intro hh
          apply h1
          simp only [INT_MAX] at *
          omega
        rw [ToStringImpl_members_checked, int_checked_of_overflow (Or.inr (by omega)),
          if_neg hn]

theorem std_string_fill_checked_indent (d : Nat) (h : (d : Int) ≤ 1073741822) :
    std_string_fill_checked (int_checked ((d : Int) * 2)) = some (.ok (indentation d))
    ∧ std_string_fill_checked
        ((int_checked ((d : Int) + 1)).bind (fun n => int_checked (n * 2)))
      = some (.ok (indentation (d + 1))) := by
  constructor
  · rw [int_checked_of_range (by simp only [INT_MIN]; linarith) (by simp only [INT_MAX]; linarith)]
    simp only [std_string_fill_checked]
    rw [std_string_fill_nat]
  · rw [int_checked_of_range (by simp only [INT_MIN]; linarith) (by simp only [INT_MAX]; linarith)]
    rw [Option.some_bind]
    rw [int_checked_of_range (by simp only [INT_MIN]; linarith) (by simp only [INT_MAX]; linarith)]
    simp only [std_string_fill_checked]
    rw [std_string_fill_succ]

/-- With `pretty = true` and `currentIndent` above `2^30 - 2`, one of the products
`currentIndent * 2` and `(currentIndent + 1) * 2` overflows. -/
theorem ToStringImpl_checked_pretty_overflow (v : TJsonNode) (i : Int)
    (h : 1073741822 < i) : ToStringImpl_checked v true i = none := by
  rw [ToStringImpl_checked]
  simp only [if_true]
  by_cases h2 : i * 2 ≤ INT_MAX
  · have h3 : INT_MAX < (i + 1) * 2 := by simp only [INT_MAX] at *; linarith
    rw [int_checked_of_range (by simp only [INT_MIN]; linarith) h2,
      int_checked_of_range (n := i + 1) (by simp only [INT_MIN]; linarith)
        (by simp only [INT_MAX] at *; linarith)]
    rw [Option.some_bind]
    rw [int_checked_of_overflow (Or.inr h3)]
    simp only [std_string_fill_checked, std_string_fill]
    rw [if_neg (by linarith)]
  · rw [int_checked_of_overflow (Or.inr (by linarith))]
    simp only [std_string_fill_checked]

/-- With `pretty = true` and a negative `currentIndent` from `-2^30` on, the constructor of
the indentation string throws `std::length_error`. -/
theorem ToStringImpl_checked_pretty_negative (v : TJsonNode) (i : Int)
    (h1 : -1073741824 ≤ i) (h2 : i < 0) :
    ToStringImpl_checked v true i = some (.error .stdLengthError) := by
  rw [ToStringImpl_checked]
  simp only [if_true]
  rw [int_checked_of_range (by simp only [INT_MIN]; linarith) (by simp only [INT_MAX]; linarith)]
  simp only [std_string_fill_checked, std_string_fill]
  rw [if_pos (by linarith)]

/-- With `pretty = true` and `currentIndent` below `-2^30`, the product `currentIndent * 2`
overflows. -/
theorem ToStringImpl_checked_pretty_underflow (v : TJsonNode) (i : Int)
    (h : i < -1073741824) : ToStringImpl_checked v true i = none := by
  rw [ToStringImpl_checked]
  simp only [if_true]
  rw [int_checked_of_overflow (Or.inl (by simp only [INT_MIN]; linarith))]
  simp only [std_string_fill_checked]

theorem std_string_fill_checked_indent_int (i : Int) (h0 : 0 ≤ i) (h : i ≤ 1073741822) :
    std_string_fill_checked (int_checked (i * 2)) = some (.ok (indentation i.toNat))
    ∧ std_string_fill_checked
        ((int_checked (i + 1)).bind (fun n => int_checked (n * 2)))
      = some (.ok (indentation (i.toNat + 1))) := by
  obtain ⟨d, rfl⟩ := Int.eq_ofNat_of_zero_le h0
  exact std_string_fill_checked_indent d h

theorem toNat_succ_of_nonneg {i : Int} (h0 : 0 ≤ i) : (i + 1).toNat = i.toNat + 1 := by
  omega

theorem ToStringImpl_elements_checked_pretty (xs : List TJsonNode) (i : Int) (h0 : 0 ≤ i)
    (h1 : i + 1 ≤ 1073741822)
    (h : ∀ x ∈ xs, ∀ j : Int, 0 ≤ j → ToStringImpl_checked x true j
      = if j + (depth x : Int) ≤ 1073741822 then some (.ok (prettyText j.toNat x))
        else none) :
    ToStringImpl_elements_checked xs true i (indentation (i.toNat + 1))
      = if i + 1 + (depth_elements xs : Int) ≤ 1073741822
        then some (.ok (prettyElements (i.toNat + 1) xs)) else none := by
  induction xs with
  | nil =>
    have h0 : i + 1 + ((0 : Nat) : Int) ≤ 1073741822 := by simpa using h1
    simp only [ToStringImpl_elements_checked, prettyElements, depth_elements]
    rw [if_pos h0]
  | cons x rest ih =>
    have hc : i + 1 + ((max (depth x) (depth_elements rest) : Nat) : Int) ≤ 1073741822
        ↔ i + 1 + (depth x : Int) ≤ 1073741822
          ∧ i + 1 + (depth_elements rest : Int) ≤ 1073741822 := by
      omega
    have hx := h x (List.mem_cons_self _ _) (i + 1) (by omega)
    rw [toNat_succ_of_nonneg h0] at hx
    rw [ToStringImpl_elements_checked,
      int_checked_of_range (by simp only [INT_MIN]; omega) (by simp only [INT_MAX]; omega)]
    simp only
    rw [hx, ih (fun y hy => h y (List.mem_cons_of_mem _ hy)), depth_elements_cons]
    by_cases h2 : i + 1 + (depth x : Int) ≤ 1073741822
    · by_cases h3 : i + 1 + (depth_elements rest : Int) ≤ 1073741822
      · rw [if_pos h2, if_pos h3, if_pos (hc.mpr ⟨h2, h3⟩)]
        simp [prettyElements]
      · rw [if_pos h2, if_neg h3, if_neg (fun hh => h3 (hc.mp hh).2)]
    · rw [if_neg h2, if_neg (fun hh => h2 (hc.mp hh).1)]

theorem ToStringImpl_members_checked_pretty (m : List (string × TJsonNode)) (i : Int)
    (h0 : 0 ≤ i) (h1 : i + 1 ≤ 1073741822)
    (h : ∀ kv ∈ m, ∀ j : Int, 0 ≤ j → ToStringImpl_checked kv.2 true j
      = if j + (depth kv.2 : Int) ≤ 1073741822 then some (.ok (prettyText j.toNat kv.2))
        else none) :
    ToStringImpl_members_checked m true i (indentation (i.toNat + 1))
      = if i + 1 + (depth_members m : Int) ≤ 1073741822
        then some (.ok (prettyMembers (i.toNat + 1) m)) else none := by
  induction m with
  | nil =>
    have h0 : i + 1 + ((0 : Nat) : Int) ≤ 1073741822 := by simpa using h1
    simp only [ToStringImpl_members_checked, prettyMembers, depth_members]
    rw [if_pos h0]
  | cons kv rest ih =>
    obtain ⟨k, v⟩ := kv
    have hc : i + 1 + ((max (depth v) (depth_members rest) : Nat) : Int) ≤ 1073741822
        ↔ i + 1 + (depth v : Int) ≤ 1073741822
          ∧ i + 1 + (depth_members rest : Int) ≤ 1073741822 := by
      omega
    have hx := h (k, v) (List.mem_cons_self _ _) (i + 1) (by omega)
    rw [toNat_succ_of_nonneg h0] at hx
    rw [ToStringImpl_members_checked,
      int_checked_of_range (by simp only [INT_MIN]; omega) (by simp only [INT_MAX]; omega)]
    simp only
    rw [hx, ih (fun y hy => h y (List.mem_cons_of_mem _ hy)), depth_members_cons]
    by_cases h2 : i + 1 + (depth v : Int) ≤ 1073741822
    · by_cases h3 : i + 1 + (depth_members rest : Int) ≤ 1073741822
      · rw [if_pos h2, if_pos h3, if_pos (hc.mpr ⟨h2, h3⟩)]
        simp [prettyMembers]
      · rw [if_pos h2, if_neg h3, if_neg (fun hh => h3 (hc.mp hh).2)]
    · rw [if_neg h2, if_neg (fun hh => h2 (hc.mp hh).1)]

/-- With `pretty = true` and a non-negative indent the serializer returns the pretty layout
when `currentIndent + depth` is at most `2^30 - 2`, and otherwise an `int` operation
overflows. -/
theorem ToStringImpl_checked_pretty (v : TJsonNode) :
    ∀ i : Int, 0 ≤ i → ToStringImpl_checked v true i
      = if i + (depth v : Int) ≤ 1073741822 then some (.ok (prettyText i.toNat v))
        else none := by
  induction v using induction_on with
  | hNull =>
    intro i hi
    by_cases hd : i ≤ 1073741822
    · have h0 : i + ((0 : Nat) : Int) ≤ 1073741822 := by simpa using hd
      obtain ⟨e1, e2⟩ := std_string_fill_checked_indent_int i hi hd
      rw [ToStringImpl_checked, if_pos rfl, if_pos rfl, e1, e2]
      simp only [depth, prettyText]
      rw [if_pos h0]
    · rw [ToStringImpl_checked_pretty_overflow _ _ (by omega), if_neg (by omega)]
  | hBoolean b =>
    intro i hi
    by_cases hd : i ≤ 1073741822
    · have h0 : i + ((0 : Nat) : Int) ≤ 1073741822 := by simpa using hd
      obtain ⟨e1, e2⟩ := std_string_fill_checked_indent_int i hi hd
      rw [ToStringImpl_checked, if_pos rfl, if_pos rfl, e1, e2]
      simp only [depth, prettyText]
      rw [if_pos h0]
    · rw [ToStringImpl_checked_pretty_overflow _ _ (by omega), if_neg (by omega)]
  | hNumber x =>
    intro i hi
    by_cases hd : i ≤ 1073741822
    · have h0 : i + ((0 : Nat) : Int) ≤ 1073741822 := by simpa using hd
      obtain ⟨e1, e2⟩ := std_string_fill_checked_indent_int i hi hd
      rw [ToStringImpl_checked, if_pos rfl, if_pos rfl, e1, e2]
      simp only [depth, prettyText]
      rw [if_pos h0]
      by_cases h : Double.eq x (Double.ofInt (static_cast_long_long x)) = true
      · simp [h]
      · simp [h]
    · rw [ToStringImpl_checked_pretty_overflow _ _ (by omega), if_neg (by omega)]
  | hString s =>
    intro i hi
    by_cases hd : i ≤ 1073741822
    · have h0 : i + ((0 : Nat) : Int) ≤ 1073741822 := by simpa using hd
      obtain ⟨e1, e2⟩ := std_string_fill_checked_indent_int i hi hd
      rw [ToStringImpl_checked, if_pos rfl, if_pos rfl, e1, e2]
      simp only [depth, prettyText]
      rw [if_pos h0]
    · rw [ToStringImpl_checked_pretty_overflow _ _ (by omega), if_neg (by omega)]
  | hArray xs ih =>
    intro i hi
    by_cases hd : i ≤ 1073741822
    · obtain ⟨e1, e2⟩ := std_string_fill_checked_indent_int i hi hd
      cases xs with
      | nil =>
        have h0 : i + ((0 : Nat) : Int) ≤ 1073741822 := by simpa using hd
        rw [ToStringImpl_checked, if_pos rfl, if_pos rfl, e1, e2]
        simp only [depth, prettyText]
        rw [if_pos h0]
      | cons x rest =>
        rw [ToStringImpl_checked, if_pos rfl, if_pos rfl, e1, e2]
        simp only
        rw [depth_Array_cons]
        have hc : i + ((depth_elements (x :: rest) + 1 : Nat) : Int) ≤ 1073741822
            ↔ i + 1 + (depth_elements (x :: rest) : Int) ≤ 1073741822 := by
          omega
        by_cases h1 : i + 1 ≤ 1073741822
        · rw [ToStringImpl_elements_checked_pretty (x :: rest) i hi h1 ih]
          by_cases h2 : i + 1 + (depth_elements (x :: rest) : Int) ≤ 1073741822
          · rw [if_pos h2, if_pos (hc.mpr h2)]
            simp [prettyText]
          · rw [if_neg h2, if_neg (fun hh => h2 (hc.mp hh))]
        · have hn : ¬ (i + ((depth_elements (x :: rest) + 1 : Nat) : Int)
              ≤ 1073741822) := by
            omega
          rw [ToStringImpl_elements_checked,
            int_checked_of_range (by simp only [INT_MIN]; omega)
              (by simp only [INT_MAX]; omega)]
          simp only
          rw [ToStringImpl_checked_pretty_overflow _ (i + 1) (by omega), if_neg hn]
    · rw [ToStringImpl_checked_pretty_overflow _ _ (by omega), if_neg (by omega)]
  | hObject m ih =>
    intro i hi
    by_cases hd : i ≤ 1073741822
    · obtain ⟨e1, e2⟩ := std_string_fill_checked_indent_int i hi hd
      cases m with
      | nil =>
        have h0 : i + ((0 : Nat) : Int) ≤ 1073741822 := by simpa using hd
        rw [ToStringImpl_checked, if_pos rfl, if_pos rfl, e1, e2]
        simp only [depth, prettyText]
        rw [if_pos h0]
      | cons kv rest =>
        obtain ⟨k, v⟩ := kv
        rw [ToStringImpl_checked, if_pos rfl, if_pos rfl, e1, e2]
        simp only
        rw [depth_Object_cons]
        have hc : i + ((depth_members ((k, v) :: rest) + 1 : Nat) : Int) ≤ 1073741822
            ↔ i + 1 + (depth_members ((k, v) :: rest) : Int) ≤ 1073741822 := by
          omega
        by_cases h1 : i + 1 ≤ 1073741822
        · rw [ToStringImpl_members_checked_pretty ((k, v) :: rest) i hi h1 ih]
          by_cases h2 : i + 1 + (depth_members ((k, v) :: rest) : Int) ≤ 1073741822
          · rw [if_pos h2, if_pos (hc.mpr h2)]
            simp [prettyText]
          · rw [if_neg h2, if_neg (fun hh => h2 (hc.mp hh))]
        · have hn : ¬ (i + ((depth_members ((k, v) :: rest) + 1 : Nat) : Int)
              ≤ 1073741822) := by
            omega
          rw [ToStringImpl_members_checked,
            int_checked_of_range (by simp only [INT_MIN]; omega)
              (by simp only [INT_MAX]; omega)]
          simp only
          rw [ToStringImpl_checked_pretty_overflow _ (i + 1) (by omega), if_neg hn]
    · rw [ToStringImpl_checked_pretty_overflow _ _ (by omega), if_neg (by omega)]

/-- Where no `int` operation on the indent overflows and the indent is not negative in the
pretty mode, the serializer with the arithmetic of `int` returns what the serializer with
exact arithmetic returns, and that is a text. -/
theorem ToString_checked_eq_ToString (v : TJsonNode) (pretty : Bool) (indent : Int)
    (hmin : INT_MIN ≤ indent) (hmax : indent ≤ INT_MAX)
    (hc : pretty = false → indent + (depth v : Int) ≤ INT_MAX)
    (hp : pretty = true → 0 ≤ indent ∧ indent + (depth v : Int) ≤ 1073741822) :
    ToString_checked v pretty indent = some (ToString v pretty indent)
    ∧ ToString v pretty indent
      = .ok (if pretty then prettyText indent.toNat v else compactText v) := by
  have h2 := ToString_ok_of_nonneg v pretty indent (fun h => (hp h).1)
  refine ⟨?_, h2⟩
  rw [h2]
  unfold ToString_checked
  cases pretty with
  | false =>
    rw [ToStringImpl_checked_compact v indent hmin hmax, if_pos (hc rfl)]
    rfl
  | true =>
    rw [ToStringImpl_checked_pretty v indent (hp rfl).1, if_pos (hp rfl).2]
    rfl

/-- C26 (amended): `ToString` is total where the indentation is not negative and the `int`
arithmetic on it does not overflow.  For every value `v`, with `depth v` the number of
non-empty containers nested in each other in `v`, and every `int` base indent,
`ToString(pretty, baseIndent)` returns a text when `pretty` is false and
`baseIndent + depth v <= INT_MAX` (negative base indents included), and when `pretty` is
true, `0 <= baseIndent` and `baseIndent + depth v <= 2^30 - 2`.  Outside these bounds it
does not: with `pretty` false and `baseIndent + depth v > INT_MAX` the `int` addition
`currentIndent + 1` overflows; with `pretty` true and `baseIndent + depth v > 2^30 - 2`
one of the products `currentIndent * 2`, `(currentIndent + 1) * 2` overflows; with `pretty`
true and `-2^30 <= baseIndent < 0` the constructor of the indentation string throws
`std::length_error`; and with `pretty` true and `baseIndent < -2^30` the product
`currentIndent * 2` overflows. -/
theorem ToString_total_in_range (v : TJsonNode) (pretty : Bool) (indent : Int)
    (hmin : INT_MIN ≤ indent) (hmax : indent ≤ INT_MAX)
    (hc : pretty = false → indent + (depth v : Int) ≤ INT_MAX)
    (hp : pretty = true → 0 ≤ indent ∧ indent + (depth v : Int) ≤ 1073741822) :
    (∃ text, ToString_checked v pretty indent = some (.ok text)
      ∧ ToString v pretty indent = .ok text)
    ∧ (∀ (w : TJsonNode) (j : Int), INT_MIN ≤ j → j ≤ INT_MAX →
        INT_MAX < j + (depth w : Int) → ToString_checked w false j = none)
    ∧ (∀ (w : TJsonNode) (j : Int), 0 ≤ j → 1073741822 < j + (depth w : Int) →
        ToString_checked w true j = none)
    ∧ (∀ (w : TJsonNode) (j : Int), -1073741824 ≤ j → j < 0 →
        ToString_checked w true j = some (.error .stdLengthError))
    ∧ (∀ (w : TJsonNode) (j : Int), j < -1073741824 → ToString_checked w true j = none) := by
  refine ⟨?_, ?_, ?_, ?_, ?_⟩
  · obtain ⟨h1, h2⟩ := ToString_checked_eq_ToString v pretty indent hmin hmax hc hp
    rw [h2] at h1
    exact ⟨_, h1, h2⟩
  · intro w j h1 h2 h3
    unfold ToString_checked
    rw [ToStringImpl_checked_compact w j h1 h2, if_neg (by omega)]
  · intro w j h1 h2
    unfold ToString_checked
    rw [ToStringImpl_checked_pretty w j h1, if_neg (by omega)]
  · intro w j h1 h2
    exact ToStringImpl_checked_pretty_negative w j h1 h2
  · intro w j h1
    exact ToStringImpl_checked_pretty_underflow w j h1

/-- Witness for C26 (amended): the pretty rendering of `[1]` with base indent 1. -/
theorem ToString_total_in_range_witness :
    INT_MIN ≤ 1 ∧ (1 : Int) ≤ INT_MAX
    ∧ (1 : Int) + (depth (Array [Number (.finite 1)]) : Int) ≤ 1073741822
    ∧ ∃ text, ToString_checked (Array [Number (.finite 1)]) true 1 = some (.ok text)
      ∧ ToString (Array [Number (.finite 1)]) true 1 = .ok text :=
  ⟨by decide, by decide, by decide,
    (ToString_total_in_range (Array [Number (.finite 1)]) true 1 (by decide) (by decide)
      (by decide) (by decide)).1⟩

/-- C27 (as stated, refuted): with `pretty` set and the non-negative base indent
`2^30 - 1`, `ToString` of an empty Array does not return `[]`: the indentation strings are
built before the kind of the node is looked at, and the `int` product
`(currentIndent + 1) * 2` is `2^31`, which overflows. -/
theorem ToString_empty_Array_indent_overflow :
    (0 : Int) ≤ 1073741823 ∧ (1073741823 : Int) ≤ INT_MAX
    ∧ ToString_checked (Array []) true 1073741823 = none
    ∧ ToString_checked (Array []) true 1073741823 ≠ some (.ok ['[', ']']) := by
  refine ⟨by decide, by decide, by decide, by decide⟩

/-- C27 (amended): for every non-negative `int` base indent when `pretty` is false, and for
every base indent from 0 to `2^30 - 2` when `pretty` is true, the rendering of an empty
Array is exactly `[]` and that of an empty Object exactly `{}`; with `pretty` true and a
base indent above `2^30 - 2` the `int` arithmetic on the indentation overflows. -/
theorem ToString_empty_containers_in_range (pretty : Bool) (indent : Int) (h : 0 ≤ indent)
    (hmax : indent ≤ INT_MAX) (hp : pretty = true → indent ≤ 1073741822) :
    (ToString_checked (Array []) pretty indent = some (.ok ['[', ']'])
      ∧ ToString_checked (Object []) pretty indent = some (.ok ['{', '}']))
    ∧ (∀ j : Int, 1073741822 < j →
        ToString_checked (Array []) true j = none
        ∧ ToString_checked (Object []) true j = none) := by
  have hmin : INT_MIN ≤ indent := by simp only [INT_MIN]; omega
  have hdA : ((depth (Array []) : Nat) : Int) = 0 := by simp [depth]
  have hdO : ((depth (Object []) : Nat) : Int) = 0 := by simp [depth]
  refine ⟨⟨?_, ?_⟩, ?_⟩
  · unfold ToString_checked
    cases pretty with
    | false =>
      rw [ToStringImpl_checked_compact _ indent hmin hmax, if_pos (by rw [hdA]; omega)]
      simp [compactText, compactElements]
    | true =>
      rw [ToStringImpl_checked_pretty _ indent h, if_pos (by rw [hdA]; have := hp rfl; omega)]
      simp [prettyText]
  · unfold ToString_checked
    cases pretty with
    | false =>
      rw [ToStringImpl_checked_compact _ indent hmin hmax, if_pos (by rw [hdO]; omega)]
      simp [compactText, compactMembers]
    | true =>
      rw [ToStringImpl_checked_pretty _ indent h, if_pos (by rw [hdO]; have := hp rfl; omega)]
      simp [prettyText]
  · intro j hj
    exact ⟨ToStringImpl_checked_pretty_overflow _ j hj,
      ToStringImpl_checked_pretty_overflow _ j hj⟩

/-- Witness for C27 (amended): pretty mode with base indent 3. -/
theorem ToString_empty_containers_in_range_witness :
    (0 : Int) ≤ 3 ∧ (3 : Int) ≤ INT_MAX ∧ (3 : Int) ≤ 1073741822
    ∧ ToString_checked (Array []) true 3 = some (.ok ['[', ']'])
    ∧ ToString_checked (Object []) true 3 = some (.ok ['{', '}']) :=
  ⟨by decide, by decide, by decide,
    (ToString_empty_containers_in_range true 3 (by decide) (by decide) (by decide)).1⟩

end TJsonNode

end NJson

/-! # Theorems about NCommon::GetOpts -/

namespace NCommon
namespace GetOpts

theorem ValidateArguments_ok_iff (self : GetOpts) :
    ValidateArguments self = .ok () ↔
      (self.HasArgumentsConstraints_ = false
        ∨ ((∀ lo, self.ArgsMinCount_ = some lo → lo ≤ self.Positional_.length)
          ∧ ∀ hi, self.ArgsMaxCount_ = some hi → self.Positional_.length ≤ hi)) := by
  obtain ⟨pos, subs, lo, hi, has⟩ := self
  cases has with
  | false => simp [ValidateArguments]
  | true =>
    cases lo <;> cases hi <;>
      simp only [ValidateArguments, Bool.not_true, Bool.false_eq_true, if_false,
        Option.isSome_none, Option.isSome_some, Bool.false_and, Bool.true_and,
        Option.getD_some, Option.getD_none, decide_eq_true_eq, Bool.true_eq_false, false_or,
        Option.some.injEq, forall_eq', reduceCtorEq, false_implies, implies_true, true_and,
        and_true, gt_iff_lt] <;>
      split_ifs <;>
      simp only [reduceCtorEq, false_iff, true_iff, not_and, not_le] <;>
      omega

theorem ValidateNoArgumentsAndSubcommands_cases (self : GetOpts) :
    (ValidateNoArgumentsAndSubcommands self = .ok ()
      ∧ (self.Subcommands_ = [] ∨ self.HasArgumentsConstraints_ = false))
    ∨ (ValidateNoArgumentsAndSubcommands self = .error .subcommandsAndConstraints
      ∧ self.Subcommands_ ≠ [] ∧ self.HasArgumentsConstraints_ = true) := by
  obtain ⟨pos, subs, lo, hi, has⟩ := self
  cases subs with
  | nil => left; simp [ValidateNoArgumentsAndSubcommands, ASSERT]
  | cons s subs =>
    cases has with
    | false => left; simp [ValidateNoArgumentsAndSubcommands, ASSERT]
    | true => right; simp [ValidateNoArgumentsAndSubcommands, ASSERT]

/-- C39: validation of the positional arguments.  With `n` the number of collected
positional arguments: when no constraint has been set (the state behind the constructor,
whatever arguments are collected; the flag `HasArgumentsConstraints_` is false)
`ValidateArguments` passes; when constraints have been set it passes exactly when
`min <= n` (if a minimum is set) and `n <= max` (if a maximum is set); each setter either
fails because subcommands exist and constraints have been set before, or sets its bound
and the flag; `SetArgumentsRange(min, max)` fails when `min > max`; and behind a call
`SetArgumentsCount(c)` that returns, validation passes exactly when `n = c`. -/
theorem ValidateArguments_constraints (self : GetOpts) (c lo hi : Nat) :
    (∀ args : List (List Char), ValidateArguments (args.foldl ProcessPositional default) = .ok ())
    ∧ (self.HasArgumentsConstraints_ = false → ValidateArguments self = .ok ())
    ∧ (self.HasArgumentsConstraints_ = true →
        (ValidateArguments self = .ok () ↔
          (∀ m, self.ArgsMinCount_ = some m → m ≤ self.Positional_.length)
          ∧ ∀ m, self.ArgsMaxCount_ = some m → self.Positional_.length ≤ m))
    ∧ ((SetArgumentsMinCount self lo = .error .subcommandsAndConstraints
          ∧ self.Subcommands_ ≠ [] ∧ self.HasArgumentsConstraints_ = true)
        ∨ SetArgumentsMinCount self lo
          = .ok { self with ArgsMinCount_ := some lo, HasArgumentsConstraints_ := true })
    ∧ ((SetArgumentsMaxCount self hi = .error .subcommandsAndConstraints
          ∧ self.Subcommands_ ≠ [] ∧ self.HasArgumentsConstraints_ = true)
        ∨ SetArgumentsMaxCount self hi
          = .ok { self with ArgsMaxCount_ := some hi, HasArgumentsConstraints_ := true })
    ∧ ((∃ e, SetArgumentsRange self lo hi = .error e
          ∧ (hi < lo ∨ (self.Subcommands_ ≠ [] ∧ self.HasArgumentsConstraints_ = true)))
        ∨ (lo ≤ hi ∧ SetArgumentsRange self lo hi
          = .ok { self with
              ArgsMinCount_ := some lo, ArgsMaxCount_ := some hi,
              HasArgumentsConstraints_ := true }))
    ∧ (hi < lo → ∃ e, SetArgumentsRange self lo hi = .error e)
    ∧ ((SetArgumentsCount self c = .error .subcommandsAndConstraints
          ∧ self.Subcommands_ ≠ [] ∧ self.HasArgumentsConstraints_ = true)
        ∨ ∃ self1, SetArgumentsCount self c = .ok self1
          ∧ ∀ args : List (List Char),
            (ValidateArguments (args.foldl ProcessPositional self1) = .ok ()
              ↔ (args.foldl ProcessPositional self1).Positional_.length = c)) := by
  have hfold : ∀ (args : List (List Char)) (s : GetOpts),
      (args.foldl ProcessPositional s).ArgsMinCount_ = s.ArgsMinCount_
      ∧ (args.foldl ProcessPositional s).ArgsMaxCount_ = s.ArgsMaxCount_
      ∧ (args.foldl ProcessPositional s).HasArgumentsConstraints_
          = s.HasArgumentsConstraints_ := by
    intro args
    induction args with
    | nil => intro s; exact ⟨rfl, rfl, rfl⟩
    | cons a args ih =>
      intro s
      rw [List.foldl_cons]
      exact ih (ProcessPositional s a)
  refine ⟨?_, ?_, ?_, ?_, ?_, ?_, ?_, ?_⟩
  · intro args
    rw [ValidateArguments_ok_iff]
    left
    rw [(hfold args default).2.2]
    rfl
  · intro h
    rw [ValidateArguments_ok_iff]
    exact Or.inl h
  · intro h
    rw [ValidateArguments_ok_iff, h]
    simp
  · rcases ValidateNoArgumentsAndSubcommands_cases self with ⟨h, _⟩ | ⟨h, h1, h2⟩
    · right
      simp only [SetArgumentsMinCount, h]
    · left
      refine ⟨?_, h1, h2⟩
      simp only [SetArgumentsMinCount, h]
  · rcases ValidateNoArgumentsAndSubcommands_cases self with ⟨h, _⟩ | ⟨h, h1, h2⟩
    · right
      simp only [SetArgumentsMaxCount, h]
    · left
      refine ⟨?_, h1, h2⟩
      simp only [SetArgumentsMaxCount, h]
  · rcases ValidateNoArgumentsAndSubcommands_cases self with ⟨h, _⟩ | ⟨h, h1, h2⟩
    · by_cases hle : lo ≤ hi
      · right
        refine ⟨hle, ?_⟩
        simp only [SetArgumentsRange, h, ASSERT, hle, decide_True, if_true]
      · left
        refine ⟨.minAboveMax lo hi, ?_, Or.inl (by omega)⟩
        simp only [SetArgumentsRange, h, ASSERT, hle, decide_False]
        rfl
    · left
      refine ⟨.subcommandsAndConstraints, ?_, Or.inr ⟨h1, h2⟩⟩
      simp only [SetArgumentsRange, h]
  · intro hlt
    rcases ValidateNoArgumentsAndSubcommands_cases self with ⟨h, _⟩ | ⟨h, _, _⟩
    · refine ⟨.minAboveMax lo hi, ?_⟩
      have hle : ¬ lo ≤ hi := by omega
      simp only [SetArgumentsRange, h, ASSERT, hle, decide_False]
      rfl
    · exact ⟨.subcommandsAndConstraints, by simp only [SetArgumentsRange, h]⟩
  · rcases ValidateNoArgumentsAndSubcommands_cases self with ⟨h, _⟩ | ⟨h, h1, h2⟩
    · right
      refine ⟨{ self with
          ArgsMinCount_ := some c, ArgsMaxCount_ := some c, HasArgumentsConstraints_ := true },
        by simp only [SetArgumentsCount, h], ?_⟩
      intro args
      obtain ⟨e1, e2, e3⟩ := hfold args
        { self with
          ArgsMinCount_ := some c, ArgsMaxCount_ := some c, HasArgumentsConstraints_ := true }
      rw [ValidateArguments_ok_iff, e1, e2, e3]
      simp only [Bool.true_eq_false, Option.some.injEq, forall_eq', false_or]
      omega
    · left
      refine ⟨?_, h1, h2⟩
      simp only [SetArgumentsCount, h]

end GetOpts
end NCommon
